import Mathlib

/-!
The chunk cache, the chunk store and the memory index of metrictank.

A shallow embedding of

* `mdata/cache/ccache_metric.go` (the per-metric chunk cache `CCacheMetric`),
* `metric_tank/store_cassandra.go` (the read path `cassandraStore.Search` and the
  retry loop of the write worker `processWriteQueue`),
* `idx/memory/memory.go` (the in-memory metric index `MemoryIdx`),

followed by the properties established about them.

Conventions.  Go `uint32` values are natural numbers below `u32 = 2^32`; every
arithmetic operation that can wrap is written with an explicit `% u32`.  A Go
`map` is an association list read through `AMap.get?` (first binding wins) and
written through `AMap.set`, `AMap.modify`, `AMap.erase`.  A nil dereference of
the Go code is the fault `Fault.nilDeref`; a loop that is cut off by the fuel of
the model is the fault `Fault.fuel`.
-/

set_option autoImplicit false

deriving instance DecidableEq for Except

/-! ## Go maps as association lists -/

/-- A Go map with keys `κ` and values `β`. -/
abbrev AMap (κ : Type) (β : Type) := List (κ × β)

namespace AMap

variable {κ β : Type} [DecidableEq κ]

/-- Map lookup `m[k]`; `none` is Go's "not present". -/
def get? : AMap κ β → κ → Option β
  | [], _ => none
  | (k', v) :: rest, k => if k' = k then some v else get? rest k

/-- The comma-ok test `_, ok := m[k]`. -/
def has (m : AMap κ β) (k : κ) : Bool := (get? m k).isSome

/-- Removal `delete(m, k)`. -/
def erase : AMap κ β → κ → AMap κ β
  | [], _ => []
  | (k', v) :: rest, k => if k' = k then erase rest k else (k', v) :: erase rest k

/-- Assignment `m[k] = v`. -/
def set (m : AMap κ β) (k : κ) (v : β) : AMap κ β := (k, v) :: erase m k

/-- In-place update through the pointer stored at `m[k]` (no effect when absent). -/
def modify : AMap κ β → κ → (β → β) → AMap κ β
  | [], _, _ => []
  | (k', v) :: rest, k, f =>
    if k' = k then (k', f v) :: modify rest k f else (k', v) :: modify rest k f

/-- The key list of the map, one entry per binding. -/
def keys (m : AMap κ β) : List κ := m.map Prod.fst

end AMap

/-! ## The chunk cache (`mdata/cache/ccache_metric.go`) -/

namespace Cache

/-- The modulus of `uint32` arithmetic. -/
def u32 : Nat := 4294967296

/-- What a run of the Go code can end in besides a result. -/
inductive Fault where
  | nilDeref
  | fuel
  deriving DecidableEq, Repr

/-- Modelled from the spec: `chunk.IterGen` (package `mdata/chunk`, not among the
sources) is a handle that carries `T0` and `chunk_span`; `Ts()` returns `T0` and
`Span()` returns the span or zero when it is unknown. -/
structure IterGen where
  Ts : Nat
  Span : Nat
  deriving DecidableEq, Repr

/-- Modelled from the spec: `CCacheChunk` is `{ ts, prev, next, payload: IterGen }`;
the field names are those `ccache_metric.go` uses. -/
structure CCacheChunk where
  Ts : Nat
  Prev : Nat
  Next : Nat
  Itgen : IterGen
  deriving DecidableEq, Repr

/-- Modelled from the spec: the query result envelope, with the fields that
`ccache_metric.go` reads and writes (`Complete`, `Start`, `From`, `End`, `Until`). -/
structure CCSearchResult where
  Complete : Bool
  Start : List IterGen
  From : Nat
  End : List IterGen
  Until : Nat
  deriving DecidableEq, Repr

/-- The struct `CCacheMetric` (the lock is not modelled). -/
structure CCacheMetric where
  newest : Nat
  oldest : Nat
  chunks : AMap Nat CCacheChunk
  deriving DecidableEq, Repr

/-- `NewCCacheMetric`: an empty map, `newest` and `oldest` zero-valued. -/
def NewCCacheMetric : CCacheMetric := { newest := 0, oldest := 0, chunks := [] }

/-- The body of `endTs` once `chunk := mc.chunks[ts]` has been read. -/
def chunkEnd (chunk : CCacheChunk) : Nat :=
  if chunk.Itgen.Span > 0 then (chunk.Ts + chunk.Itgen.Span) % u32
  else if chunk.Next = 0 then
    if chunk.Prev = 0 then chunk.Ts
    else (chunk.Ts + (chunk.Ts + u32 - chunk.Prev) % u32) % u32
  else chunk.Next

/-- `CCacheMetric.endTs`; `none` when `mc.chunks[ts]` is nil. -/
def endTs (mc : CCacheMetric) (ts : Nat) : Option Nat :=
  (AMap.get? mc.chunks ts).map chunkEnd

/-- `CCacheMetric.Add`. -/
def Add (mc : CCacheMetric) (prev : Nat) (itergen : IterGen) : CCacheMetric :=
  let ts := itergen.Ts
  if AMap.has mc.chunks ts then mc
  else
    let fresh : CCacheChunk := { Ts := ts, Prev := 0, Next := 0, Itgen := itergen }
    let c1 := AMap.set mc.chunks ts fresh
    -- `endTs := mc.endTs(ts)` reads the chunk that was just stored
    let endTs := chunkEnd fresh
    let c2 :=
      if AMap.has c1 prev then
        AMap.modify (AMap.modify c1 prev (fun c => { c with Next := ts })) ts
          (fun c => { c with Prev := prev })
      else c1
    let c3 :=
      if endTs > ts then
        if AMap.has c2 endTs then
          AMap.modify (AMap.modify c2 endTs (fun c => { c with Prev := ts })) ts
            (fun c => { c with Next := endTs })
        else c2
      else c2
    if ts > mc.newest then { newest := ts, oldest := mc.oldest, chunks := c3 }
    else if ts < mc.oldest then { newest := mc.newest, oldest := ts, chunks := c3 }
    else { newest := mc.newest, oldest := mc.oldest, chunks := c3 }

/-- `CCacheMetric.Init`. -/
def Init (mc : CCacheMetric) (prev : Nat) (itergen : IterGen) : CCacheMetric :=
  let mc1 := Add mc prev itergen
  { newest := itergen.Ts, oldest := itergen.Ts, chunks := mc1.chunks }

/-- `CCacheMetric.Del`: the new state and the returned `len(mc.chunks)`. -/
def Del (mc : CCacheMetric) (ts : Nat) : CCacheMetric × Nat :=
  match AMap.get? mc.chunks ts with
  | none => (mc, mc.chunks.length)
  | some c =>
    let prev := c.Prev
    let next := c.Next
    let c1 :=
      if prev ≠ 0 ∧ AMap.has mc.chunks prev = true then
        AMap.modify mc.chunks prev (fun d => { d with Next := 0 })
      else mc.chunks
    let c2 :=
      if next ≠ 0 ∧ AMap.has c1 next = true then
        AMap.modify c1 next (fun d => { d with Prev := 0 })
      else c1
    let c3 := AMap.erase c2 ts
    ({ mc with chunks := c3 }, c3.length)

/-- `CCacheMetric.sortedTs`: the keys of the map in ascending order. -/
def sortedTs (mc : CCacheMetric) : List Nat :=
  (AMap.keys mc.chunks).insertionSort (fun a b => a ≤ b)

/-- `CCacheMetric.seekAsc`, by recursion on the keys still to visit. -/
def seekAsc (mc : CCacheMetric) (ts : Nat) : List Nat → Except Fault (Nat × Bool)
  | [] => .ok (0, false)
  | k :: rest =>
    if k ≤ ts then
      match endTs mc k with
      | none => .error .nilDeref
      | some e => if e > ts then .ok (k, true) else seekAsc mc ts rest
    else .ok (0, false)

/-- The loop of `seekDesc`, over the keys in the order it visits them (last first). -/
def seekDescLoop (mc : CCacheMetric) (ts : Nat) : List Nat → Except Fault (Nat × Bool)
  | [] => .ok (0, false)
  | k :: rest =>
    match endTs mc k with
    | none => .error .nilDeref
    | some e =>
      if e > ts then
        if k ≤ ts then .ok (k, true) else seekDescLoop mc ts rest
      else .ok (0, false)

/-- `CCacheMetric.seekDesc`. -/
def seekDesc (mc : CCacheMetric) (ts : Nat) (keys : List Nat) : Except Fault (Nat × Bool) :=
  seekDescLoop mc ts keys.reverse

/-- The `for ; ts != 0; ts = mc.chunks[ts].Next` loop of `searchForward`. -/
def forwardLoop (mc : CCacheMetric) (until_ : Nat) :
    Nat → Nat → CCSearchResult → Except Fault CCSearchResult
  | 0, ts, res => if ts = 0 then .ok res else .error .fuel
  | fuel + 1, ts, res =>
    if ts = 0 then .ok res
    else
      match AMap.get? mc.chunks ts with
      | none => .error .nilDeref
      | some c =>
        let res1 := { res with Start := res.Start ++ [c.Itgen], From := chunkEnd c }
        if chunkEnd c ≥ until_ then .ok { res1 with Complete := true }
        else forwardLoop mc until_ fuel c.Next res1

/-- `CCacheMetric.searchForward`. -/
def searchForward (fuel : Nat) (mc : CCacheMetric) (from_ until_ : Nat) (keys : List Nat)
    (res : CCSearchResult) : Except Fault CCSearchResult :=
  match seekAsc mc from_ keys with
  | .error f => .error f
  | .ok (ts, ok) => if ok then forwardLoop mc until_ fuel ts res else .ok res

/-- The `for ; ts != 0; ts = mc.chunks[ts].Prev` loop of `searchBackward`. -/
def backwardLoop (mc : CCacheMetric) (from_ : Nat) :
    Nat → Nat → CCSearchResult → Except Fault CCSearchResult
  | 0, ts, res => if ts = 0 then .ok res else .error .fuel
  | fuel + 1, ts, res =>
    if ts = 0 then .ok res
    else
      match AMap.get? mc.chunks ts with
      | none => .error .nilDeref
      | some c =>
        let res1 := { res with End := res.End ++ [c.Itgen], Until := c.Ts }
        if c.Ts ≤ from_ then .ok res1
        else backwardLoop mc from_ fuel c.Prev res1

/-- `CCacheMetric.searchBackward`. -/
def searchBackward (fuel : Nat) (mc : CCacheMetric) (from_ until_ : Nat) (keys : List Nat)
    (res : CCSearchResult) : Except Fault CCSearchResult :=
  match seekDesc mc until_ keys with
  | .error f => .error f
  | .ok (ts, ok) => if ok then backwardLoop mc from_ fuel ts res else .ok res

/-- `CCacheMetric.Search`; `res` is the result struct the caller passes in, `fuel`
bounds the number of iterations of each of the two pointer walks. -/
def Search (fuel : Nat) (mc : CCacheMetric) (res : CCSearchResult) (from_ until_ : Nat) :
    Except Fault CCSearchResult :=
  if mc.chunks.length < 1 then .ok res
  else
    let keys := sortedTs mc
    match searchForward fuel mc from_ ((until_ + u32 - 1) % u32) keys res with
    | .error f => .error f
    | .ok res1 =>
      if !res1.Complete then searchBackward fuel mc from_ ((until_ + u32 - 1) % u32) keys res1
      else .ok res1

/-- The calls that change a `CCacheMetric`. -/
inductive Op where
  | init (prev : Nat) (itergen : IterGen)
  | add (prev : Nat) (itergen : IterGen)
  | del (ts : Nat)
  deriving DecidableEq, Repr

/-- One call applied to a cache. -/
def step (mc : CCacheMetric) : Op → CCacheMetric
  | .init prev g => Init mc prev g
  | .add prev g => Add mc prev g
  | .del ts => (Del mc ts).1

/-- A sequence of calls applied, in order, to the cache `mc`. -/
def runFrom (mc : CCacheMetric) (ops : List Op) : CCacheMetric := ops.foldl step mc

/-- A sequence of calls applied to the cache returned by `NewCCacheMetric`. -/
def run (ops : List Op) : CCacheMetric := runFrom NewCCacheMetric ops

/-- The arguments of a call are `uint32` values. -/
def Op.valid : Op → Prop
  | .init prev g => prev < u32 ∧ g.Ts < u32 ∧ g.Span < u32
  | .add prev g => prev < u32 ∧ g.Ts < u32 ∧ g.Span < u32
  | .del ts => ts < u32

end Cache

/-! ## The chunk cache: predicates used in the statements -/

namespace Cache

/-- The chunk stored under key `k` exists and satisfies `P`. -/
def atKey (mc : CCacheMetric) (k : Nat) (P : CCacheChunk → Prop) : Prop :=
  ∃ d, AMap.get? mc.chunks k = some d ∧ P d

instance atKeyDecidable (mc : CCacheMetric) (k : Nat) (P : CCacheChunk → Prop)
    [DecidablePred P] : Decidable (atKey mc k P) :=
  match h : AMap.get? mc.chunks k with
  | some d =>
    if hp : P d then isTrue ⟨d, h, hp⟩
    else isFalse (fun ⟨d', h1, h2⟩ => hp (by rw [h] at h1; cases h1; exact h2))
  | none => isFalse (fun ⟨d', h1, _⟩ => by rw [h] at h1; cases h1)

/-- The chunk stored under key `k`, if there is one, satisfies `P`. -/
def allAt (mc : CCacheMetric) (k : Nat) (P : CCacheChunk → Prop) : Prop :=
  ∀ d, AMap.get? mc.chunks k = some d → P d

instance allAtDecidable (mc : CCacheMetric) (k : Nat) (P : CCacheChunk → Prop)
    [DecidablePred P] : Decidable (allAt mc k P) :=
  match h : AMap.get? mc.chunks k with
  | some d =>
    if hp : P d then isTrue (fun d' h1 => by rw [h] at h1; cases h1; exact hp)
    else isFalse (fun hall => hp (hall d h))
  | none => isTrue (fun d' h1 => by rw [h] at h1; cases h1)

/-- The links of the chunk `c` stored under `k` join adjacent chunks: `c` is filed
under its own `Ts`, a non-zero `Next` is the end of `c` and the key of a cached
chunk that ends after it starts, and a non-zero `Prev` is the key of an earlier
cached chunk that ends where `c` starts. -/
def linkOk (mc : CCacheMetric) (k : Nat) (c : CCacheChunk) : Prop :=
  c.Ts = k ∧ c.Itgen.Ts = k
    ∧ (c.Next ≠ 0 → c.Next = chunkEnd c ∧ atKey mc c.Next (fun d => c.Next < chunkEnd d))
    ∧ (c.Prev ≠ 0 → c.Prev < k ∧ atKey mc c.Prev (fun p => chunkEnd p = k))

instance linkOkDecidable (mc : CCacheMetric) (k : Nat) (c : CCacheChunk) :
    Decidable (linkOk mc k c) := by
  unfold linkOk; infer_instance

/-- Every link of the cache joins adjacent chunks. -/
def Linked (mc : CCacheMetric) : Prop := ∀ e ∈ mc.chunks, linkOk mc e.1 e.2

instance linkedDecidable (mc : CCacheMetric) : Decidable (Linked mc) := by
  unfold Linked; infer_instance

/-- The chunk behind the handle `g` overlaps the query `[from_, until_)`: it starts
before `until_` and `endTs` places its end after `from_`. -/
def InRange (mc : CCacheMetric) (from_ until_ : Nat) (g : IterGen) : Prop :=
  g.Ts < until_ ∧ ∃ e, endTs mc g.Ts = some e ∧ from_ < e

/-- Link symmetry of the chunk `c` stored under `k`. -/
def symmAt (mc : CCacheMetric) (k : Nat) (c : CCacheChunk) : Prop :=
  c.Ts = k
    ∧ (c.Next ≠ 0 → atKey mc c.Next (fun d => d.Prev = c.Ts))
    ∧ (c.Prev ≠ 0 → atKey mc c.Prev (fun d => d.Next = c.Ts))

instance symmAtDecidable (mc : CCacheMetric) (k : Nat) (c : CCacheChunk) :
    Decidable (symmAt mc k c) := by
  unfold symmAt; infer_instance

/-- Link symmetry: every cached chunk with a non-zero `Next` is the `Prev` of the
cached chunk `chunks[Next]`, and the same with `Prev` and `Next` exchanged. -/
def Symmetric (mc : CCacheMetric) : Prop :=
  ∀ k c, AMap.get? mc.chunks k = some c → symmAt mc k c

/-- The call `Add(prev, g)` on `mc` overwrites no existing link and uses no
sentinel value as a key: the new `T0` is not 0 and not `prev`, the chunk at `prev`
(if cached) has no `Next` yet, and the chunk at the end of the new chunk (if cached)
has no `Prev` yet. -/
def freshLinks (mc : CCacheMetric) (prev : Nat) (g : IterGen) : Prop :=
  g.Ts ≠ 0 ∧ prev ≠ g.Ts
    ∧ allAt mc prev (fun p => p.Next = 0)
    ∧ (g.Ts < chunkEnd ⟨g.Ts, 0, 0, g⟩ →
        allAt mc (chunkEnd ⟨g.Ts, 0, 0, g⟩) (fun e => e.Prev = 0))

instance freshLinksDecidable (mc : CCacheMetric) (prev : Nat) (g : IterGen) :
    Decidable (freshLinks mc prev g) := by
  unfold freshLinks; infer_instance

/-- Every `Init`/`Add` of a chunk that is not cached yet, in the sequence `ops`
applied to `mc`, satisfies `freshLinks` in the state it is applied to. -/
def disciplined : CCacheMetric → List Op → Prop
  | _, [] => True
  | mc, .init prev g :: rest =>
    (AMap.has mc.chunks g.Ts = false → freshLinks mc prev g) ∧
      disciplined (Init mc prev g) rest
  | mc, .add prev g :: rest =>
    (AMap.has mc.chunks g.Ts = false → freshLinks mc prev g) ∧
      disciplined (Add mc prev g) rest
  | mc, .del ts :: rest => disciplined (Del mc ts).1 rest

instance disciplinedDecidable : ∀ (mc : CCacheMetric) (ops : List Op),
    Decidable (disciplined mc ops)
  | _, [] => isTrue trivial
  | mc, .init prev g :: rest =>
    @instDecidableAnd _ _ _ (disciplinedDecidable (Init mc prev g) rest)
  | mc, .add prev g :: rest =>
    @instDecidableAnd _ _ _ (disciplinedDecidable (Add mc prev g) rest)
  | mc, .del ts :: rest => disciplinedDecidable (Del mc ts).1 rest

/-- The calls that fill a cache with `n` consecutive chunks of span `s` starting at
`t`: `Init(p0, t)`, then `Add(t, t+s)`, `Add(t+s, t+2s)`, ... -/
def consecutiveOps (t s p0 : Nat) : Nat → List Op
  | 0 => []
  | 1 => [.init p0 ⟨t, s⟩]
  | n + 2 => consecutiveOps t s p0 (n + 1) ++ [.add (t + n * s) ⟨t + (n + 1) * s, s⟩]

/-- The handles of `n` consecutive chunks of span `s` starting at `t`. -/
def consecutiveChunks (t s n : Nat) : List IterGen :=
  (List.range n).map (fun i => ⟨t + i * s, s⟩)

end Cache
/-! ## The chunk store read path (`metric_tank/store_cassandra.go`) -/

namespace Store

/-- The modulus of `uint32` arithmetic. -/
def u32 : Nat := 4294967296

/-- The constant `month_sec`. -/
def month_sec : Nat := 60 * 60 * 24 * 28

/-- A row key `fmt.Sprintf("%s_%d", key, n)`, kept as the pair it is printed from:
the decimal number has no underscore, so the printed string determines both parts. -/
structure RowKey where
  key : String
  month : Nat
  deriving DecidableEq, Repr

/-- One row of the table `metric`: `(key, ts, data)`. -/
structure Row where
  key : RowKey
  ts : Nat
  data : List Nat
  deriving DecidableEq, Repr

/-- The table `metric`; `(key, ts)` is its primary key. -/
abbrev Table := List Row

/-- The CQL statements that `Search` sends, with their parameters:
`lePrev` is `... WHERE key=? AND ts <= ? Limit 1`,
`between` is `... WHERE key = ? AND ts > ? AND ts < ? ORDER BY ts ASC`,
`geAsc` is `... WHERE key = ? AND ts >= ? ORDER BY ts ASC`,
`leAsc` is `... WHERE key = ? AND ts <= ? ORDER BY ts ASC`,
`allAsc` is `... WHERE key = ? ORDER BY ts ASC`. -/
inductive Query where
  | lePrev (row_key : RowKey) (ts : Nat)
  | between (row_key : RowKey) (lo hi : Nat)
  | geAsc (row_key : RowKey) (lo : Nat)
  | leAsc (row_key : RowKey) (hi : Nat)
  | allAsc (row_key : RowKey)
  deriving DecidableEq, Repr

/-- A `*gocql.Iter` as `Search` uses it: the `(ts, data)` pairs that `Scan` yields,
in order, and whether `Close` then reports an error. -/
structure RowIter where
  rows : List (Nat × List Nat)
  closeErr : Bool
  deriving DecidableEq, Repr

/-- Modelled from the spec: `ChunkReadRequest` (declared outside the sources) is what
`Search` puts on the read queue, `{month, sortKey, q, p, out}`; the statement `q`
and its parameters `p` are one `Query`, the channel `out` is not modelled. -/
structure ChunkReadRequest where
  month : Nat
  sortKey : Nat
  q : Query
  deriving DecidableEq, Repr

/-- The struct `outcome`. -/
structure outcome where
  month : Nat
  sortKey : Nat
  i : RowIter
  deriving DecidableEq, Repr

/-- Modelled from the spec: an element of the result of `Search`, built by
`NewIter(iter, "cassandra month=%d t0=%d", outcome.month, ts)` (declared outside the
sources); `data` are the bytes `b[1:]` that the decoder was given. -/
structure Iter where
  data : List Nat
  month : Nat
  t0 : Nat
  deriving DecidableEq, Repr

/-- The errors `Search` returns. -/
inductive SearchErr where
  | startAfterEnd
  | tooSmall
  | badFormat
  | decode
  deriving DecidableEq, Repr

/-- What `Search` depends on and the sources do not contain: the session that runs a
statement, the value of the constant `FormatStandardGoTsz`, whether
`tsz.NewIterator` accepts a byte string, and the order in which the outcomes of the
sub-queries arrive on the results channel. -/
structure Backend where
  session : Query → RowIter
  FormatStandardGoTsz : Nat
  newIterator : List Nat → Bool
  arrival : List outcome → List outcome

/-- `insertChunk` on an abstract table (a session that is not nil and does not
fail): an upsert of the row `(row_key, t0, data)`; the TTL is not modelled. -/
def insertChunk (tbl : Table) (key : String) (t0 : Nat) (data : List Nat) : Table :=
  let row_key : RowKey := ⟨key, t0 / month_sec⟩
  ⟨row_key, t0, data⟩ :: tbl.filter (fun r => decide (¬ (r.key = row_key ∧ r.ts = t0)))

/-- The rows of one partition that satisfy `p`, by ascending `ts`. -/
def selectAsc (tbl : Table) (row_key : RowKey) (p : Nat → Bool) : List (Nat × List Nat) :=
  ((tbl.filter (fun r => decide (r.key = row_key) && p r.ts)).insertionSort
    (fun a b => a.ts ≤ b.ts)).map (fun r => (r.ts, r.data))

/-- Modelled from the spec: the table has `clustering: ts DESC`, so a statement
without `ORDER BY` returns the greatest `ts` first and `Limit 1` keeps that row; the
other statements return their rows by ascending `ts`.  No statement fails. -/
def tableSession (tbl : Table) : Query → RowIter
  | .lePrev k ts => ⟨((selectAsc tbl k (fun t => decide (t ≤ ts))).reverse).take 1, false⟩
  | .between k lo hi => ⟨selectAsc tbl k (fun t => decide (lo < t) && decide (t < hi)), false⟩
  | .geAsc k lo => ⟨selectAsc tbl k (fun t => decide (lo ≤ t)), false⟩
  | .leAsc k hi => ⟨selectAsc tbl k (fun t => decide (t ≤ hi)), false⟩
  | .allAsc k => ⟨selectAsc tbl k (fun _ => true), false⟩

/-- `processReadQueue`, for one request. -/
def processReadQueue (be : Backend) (crr : ChunkReadRequest) : outcome :=
  ⟨crr.month, crr.sortKey, be.session crr.q⟩

/-- The body of the loop `for month := start_month; ...` of `Search`: the request
queued for the row of `month`. -/
def monthRequest (key : String) (start end_ start_month end_month month : Nat) :
    ChunkReadRequest :=
  let row_key : RowKey := ⟨key, month / month_sec⟩
  if month = start_month then ⟨month, (month + 1) % u32, .geAsc row_key ((start + 1) % u32)⟩
  else if month = end_month then ⟨month, month, .leAsc row_key ((end_ + u32 - 1) % u32)⟩
  else ⟨month, month, .allAsc row_key⟩

/-- The loop `for month := start_month; month <= end_month; month += month_sec` of
`Search`: the requests it queues, or `none` when the fuel runs out. -/
def monthLoop (key : String) (start end_ start_month end_month : Nat) :
    Nat → Nat → Option (List ChunkReadRequest)
  | 0, month => if month ≤ end_month then none else some []
  | fuel + 1, month =>
    if month ≤ end_month then
      (monthLoop key start end_ start_month end_month fuel ((month + month_sec) % u32)).map
        (fun rest => monthRequest key start end_ start_month end_month month :: rest)
    else some []

/-- The requests `Search` queues, in the order of the calls of `query`. -/
def queries (fuel : Nat) (key : String) (start end_ : Nat) : Option (List ChunkReadRequest) :=
  let start_month := start - (start % month_sec)
  let end_month := (end_ + u32 - 1) % u32 - (((end_ + u32 - 1) % u32) % month_sec)
  let first : ChunkReadRequest :=
    ⟨start_month, start_month, .lePrev ⟨key, start_month / month_sec⟩ start⟩
  if start_month = end_month then
    some [first,
      ⟨start_month, (start_month + 1) % u32, .between ⟨key, start_month / month_sec⟩ start end_⟩]
  else
    (monthLoop key start end_ start_month end_month fuel start_month).map
      (fun rest => first :: rest)

/-- The loop `for outcome.i.Scan(&ts, &b)` over the rows of one outcome: the list
`iters` so far is extended, or returned as it is together with an error. -/
def scanRows (be : Backend) (month : Nat) :
    List (Nat × List Nat) → List Iter → List Iter × Option SearchErr
  | [], iters => (iters, none)
  | (ts, b) :: rest, iters =>
    if b.length < 2 then (iters, some .tooSmall)
    else if b.headD 0 ≠ be.FormatStandardGoTsz then (iters, some .badFormat)
    else if be.newIterator b.tail = false then (iters, some .decode)
    else scanRows be month rest (iters ++ [⟨b.tail, month, ts⟩])

/-- The loop `for _, outcome := range outcomes` of `Search`; an error of `Close` is
logged and not returned. -/
def gather (be : Backend) : List outcome → List Iter → List Iter × Option SearchErr
  | [], iters => (iters, none)
  | o :: rest, iters =>
    match scanRows be o.month o.i.rows iters with
    | (iters1, some e) => (iters1, some e)
    | (iters1, none) => gather be rest iters1

/-- `sort.Sort(asc(outcomes))`: the outcomes by ascending `sortKey` (outcomes with
equal keys keep their order of arrival in this model). -/
def sortAsc (outcomes : List outcome) : List outcome :=
  outcomes.insertionSort (fun a b => a.sortKey ≤ b.sortKey)

/-- `cassandraStore.Search`: the pair `(iters, err)` it returns, or `none` when the
month loop runs out of fuel. -/
def Search (be : Backend) (fuel : Nat) (key : String) (start end_ : Nat) :
    Option (List Iter × Option SearchErr) :=
  if start > end_ then some ([], some .startAfterEnd)
  else
    match queries fuel key start end_ with
    | none => none
    | some qs =>
      let outcomes := be.arrival (qs.map (processReadQueue be))
      some (gather be (sortAsc outcomes) [])

/-- The table after a sequence of `insertChunk` calls `(key, t0, data)` on the empty
table. -/
def written (writes : List (String × Nat × List Nat)) : Table :=
  writes.foldl (fun tbl w => insertChunk tbl w.1 w.2.1 w.2.2) []

/-- A backend that reads the table `tbl`, with format tag `tag`, a decoder that
accepts `ok`, and outcomes arriving in the order `arrival`. -/
def tableBackend (tbl : Table) (tag : Nat) (ok : List Nat → Bool)
    (arrival : List outcome → List outcome) : Backend :=
  ⟨tableSession tbl, tag, ok, arrival⟩

end Store
/-! ## The chunk store read path: predicates used in the statements -/

namespace Store

/-- The element of the result of `Search` that stands for the stored row `r`: the
payload without its format byte, the first second of the month of `r.ts`, and
`r.ts`. -/
def iterOf (r : Row) : Iter := ⟨r.data.tail, r.ts - r.ts % month_sec, r.ts⟩

/-- The payload `b` passes the checks of `Search`: at least two bytes, the format
byte `tag`, and a stream that the decoder `ok` accepts. -/
def validPayload (tag : Nat) (ok : List Nat → Bool) (b : List Nat) : Prop :=
  2 ≤ b.length ∧ b.headD 0 = tag ∧ ok b.tail = true

/-- The elements that the rows of one outcome contribute to the result when their
payloads are valid. -/
def itersOf (o : outcome) : List Iter := o.i.rows.map (fun p => ⟨p.2.tail, o.month, p.1⟩)

/-- The list `pre` is what the chunk preceding `start` contributes: nothing when the
row of `start` holds no chunk of `key` with `T0 <= start`, and otherwise the chunk
with the greatest such `T0`. -/
def precedingChunk (tbl : Table) (key : String) (start : Nat) (pre : List Iter) : Prop :=
  (pre = [] ∧ ∀ r ∈ tbl, r.key = ⟨key, start / month_sec⟩ → start < r.ts)
  ∨ (∃ r ∈ tbl, r.key = ⟨key, start / month_sec⟩ ∧ r.ts ≤ start ∧ pre = [iterOf r]
      ∧ ∀ r' ∈ tbl, r'.key = ⟨key, start / month_sec⟩ → r'.ts ≤ start → r'.ts ≤ r.ts)

instance rowTsTotal : IsTotal Row (fun a b => a.ts ≤ b.ts) := ⟨fun a b => Nat.le_total a.ts b.ts⟩

instance rowTsTrans : IsTrans Row (fun a b => a.ts ≤ b.ts) :=
  ⟨fun _ _ _ h1 h2 => Nat.le_trans h1 h2⟩

instance outcomeKeyTotal : IsTotal outcome (fun a b => a.sortKey ≤ b.sortKey) :=
  ⟨fun a b => Nat.le_total a.sortKey b.sortKey⟩

instance outcomeKeyTrans : IsTrans outcome (fun a b => a.sortKey ≤ b.sortKey) :=
  ⟨fun _ _ _ h1 h2 => Nat.le_trans h1 h2⟩

/-- The requests of `Search("m", 4294079999, 4294080001)` in the order of the calls of
`query`: the chunk preceding `start`, the rows of the start and the end month, and
then, the month counter having wrapped around `2^32` twice, the rows of
`1531904 + j * month_sec` and of `644608 + j * month_sec` for `j = 0 .. 1774`. -/
def wrapRequests : List ChunkReadRequest :=
  ⟨4291660800, 4291660800, .lePrev ⟨"m", 4291660800 / month_sec⟩ 4294079999⟩
    :: ((List.range 2).map (fun j =>
          monthRequest "m" 4294079999 4294080001 4291660800 4294080000
            (4291660800 + j * month_sec))
      ++ ((List.range 1775).map (fun j =>
            monthRequest "m" 4294079999 4294080001 4291660800 4294080000
              (1531904 + j * month_sec))
        ++ ((List.range 1775).map (fun j =>
              monthRequest "m" 4294079999 4294080001 4291660800 4294080000
                (644608 + j * month_sec))
          ++ [])))

end Store

namespace Store

/-- The backend `be` with every row iterator reporting an error on `Close`, after
yielding the same rows. -/
def failingClose (be : Backend) : Backend :=
  { be with session := fun q => ⟨(be.session q).rows, true⟩ }

end Store
/-! ## The memory index (`idx/memory/memory.go`) -/

namespace Memory

/-- How a call can end besides returning: a nil pointer dereference (a Go panic), an
error of `regexp.Compile`, the fuel of the model running out, or an index out of
range (a Go panic). -/
inductive Fault where
  | nilDeref
  | regexp
  | fuel
  | indexRange
  deriving DecidableEq, Repr

/-! ### The functions of package `strings` that the index uses -/

/-- The pieces of a character list between the occurrences of `sep`. -/
def splitChars (sep : Char) : List Char → List (List Char)
  | [] => [[]]
  | c :: cs =>
    if c = sep then [] :: splitChars sep cs
    else
      match splitChars sep cs with
      | [] => [[c]]
      | p :: ps => (c :: p) :: ps

/-- `strings.Split(s, sep)` for a one-character separator. -/
def Split (s : String) (sep : Char) : List String :=
  (splitChars sep s.data).map String.mk

/-- `strings.Join(elems, sep)`. -/
def Join : List String → String → String
  | [], _ => ""
  | [a], _ => a
  | a :: b :: rest, sep => a ++ sep ++ Join (b :: rest) sep

/-- `strings.ContainsAny(s, chars)`. -/
def ContainsAny (s chars : String) : Bool :=
  s.data.any (fun c => chars.data.contains c)

/-- `strings.Index(s, c)` for a one-character needle, on the characters of `s`;
`none` stands for `-1`. -/
def indexChar (c : Char) : List Char → Option Nat
  | [] => none
  | x :: xs => if x = c then some 0 else (indexChar c xs).map (fun i => i + 1)

/-- `strings.Replace(s, old, new, -1)` for a one-character `old`. -/
def Replace (s : String) (old : Char) (new : String) : String :=
  String.mk (s.data.flatMap (fun c => if c = old then new.data else [c]))

/-! ### Data -/

/-- The struct `Node`. -/
structure Node where
  Path : String
  Children : List String
  Leaf : Bool
  deriving DecidableEq, Repr

/-- The struct `Tree`. -/
structure Tree where
  Items : AMap String Node
  deriving DecidableEq, Repr

/-- Modelled from the spec: `schema.MetricDefinition` (package `schema.v1`, not among
the sources), with the fields the index reads or writes and the interval that tells
definitions of one path apart. -/
structure MetricDefinition where
  Id : String
  OrgId : Int
  Name : String
  Interval : Int
  LastUpdate : Int
  deriving DecidableEq, Repr

/-- Modelled from the spec: `schema.MetricData` (not among the sources), the sample
that `Add` receives. -/
structure MetricData where
  Id : String
  OrgId : Int
  Name : String
  Interval : Int
  Time : Int
  deriving DecidableEq, Repr

/-- Modelled from the spec: `schema.MetricDefinitionFromMetricData` (not among the
sources) copies the identifying fields and takes `LastUpdate` from the sample's
time. -/
def MetricDefinitionFromMetricData (data : MetricData) : MetricDefinition :=
  { Id := data.Id, OrgId := data.OrgId, Name := data.Name, Interval := data.Interval,
    LastUpdate := data.Time }

/-- The struct `MemoryIdx` (the lock is not modelled). -/
structure MemoryIdx where
  DefById : AMap String MetricDefinition
  Tree : AMap Int Tree
  deriving DecidableEq, Repr

/-- The struct `idx.Node` that `Find` returns. -/
structure IdxNode where
  Path : String
  Leaf : Bool
  Defs : List MetricDefinition
  deriving DecidableEq, Repr

/-- `New`. -/
def New : MemoryIdx := { DefById := [], Tree := [] }

/-! ### `add` -/

/-- What the backward walk of `add` over the prefixes of the path ends in. -/
inductive Walk where
  | found (branch : String) (n : Node) (i : Nat)
  | leaf
  | nothing
  deriving DecidableEq, Repr

/-- The loop `for i := len(nodes) - 1; i > 0; i--` of `add`, entered with `i`. -/
def walkBack (items : AMap String Node) (nodes : List String) : Nat → Walk
  | 0 => .nothing
  | i + 1 =>
    let branch := Join (nodes.take (i + 1)) "."
    match AMap.get? items branch with
    | some n => if n.Leaf then .leaf else .found branch n (i + 1)
    | none => walkBack items nodes i

/-- The loop `for i := startPos; i < len(nodes); i++` of `add` that creates the
missing branch nodes, over the indices still to visit. -/
def addBranches (nodes : List String) : List Nat → AMap String Node → AMap String Node
  | [], items => items
  | i :: rest, items =>
    let branch := Join (nodes.take i) "."
    addBranches nodes rest
      (AMap.set items branch { Path := branch, Leaf := false, Children := [nodes.getD i ""] })

/-- The part of `add` after the tree of the org is known and the path is not a
node of it: `items` are the `Items` of that tree. -/
def addPath (items : AMap String Node) (def_ : MetricDefinition) :
    Except Fault (Option (AMap String Node)) :=
  let path := def_.Name
  let nodes := Split path '.'
  let walk := if nodes.length > 1 then walkBack items nodes (nodes.length - 1) else .nothing
  match walk with
  | .leaf => .ok none
  | .found branch _ i =>
    let items1 := AMap.modify items branch
      (fun n => { n with Children := n.Children ++ [nodes.getD i ""] })
    let items2 := addBranches nodes (List.range' (i + 1) (nodes.length - (i + 1))) items1
    .ok (some (AMap.set items2 path { Leaf := true, Path := path, Children := [def_.Id] }))
  | .nothing =>
    match AMap.get? items "" with
    | none => .error .nilDeref
    | some _ =>
      let items1 := AMap.modify items ""
        (fun n => { n with Children := n.Children ++ [nodes.getD 0 ""] })
      let items2 := addBranches nodes (List.range' 1 (nodes.length - 1)) items1
      .ok (some (AMap.set items2 path { Leaf := true, Path := path, Children := [def_.Id] }))

/-- `MemoryIdx.add`.  A rejected insert returns after `m.DefById[def.Id] = def`. -/
def add (m : MemoryIdx) (def_ : MetricDefinition) : Except Fault MemoryIdx :=
  let byId := AMap.set m.DefById def_.Id def_
  let path := def_.Name
  match AMap.get? m.Tree def_.OrgId with
  | none =>
    let root : Node := { Path := "", Children := [], Leaf := false }
    match addPath [("", root)] def_ with
    | .error f => .error f
    | .ok none => .ok { DefById := byId, Tree := AMap.set m.Tree def_.OrgId ⟨[("", root)]⟩ }
    | .ok (some items) => .ok { DefById := byId, Tree := AMap.set m.Tree def_.OrgId ⟨items⟩ }
  | some tree =>
    match AMap.get? tree.Items path with
    | some node =>
      if node.Leaf = false then .ok { DefById := byId, Tree := m.Tree }
      else
        .ok { DefById := byId
              Tree := AMap.set m.Tree def_.OrgId
                ⟨AMap.modify tree.Items path
                  (fun n => { n with Children := n.Children ++ [def_.Id] })⟩ }
    | none =>
      match addPath tree.Items def_ with
      | .error f => .error f
      | .ok none => .ok { DefById := byId, Tree := m.Tree }
      | .ok (some items) => .ok { DefById := byId, Tree := AMap.set m.Tree def_.OrgId ⟨items⟩ }

/-- `MemoryIdx.AddDef`. -/
def AddDef (m : MemoryIdx) (def_ : MetricDefinition) : Except Fault MemoryIdx :=
  match AMap.get? m.DefById def_.Id with
  | some _ =>
    .ok { DefById := AMap.modify m.DefById def_.Id
            (fun existing => { existing with LastUpdate := def_.LastUpdate }),
          Tree := m.Tree }
  | none => add m def_

/-- `MemoryIdx.Add`. -/
def Add (m : MemoryIdx) (data : MetricData) : Except Fault MemoryIdx :=
  match AMap.get? m.DefById data.Id with
  | some _ =>
    .ok { DefById := AMap.modify m.DefById data.Id
            (fun existing => { existing with LastUpdate := data.Time }),
          Tree := m.Tree }
  | none => add m (MetricDefinitionFromMetricData data)

/-- `MemoryIdx.Load`. -/
def Load (m : MemoryIdx) : List MetricDefinition → Except Fault MemoryIdx
  | [] => .ok m
  | def_ :: rest =>
    match AMap.get? m.DefById def_.Id with
    | some _ => Load m rest
    | none =>
      match add m def_ with
      | .error f => .error f
      | .ok m1 => Load m1 rest

/-- `MemoryIdx.Get`; `none` is the error `idx.DefNotFound`. -/
def Get (m : MemoryIdx) (id : String) : Option MetricDefinition :=
  AMap.get? m.DefById id

/-! ### `expandQueries` and `match` -/

/-- The body of the inner loop of `expandQueries` for one query: the strings that
replace it, and whether a `{` followed by a `}` was found. -/
def expandOne (query : String) : List String × Bool :=
  match indexChar '{' query.data with
  | none => ([query], false)
  | some lbrace =>
    match indexChar '}' (query.data.drop lbrace) with
    | none => ([query], false)
    | some r =>
      let rbrace := r + lbrace
      let expansion := String.mk ((query.data.take rbrace).drop (lbrace + 1))
      let options := Split expansion ','
      (options.map (fun opt =>
        String.mk (query.data.take lbrace) ++ opt ++ String.mk (query.data.drop (rbrace + 1))),
       true)

/-- One pass of the outer loop of `expandQueries` over all queries: `expanded` and
`keepLooking`. -/
def expandPass : List String → List String × Bool
  | [] => ([], false)
  | query :: rest =>
    ((expandOne query).1 ++ (expandPass rest).1, (expandOne query).2 || (expandPass rest).2)

/-- The loop `for keepLooking` of `expandQueries`; `none` when the fuel runs out. -/
def expandLoop : Nat → List String → Option (List String)
  | 0, _ => none
  | fuel + 1, queries =>
    if (expandPass queries).2 then expandLoop fuel (expandPass queries).1
    else some (expandPass queries).1

/-- `expandQueries`, with one pass more than the query has characters as fuel. -/
def expandQueries (query : String) : Option (List String) :=
  expandLoop (query.length + 1) [query]

/-- Package `regexp` as `match` uses it: `compile p` is `none` when
`regexp.Compile(p)` fails, and otherwise the predicate `MatchString`. -/
structure Regexp where
  compile : String → Option (String → Bool)

/-- The body of the loop `for _, p := range patterns` of `match`. -/
def matchOne (re : Regexp) (p : String) (candidates : List String) :
    Except Fault (List String) :=
  if ContainsAny p "*[]?" then
    match re.compile ("^" ++ Replace (Replace p '*' ".*") '?' ".?" ++ "$") with
    | none => .error .regexp
    | some r => .ok (candidates.filter r)
  else .ok (candidates.filter (fun c => decide (c = p)))

/-- The loop `for _, p := range patterns` of `match`. -/
def matchAll (re : Regexp) (candidates : List String) :
    List String → Except Fault (List String)
  | [] => .ok []
  | p :: rest =>
    match matchOne re p candidates with
    | .error f => .error f
    | .ok r1 =>
      match matchAll re candidates rest with
      | .error f => .error f
      | .ok r2 => .ok (r1 ++ r2)

/-- The function `match` (a reserved word here, hence the underscore). -/
def match_ (re : Regexp) (pattern : String) (candidates : List String) :
    Except Fault (List String) :=
  if ContainsAny pattern "{}" then
    match expandQueries pattern with
    | none => .error .fuel
    | some patterns => matchAll re candidates patterns
  else matchAll re candidates [pattern]

/-! ### `find` and `Find` -/

/-- The number of leading segments without a metacharacter: `pos + 1` for the `pos`
that the first loop of `find` computes. -/
def literalPrefix : List String → Nat
  | [] => 0
  | n :: rest => if ContainsAny n "*{}[]?" then 0 else literalPrefix rest + 1

/-- The loop `for _, c := range children` of `find` for the segment `seg`: the
grandchildren, nil pointers included. -/
def findChildren (re : Regexp) (items : AMap String Node) (seg : String) :
    List (Option Node) → Except Fault (List (Option Node))
  | [] => .ok []
  | none :: _ => .error .nilDeref
  | some c :: rest =>
    if c.Leaf then findChildren re items seg rest
    else
      match match_ re seg c.Children with
      | .error f => .error f
      | .ok matched =>
        match findChildren re items seg rest with
        | .error f => .error f
        | .ok more =>
          .ok (matched.map (fun m =>
            AMap.get? items (if c.Path = "" then m else c.Path ++ "." ++ m)) ++ more)

/-- The loop `for pos < len(nodes)` of `find`, over the segments still to match. -/
def findLoop (re : Regexp) (items : AMap String Node) :
    List String → List (Option Node) → Except Fault (List (Option Node))
  | [], children => .ok children
  | seg :: rest, children =>
    match findChildren re items seg children with
    | .error f => .error f
    | .ok grandChildren =>
      if grandChildren.length = 0 then .ok [] else findLoop re items rest grandChildren

/-- `MemoryIdx.find`: the matched nodes as the pointers the Go code holds (`none` is
a nil pointer). -/
def find (re : Regexp) (m : MemoryIdx) (orgId : Int) (pattern : String) :
    Except Fault (List (Option Node)) :=
  match AMap.get? m.Tree orgId with
  | none => .ok []
  | some tree =>
    let nodes := Split pattern '.'
    let k := literalPrefix nodes
    if k = 0 then
      findLoop re tree.Items nodes [AMap.get? tree.Items ""]
    else
      match AMap.get? tree.Items (Join (nodes.take k) ".") with
      | none => .ok []
      | some startNode =>
        if k = nodes.length then .ok [some startNode]
        else findLoop re tree.Items (nodes.drop k) [some startNode]

/-- The conversion of a leaf's `Children` into `Defs`: `*m.DefById[id]` for each id. -/
def derefDefs (m : MemoryIdx) : List String → Except Fault (List MetricDefinition)
  | [] => .ok []
  | id :: rest =>
    match AMap.get? m.DefById id with
    | none => .error .nilDeref
    | some d =>
      match derefDefs m rest with
      | .error f => .error f
      | .ok ds => .ok (d :: ds)

/-- The loop `for _, n := range matchedNodes` of `Find`; `seen` are the paths
already in the result. -/
def dedupNodes (m : MemoryIdx) : List (Option Node) → List String → Except Fault (List IdxNode)
  | [], _ => .ok []
  | none :: _, _ => .error .nilDeref
  | some n :: rest, seen =>
    if n.Path ∈ seen then dedupNodes m rest seen
    else
      match (if n.Leaf then derefDefs m n.Children else .ok []) with
      | .error f => .error f
      | .ok defs =>
        match dedupNodes m rest (n.Path :: seen) with
        | .error f => .error f
        | .ok more => .ok ({ Path := n.Path, Leaf := n.Leaf, Defs := defs } :: more)

/-- `MemoryIdx.Find`. -/
def Find (re : Regexp) (m : MemoryIdx) (orgId : Int) (pattern : String) :
    Except Fault (List IdxNode) :=
  match find re m orgId pattern with
  | .error f => .error f
  | .ok matchedNodes =>
    match find re m (-1) pattern with
    | .error f => .error f
    | .ok publicNodes => dedupNodes m (matchedNodes ++ publicNodes) []

/-- The calls that build an index. -/
inductive Op where
  | add (data : MetricData)
  | addDef (def_ : MetricDefinition)
  | load (defs : List MetricDefinition)
  deriving DecidableEq, Repr

/-- One call applied to an index. -/
def step (m : MemoryIdx) : Op → Except Fault MemoryIdx
  | .add data => Add m data
  | .addDef d => AddDef m d
  | .load defs => Load m defs

/-- A sequence of calls applied, in order, to the index `m`. -/
def runFrom : MemoryIdx → List Op → Except Fault MemoryIdx
  | m, [] => .ok m
  | m, op :: rest =>
    match step m op with
    | .error f => .error f
    | .ok m1 => runFrom m1 rest

/-- A sequence of calls applied to the index returned by `New`. -/
def run (ops : List Op) : Except Fault MemoryIdx := runFrom New ops

/-- A regular-expression engine that accepts every pattern and matches nothing; the
patterns of the examples below have no metacharacter and never reach it. -/
def noRegexp : Regexp := ⟨fun _ => some (fun _ => false)⟩

end Memory
/-! ## The memory index: functions used in the statements -/

namespace Memory

/-- The first node of `l` whose path is `p`. -/
def firstNode : List (Option Node) → String → Option Node
  | [], _ => none
  | none :: rest, p => firstNode rest p
  | some n :: rest, p => if n.Path = p then some n else firstNode rest p

/-- The paths of the nodes of `l`. -/
def pathsOf : List (Option Node) → List String
  | [] => []
  | none :: rest => pathsOf rest
  | some n :: rest => n.Path :: pathsOf rest

/-- The node `r` of a result of `Find` is the copy of the tree node `n`: same path and
kind, and for a leaf the definitions that its `Children` name. -/
def copyOf (m : MemoryIdx) (r : IdxNode) (n : Node) : Prop :=
  r.Path = n.Path ∧ r.Leaf = n.Leaf
    ∧ (if n.Leaf then derefDefs m n.Children = .ok r.Defs else r.Defs = [])

/-- The index that a sequence of calls builds (`New` if a call panics). -/
def built (ops : List Op) : MemoryIdx :=
  match run ops with
  | .ok m => m
  | .error _ => New

end Memory

/-! ## The memory index: `delete`, `Delete`, `DeleteWithReport` -/

namespace Memory

/-- The state of a `Delete` call in progress: the index, and the nodes of the org's
tree that `delete` has already removed from `Items` while the call still holds
pointers to them. -/
structure DelState where
  idx : MemoryIdx
  gone : AMap String Node
  deriving DecidableEq, Repr

/-- The field `n.Children` read through the pointer `n` as it is now.  A `*Node` that
`find` returned is represented by the value it pointed to at that moment; `add` stores
every node under its `Path`, so the object behind the pointer is the node stored under
`n.Path` in the tree of the org, or, once `delete` has removed it from `Items`, the
node kept under `n.Path` in `gone`. -/
def childrenNow (st : DelState) (orgId : Int) (n : Node) : List String :=
  match (AMap.get? st.idx.Tree orgId).bind (fun tree => AMap.get? tree.Items n.Path) with
  | some v => v.Children
  | none =>
    match AMap.get? st.gone n.Path with
    | some v => v.Children
    | none => n.Children

/-- The loop `for i := len(nodes) - 1; i >= 0; i--` of `delete`, entered with `i + 1`
iterations to go: `items` is `tree.Items`, `gone` the removed nodes.  Indexing the
empty `Children` of a branch is a panic. -/
def pruneLoop (nodes : List String) :
    Nat → AMap String Node → AMap String Node →
      Except Fault (AMap String Node × AMap String Node)
  | 0, items, gone => .ok (items, gone)
  | i + 1, items, gone =>
    let branch := Join (nodes.take i) "."
    match AMap.get? items branch with
    | none => pruneLoop nodes i items gone
    | some bNode =>
      if bNode.Children.length > 1 then
        .ok (AMap.modify items branch (fun b =>
          { b with Children := b.Children.filter (fun child => decide (child ≠ nodes.getD i "")) }),
          gone)
      else
        match bNode.Children with
        | [] => .error .indexRange
        | c0 :: _ =>
          if c0 ≠ nodes.getD i "" then .ok (items, gone)
          else pruneLoop nodes i (AMap.erase items branch) (AMap.set gone branch bNode)

/-- A loop `for _, child := range children` that calls `del` on every element and
appends what it returns to `ids`; `none` is a returned error, which ends the loop. -/
def deleteEach (del : DelState → Option Node → Except Fault (DelState × Option (List String))) :
    List (Option Node) → DelState → List String →
      Except Fault (DelState × Option (List String))
  | [], st, ids => .ok (st, some ids)
  | child :: rest, st, ids =>
    match del st child with
    | .error f => .error f
    | .ok (st1, none) => .ok (st1, none)
    | .ok (st1, some deleted) => deleteEach del rest st1 (ids ++ deleted)

/-- `MemoryIdx.delete`: the state afterwards and the returned `deletedIds`, `none`
when the returned error is not nil.  The fuel bounds the depth of the recursion. -/
def delete (re : Regexp) (orgId : Int) :
    Nat → DelState → Option Node → Except Fault (DelState × Option (List String))
  | 0, _, _ => .error .fuel
  | _ + 1, _, none => .error .nilDeref
  | fuel + 1, st, some n =>
    let deletedIds := List.replicate (childrenNow st orgId n).length ""
    let afterChildren : Except Fault (DelState × Option (List String)) :=
      if n.Leaf then .ok (st, some deletedIds)
      else
        match find re st.idx orgId (n.Path ++ ".*") with
        | .error .regexp => .ok (st, none)
        | .error f => .error f
        | .ok children => deleteEach (delete re orgId fuel) children st deletedIds
    match afterChildren with
    | .error f => .error f
    | .ok (st1, none) => .ok (st1, none)
    | .ok (st1, some ids) =>
      -- `for i, id := range n.Children { delete(m.DefById, id); deletedIds[i] = id }`
      let kids := childrenNow st1 orgId n
      if ids.length < kids.length then .error .indexRange
      else
        let defs := kids.foldl AMap.erase st1.idx.DefById
        let ids1 := kids ++ ids.drop kids.length
        match AMap.get? st1.idx.Tree orgId with
        | none => .error .nilDeref
        | some tree =>
          let gone1 :=
            match AMap.get? tree.Items n.Path with
            | some v => AMap.set st1.gone n.Path v
            | none => st1.gone
          let items1 := AMap.erase tree.Items n.Path
          let nodes := Split n.Path '.'
          match pruneLoop nodes nodes.length items1 gone1 with
          | .error f => .error f
          | .ok (items2, gone2) =>
            .ok (⟨⟨defs, AMap.modify st1.idx.Tree orgId (fun _ => ⟨items2⟩)⟩, gone2⟩, some ids1)

/-- The loop `for _, f := range found { m.delete(orgId, f) }` of `Delete`, which drops
what `delete` returns. -/
def deleteFound (re : Regexp) (orgId : Int) (fuel : Nat) :
    List (Option Node) → DelState → Except Fault DelState
  | [], st => .ok st
  | f :: rest, st =>
    match delete re orgId fuel st f with
    | .error e => .error e
    | .ok (st1, _) => deleteFound re orgId fuel rest st1

/-- `MemoryIdx.Delete`: the index afterwards, and whether the returned error is not
nil. -/
def Delete (re : Regexp) (fuel : Nat) (m : MemoryIdx) (orgId : Int) (pattern : String) :
    Except Fault (MemoryIdx × Bool) :=
  match find re m orgId pattern with
  | .error .regexp => .ok (m, true)
  | .error f => .error f
  | .ok found =>
    match deleteFound re orgId fuel found ⟨m, []⟩ with
    | .error f => .error f
    | .ok st => .ok (st.idx, false)

/-- `MemoryIdx.DeleteWithReport`: the index afterwards and the returned ids, `none`
when the returned error is not nil. -/
def DeleteWithReport (re : Regexp) (fuel : Nat) (m : MemoryIdx) (orgId : Int)
    (pattern : String) : Except Fault (MemoryIdx × Option (List String)) :=
  match find re m orgId pattern with
  | .error .regexp => .ok (m, none)
  | .error f => .error f
  | .ok found =>
    match deleteEach (delete re orgId fuel) found ⟨m, []⟩ [] with
    | .error f => .error f
    | .ok (st, r) => .ok (st.idx, r)

/-! ### A regular-expression engine for the patterns of `match` -/

/-- The pieces of the regular expressions that `match` builds from a segment whose
metacharacters are `*` and `?`: a literal character, `.`, `.*` and `.?`. -/
inductive RePiece where
  | lit (c : Char)
  | any
  | anyStar
  | anyOpt
  deriving DecidableEq, Repr

/-- The characters with a meaning of their own in the syntax of package `regexp`. -/
def reSpecial : List Char :=
  ['\\', '.', '+', '*', '?', '(', ')', '|', '[', ']', '{', '}', '^', '$']

/-- The pieces of a pattern body; `none` when it uses more of the syntax than the
pieces above. -/
def rePieces : List Char → Option (List RePiece)
  | [] => some []
  | [c] =>
    if c = '.' then some [.any]
    else if c ∈ reSpecial then none
    else some [.lit c]
  | c :: d :: rest =>
    if c = '.' then
      if d = '*' then (rePieces rest).map (fun ps => .anyStar :: ps)
      else if d = '?' then (rePieces rest).map (fun ps => .anyOpt :: ps)
      else (rePieces (d :: rest)).map (fun ps => .any :: ps)
    else if c ∈ reSpecial then none
    else (rePieces (d :: rest)).map (fun ps => .lit c :: ps)

/-- The suffixes of `s` that remain after `.*` has consumed a prefix: `.` matches any
character but a newline. -/
def dotTails : List Char → List (List Char)
  | [] => [[]]
  | c :: cs => if c = '\n' then [c :: cs] else (c :: cs) :: dotTails cs

/-- Whether the whole of `s` matches the pieces. -/
def reMatches : List RePiece → List Char → Bool
  | [], s => s.isEmpty
  | .lit c :: ps, s =>
    match s with
    | [] => false
    | x :: xs => decide (x = c) && reMatches ps xs
  | .any :: ps, s =>
    match s with
    | [] => false
    | x :: xs => decide (x ≠ '\n') && reMatches ps xs
  | .anyStar :: ps, s => (dotTails s).any (reMatches ps)
  | .anyOpt :: ps, s =>
    reMatches ps s ||
      (match s with
       | [] => false
       | x :: xs => decide (x ≠ '\n') && reMatches ps xs)

/-- Package `regexp` on the patterns `^...$` whose body is made of literal characters,
`.`, `.*` and `.?`, following the documented syntax (RE2) of the package; every other
pattern is outside this engine and is reported as not compiling. -/
def simpleRegexp : Regexp :=
  ⟨fun p =>
    match p.data with
    | [] => none
    | c :: rest =>
      if c = '^' then
        match rest.reverse with
        | [] => none
        | e :: body =>
          if e = '$' then
            (rePieces body.reverse).map (fun ps => fun s => reMatches ps s.data)
          else none
      else none⟩

end Memory

namespace Memory

/-- The results of matching each alternative in turn, put together the way the
comment on `expandQueries` describes: the alternatives are checked separately and
their results are ORed; the first compile error ends the matching. -/
def concatResults : List (Except Fault (List String)) → Except Fault (List String)
  | [] => .ok []
  | r :: rest =>
    match r with
    | .error f => .error f
    | .ok a =>
      match concatResults rest with
      | .error f => .error f
      | .ok b => .ok (a ++ b)

end Memory

/-! ## The memory index: well-formed trees and what a pattern matches -/

namespace Memory

/-- The path of the child named `seg` of the node with path `path`, as `find` builds it
(`newBranch`). -/
def childPath (path seg : String) : String :=
  if path = "" then seg else path ++ "." ++ seg

/-- The string has no `.`. -/
def dotFree (s : String) : Prop := '.' ∉ s.data

instance dotFreeDecidable (s : String) : Decidable (dotFree s) := by
  unfold dotFree; infer_instance

/-- The child name `c` is matched by the segment pattern `s`: `match(s, [c])` returns
it. -/
def matchesSeg (re : Regexp) (s c : String) : Prop :=
  ∃ r, match_ re s [c] = .ok r ∧ c ∈ r

/-- The segment pattern `s` is valid: the regular expressions that `match` makes from
its alternatives compile, so `match(s, ...)` returns no error. -/
def validSeg (re : Regexp) (s : String) : Prop :=
  ∃ r, match_ re s [] = .ok r

/-- The dotted path is matched by the segment patterns: it has as many segments, and
each is matched by the pattern in its place. -/
def pathMatches (re : Regexp) (segs : List String) (path : String) : Prop :=
  List.Forall₂ (matchesSeg re) segs (Split path '.')

/-- The tree is well formed: the root is a branch and none of its children has the
empty name; every node is stored under its own path; every child name listed by a
branch has no `.` and names a node of the tree; and every node but the root is listed
by a branch of the tree, its parent. -/
def WellFormed (items : AMap String Node) : Prop :=
  (AMap.get? items "").any (fun r => !r.Leaf && r.Children.all (fun s => decide (s ≠ ""))) = true
    ∧ (∀ e ∈ items, e.2.Path = e.1)
    ∧ (∀ e ∈ items, e.2.Leaf = false →
        ∀ s ∈ e.2.Children, dotFree s ∧ (AMap.get? items (childPath e.1 s)).isSome = true)
    ∧ (∀ e ∈ items, e.1 ≠ "" →
        ∃ b ∈ items, AMap.get? items b.1 = some b.2 ∧ b.2.Leaf = false
          ∧ ∃ s ∈ b.2.Children, e.1 = childPath b.1 s)

instance wellFormedDecidable (items : AMap String Node) : Decidable (WellFormed items) := by
  unfold WellFormed; infer_instance

/-- The index is well formed for the queries of `orgId`: the tree of the org and the
tree of org -1, where they exist, are well formed, and the ids listed by their leaves
are in `DefById`. -/
def WellFormedFor (m : MemoryIdx) (orgId : Int) : Prop :=
  ∀ t ∈ m.Tree, (t.1 = orgId ∨ t.1 = -1) →
    WellFormed t.2.Items
      ∧ ∀ e ∈ t.2.Items, e.2.Leaf = true →
          ∀ id ∈ e.2.Children, (AMap.get? m.DefById id).isSome = true

instance wellFormedForDecidable (m : MemoryIdx) (orgId : Int) :
    Decidable (WellFormedFor m orgId) := by
  unfold WellFormedFor; infer_instance

/-- The node `x` is reached from the node `g` by matching the segment patterns one by
one against the child names of the branches on the way. -/
def Reach (re : Regexp) (items : AMap String Node) :
    List String → Option Node → Option Node → Prop
  | [], g, x => x = g
  | s :: rest, g, x =>
    ∃ n c, g = some n ∧ n.Leaf = false ∧ c ∈ n.Children ∧ matchesSeg re s c
      ∧ Reach re items rest (AMap.get? items (childPath n.Path c)) x

/-- The node that a query of `orgId` sees at `path`: the node of the org's own tree,
and the node of the tree of org -1 when the org's own tree has none there. -/
def visibleNode (m : MemoryIdx) (orgId : Int) (path : String) : Option Node :=
  ((AMap.get? m.Tree orgId).bind (fun t => AMap.get? t.Items path)).orElse
    (fun _ => (AMap.get? m.Tree (-1)).bind (fun t => AMap.get? t.Items path))

/-- The segment lists obtained by replacing every segment by one alternative of its
own brace expansion. -/
def segChoices : List String → List (List String)
  | [] => [[]]
  | s :: rest =>
    ((expandQueries s).getD []).flatMap (fun a => (segChoices rest).map (fun c => a :: c))

/-- The patterns obtained from `p` by replacing every dotted segment by one alternative
of its own brace expansion. -/
def braceChoices (p : String) : List String :=
  (segChoices (Split p '.')).map (fun c => Join c ".")

/-- The alternatives of the first dotted segment of `p`. -/
def firstAlternatives (p : String) : List String :=
  (expandQueries ((Split p '.').headD "")).getD []

instance validSegDecidable (re : Regexp) (s : String) : Decidable (validSeg re s) :=
  decidable_of_iff ((match_ re s []).toOption.isSome = true) (by
    unfold validSeg
    cases match_ re s [] with
    | error f => simp [Except.toOption]
    | ok r => simp [Except.toOption])

end Memory
/-! ## The chunk store: the write worker and the rows that `Search` scans -/

namespace Store

/-- The payload that `processWriteQueue` hands to `insertChunk` for a chunk with the
series bytes `data`: `binary.Write(buf, binary.LittleEndian, uint8(version))`
followed by `buf.Write(data)`. -/
def writePayload (version : Nat) (data : List Nat) : List Nat :=
  (version % 256) :: data

/-- A Go `int` (64 bits) holding the integer `x`. -/
def wrapInt (x : Int) : Int :=
  (x + 9223372036854775808) % 18446744073709551616 - 9223372036854775808

/-- The delay in milliseconds that `processWriteQueue` sleeps after a failed insert:
`sleepTime := 100 * attempts; if sleepTime > 2000 { sleepTime = 2000 }`. -/
def sleepTime (attempts : Int) : Int :=
  let s := wrapInt (100 * attempts)
  if s > 2000 then 2000 else s

/-- The loop `for !success` of `processWriteQueue`, entered with the counter
`attempts`: `results` tells for the successive calls of `insertChunk` whether they
returned no error; the delays slept are returned in order.  The loop ends at the
first call without error (or where the list of observed calls ends). -/
def retryLoop : List Bool → Int → List Int
  | [], _ => []
  | true :: _, _ => []
  | false :: rest, attempts => sleepTime attempts :: retryLoop rest (wrapInt (attempts + 1))

/-- The delays that the write worker sleeps while it saves one chunk:
`attempts := 0` and then the loop. -/
def retryDelays (results : List Bool) : List Int := retryLoop results 0

/-- The rows that the two nested scan loops of `Search` visit, in the order of the
visit, each with the month of its outcome: `(month, ts, b)`. -/
def rowsOf (outcomes : List outcome) : List (Nat × Nat × List Nat) :=
  outcomes.flatMap (fun o => o.i.rows.map (fun p => (o.month, p.1, p.2)))

/-- The element of the result that `Search` makes of the scanned row `(month, ts, b)`. -/
def iterOfRow (r : Nat × Nat × List Nat) : Iter := ⟨r.2.2.tail, r.1, r.2.1⟩

/-- The scan loop of `Search` over rows that carry their month: the two nested loops
as one. -/
def scanFlat (be : Backend) :
    List (Nat × Nat × List Nat) → List Iter → List Iter × Option SearchErr
  | [], iters => (iters, none)
  | (month, ts, b) :: rest, iters =>
    if b.length < 2 then (iters, some .tooSmall)
    else if b.headD 0 ≠ be.FormatStandardGoTsz then (iters, some .badFormat)
    else if be.newIterator b.tail = false then (iters, some .decode)
    else scanFlat be rest (iters ++ [⟨b.tail, month, ts⟩])

/-- The check of `Search` that the payload `b` fails, as the error `e` it returns:
fewer than two bytes, then a first byte that is not the format tag, then a stream
that the decoder does not accept. -/
def rejects (tag : Nat) (ok : List Nat → Bool) (b : List Nat) (e : SearchErr) : Prop :=
  (e = .tooSmall ∧ b.length < 2)
    ∨ (e = .badFormat ∧ 2 ≤ b.length ∧ b.headD 0 ≠ tag)
    ∨ (e = .decode ∧ 2 ≤ b.length ∧ b.headD 0 = tag ∧ ok b.tail = false)

instance rejectsDecidable (tag : Nat) (ok : List Nat → Bool) (b : List Nat) (e : SearchErr) :
    Decidable (rejects tag ok b e) := by
  unfold rejects; infer_instance

instance validPayloadDecidable (tag : Nat) (ok : List Nat → Bool) (b : List Nat) :
    Decidable (validPayload tag ok b) := by
  unfold validPayload; infer_instance

/-- A backend for the examples: the table holds the chunks of metric `m` at 600 and at
1200, written with the format tag 0 before the series bytes `[2]` and `[3]`; the
decoder accepts every stream and the outcomes arrive in the order of the requests. -/
def twoChunkBackend : Backend :=
  tableBackend (written [("m", 600, writePayload 0 [2]), ("m", 1200, writePayload 0 [3])])
    0 (fun _ => true) id

end Store
/-! ## The chunk cache: ordered links -/

namespace Cache

/-- The call names a predecessor that starts before the chunk it adds. -/
def Op.prevBelow : Op → Prop
  | .init prev g => prev < g.Ts
  | .add prev g => prev < g.Ts
  | .del _ => True

instance prevBelowDecidable (op : Op) : Decidable op.prevBelow := by
  cases op <;> unfold Op.prevBelow <;> infer_instance

/-- The links of the cache are ordered: a non-zero `Next` of a cached chunk is greater
than the key of the chunk, and a non-zero `Prev` is smaller. -/
def Ordered (mc : CCacheMetric) : Prop :=
  ∀ k c, AMap.get? mc.chunks k = some c →
    (c.Next ≠ 0 → k < c.Next) ∧ (c.Prev ≠ 0 → c.Prev < k)

/-- No link of the cache dangles: a non-zero `Next` or `Prev` of a cached chunk is the
key of a cached chunk. -/
def Resolved (mc : CCacheMetric) : Prop :=
  ∀ k c, AMap.get? mc.chunks k = some c →
    (c.Next ≠ 0 → (AMap.get? mc.chunks c.Next).isSome = true)
      ∧ (c.Prev ≠ 0 → (AMap.get? mc.chunks c.Prev).isSome = true)

/-- The backward pass of a query whose last second is `x` starts at the chunk under
`k`: `k` is a key at or before `x`, its chunk ends after `x`, and every key above `k`
is above `x` too and its chunk ends after `x` (these are the chunks that `seekDesc`
passes on its way down from the greatest key). -/
def startsBackward (mc : CCacheMetric) (x k : Nat) : Prop :=
  k ≤ x ∧ atKey mc k (fun c => x < chunkEnd c)
    ∧ ∀ e ∈ mc.chunks, k < e.1 → x < e.1 ∧ allAt mc e.1 (fun c => x < chunkEnd c)

instance startsBackwardDecidable (mc : CCacheMetric) (x k : Nat) :
    Decidable (startsBackward mc x k) := by
  unfold startsBackward; infer_instance

end Cache
/-! ## The memory index: patterns with brace groups and their cross product -/

namespace Memory

/-- The text of brace groups written from left to right: each group is its options,
joined by commas between braces, followed by the text up to the next group. -/
def renderTail : List (List String × String) → String
  | [] => ""
  | (opts, lit) :: rest => "\x7b" ++ Join opts "," ++ "\x7d" ++ lit ++ renderTail rest

/-- The pattern that starts with the text `lit0` and goes on with the brace groups
`groups`. -/
def renderPattern (lit0 : String) (groups : List (List String × String)) : String :=
  lit0 ++ renderTail groups

/-- The cross product of the options: the pattern with one option substituted for
every group, in every combination, the leftmost group varying slowest. -/
def crossProduct (lit0 : String) : List (List String × String) → List String
  | [] => [lit0]
  | (opts, lit) :: rest => opts.flatMap (fun o => crossProduct (lit0 ++ o ++ lit) rest)

/-- The description is that of a pattern with non-nested brace groups: no text
between the groups has an opening brace, every group has at least one option, and no
option has a brace or a comma. -/
def bracePatternOk (lit0 : String) (groups : List (List String × String)) : Prop :=
  '{' ∉ lit0.data
    ∧ ∀ g ∈ groups, g.1 ≠ []
        ∧ (∀ o ∈ g.1, '{' ∉ o.data ∧ '}' ∉ o.data ∧ ',' ∉ o.data)
        ∧ '{' ∉ g.2.data

instance bracePatternOkDecidable (lit0 : String) (groups : List (List String × String)) :
    Decidable (bracePatternOk lit0 groups) := by
  unfold bracePatternOk; infer_instance

end Memory
/-! ## Facts about association-list maps -/

namespace AMap

variable {κ β : Type} [DecidableEq κ]

theorem get?_erase (m : AMap κ β) (k k' : κ) :
    get? (erase m k) k' = if k' = k then none else get? m k' := by
  induction m with
  | nil => simp [erase, get?]
  | cons e rest ih =>
    obtain ⟨a, v⟩ := e
    by_cases h : a = k
    · subst h
      by_cases h2 : k' = a
      · subst h2; simp [erase, ih]
      · have h3 : ¬ a = k' := fun h => h2 h.symm
        simp [erase, get?, ih, h2, h3]
    · by_cases h2 : k' = k
      · subst h2
        simp [erase, get?, ih, h]
      · by_cases h3 : a = k'
        · simp [erase, get?, h, h3, h2]
        · simp [erase, get?, ih, h, h2, h3]

theorem get?_set (m : AMap κ β) (k k' : κ) (v : β) :
    get? (set m k v) k' = if k' = k then some v else get? m k' := by
  by_cases h : k' = k
  · subst h; simp [set, get?]
  · have h3 : ¬ k = k' := fun e => h e.symm
    simp [set, get?, get?_erase, h, h3]

theorem get?_modify (m : AMap κ β) (k k' : κ) (f : β → β) :
    get? (modify m k f) k' = if k' = k then (get? m k').map f else get? m k' := by
  induction m with
  | nil => simp [modify, get?]
  | cons e rest ih =>
    obtain ⟨a, v⟩ := e
    by_cases h : a = k
    · subst h
      by_cases h2 : a = k'
      · subst h2; simp [modify, get?]
      · have h3 : ¬ k' = a := fun e => h2 e.symm
        simp [modify, get?, h2, h3, ih]
    · by_cases h2 : a = k'
      · subst h2; simp [modify, get?, h]
      · simp [modify, get?, h, h2, ih]

theorem has_eq (m : AMap κ β) (k : κ) : has m k = (get? m k).isSome := rfl

theorem get?_some_mem (m : AMap κ β) (k : κ) (v : β) (h : get? m k = some v) :
    (k, v) ∈ m := by
  induction m with
  | nil => simp [get?] at h
  | cons e rest ih =>
    obtain ⟨a, w⟩ := e
    by_cases h2 : a = k
    · subst h2
      simp [get?] at h
      subst h
      exact List.mem_cons_self _ _
    · simp [get?, h2] at h
      exact List.mem_cons_of_mem _ (ih h)

theorem mem_keys_iff (m : AMap κ β) (k : κ) : k ∈ keys m ↔ (get? m k).isSome = true := by
  induction m with
  | nil => simp [keys, get?]
  | cons e rest ih =>
    obtain ⟨a, w⟩ := e
    by_cases h2 : a = k
    · subst h2; simp [keys, get?]
    · have h3 : ¬ k = a := fun e => h2 e.symm
      have ih2 : k ∈ List.map Prod.fst rest ↔ (get? rest k).isSome = true := ih
      simp only [keys, List.map_cons, List.mem_cons, h3, false_or, get?, h2, if_false]
      exact ih2

end AMap

/-! ## The chunk cache: concrete runs -/

namespace Cache

/-- C2, counterexample.  A chunk at 100 followed, after a gap in the data, by a
chunk at 5000 that names 100 as its predecessor: the forward pass of
`Search(105, 200)` follows the `Next` pointer and returns the chunk at 5000,
whose `Ts` is not below `until = 200`. -/
theorem search_range_counterexample :
    (run [.init 0 ⟨100, 10⟩, .add 100 ⟨5000, 10⟩]).chunks
        = [(5000, ⟨5000, 100, 0, ⟨5000, 10⟩⟩), (100, ⟨100, 0, 5000, ⟨100, 10⟩⟩)]
      ∧ Search 10 (run [.init 0 ⟨100, 10⟩, .add 100 ⟨5000, 10⟩]) ⟨false, [], 105, [], 200⟩ 105 200
        = .ok ⟨true, [⟨100, 10⟩, ⟨5000, 10⟩], 5010, [], 200⟩
      ∧ (105 : Nat) < 200 ∧ ¬ ((⟨5000, 10⟩ : IterGen).Ts < 200) := by
  decide

/-- C3, counterexample.  The cache `{0, 600}` of span 600 queried for `[0, 1800)`:
`seekAsc` finds the chunk at 0, but `0` is also the "no neighbour" sentinel of the
loop `for ; ts != 0; ...`, so nothing is appended: `Start` stays empty and `From`
keeps the value the caller passed in, instead of `Start = [0, 600]`, `From = 1200`. -/
theorem partial_hit_counterexample :
    seekAsc (run [.init 0 ⟨0, 600⟩, .add 0 ⟨600, 600⟩]) 0
        (sortedTs (run [.init 0 ⟨0, 600⟩, .add 0 ⟨600, 600⟩])) = .ok (0, true)
      ∧ Search 10 (run [.init 0 ⟨0, 600⟩, .add 0 ⟨600, 600⟩]) ⟨false, [], 0, [], 1800⟩ 0 1800
        = .ok ⟨false, [], 0, [], 1800⟩ := by
  decide

/-- C4, the failing input.  The cache holds the single chunk `[600, 1200)`.
`Search(600, 1201)` asks for the timestamps `600 .. 1200`; the forward pass compares
`endTs = 1200` with `until - 1 = 1200` by `>=` and sets `Complete`, although the
last requested timestamp `1200` is not below the end of the last chunk of `Start`. -/
theorem search_complete_off_by_one :
    Search 10 (run [.init 0 ⟨600, 600⟩]) ⟨false, [], 600, [], 1201⟩ 600 1201
        = .ok ⟨true, [⟨600, 600⟩], 1200, [], 1201⟩
      ∧ endTs (run [.init 0 ⟨600, 600⟩]) 600 = some 1200
      ∧ ¬ (1201 - 1 < 1200) := by
  decide

/-- C5, counterexample.  Two chunks are added with the same `prev`: the second
`Add` overwrites `chunks[100].Next`, and the chunk at 200 keeps `Prev = 100` while
`chunks[100].Next` is 300. -/
theorem link_symmetry_counterexample :
    AMap.get? (run [.add 0 ⟨100, 0⟩, .add 100 ⟨200, 0⟩, .add 100 ⟨300, 0⟩]).chunks 200
        = some ⟨200, 100, 0, ⟨200, 0⟩⟩
      ∧ AMap.get? (run [.add 0 ⟨100, 0⟩, .add 100 ⟨200, 0⟩, .add 100 ⟨300, 0⟩]).chunks 100
        = some ⟨100, 0, 300, ⟨100, 0⟩⟩ := by
  decide

/-- C6, the failing input.  After `Init(600)`, `Add(1200)`, `Del(1200)` the cache
holds the single key 600, but `newest` is still 1200: `Del` never updates the
`newest`/`oldest` fields. -/
theorem newest_stale_after_del :
    AMap.keys (run [.init 0 ⟨600, 600⟩, .add 600 ⟨1200, 600⟩, .del 1200]).chunks = [600]
      ∧ (run [.init 0 ⟨600, 600⟩, .add 600 ⟨1200, 600⟩, .del 1200]).newest = 1200
      ∧ (run [.init 0 ⟨600, 600⟩, .add 600 ⟨1200, 600⟩, .del 1200]).oldest = 600 := by
  decide

/-- C7, counterexample.  The cache holds 600 and 1800 linked to each other (1800 was
added with `prev = 600`).  Adding the chunk 1200 with `prev = 600` and deleting it
again leaves `chunks[600].Next = 0` and `chunks[1800].Prev = 0`: the link between
600 and 1800 that existed before the `Add` is not restored. -/
theorem add_del_counterexample :
    AMap.get? (run [.init 0 ⟨600, 600⟩, .add 600 ⟨1800, 600⟩]).chunks 600
        = some ⟨600, 0, 1800, ⟨600, 600⟩⟩
      ∧ AMap.get? (Del (Add (run [.init 0 ⟨600, 600⟩, .add 600 ⟨1800, 600⟩]) 600 ⟨1200, 600⟩)
          1200).1.chunks 600 = some ⟨600, 0, 0, ⟨600, 600⟩⟩
      ∧ AMap.get? (run [.init 0 ⟨600, 600⟩, .add 600 ⟨1800, 600⟩]).chunks 1200 = none := by
  decide

/-- C8, counterexample.  The chunks 200 and 300 both name 100 as their predecessor.
`Del(100)` clears only the `Prev` of `chunks[100].Next = 300`; the chunk at 200
keeps `Prev = 100`, a pointer to a chunk that is no longer in the map, and a
backward pass that reaches it dereferences nil. -/
theorem dangling_prev_counterexample :
    AMap.get? (run [.add 0 ⟨100, 0⟩, .add 100 ⟨200, 0⟩, .add 100 ⟨300, 0⟩, .del 100]).chunks 200
        = some ⟨200, 100, 0, ⟨200, 0⟩⟩
      ∧ AMap.get? (run [.add 0 ⟨100, 0⟩, .add 100 ⟨200, 0⟩, .add 100 ⟨300, 0⟩, .del 100]).chunks
          100 = none
      ∧ Search 10 (run [.add 0 ⟨100, 0⟩, .add 100 ⟨200, 0⟩, .add 100 ⟨300, 0⟩, .del 100])
          ⟨false, [], 50, [], 251⟩ 50 251 = .error .nilDeref := by
  decide

end Cache

/-! ## The chunk cache: the range search on well-linked caches -/

namespace Cache

theorem forwardLoop_zero (mc : CCacheMetric) (U fuel : Nat) (res : CCSearchResult) :
    forwardLoop mc U fuel 0 res = .ok res := by
  cases fuel <;> simp [forwardLoop]

theorem backwardLoop_zero (mc : CCacheMetric) (F fuel : Nat) (res : CCSearchResult) :
    backwardLoop mc F fuel 0 res = .ok res := by
  cases fuel <;> simp [backwardLoop]

theorem Linked.at {mc : CCacheMetric} (h : Linked mc) {k : Nat} {c : CCacheChunk}
    (hk : AMap.get? mc.chunks k = some c) : linkOk mc k c :=
  h (k, c) (AMap.get?_some_mem _ _ _ hk)

theorem mem_sortedTs (mc : CCacheMetric) (k : Nat) :
    k ∈ sortedTs mc ↔ (AMap.get? mc.chunks k).isSome = true := by
  unfold sortedTs
  rw [(List.perm_insertionSort _ _).mem_iff]
  exact AMap.mem_keys_iff _ _

theorem seekAsc_spec (mc : CCacheMetric) (x : Nat) (keys : List Nat)
    (hk : ∀ k ∈ keys, (AMap.get? mc.chunks k).isSome = true) :
    ∃ ts ok, seekAsc mc x keys = .ok (ts, ok) ∧
      (ok = true → ts ≤ x ∧ ∃ c, AMap.get? mc.chunks ts = some c ∧ x < chunkEnd c) := by
  induction keys with
  | nil => exact ⟨0, false, rfl, by simp⟩
  | cons k rest ih =>
    have hk' := hk k (List.mem_cons_self _ _)
    obtain ⟨c, hc⟩ := Option.isSome_iff_exists.mp hk'
    have ih' := ih (fun k' hk'' => hk k' (List.mem_cons_of_mem _ hk''))
    by_cases h1 : k ≤ x
    · by_cases h2 : chunkEnd c > x
      · refine ⟨k, true, ?_, fun _ => ⟨h1, c, hc, h2⟩⟩
        simp [seekAsc, h1, endTs, hc, h2]
      · obtain ⟨ts, ok, e, p⟩ := ih'
        refine ⟨ts, ok, ?_, p⟩
        simp [seekAsc, h1, endTs, hc, h2, e]
    · exact ⟨0, false, by simp [seekAsc, h1], by simp⟩

theorem seekDescLoop_spec (mc : CCacheMetric) (x : Nat) (keys : List Nat)
    (hk : ∀ k ∈ keys, (AMap.get? mc.chunks k).isSome = true) :
    ∃ ts ok, seekDescLoop mc x keys = .ok (ts, ok) ∧
      (ok = true → ts ≤ x ∧ ∃ c, AMap.get? mc.chunks ts = some c ∧ x < chunkEnd c) := by
  induction keys with
  | nil => exact ⟨0, false, rfl, by simp⟩
  | cons k rest ih =>
    have hk' := hk k (List.mem_cons_self _ _)
    obtain ⟨c, hc⟩ := Option.isSome_iff_exists.mp hk'
    have ih' := ih (fun k' hk'' => hk k' (List.mem_cons_of_mem _ hk''))
    by_cases h2 : chunkEnd c > x
    · by_cases h1 : k ≤ x
      · refine ⟨k, true, ?_, fun _ => ⟨h1, c, hc, h2⟩⟩
        simp [seekDescLoop, h1, endTs, hc, h2]
      · obtain ⟨ts, ok, e, p⟩ := ih'
        refine ⟨ts, ok, ?_, p⟩
        simp [seekDescLoop, h1, endTs, hc, h2, e]
    · exact ⟨0, false, by simp [seekDescLoop, endTs, hc, h2], by simp⟩

theorem seekDesc_spec (mc : CCacheMetric) (x : Nat) (keys : List Nat)
    (hk : ∀ k ∈ keys, (AMap.get? mc.chunks k).isSome = true) :
    ∃ ts ok, seekDesc mc x keys = .ok (ts, ok) ∧
      (ok = true → ts ≤ x ∧ ∃ c, AMap.get? mc.chunks ts = some c ∧ x < chunkEnd c) :=
  seekDescLoop_spec mc x keys.reverse (fun k h => hk k (List.mem_reverse.mp h))

/-- The forward walk on a well-linked cache, started at a cached chunk that ends
after `F` and after its own start: it returns, leaves `End` alone, and every handle
it appends starts at or before `U` and ends after `F`. -/
theorem forwardLoop_linked (mc : CCacheMetric) (hL : Linked mc) (F U : Nat) :
    ∀ (fuel ts : Nat) (res : CCSearchResult) (c : CCacheChunk),
      AMap.get? mc.chunks ts = some c → ts ≤ U → F < chunkEnd c → ts < chunkEnd c →
      U < ts + fuel →
      ∃ r, forwardLoop mc U fuel ts res = .ok r ∧ r.End = res.End ∧
        ∀ g ∈ r.Start, g ∈ res.Start ∨ (g.Ts ≤ U ∧ ∃ e, endTs mc g.Ts = some e ∧ F < e) := by
  intro fuel
  induction fuel with
  | zero => intro ts res c _ h1 _ _ h2; omega
  | succ fuel ih =>
    intro ts res c hc hU hF hpos hfuel
    by_cases hz : ts = 0
    · subst hz
      exact ⟨res, forwardLoop_zero _ _ _ _, rfl, fun g hg => Or.inl hg⟩
    · obtain ⟨hTs, hI, hN, _⟩ := hL.at hc
      have good : c.Itgen.Ts ≤ U ∧ ∃ e, endTs mc c.Itgen.Ts = some e ∧ F < e := by
        rw [hI]; exact ⟨hU, chunkEnd c, by simp [endTs, hc], hF⟩
      by_cases hdone : chunkEnd c ≥ U
      · refine ⟨{ res with Start := res.Start ++ [c.Itgen], From := chunkEnd c,
                           Complete := true }, by simp [forwardLoop, hz, hc, hdone], rfl, ?_⟩
        intro g hg
        simp only [List.mem_append, List.mem_singleton] at hg
        rcases hg with hg | hg
        · exact Or.inl hg
        · subst hg; exact Or.inr good
      · by_cases hnz : c.Next = 0
        · refine ⟨{ res with Start := res.Start ++ [c.Itgen], From := chunkEnd c },
            by simp [forwardLoop, hz, hc, hdone, hnz, forwardLoop_zero], rfl, ?_⟩
          intro g hg
          simp only [List.mem_append, List.mem_singleton] at hg
          rcases hg with hg | hg
          · exact Or.inl hg
          · subst hg; exact Or.inr good
        · obtain ⟨hNe, d, hd, hdpos⟩ := hN hnz
          have hlt : chunkEnd c < U := Nat.lt_of_not_le hdone
          obtain ⟨r, hr, hE, hS⟩ := ih c.Next
            { res with Start := res.Start ++ [c.Itgen], From := chunkEnd c } d hd
            (by omega) (by omega) hdpos (by omega)
          refine ⟨r, by simp [forwardLoop, hz, hc, hdone, hr], hE, ?_⟩
          intro g hg
          rcases hS g hg with h | h
          · simp only [List.mem_append, List.mem_singleton] at h
            rcases h with h | h
            · exact Or.inl h
            · subst h; exact Or.inr good
          · exact Or.inr h

/-- The backward walk on a well-linked cache, started at a cached chunk that starts
at or before `U` and ends after `F`. -/
theorem backwardLoop_linked (mc : CCacheMetric) (hL : Linked mc) (F U : Nat) :
    ∀ (fuel ts : Nat) (res : CCSearchResult) (c : CCacheChunk),
      AMap.get? mc.chunks ts = some c → ts ≤ U → F < chunkEnd c → ts < fuel →
      ∃ r, backwardLoop mc F fuel ts res = .ok r ∧ r.Start = res.Start ∧
        ∀ g ∈ r.End, g ∈ res.End ∨ (g.Ts ≤ U ∧ ∃ e, endTs mc g.Ts = some e ∧ F < e) := by
  intro fuel
  induction fuel with
  | zero => intro ts res c _ _ _ h2; omega
  | succ fuel ih =>
    intro ts res c hc hU hF hfuel
    by_cases hz : ts = 0
    · subst hz
      exact ⟨res, backwardLoop_zero _ _ _ _, rfl, fun g hg => Or.inl hg⟩
    · obtain ⟨hTs, hI, _, hP⟩ := hL.at hc
      have good : c.Itgen.Ts ≤ U ∧ ∃ e, endTs mc c.Itgen.Ts = some e ∧ F < e := by
        rw [hI]; exact ⟨hU, chunkEnd c, by simp [endTs, hc], hF⟩
      by_cases hdone : c.Ts ≤ F
      · refine ⟨{ res with End := res.End ++ [c.Itgen], Until := c.Ts },
          by simp [backwardLoop, hz, hc, hdone], rfl, ?_⟩
        intro g hg
        simp only [List.mem_append, List.mem_singleton] at hg
        rcases hg with hg | hg
        · exact Or.inl hg
        · subst hg; exact Or.inr good
      · by_cases hnz : c.Prev = 0
        · refine ⟨{ res with End := res.End ++ [c.Itgen], Until := c.Ts },
            by simp [backwardLoop, hz, hc, hdone, hnz, backwardLoop_zero], rfl, ?_⟩
          intro g hg
          simp only [List.mem_append, List.mem_singleton] at hg
          rcases hg with hg | hg
          · exact Or.inl hg
          · subst hg; exact Or.inr good
        · obtain ⟨hlt, p, hp, hpe⟩ := hP hnz
          obtain ⟨r, hr, hE, hS⟩ := ih c.Prev
            { res with End := res.End ++ [c.Itgen], Until := c.Ts } p hp
            (by omega) (by omega) (by omega)
          refine ⟨r, by simp [backwardLoop, hz, hc, hdone, hr], hE, ?_⟩
          intro g hg
          rcases hS g hg with h | h
          · simp only [List.mem_append, List.mem_singleton] at h
            rcases h with h | h
            · exact Or.inl h
            · subst h; exact Or.inr good
          · exact Or.inr h

end Cache

namespace Cache

theorem searchForward_linked (mc : CCacheMetric) (hL : Linked mc) (F U fuel : Nat)
    (res : CCSearchResult) (hFU : F ≤ U) (hfuel : U < fuel) :
    ∃ r, searchForward fuel mc F U (sortedTs mc) res = .ok r ∧ r.End = res.End ∧
      ∀ g ∈ r.Start, g ∈ res.Start ∨ (g.Ts ≤ U ∧ ∃ e, endTs mc g.Ts = some e ∧ F < e) := by
  obtain ⟨ts, ok, hs, hp⟩ := seekAsc_spec mc F (sortedTs mc) (fun k hk => (mem_sortedTs mc k).mp hk)
  cases ok with
  | false => exact ⟨res, by simp [searchForward, hs], rfl, fun g hg => Or.inl hg⟩
  | true =>
    obtain ⟨h1, c, hc, h2⟩ := hp rfl
    obtain ⟨r, hr, hE, hS⟩ := forwardLoop_linked mc hL F U fuel ts res c hc (by omega) h2
      (by omega) (by omega)
    exact ⟨r, by simp [searchForward, hs, hr], hE, hS⟩

theorem searchBackward_linked (mc : CCacheMetric) (hL : Linked mc) (F U fuel : Nat)
    (res : CCSearchResult) (hFU : F ≤ U) (hfuel : U < fuel) :
    ∃ r, searchBackward fuel mc F U (sortedTs mc) res = .ok r ∧ r.Start = res.Start ∧
      ∀ g ∈ r.End, g ∈ res.End ∨ (g.Ts ≤ U ∧ ∃ e, endTs mc g.Ts = some e ∧ F < e) := by
  obtain ⟨ts, ok, hs, hp⟩ := seekDesc_spec mc U (sortedTs mc) (fun k hk => (mem_sortedTs mc k).mp hk)
  cases ok with
  | false => exact ⟨res, by simp [searchBackward, hs], rfl, fun g hg => Or.inl hg⟩
  | true =>
    obtain ⟨h1, c, hc, h2⟩ := hp rfl
    obtain ⟨r, hr, hE, hS⟩ := backwardLoop_linked mc hL F U fuel ts res c hc h1 (by omega)
      (by omega)
    exact ⟨r, by simp [searchBackward, hs, hr], hE, hS⟩

/-- C2, as amended.  On a cache in which every link joins adjacent chunks, and for
`from < until`, `Search` returns (with fuel `until` or more), and every handle it
adds to `Start` or to `End` belongs to a chunk with `Ts < until` whose `endTs` is
greater than `from`. -/
theorem search_within_range (mc : CCacheMetric) (res : CCSearchResult)
    (from_ until_ fuel : Nat) (hL : Linked mc) (hlt : from_ < until_) (hu : until_ < u32)
    (hfuel : until_ ≤ fuel) :
    ∃ r, Search fuel mc res from_ until_ = .ok r
      ∧ (∀ g ∈ r.Start, g ∈ res.Start ∨ InRange mc from_ until_ g)
      ∧ (∀ g ∈ r.End, g ∈ res.End ∨ InRange mc from_ until_ g) := by
  have hU : (until_ + u32 - 1) % u32 = until_ - 1 := by
    unfold u32 at *; omega
  have weaken : ∀ g : IterGen,
      (g.Ts ≤ until_ - 1 ∧ ∃ e, endTs mc g.Ts = some e ∧ from_ < e) → InRange mc from_ until_ g :=
    fun g h => ⟨by have := h.1; omega, h.2⟩
  unfold Search
  by_cases hlen : mc.chunks.length < 1
  · exact ⟨res, by simp [hlen], fun g hg => Or.inl hg, fun g hg => Or.inl hg⟩
  · rw [if_neg hlen, hU]
    obtain ⟨r1, hr1, hE1, hS1⟩ :=
      searchForward_linked mc hL from_ (until_ - 1) fuel res (by omega) (by omega)
    by_cases hC : r1.Complete = true
    · refine ⟨r1, by simp [hr1, hC], ?_, ?_⟩
      · intro g hg
        exact (hS1 g hg).imp id (weaken g)
      · intro g hg
        rw [hE1] at hg; exact Or.inl hg
    · obtain ⟨r2, hr2, hS2, hE2⟩ :=
        searchBackward_linked mc hL from_ (until_ - 1) fuel r1 (by omega) (by omega)
      refine ⟨r2, by simp [hr1, hC, hr2], ?_, ?_⟩
      · intro g hg
        rw [hS2] at hg
        exact (hS1 g hg).imp id (weaken g)
      · intro g hg
        rcases hE2 g hg with h | h
        · rw [hE1] at h; exact Or.inl h
        · exact Or.inr (weaken g h)

/-- C2, witness: the cache `{600, 1200}` of span 600 and the query `[700, 1300)`. -/
theorem search_within_range_witness :
    ∃ r, Search 1300 (run [.init 0 ⟨600, 600⟩, .add 600 ⟨1200, 600⟩])
          ⟨false, [], 700, [], 1300⟩ 700 1300 = .ok r
      ∧ (∀ g ∈ r.Start, g ∈ ([] : List IterGen) ∨
          InRange (run [.init 0 ⟨600, 600⟩, .add 600 ⟨1200, 600⟩]) 700 1300 g)
      ∧ (∀ g ∈ r.End, g ∈ ([] : List IterGen) ∨
          InRange (run [.init 0 ⟨600, 600⟩, .add 600 ⟨1200, 600⟩]) 700 1300 g) :=
  search_within_range (run [.init 0 ⟨600, 600⟩, .add 600 ⟨1200, 600⟩])
    ⟨false, [], 700, [], 1300⟩ 700 1300 1300 (by decide) (by decide) (by decide) (by decide)

end Cache

/-! ## The chunk cache: what `Add` and `Del` do to the map -/

namespace Cache

theorem Add_of_has (mc : CCacheMetric) (prev : Nat) (g : IterGen)
    (h : AMap.get? mc.chunks g.Ts ≠ none) : Add mc prev g = mc := by
  obtain ⟨c, hc⟩ := Option.ne_none_iff_exists'.mp h
  simp [Add, AMap.has_eq, hc]

theorem Add_chunks_new (mc : CCacheMetric) (prev : Nat) (g : IterGen)
    (hnew : AMap.get? mc.chunks g.Ts = none) :
    (Add mc prev g).chunks =
      (let fresh : CCacheChunk := { Ts := g.Ts, Prev := 0, Next := 0, Itgen := g }
       let c1 := AMap.set mc.chunks g.Ts fresh
       let c2 :=
         if AMap.has c1 prev then
           AMap.modify (AMap.modify c1 prev (fun c => { c with Next := g.Ts })) g.Ts
             (fun c => { c with Prev := prev })
         else c1
       if chunkEnd fresh > g.Ts then
         if AMap.has c2 (chunkEnd fresh) then
           AMap.modify (AMap.modify c2 (chunkEnd fresh) (fun c => { c with Prev := g.Ts })) g.Ts
             (fun c => { c with Next := chunkEnd fresh })
         else c2
       else c2) := by
  simp only [Add, AMap.has_eq, hnew, Option.isSome_none, Bool.false_eq_true, if_false]
  split_ifs <;> rfl

/-- The new chunk after `Add(prev, g)` of an uncached `g`. -/
theorem get?_Add_self (mc : CCacheMetric) (prev : Nat) (g : IterGen)
    (hnew : AMap.get? mc.chunks g.Ts = none) :
    AMap.get? (Add mc prev g).chunks g.Ts = some
      { Ts := g.Ts
        Prev := if prev = g.Ts ∨ (AMap.get? mc.chunks prev).isSome = true then prev else 0
        Next := if g.Ts < chunkEnd ⟨g.Ts, 0, 0, g⟩ ∧
                  (AMap.get? mc.chunks (chunkEnd ⟨g.Ts, 0, 0, g⟩)).isSome = true
                then chunkEnd ⟨g.Ts, 0, 0, g⟩
                else if prev = g.Ts then g.Ts else 0
        Itgen := g } := by
  rw [Add_chunks_new mc prev g hnew]
  simp only []
  generalize chunkEnd ⟨g.Ts, 0, 0, g⟩ = e
  rcases Nat.lt_or_ge g.Ts e with he | he
  · have hne : e ≠ g.Ts := by omega
    have hne2 : g.Ts ≠ e := by omega
    by_cases hp : prev = g.Ts
    · subst hp
      by_cases h2 : (AMap.get? mc.chunks e).isSome = true <;>
        simp_all [AMap.get?_modify, AMap.get?_set, AMap.has_eq]
    · have hp2 : g.Ts ≠ prev := fun h => hp h.symm
      by_cases hq : (AMap.get? mc.chunks prev).isSome = true <;>
        by_cases h2 : (AMap.get? mc.chunks e).isSome = true <;> by_cases hep : e = prev <;>
        simp_all [AMap.get?_modify, AMap.get?_set, AMap.has_eq]
  · have he2 : ¬ (e > g.Ts) := by omega
    have he3 : ¬ (g.Ts < e) := by omega
    rw [if_neg he2]
    by_cases hp : prev = g.Ts
    · subst hp
      simp [AMap.get?_modify, AMap.get?_set, AMap.has_eq, he3]
    · have hp2 : g.Ts ≠ prev := fun h => hp h.symm
      by_cases hq : (AMap.get? mc.chunks prev).isSome = true <;>
        simp [AMap.get?_modify, AMap.get?_set, AMap.has_eq, he3, hp, hp2, hq]

/-- The other chunks after `Add(prev, g)` of an uncached `g`. -/
theorem get?_Add_other (mc : CCacheMetric) (prev : Nat) (g : IterGen) (k : Nat)
    (hnew : AMap.get? mc.chunks g.Ts = none) (hk : k ≠ g.Ts) :
    AMap.get? (Add mc prev g).chunks k = (AMap.get? mc.chunks k).map (fun c =>
      { c with
        Next := if k = prev then g.Ts else c.Next
        Prev := if g.Ts < chunkEnd ⟨g.Ts, 0, 0, g⟩ ∧ k = chunkEnd ⟨g.Ts, 0, 0, g⟩
                then g.Ts else c.Prev }) := by
  rw [Add_chunks_new mc prev g hnew]
  simp only []
  generalize chunkEnd ⟨g.Ts, 0, 0, g⟩ = e
  cases hgk : AMap.get? mc.chunks k with
  | none =>
    split_ifs <;> simp_all [AMap.get?_modify, AMap.get?_set, AMap.has_eq]
  | some c =>
    split_ifs <;>
      simp_all [AMap.get?_modify, AMap.get?_set, AMap.has_eq]

theorem has_modify (m : AMap Nat CCacheChunk) (x y : Nat) (f : CCacheChunk → CCacheChunk) :
    AMap.has (AMap.modify m x f) y = AMap.has m y := by
  simp only [AMap.has_eq, AMap.get?_modify]
  split_ifs <;> simp

theorem Del_of_absent (mc : CCacheMetric) (ts : Nat)
    (h : AMap.get? mc.chunks ts = none) : (Del mc ts).1 = mc := by
  simp [Del, h]

theorem Del_chunks (mc : CCacheMetric) (ts : Nat) (c : CCacheChunk)
    (hc : AMap.get? mc.chunks ts = some c) :
    (Del mc ts).1.chunks =
      AMap.erase
        (if c.Next ≠ 0 ∧ AMap.has mc.chunks c.Next = true then
          AMap.modify
            (if c.Prev ≠ 0 ∧ AMap.has mc.chunks c.Prev = true then
              AMap.modify mc.chunks c.Prev (fun d => { d with Next := 0 })
            else mc.chunks) c.Next (fun d => { d with Prev := 0 })
        else
          (if c.Prev ≠ 0 ∧ AMap.has mc.chunks c.Prev = true then
              AMap.modify mc.chunks c.Prev (fun d => { d with Next := 0 })
            else mc.chunks)) ts := by
  simp only [Del, hc]
  by_cases hA : c.Prev ≠ 0 ∧ AMap.has mc.chunks c.Prev = true
  · simp only [if_pos hA, has_modify]
  · simp only [if_neg hA]

/-- The chunks after `Del(ts)` of a cached chunk `c`. -/
theorem get?_Del (mc : CCacheMetric) (ts k : Nat) (c : CCacheChunk)
    (hc : AMap.get? mc.chunks ts = some c) :
    AMap.get? (Del mc ts).1.chunks k =
      if k = ts then none
      else (AMap.get? mc.chunks k).map (fun d =>
        { d with
          Next := if c.Prev ≠ 0 ∧ k = c.Prev then 0 else d.Next
          Prev := if c.Next ≠ 0 ∧ k = c.Next then 0 else d.Prev }) := by
  rw [Del_chunks mc ts c hc]
  generalize c.Prev = p
  generalize c.Next = n
  by_cases hk : k = ts
  · simp [AMap.get?_erase, hk]
  · rw [AMap.get?_erase, if_neg hk, if_neg hk]
    cases hgk : AMap.get? mc.chunks k with
    | none =>
      split_ifs <;> simp_all [AMap.get?_modify]
    | some d =>
      have hkk : AMap.has mc.chunks k = true := by simp [AMap.has_eq, hgk]
      by_cases h3 : k = p
      · subst h3
        by_cases h4 : k = n
        · subst h4
          by_cases h1 : k = 0
          · simp [h1, hgk]
            simpa [h1] using hgk
          · simp [h1, hkk, AMap.get?_modify, hgk]
        · have h4b : ¬ n = k := fun h => h4 h.symm
          by_cases h1 : k = 0
          · subst h1
            split_ifs <;> simp_all [AMap.get?_modify]
          · split_ifs <;> simp_all [AMap.get?_modify]
      · have h3b : ¬ p = k := fun h => h3 h.symm
        by_cases h4 : k = n
        · subst h4
          by_cases h1 : k = 0
          · subst h1
            split_ifs <;> simp_all [AMap.get?_modify]
          · split_ifs <;> simp_all [AMap.get?_modify]
        · have h4b : ¬ n = k := fun h => h4 h.symm
          split_ifs <;> simp_all [AMap.get?_modify]

end Cache

/-! ## The chunk cache: a run of consecutive chunks -/

namespace Cache

theorem run_append_one (ops : List Op) (op : Op) : run (ops ++ [op]) = step (run ops) op := by
  simp [run, runFrom, List.foldl_append]

theorem idx_lt (t s i j : Nat) (hs : 0 < s) (h : i < j) : t + i * s < t + j * s := by
  have := Nat.mul_lt_mul_of_pos_right h hs
  omega

theorem idx_inj (t s i j : Nat) (hs : 0 < s) (h : t + i * s = t + j * s) : i = j := by
  rcases Nat.lt_trichotomy i j with h1 | h1 | h1
  · have := idx_lt t s i j hs h1; omega
  · exact h1
  · have := idx_lt t s j i hs h1; omega

theorem chunkEnd_span (c : CCacheChunk) (k s : Nat) (hs : 0 < s) (h1 : c.Ts = k)
    (h2 : c.Itgen = ⟨k, s⟩) (h3 : k + s < u32) : chunkEnd c = k + s := by
  have h4 : c.Itgen.Span = s := by rw [h2]
  unfold chunkEnd
  rw [if_pos (by omega), h1, h4]
  exact Nat.mod_eq_of_lt h3

/-- The state after `consecutiveOps t s p0 n`: the chunk `i` is stored under
`t + i*s`, points forward to the chunk `i+1`, the last one points nowhere, and
there are no other keys. -/
theorem consecutive_state (t s p0 : Nat) (hs : 0 < s) :
    ∀ n, 1 ≤ n → t + n * s < u32 →
      (∀ i, i < n → ∃ c, AMap.get? (run (consecutiveOps t s p0 n)).chunks (t + i * s) = some c
          ∧ c.Ts = t + i * s ∧ c.Itgen = ⟨t + i * s, s⟩
          ∧ (i + 1 < n → c.Next = t + (i + 1) * s)
          ∧ (i + 1 = n → (p0 ≠ t ∨ 2 ≤ n) → c.Next = 0))
      ∧ (∀ k, (AMap.get? (run (consecutiveOps t s p0 n)).chunks k).isSome = true →
          ∃ i, i < n ∧ k = t + i * s) := by
  intro n
  induction n with
  | zero => intro h; omega
  | succ m ih =>
    intro _ hb
    cases m with
    | zero =>
      have hrun : (run (consecutiveOps t s p0 1)).chunks
          = (Add NewCCacheMetric p0 ⟨t, s⟩).chunks := rfl
      have hnew : AMap.get? NewCCacheMetric.chunks (⟨t, s⟩ : IterGen).Ts = none := rfl
      rw [hrun]
      constructor
      · intro i hi
        have hi0 : i = 0 := by omega
        subst hi0
        have := get?_Add_self NewCCacheMetric p0 ⟨t, s⟩ hnew
        simp only [Nat.zero_mul, Nat.add_zero]
        refine ⟨_, this, rfl, rfl, by omega, ?_⟩
        intro _ hp
        have hp' : p0 ≠ t := by omega
        simp [NewCCacheMetric, AMap.get?, hp']
      · intro k hk
        refine ⟨0, by omega, ?_⟩
        by_contra hne
        have hne' : k ≠ (⟨t, s⟩ : IterGen).Ts := by simpa using hne
        rw [get?_Add_other NewCCacheMetric p0 ⟨t, s⟩ k hnew hne'] at hk
        simp [NewCCacheMetric, AMap.get?] at hk
    | succ m =>
      have hsm : (m + 1 + 1) * s = (m + 1) * s + s := Nat.succ_mul _ _
      have hsm1 : (m + 1) * s = m * s + s := Nat.succ_mul _ _
      obtain ⟨ihA, ihK⟩ := ih (by omega) (by omega)
      have hrun : run (consecutiveOps t s p0 (m + 1 + 1))
          = Add (run (consecutiveOps t s p0 (m + 1))) (t + m * s) ⟨t + (m + 1) * s, s⟩ := by
        show run (consecutiveOps t s p0 (m + 1) ++ [_]) = _
        rw [run_append_one]; rfl
      rw [hrun]
      have absent : ∀ j, m + 1 ≤ j →
          AMap.get? (run (consecutiveOps t s p0 (m + 1))).chunks (t + j * s) = none := by
        intro j hj
        by_contra hne
        obtain ⟨i, hi, hik⟩ := ihK _ (Option.ne_none_iff_isSome.mp hne)
        have := idx_inj t s j i hs hik
        omega
      have hnew : AMap.get? (run (consecutiveOps t s p0 (m + 1))).chunks
          (⟨t + (m + 1) * s, s⟩ : IterGen).Ts = none := absent (m + 1) (le_refl _)
      have hfresh : chunkEnd ⟨t + (m + 1) * s, 0, 0, ⟨t + (m + 1) * s, s⟩⟩
          = t + (m + 1 + 1) * s := by
        rw [chunkEnd_span _ (t + (m + 1) * s) s hs rfl rfl (by omega)]; omega
      constructor
      · intro i hi
        by_cases hlast : i = m + 1
        · subst hlast
          have h := get?_Add_self _ (t + m * s) ⟨t + (m + 1) * s, s⟩ hnew
          refine ⟨_, h, rfl, rfl, by omega, ?_⟩
          intro _ _
          simp only [hfresh]
          have h1 : AMap.get? (run (consecutiveOps t s p0 (m + 1))).chunks
              (t + (m + 1 + 1) * s) = none := absent (m + 1 + 1) (by omega)
          have h2 : ¬ (t + m * s = t + (m + 1) * s) := by omega
          simp [h1, h2]
        · have hi' : i < m + 1 := by omega
          obtain ⟨c, hc, hTs, hI, hN, _⟩ := ihA i hi'
          have hne : t + i * s ≠ (⟨t + (m + 1) * s, s⟩ : IterGen).Ts := by
            intro h
            have := idx_inj t s i (m + 1) hs h
            omega
          have h := get?_Add_other _ (t + m * s) ⟨t + (m + 1) * s, s⟩ (t + i * s) hnew hne
          rw [hc] at h
          refine ⟨_, h, hTs, hI, ?_, by omega⟩
          intro _
          by_cases him : i = m
          · subst him; simp
          · have h3 : ¬ (t + i * s = t + m * s) := fun h => him (idx_inj t s i m hs h)
            simp only [h3, if_false]
            exact hN (by omega)
      · intro k hk
        by_cases hkn : k = t + (m + 1) * s
        · exact ⟨m + 1, by omega, hkn⟩
        · rw [get?_Add_other _ (t + m * s) ⟨t + (m + 1) * s, s⟩ k hnew hkn] at hk
          obtain ⟨i, hi, hik⟩ := ihK k (by simpa using hk)
          exact ⟨i, by omega, hik⟩

end Cache

namespace Cache

theorem seekAsc_min (mc : CCacheMetric) (x t : Nat) (c : CCacheChunk) :
    ∀ l : List Nat, List.Sorted (fun a b => a ≤ b) l → t ∈ l → (∀ k ∈ l, t ≤ k) →
      AMap.get? mc.chunks t = some c → t ≤ x → x < chunkEnd c →
      seekAsc mc x l = .ok (t, true) := by
  intro l hsorted hmem hmin hc h1 h2
  cases l with
  | nil => simp at hmem
  | cons h rest =>
    have hle : t ≤ h := hmin h (List.mem_cons_self _ _)
    have hge : h ≤ t := by
      rcases List.mem_cons.mp hmem with e | e
      · omega
      · exact List.rel_of_sorted_cons hsorted t e
    have : h = t := by omega
    subst this
    simp [seekAsc, h1, endTs, hc, h2]

theorem seekDescLoop_none (mc : CCacheMetric) (U : Nat) (l : List Nat)
    (h : ∀ k ∈ l, ∃ c, AMap.get? mc.chunks k = some c ∧ chunkEnd c ≤ U) :
    seekDescLoop mc U l = .ok (0, false) := by
  cases l with
  | nil => rfl
  | cons k rest =>
    obtain ⟨c, hc, he⟩ := h k (List.mem_cons_self _ _)
    have : ¬ (chunkEnd c > U) := by omega
    simp [seekDescLoop, endTs, hc, this]

/-- The forward walk over a run of consecutive chunks that ends before `U`: started
at the chunk `i` it appends the chunks `i, i+1, ..., n-1` and stops at the end of
the run. -/
theorem forwardLoop_consecutive (mc : CCacheMetric) (t s n U : Nat) (ht : 0 < t) (hs : 0 < s)
    (hU : t + n * s < U) (hb : t + n * s < u32)
    (hA : ∀ i, i < n → ∃ c, AMap.get? mc.chunks (t + i * s) = some c
          ∧ c.Ts = t + i * s ∧ c.Itgen = ⟨t + i * s, s⟩
          ∧ (i + 1 < n → c.Next = t + (i + 1) * s)
          ∧ (i + 1 = n → c.Next = 0)) :
    ∀ (j i fuel : Nat) (res : CCSearchResult), i + j + 1 = n → j + 1 ≤ fuel →
      forwardLoop mc U fuel (t + i * s) res =
        .ok { res with
              Start := res.Start ++ (List.range' i (j + 1)).map (fun x => ⟨t + x * s, s⟩)
              From := t + n * s } := by
  intro j
  induction j with
  | zero =>
    intro i fuel res hi hf
    obtain ⟨c, hc, hTs, hI, _, hN⟩ := hA i (by omega)
    have hne : ¬ (t + i * s = 0) := by omega
    have hsm : (i + 1) * s = i * s + s := Nat.succ_mul _ _
    have hin : i + 1 = n := by omega
    have hend : chunkEnd c = t + n * s := by
      rw [chunkEnd_span c (t + i * s) s hs hTs hI (by rw [← hin] at hb; omega), ← hin]; omega
    have hnot : ¬ (t + n * s ≥ U) := by omega
    obtain ⟨f, rfl⟩ : ∃ f, fuel = f + 1 := ⟨fuel - 1, by omega⟩
    simp [forwardLoop, hne, hc, hend, hnot, hN hin, forwardLoop_zero, hI]
  | succ j ih =>
    intro i fuel res hi hf
    obtain ⟨c, hc, hTs, hI, hN, _⟩ := hA i (by omega)
    have hne : ¬ (t + i * s = 0) := by omega
    have hsm : (i + 1) * s = i * s + s := Nat.succ_mul _ _
    have hlt := idx_lt t s (i + 1) n hs (by omega)
    have hend : chunkEnd c = t + (i + 1) * s := by
      rw [chunkEnd_span c (t + i * s) s hs hTs hI (by omega)]; omega
    have hnot : ¬ (t + (i + 1) * s ≥ U) := by omega
    obtain ⟨f, rfl⟩ : ∃ f, fuel = f + 1 := ⟨fuel - 1, by omega⟩
    have hrec := ih (i + 1) f
      { res with Start := res.Start ++ [c.Itgen], From := chunkEnd c } (by omega) (by omega)
    simp only [forwardLoop, hne, if_false, hc, hend, hnot, hN (by omega)]
    rw [hend] at hrec
    rw [hrec, hI]
    simp [List.range'_succ (s := i)]

/-- C3, as amended.  A cache filled by `Init` with the chunk at `t >= 1` and then by
`Add` with `n - 1` further consecutive chunks of span `s`, each naming its
predecessor as `prev` (the `prev` of the `Init` being anything but `t` itself, unless
`n >= 2`), queried with `t <= from < t + s` and `until - 1 > t + n*s`: `Search`
returns `Start` = all `n` chunks in ascending order, `Complete = false` and
`From = t + n*s`. -/
theorem partial_hit (t s p0 n from_ until_ fuel : Nat) (res : CCSearchResult)
    (ht : 1 ≤ t) (hp : p0 ≠ t ∨ 2 ≤ n) (hn : 1 ≤ n)
    (h1 : t ≤ from_) (h2 : from_ < t + s) (h3 : t + n * s < until_ - 1) (hu : until_ < u32)
    (hfuel : n ≤ fuel) (hC : res.Complete = false) (hS : res.Start = []) :
    ∃ r, Search fuel (run (consecutiveOps t s p0 n)) res from_ until_ = .ok r
      ∧ r.Start = consecutiveChunks t s n ∧ r.Complete = false ∧ r.From = t + n * s := by
  have hs : 0 < s := by omega
  have hb : t + n * s < u32 := by omega
  obtain ⟨hA, hK⟩ := consecutive_state t s p0 hs n hn hb
  generalize hmc : run (consecutiveOps t s p0 n) = mc at hA hK
  have hU : (until_ + u32 - 1) % u32 = until_ - 1 := by unfold u32 at *; omega
  obtain ⟨c0, hc0, hTs0, hI0, _, _⟩ := hA 0 (by omega)
  simp only [Nat.zero_mul, Nat.add_zero] at hc0 hTs0 hI0
  have hlen : ¬ (mc.chunks.length < 1) := by
    intro h
    have : mc.chunks = [] := List.length_eq_zero.mp (by omega)
    rw [this] at hc0; simp [AMap.get?] at hc0
  have hseek : seekAsc mc from_ (sortedTs mc) = .ok (t, true) := by
    apply seekAsc_min mc from_ t c0 _ (List.sorted_insertionSort _ _)
    · exact (mem_sortedTs mc t).mpr (by simp [hc0])
    · intro k hk
      obtain ⟨i, _, hik⟩ := hK k ((mem_sortedTs mc k).mp hk)
      omega
    · exact hc0
    · exact h1
    · rw [chunkEnd_span c0 t s hs hTs0 hI0 (by
        have := idx_lt t s 0 n hs (by omega)
        have h1s : 1 * s ≤ n * s := Nat.mul_le_mul_right s hn
        omega)]
      exact h2
  have hA' : ∀ i, i < n → ∃ c, AMap.get? mc.chunks (t + i * s) = some c
          ∧ c.Ts = t + i * s ∧ c.Itgen = ⟨t + i * s, s⟩
          ∧ (i + 1 < n → c.Next = t + (i + 1) * s)
          ∧ (i + 1 = n → c.Next = 0) := by
    intro i hi
    obtain ⟨c, h1, h2, h3, h4, h5⟩ := hA i hi
    exact ⟨c, h1, h2, h3, h4, fun h => h5 h hp⟩
  have hfwd := forwardLoop_consecutive mc t s n (until_ - 1) (by omega) hs h3 hb hA'
    (n - 1) 0 fuel res (by omega) (by omega)
  simp only [Nat.zero_mul, Nat.add_zero] at hfwd
  have hdesc : seekDesc mc (until_ - 1) (sortedTs mc) = .ok (0, false) := by
    apply seekDescLoop_none
    intro k hk
    obtain ⟨i, hi, hik⟩ := hK k ((mem_sortedTs mc k).mp (List.mem_reverse.mp hk))
    obtain ⟨c, hc, hTs, hI, _, _⟩ := hA i hi
    subst hik
    refine ⟨c, hc, ?_⟩
    have hsm : (i + 1) * s = i * s + s := Nat.succ_mul _ _
    have hle : (i + 1) * s ≤ n * s := Nat.mul_le_mul_right s (by omega)
    rw [chunkEnd_span c (t + i * s) s hs hTs hI (by omega)]
    omega
  refine ⟨{ res with
            Start := res.Start ++ (List.range' 0 (n - 1 + 1)).map (fun x => ⟨t + x * s, s⟩)
            From := t + n * s }, ?_, ?_, hC, rfl⟩
  · simp [Search, hlen, hU, searchForward, hseek, hfwd, hC, searchBackward, hdesc]
  · have hn1 : n - 1 + 1 = n := by omega
    simp [hS, hn1, consecutiveChunks, List.range_eq_range']

/-- C3, witness: the cache `{600, 1200}` of span 600 queried for `[600, 2500)`. -/
theorem partial_hit_witness :
    ∃ r, Search 2 (run (consecutiveOps 600 600 0 2)) ⟨false, [], 600, [], 2500⟩ 600 2500 = .ok r
      ∧ r.Start = consecutiveChunks 600 600 2 ∧ r.Complete = false ∧ r.From = 600 + 2 * 600 :=
  partial_hit 600 600 0 2 600 2500 2 ⟨false, [], 600, [], 2500⟩ (by decide) (by decide)
    (by decide) (by decide) (by decide) (by decide) (by decide) (by decide) rfl rfl

end Cache

/-! ## The chunk cache: link symmetry -/

namespace Cache

theorem symmetric_new : Symmetric NewCCacheMetric ∧ AMap.get? NewCCacheMetric.chunks 0 = none := by
  refine ⟨?_, rfl⟩
  intro k c h
  simp [NewCCacheMetric, AMap.get?] at h

/-- `Add` of a chunk that overwrites no link keeps the links symmetric. -/
theorem symmetric_Add (mc : CCacheMetric) (prev : Nat) (g : IterGen)
    (hS : Symmetric mc) (h0 : AMap.get? mc.chunks 0 = none)
    (hF : AMap.has mc.chunks g.Ts = false → freshLinks mc prev g) :
    Symmetric (Add mc prev g) ∧ AMap.get? (Add mc prev g).chunks 0 = none := by
  cases hnew : AMap.get? mc.chunks g.Ts with
  | some c0 =>
    rw [Add_of_has mc prev g (by simp [hnew])]
    exact ⟨hS, h0⟩
  | none =>
    obtain ⟨hts0, hpts, hP, hE⟩ := hF (by simp [AMap.has_eq, hnew])
    have hself := get?_Add_self mc prev g hnew
    have hother := fun k hk => get?_Add_other mc prev g k hnew hk
    generalize chunkEnd ⟨g.Ts, 0, 0, g⟩ = e at hE hself hother
    constructor
    · intro k c' hk
      by_cases hkts : k = g.Ts
      · subst hkts
        rw [hself] at hk
        cases hk
        refine ⟨rfl, ?_, ?_⟩
        · intro hne
          by_cases hcond : g.Ts < e ∧ (AMap.get? mc.chunks e).isSome = true
          · obtain ⟨hlt, hsome⟩ := hcond
            obtain ⟨x, hx⟩ := Option.isSome_iff_exists.mp hsome
            have hne2 : e ≠ g.Ts := by omega
            refine ⟨_, by simp only [hlt, hsome, and_self, if_true]; rw [hother e hne2, hx]; rfl, ?_⟩
            simp [hlt]
          · simp [hcond, hpts] at hne
        · intro hne
          by_cases hcond : (AMap.get? mc.chunks prev).isSome = true
          · obtain ⟨p, hp⟩ := Option.isSome_iff_exists.mp hcond
            refine ⟨_, by simp only [hcond, or_true, if_true]; rw [hother prev hpts, hp]; rfl, ?_⟩
            simp
          · simp [hcond, hpts] at hne
      · rw [hother k hkts] at hk
        cases hck : AMap.get? mc.chunks k with
        | none => rw [hck] at hk; simp at hk
        | some c =>
          rw [hck] at hk
          simp only [Option.map_some', Option.some.injEq] at hk
          subst hk
          obtain ⟨hTs, hN, hPv⟩ := hS k c hck
          have hk0 : k ≠ 0 := by intro h; subst h; rw [h0] at hck; cases hck
          refine ⟨hTs, ?_, ?_⟩
          · intro hne
            by_cases hkp : k = prev
            · subst hkp
              refine ⟨_, by simp only [if_true]; exact hself, ?_⟩
              simp [hck, hTs]
            · simp only [hkp, if_false] at hne ⊢
              obtain ⟨d, hd, hdp⟩ := hN hne
              have hnts : c.Next ≠ g.Ts := by intro h; rw [h, hnew] at hd; cases hd
              refine ⟨_, by rw [hother c.Next hnts, hd]; rfl, ?_⟩
              by_cases hce : g.Ts < e ∧ c.Next = e
              · have := hE hce.1 d (by rw [← hce.2]; exact hd)
                exfalso; apply hk0; rw [← hTs, ← hdp, this]
              · simp only [hce, if_false]; exact hdp
          · intro hne
            by_cases hke : g.Ts < e ∧ k = e
            · obtain ⟨hlt, hke2⟩ := hke
              subst hke2
              refine ⟨_, by simp only [hlt, and_self, if_true]; exact hself, ?_⟩
              simp [hck, hlt, hTs]
            · simp only [hke, if_false] at hne ⊢
              obtain ⟨d, hd, hdn⟩ := hPv hne
              have hnts : c.Prev ≠ g.Ts := by intro h; rw [h, hnew] at hd; cases hd
              refine ⟨_, by rw [hother c.Prev hnts, hd]; rfl, ?_⟩
              by_cases hcp : c.Prev = prev
              · have := hP d (by rw [← hcp]; exact hd)
                exfalso; apply hk0; rw [← hTs, ← hdn, this]
              · simp only [hcp, if_false]; exact hdn
    · rw [hother 0 (Ne.symm hts0), h0]; rfl

end Cache

namespace Cache

/-- `Del` keeps the links symmetric (in a cache that holds no chunk under key 0). -/
theorem symmetric_Del (mc : CCacheMetric) (ts : Nat)
    (hS : Symmetric mc) (h0 : AMap.get? mc.chunks 0 = none) :
    Symmetric (Del mc ts).1 ∧ AMap.get? (Del mc ts).1.chunks 0 = none := by
  cases hc : AMap.get? mc.chunks ts with
  | none => rw [Del_of_absent mc ts hc]; exact ⟨hS, h0⟩
  | some c =>
    have hget := fun k => get?_Del mc ts k c hc
    obtain ⟨hcTs, hcN, hcP⟩ := hS ts c hc
    constructor
    · intro k d' hk
      rw [hget k] at hk
      by_cases hkts : k = ts
      · simp [hkts] at hk
      · rw [if_neg hkts] at hk
        cases hdk : AMap.get? mc.chunks k with
        | none => rw [hdk] at hk; simp at hk
        | some d =>
          rw [hdk] at hk
          simp only [Option.map_some', Option.some.injEq] at hk
          subst hk
          obtain ⟨hTs, hN, hPv⟩ := hS k d hdk
          have hk0 : k ≠ 0 := by intro h; subst h; rw [h0] at hdk; cases hdk
          refine ⟨hTs, ?_, ?_⟩
          · intro hne
            by_cases hkp : c.Prev ≠ 0 ∧ k = c.Prev
            · simp [hkp] at hne
            · simp only [hkp, if_false] at hne ⊢
              obtain ⟨x, hx, hxp⟩ := hN hne
              have hnts : d.Next ≠ ts := by
                intro h
                rw [h, hc] at hx
                cases hx
                apply hkp
                rw [hxp, hTs]
                exact ⟨hk0, rfl⟩
              refine ⟨_, by rw [hget d.Next, if_neg hnts, hx]; rfl, ?_⟩
              by_cases hdn : c.Next ≠ 0 ∧ d.Next = c.Next
              · exfalso
                obtain ⟨y, hy, hyp⟩ := hcN hdn.1
                rw [← hdn.2, hx] at hy
                cases hy
                apply hkts
                rw [← hTs, ← hxp, hyp, hcTs]
              · simp only [hdn, if_false]; exact hxp
          · intro hne
            by_cases hkn : c.Next ≠ 0 ∧ k = c.Next
            · simp [hkn] at hne
            · simp only [hkn, if_false] at hne ⊢
              obtain ⟨x, hx, hxn⟩ := hPv hne
              have hnts : d.Prev ≠ ts := by
                intro h
                rw [h, hc] at hx
                cases hx
                apply hkn
                rw [hxn, hTs]
                exact ⟨hk0, rfl⟩
              refine ⟨_, by rw [hget d.Prev, if_neg hnts, hx]; rfl, ?_⟩
              by_cases hdp : c.Prev ≠ 0 ∧ d.Prev = c.Prev
              · exfalso
                obtain ⟨y, hy, hyn⟩ := hcP hdp.1
                rw [← hdp.2, hx] at hy
                cases hy
                apply hkts
                rw [← hTs, ← hxn, hyn, hcTs]
              · simp only [hdp, if_false]; exact hxn
    · rw [hget 0, h0]; split_ifs <;> rfl

theorem symmetric_runFrom (ops : List Op) :
    ∀ mc : CCacheMetric, Symmetric mc → AMap.get? mc.chunks 0 = none → disciplined mc ops →
      Symmetric (runFrom mc ops) ∧ AMap.get? (runFrom mc ops).chunks 0 = none := by
  induction ops with
  | nil => intro mc hS h0 _; exact ⟨hS, h0⟩
  | cons op rest ih =>
    intro mc hS h0 hd
    cases op with
    | init prev g =>
      obtain ⟨hF, hrest⟩ := hd
      have h := symmetric_Add mc prev g hS h0 hF
      have hchunks : (Init mc prev g).chunks = (Add mc prev g).chunks := rfl
      have hS' : Symmetric (Init mc prev g) := by
        intro k c hk
        rw [hchunks] at hk
        exact h.1 k c hk
      exact ih (Init mc prev g) hS' (by rw [hchunks]; exact h.2) hrest
    | add prev g =>
      obtain ⟨hF, hrest⟩ := hd
      have h := symmetric_Add mc prev g hS h0 hF
      exact ih (Add mc prev g) h.1 h.2 hrest
    | del ts =>
      have h := symmetric_Del mc ts hS h0
      exact ih (Del mc ts).1 h.1 h.2 hd

/-- C5, as amended.  In every cache state reached from `NewCCacheMetric` by `Init`,
`Add` and `Del` calls in which no `Add` overwrites an existing link or uses the
sentinel 0 as a key (`disciplined`), the links are symmetric: every cached chunk
with `Next != 0` has `chunks[Next]` present with `Prev` equal to its own `Ts`, and
every cached chunk with `Prev != 0` has `chunks[Prev]` present with `Next` equal to
its own `Ts`. -/
theorem link_symmetry (ops : List Op) (hd : disciplined NewCCacheMetric ops) :
    ∀ k c, AMap.get? (run ops).chunks k = some c →
      c.Ts = k
      ∧ (c.Next ≠ 0 → ∃ d, AMap.get? (run ops).chunks c.Next = some d ∧ d.Prev = c.Ts)
      ∧ (c.Prev ≠ 0 → ∃ d, AMap.get? (run ops).chunks c.Prev = some d ∧ d.Next = c.Ts) :=
  (symmetric_runFrom ops NewCCacheMetric symmetric_new.1 symmetric_new.2 hd).1

/-- C8, as amended.  In a cache with symmetric links that holds no chunk under the
key 0, after `Del(t)` with `t != 0` no remaining chunk has `Prev == t` or
`Next == t`. -/
theorem no_dangling_after_del (mc : CCacheMetric) (t : Nat) (hS : Symmetric mc)
    (h0 : AMap.get? mc.chunks 0 = none) (ht : t ≠ 0) :
    ∀ k c, AMap.get? (Del mc t).1.chunks k = some c → c.Prev ≠ t ∧ c.Next ≠ t := by
  intro k c hk
  have hsym := (symmetric_Del mc t hS h0).1 k c hk
  obtain ⟨_, hN, hP⟩ := hsym
  have hgone : AMap.get? (Del mc t).1.chunks t = none := by
    cases hc : AMap.get? mc.chunks t with
    | none => rw [Del_of_absent mc t hc]; exact hc
    | some c0 => rw [get?_Del mc t t c0 hc]; simp
  constructor
  · intro h
    obtain ⟨d, hd, _⟩ := hP (by rw [h]; exact ht)
    rw [h, hgone] at hd; cases hd
  · intro h
    obtain ⟨d, hd, _⟩ := hN (by rw [h]; exact ht)
    rw [h, hgone] at hd; cases hd

end Cache

namespace Cache

/-- C5, witness: the chunk at 1200 in the cache built by `Init(600)`,
`Add(600 -> 1200)`, `Add(1200 -> 1800)`. -/
theorem link_symmetry_witness :
    disciplined NewCCacheMetric
        [.init 0 ⟨600, 600⟩, .add 600 ⟨1200, 600⟩, .add 1200 ⟨1800, 600⟩]
      ∧ AMap.get? (run [.init 0 ⟨600, 600⟩, .add 600 ⟨1200, 600⟩,
          .add 1200 ⟨1800, 600⟩]).chunks 1200 = some ⟨1200, 600, 1800, ⟨1200, 600⟩⟩
      ∧ ((⟨1200, 600, 1800, ⟨1200, 600⟩⟩ : CCacheChunk).Ts = 1200
        ∧ ((⟨1200, 600, 1800, ⟨1200, 600⟩⟩ : CCacheChunk).Next ≠ 0 →
            ∃ d, AMap.get? (run [.init 0 ⟨600, 600⟩, .add 600 ⟨1200, 600⟩,
              .add 1200 ⟨1800, 600⟩]).chunks (⟨1200, 600, 1800, ⟨1200, 600⟩⟩ : CCacheChunk).Next
                = some d ∧ d.Prev = (⟨1200, 600, 1800, ⟨1200, 600⟩⟩ : CCacheChunk).Ts)
        ∧ ((⟨1200, 600, 1800, ⟨1200, 600⟩⟩ : CCacheChunk).Prev ≠ 0 →
            ∃ d, AMap.get? (run [.init 0 ⟨600, 600⟩, .add 600 ⟨1200, 600⟩,
              .add 1200 ⟨1800, 600⟩]).chunks (⟨1200, 600, 1800, ⟨1200, 600⟩⟩ : CCacheChunk).Prev
                = some d ∧ d.Next = (⟨1200, 600, 1800, ⟨1200, 600⟩⟩ : CCacheChunk).Ts)) :=
  ⟨by decide, by decide,
    link_symmetry [.init 0 ⟨600, 600⟩, .add 600 ⟨1200, 600⟩, .add 1200 ⟨1800, 600⟩]
      (by decide) 1200 ⟨1200, 600, 1800, ⟨1200, 600⟩⟩ (by decide)⟩

/-- C8, witness: deleting the middle chunk of `600 -> 1200 -> 1800`; the chunk at
600 that remains no longer points at 1200. -/
theorem no_dangling_after_del_witness :
    Symmetric (run [.init 0 ⟨600, 600⟩, .add 600 ⟨1200, 600⟩, .add 1200 ⟨1800, 600⟩])
      ∧ AMap.get? (run [.init 0 ⟨600, 600⟩, .add 600 ⟨1200, 600⟩,
          .add 1200 ⟨1800, 600⟩]).chunks 0 = none
      ∧ (1200 : Nat) ≠ 0
      ∧ AMap.get? (Del (run [.init 0 ⟨600, 600⟩, .add 600 ⟨1200, 600⟩,
          .add 1200 ⟨1800, 600⟩]) 1200).1.chunks 600 = some ⟨600, 0, 0, ⟨600, 600⟩⟩
      ∧ ((⟨600, 0, 0, ⟨600, 600⟩⟩ : CCacheChunk).Prev ≠ 1200
          ∧ (⟨600, 0, 0, ⟨600, 600⟩⟩ : CCacheChunk).Next ≠ 1200) :=
  ⟨(symmetric_runFrom _ NewCCacheMetric symmetric_new.1 symmetric_new.2 (by decide)).1,
    by decide, by decide, by decide,
    no_dangling_after_del
      (run [.init 0 ⟨600, 600⟩, .add 600 ⟨1200, 600⟩, .add 1200 ⟨1800, 600⟩]) 1200
      (symmetric_runFrom _ NewCCacheMetric symmetric_new.1 symmetric_new.2 (by decide)).1
      (by decide) (by decide) 600 ⟨600, 0, 0, ⟨600, 600⟩⟩ (by decide)⟩

end Cache

/-! ## The chunk cache: `Add` followed by `Del` -/

namespace Cache

/-- C7, as amended.  For every cache `mc` and every chunk `g` whose `T0` is not a key
of `mc`, `Add(prev, g)` followed by `Del(g.T0)` gives back the same keys with the same
`Ts` and handle; and it gives back the same map, pointers included, provided the `Add`
overwrote no link: the chunk at `prev`, if cached, has `prev != 0` and `Next == 0`
in `mc`, and the chunk at the end of `g`, if cached, has `Prev == 0` in `mc`. -/
theorem add_del_restores (mc : CCacheMetric) (prev : Nat) (g : IterGen)
    (hnew : AMap.get? mc.chunks g.Ts = none) :
    (∀ k, (AMap.get? (Del (Add mc prev g) g.Ts).1.chunks k).map (fun c => (c.Ts, c.Itgen))
        = (AMap.get? mc.chunks k).map (fun c => (c.Ts, c.Itgen)))
    ∧ (allAt mc prev (fun p => prev ≠ 0 ∧ p.Next = 0) →
        (g.Ts < chunkEnd ⟨g.Ts, 0, 0, g⟩ →
          allAt mc (chunkEnd ⟨g.Ts, 0, 0, g⟩) (fun e => e.Prev = 0)) →
        ∀ k, AMap.get? (Del (Add mc prev g) g.Ts).1.chunks k = AMap.get? mc.chunks k) := by
  have hself := get?_Add_self mc prev g hnew
  have hother := fun k hk => get?_Add_other mc prev g k hnew hk
  generalize chunkEnd ⟨g.Ts, 0, 0, g⟩ = e at hself hother ⊢
  have hdel := fun k => get?_Del (Add mc prev g) g.Ts k _ hself
  constructor
  · intro k
    rw [hdel k]
    by_cases hk : k = g.Ts
    · subst hk; simp [hnew]
    · rw [if_neg hk, hother k hk]
      cases AMap.get? mc.chunks k <;> simp
  · intro hP hE k
    rw [hdel k]
    by_cases hk : k = g.Ts
    · subst hk; simp [hnew]
    · rw [if_neg hk, hother k hk]
      cases hd : AMap.get? mc.chunks k with
      | none => rfl
      | some d =>
        simp only [Option.map_some', Option.some.injEq]
        have hprevts : k = prev → prev ≠ g.Ts := fun h => by rw [← h]; exact hk
        have hk0 : k = 0 → g.Ts ≠ 0 := fun h => by rw [← h]; exact fun h2 => hk h2.symm
        have hPd : prev = k → prev ≠ 0 ∧ d.Next = 0 := fun h => hP d (by rw [h]; exact hd)
        have hEd : g.Ts < e → e = k → d.Prev = 0 := fun h1 h2 => hE h1 d (by rw [h2]; exact hd)
        clear hdel hother hself hP hE
        by_cases hlt : g.Ts < e <;> by_cases hkeq : k = e <;> by_cases hkp : k = prev <;>
          by_cases hpt : prev = g.Ts <;>
          by_cases he2 : (AMap.get? mc.chunks e).isSome = true <;>
          by_cases hq : (AMap.get? mc.chunks prev).isSome = true
        all_goals
          first
          | (exfalso; omega)
          | (cases d
             simp only [hlt, if_true, if_false, true_and, false_and]
             simp_all
             try omega)

/-- C7, witness: the cache `{600}`, to which the chunk 1200 is added with
`prev = 600` and deleted again. -/
theorem add_del_restores_witness :
    AMap.get? (run [.init 0 ⟨600, 600⟩]).chunks (⟨1200, 600⟩ : IterGen).Ts = none
      ∧ allAt (run [.init 0 ⟨600, 600⟩]) 600 (fun p => 600 ≠ 0 ∧ p.Next = 0)
      ∧ allAt (run [.init 0 ⟨600, 600⟩]) (chunkEnd ⟨1200, 0, 0, ⟨1200, 600⟩⟩)
          (fun e => e.Prev = 0)
      ∧ AMap.get? (Del (Add (run [.init 0 ⟨600, 600⟩]) 600 ⟨1200, 600⟩) 1200).1.chunks 600
          = AMap.get? (run [.init 0 ⟨600, 600⟩]).chunks 600 :=
  ⟨by decide, by decide, by decide,
    (add_del_restores (run [.init 0 ⟨600, 600⟩]) 600 ⟨1200, 600⟩ (by decide)).2
      (by decide) (fun _ => by decide) 600⟩

end Cache

/-! ## The chunk store read path: results as lists of rows -/

namespace Store

theorem scanRows_length (be : Backend) (month : Nat) (rows : List (Nat × List Nat)) :
    ∀ iters : List Iter, (scanRows be month rows iters).2 = none →
      (scanRows be month rows iters).1.length = iters.length + rows.length := by
  induction rows with
  | nil => intro iters _; simp [scanRows]
  | cons r rest ih =>
    intro iters h
    obtain ⟨ts, b⟩ := r
    rw [scanRows] at h ⊢
    by_cases h1 : b.length < 2
    · rw [if_pos h1] at h; cases h
    · rw [if_neg h1] at h ⊢
      by_cases h2 : b.headD 0 ≠ be.FormatStandardGoTsz
      · rw [if_pos h2] at h; cases h
      · rw [if_neg h2] at h ⊢
        by_cases h3 : be.newIterator b.tail = false
        · rw [if_pos h3] at h; cases h
        · rw [if_neg h3] at h ⊢
          rw [ih _ h]; simp; omega

theorem gather_length (be : Backend) (l : List outcome) :
    ∀ iters : List Iter, (gather be l iters).2 = none →
      ∀ o ∈ l, o.i.rows.length ≤ (gather be l iters).1.length := by
  induction l with
  | nil => intro iters _ o ho; simp at ho
  | cons o1 rest ih =>
    intro iters h o ho
    unfold gather at h ⊢
    cases hs : scanRows be o1.month o1.i.rows iters with
    | mk iters1 e =>
      cases e with
      | some e => simp [hs] at h
      | none =>
        simp only [hs] at h ⊢
        have hlen := scanRows_length be o1.month o1.i.rows iters (by rw [hs])
        rw [hs] at hlen
        simp only at hlen
        have hmono : ∀ (l : List outcome) (it : List Iter), (gather be l it).2 = none →
            it.length ≤ (gather be l it).1.length := by
          intro l
          induction l with
          | nil => intro it _; simp [gather]
          | cons o2 rest2 ih2 =>
            intro it h2
            unfold gather at h2 ⊢
            cases hs2 : scanRows be o2.month o2.i.rows it with
            | mk it1 e2 =>
              cases e2 with
              | some e2 => simp [hs2] at h2
              | none =>
                simp only [hs2] at h2 ⊢
                have hl := scanRows_length be o2.month o2.i.rows it (by rw [hs2])
                rw [hs2] at hl
                simp only at hl
                have := ih2 it1 h2
                omega
        rcases List.mem_cons.mp ho with e | e
        · subst e
          have := hmono rest iters1 h
          omega
        · exact ih iters1 h o e

theorem mem_sortAsc (l : List outcome) (o : outcome) : o ∈ sortAsc l ↔ o ∈ l :=
  (List.perm_insertionSort _ _).mem_iff

end Store

/-! ## The chunk store read path: tables written by `insertChunk` -/

namespace Store

/-- What holds of every table written by `insertChunk`: a row sits in the partition
of its month, and no two rows share the primary key `(key, ts)`. -/
theorem written_wf (writes : List (String × Nat × List Nat)) :
    (∀ r ∈ written writes, r.key.month = r.ts / month_sec)
      ∧ (written writes).Pairwise (fun a b => a.key = b.key → a.ts ≠ b.ts) := by
  unfold written
  have key : ∀ (ws : List (String × Nat × List Nat)) (tbl : Table),
      ((∀ r ∈ tbl, r.key.month = r.ts / month_sec)
        ∧ tbl.Pairwise (fun a b => a.key = b.key → a.ts ≠ b.ts)) →
      ((∀ r ∈ ws.foldl (fun tbl w => insertChunk tbl w.1 w.2.1 w.2.2) tbl,
          r.key.month = r.ts / month_sec)
        ∧ (ws.foldl (fun tbl w => insertChunk tbl w.1 w.2.1 w.2.2) tbl).Pairwise
            (fun a b => a.key = b.key → a.ts ≠ b.ts)) := by
    intro ws
    induction ws with
    | nil => intro tbl h; exact h
    | cons w rest ih =>
      intro tbl h
      apply ih
      obtain ⟨h1, h2⟩ := h
      constructor
      · intro r hr
        simp only [insertChunk, List.mem_cons, List.mem_filter] at hr
        rcases hr with e | ⟨e, _⟩
        · subst e; rfl
        · exact h1 r e
      · simp only [insertChunk, List.pairwise_cons]
        constructor
        · intro b hb hk
          simp only [List.mem_filter, decide_eq_true_eq] at hb
          intro hts
          exact hb.2 ⟨hk.symm, hts.symm⟩
        · exact h2.filter _
  exact key writes [] ⟨by simp, List.Pairwise.nil⟩

/-- Every row of a table written with valid payloads and `uint32` timestamps has a
valid payload and a `uint32` timestamp. -/
theorem written_valid (writes : List (String × Nat × List Nat)) (P : Nat → List Nat → Prop)
    (h : ∀ w ∈ writes, P w.2.1 w.2.2) : ∀ r ∈ written writes, P r.ts r.data := by
  unfold written
  have key : ∀ (ws : List (String × Nat × List Nat)) (tbl : Table),
      (∀ w ∈ ws, P w.2.1 w.2.2) → (∀ r ∈ tbl, P r.ts r.data) →
      ∀ r ∈ ws.foldl (fun tbl w => insertChunk tbl w.1 w.2.1 w.2.2) tbl, P r.ts r.data := by
    intro ws
    induction ws with
    | nil => intro tbl _ h; exact h
    | cons w rest ih =>
      intro tbl hw ht
      apply ih
      · intro w' hw'; exact hw w' (List.mem_cons_of_mem _ hw')
      · intro r hr
        simp only [insertChunk, List.mem_cons, List.mem_filter] at hr
        rcases hr with e | ⟨e, _⟩
        · subst e; exact hw w (List.mem_cons_self _ _)
        · exact ht r e
  exact key writes [] h (by simp)

theorem mem_selectAsc (tbl : Table) (k : RowKey) (p : Nat → Bool) (x : Nat × List Nat) :
    x ∈ selectAsc tbl k p ↔ ∃ r ∈ tbl, r.key = k ∧ p r.ts = true ∧ x = (r.ts, r.data) := by
  unfold selectAsc
  constructor
  · intro hx
    obtain ⟨r, hr, e⟩ := List.mem_map.mp hx
    have hr2 := (List.perm_insertionSort _ _).mem_iff.mp hr
    simp only [List.mem_filter, Bool.and_eq_true, decide_eq_true_eq] at hr2
    exact ⟨r, hr2.1, hr2.2.1, hr2.2.2, e.symm⟩
  · rintro ⟨r, h1, h2, h3, h4⟩
    refine List.mem_map.mpr ⟨r, (List.perm_insertionSort _ _).mem_iff.mpr ?_, h4.symm⟩
    simp only [List.mem_filter, Bool.and_eq_true, decide_eq_true_eq]
    exact ⟨h1, h2, h3⟩

/-- The rows a statement returns are strictly ascending in `ts`. -/
theorem selectAsc_sorted (tbl : Table) (k : RowKey) (p : Nat → Bool)
    (hpk : tbl.Pairwise (fun a b => a.key = b.key → a.ts ≠ b.ts)) :
    (selectAsc tbl k p).Pairwise (fun a b => a.1 < b.1) := by
  unfold selectAsc
  rw [List.pairwise_map]
  have hs : List.Pairwise (fun a b : Row => a.ts ≤ b.ts)
      ((tbl.filter (fun r => decide (r.key = k) && p r.ts)).insertionSort
        (fun a b => a.ts ≤ b.ts)) := List.sorted_insertionSort _ _
  have hd : List.Pairwise (fun a b : Row => a.ts ≠ b.ts)
      ((tbl.filter (fun r => decide (r.key = k) && p r.ts)).insertionSort
        (fun a b => a.ts ≤ b.ts)) := by
    rw [(List.perm_insertionSort _ _).pairwise_iff (fun h => Ne.symm h)]
    have h1 := hpk.filter (fun r => decide (r.key = k) && p r.ts)
    refine (List.Pairwise.and_mem.mp h1).imp ?_
    rintro a b ⟨ha, hb, hab⟩
    simp only [List.mem_filter, Bool.and_eq_true, decide_eq_true_eq] at ha hb
    exact hab (ha.2.1.trans hb.2.1.symm)
  exact (hs.and hd).imp (fun ⟨h1, h2⟩ => Nat.lt_of_le_of_ne h1 h2)

end Store

/-! ## The chunk store read path: sorting and flattening the outcomes -/

namespace Store

theorem month_sec_eq : month_sec = 2419200 := rfl

theorem scanRows_valid (be : Backend) (month : Nat) (rows : List (Nat × List Nat))
    (h : ∀ p ∈ rows, validPayload be.FormatStandardGoTsz be.newIterator p.2) :
    ∀ iters : List Iter, scanRows be month rows iters
      = (iters ++ rows.map (fun p => ⟨p.2.tail, month, p.1⟩), none) := by
  induction rows with
  | nil => intro iters; simp [scanRows]
  | cons r rest ih =>
    intro iters
    obtain ⟨ts, b⟩ := r
    obtain ⟨h1, h2, h3⟩ := h (ts, b) (List.mem_cons_self _ _)
    have h1' : ¬ b.length < 2 := by simp only at h1; omega
    have h2' : ¬ (b.headD 0 ≠ be.FormatStandardGoTsz) := by simpa using h2
    have h3' : ¬ (be.newIterator b.tail = false) := by simp only at h3; simp [h3]
    rw [scanRows, if_neg h1', if_neg h2', if_neg h3',
      ih (fun p hp => h p (List.mem_cons_of_mem _ hp))]
    simp

/-- With valid payloads throughout, the flattening loop returns the rows of the
outcomes, in the order of the outcomes, and no error. -/
theorem gather_valid (be : Backend) (l : List outcome)
    (h : ∀ o ∈ l, ∀ p ∈ o.i.rows, validPayload be.FormatStandardGoTsz be.newIterator p.2) :
    ∀ iters : List Iter, gather be l iters = (iters ++ l.flatMap itersOf, none) := by
  induction l with
  | nil => intro iters; simp [gather]
  | cons o rest ih =>
    intro iters
    rw [gather, scanRows_valid be o.month o.i.rows (h o (List.mem_cons_self _ _))]
    simp only
    rw [ih (fun o' ho' => h o' (List.mem_cons_of_mem _ ho'))]
    simp [itersOf]

/-- Outcomes with pairwise different sort keys come out of the sort in the same
order whatever the order of their arrival. -/
theorem sortAsc_of_perm (l l' : List outcome) (hp : l'.Perm l)
    (hs : l.Pairwise (fun a b => a.sortKey < b.sortKey)) : sortAsc l' = l := by
  haveI : IsAntisymm outcome (fun a b => a.sortKey < b.sortKey) :=
    ⟨fun a b h1 h2 => absurd h1 (Nat.lt_asymm h2)⟩
  have hperm : (sortAsc l').Perm l := (List.perm_insertionSort _ _).trans hp
  have hle : (sortAsc l').Pairwise (fun a b => a.sortKey ≤ b.sortKey) :=
    List.sorted_insertionSort _ _
  have hne : (sortAsc l').Pairwise (fun a b => a.sortKey ≠ b.sortKey) := by
    rw [hperm.pairwise_iff (fun h => Ne.symm h)]
    exact hs.imp (fun h => Nat.ne_of_lt h)
  have hlt : (sortAsc l').Pairwise (fun a b => a.sortKey < b.sortKey) :=
    (hle.and hne).imp (fun ⟨h1, h2⟩ => Nat.lt_of_le_of_ne h1 h2)
  exact List.eq_of_perm_of_sorted hperm hlt hs

/-- The month loop without wrap-around: from the month with number `j` up to the
month with number `b` it queues one request per month, given one unit of fuel per
month. -/
theorem monthLoop_spec (key : String) (start end_ a b : Nat)
    (hb : b * month_sec + month_sec < u32) :
    ∀ (d j fuel : Nat), j + d = b + 1 → d ≤ fuel →
      monthLoop key start end_ (a * month_sec) (b * month_sec) fuel (j * month_sec)
        = some ((List.range' j d).map (fun i =>
            monthRequest key start end_ (a * month_sec) (b * month_sec) (i * month_sec))) := by
  intro d
  induction d with
  | zero =>
    intro j fuel hj _
    have hgt : ¬ (j * month_sec ≤ b * month_sec) := by
      rw [month_sec_eq]; omega
    cases fuel <;> simp [monthLoop, hgt]
  | succ d ih =>
    intro j fuel hj hf
    obtain ⟨f, rfl⟩ : ∃ f, fuel = f + 1 := ⟨fuel - 1, by omega⟩
    have hle : j * month_sec ≤ b * month_sec := by
      rw [month_sec_eq]; omega
    have hnext : (j * month_sec + month_sec) % u32 = (j + 1) * month_sec := by
      rw [month_sec_eq] at hb ⊢
      unfold u32 at hb ⊢
      omega
    rw [monthLoop, if_pos hle, hnext, ih (j + 1) f (by omega) (by omega)]
    simp [List.range'_succ]

end Store

/-! ## The chunk store read path: the rows of the requested months -/

namespace Store

theorem rowKey_ext (r : Row) (key : String) (i : Nat) (h1 : r.key.key = key)
    (h2 : r.key.month = i) : r.key = ⟨key, i⟩ := by
  cases hk : r.key with
  | mk k m =>
    rw [hk] at h1 h2
    simp only at h1 h2
    rw [h1, h2]

/-- The month requests taken together: when the statement for the month number `i`
selects, in the partition `i`, exactly the timestamps with `start < ts < end_`, and
every such timestamp falls into one of the months `a .. a+d-1`, the flattened rows
are strictly ascending in `T0` and are exactly the stored chunks of `key` with
`start < T0 < end_`. -/
theorem months_flat (tbl : Table) (key : String) (start end_ a d : Nat)
    (P : Nat → Nat → Bool) (sk : Nat → Nat)
    (hT1 : ∀ r ∈ tbl, r.key.month = r.ts / month_sec)
    (hT2 : tbl.Pairwise (fun x y => x.key = y.key → x.ts ≠ y.ts))
    (hP : ∀ i, a ≤ i → i < a + d → ∀ ts, ts / month_sec = i →
      (P i ts = true ↔ start < ts ∧ ts < end_))
    (hrange : ∀ ts, start < ts → ts < end_ → a ≤ ts / month_sec ∧ ts / month_sec < a + d) :
    (((List.range' a d).map (fun i =>
        (⟨i * month_sec, sk i, ⟨selectAsc tbl ⟨key, i⟩ (P i), false⟩⟩ : outcome))).flatMap
          itersOf).Pairwise (fun x y => x.t0 < y.t0)
    ∧ ∀ it, it ∈ ((List.range' a d).map (fun i =>
          (⟨i * month_sec, sk i, ⟨selectAsc tbl ⟨key, i⟩ (P i), false⟩⟩ : outcome))).flatMap
            itersOf
        ↔ ∃ r ∈ tbl, r.key.key = key ∧ start < r.ts ∧ r.ts < end_ ∧ it = iterOf r := by
  have hmem : ∀ (i : Nat) (it : Iter),
      it ∈ itersOf (⟨i * month_sec, sk i, ⟨selectAsc tbl ⟨key, i⟩ (P i), false⟩⟩ : outcome) ↔
        ∃ r ∈ tbl, r.key = ⟨key, i⟩ ∧ P i r.ts = true
          ∧ it = ⟨r.data.tail, i * month_sec, r.ts⟩ := by
    intro i it
    simp only [itersOf, List.mem_map]
    constructor
    · rintro ⟨p, hp, e⟩
      obtain ⟨r, hr, hk, hpr, e2⟩ := (mem_selectAsc _ _ _ _).mp hp
      subst e2
      exact ⟨r, hr, hk, hpr, e.symm⟩
    · rintro ⟨r, hr, hk, hpr, e⟩
      exact ⟨(r.ts, r.data), (mem_selectAsc _ _ _ _).mpr ⟨r, hr, hk, hpr, rfl⟩, e.symm⟩
  constructor
  · rw [List.pairwise_flatMap]
    constructor
    · intro o ho
      obtain ⟨i, _, rfl⟩ := List.mem_map.mp ho
      simp only [itersOf]
      rw [List.pairwise_map]
      exact selectAsc_sorted tbl ⟨key, i⟩ (P i) hT2
    · rw [List.pairwise_map]
      refine (List.pairwise_lt_range' a d).imp ?_
      intro i i' hlt x hx y hy
      obtain ⟨r, hr, hk, _, e⟩ := (hmem i x).mp hx
      obtain ⟨r', hr', hk', _, e'⟩ := (hmem i' y).mp hy
      have h1 := hT1 r hr
      have h2 := hT1 r' hr'
      rw [hk] at h1
      rw [hk'] at h2
      simp only at h1 h2
      rw [e, e']
      simp only
      rw [month_sec_eq] at h1 h2
      omega
  · intro it
    rw [List.mem_flatMap]
    constructor
    · rintro ⟨o, ho, hit⟩
      obtain ⟨i, hi, rfl⟩ := List.mem_map.mp ho
      rw [List.mem_range'_1] at hi
      obtain ⟨r, hr, hk, hpr, e⟩ := (hmem i it).mp hit
      have h1 := hT1 r hr
      rw [hk] at h1
      simp only at h1
      have h2 := (hP i hi.1 hi.2 r.ts h1.symm).mp hpr
      refine ⟨r, hr, by rw [hk], h2.1, h2.2, ?_⟩
      rw [e, iterOf]
      have : r.ts - r.ts % month_sec = i * month_sec := by
        rw [month_sec_eq] at h1 ⊢; omega
      rw [this]
    · rintro ⟨r, hr, hk, h1, h2, e⟩
      obtain ⟨ha, hb⟩ := hrange r.ts h1 h2
      refine ⟨_, List.mem_map.mpr ⟨r.ts / month_sec, List.mem_range'_1.mpr ⟨ha, hb⟩, rfl⟩, ?_⟩
      rw [hmem]
      refine ⟨r, hr, rowKey_ext r key _ hk (hT1 r hr), (hP _ ha hb r.ts rfl).mpr ⟨h1, h2⟩, ?_⟩
      rw [e, iterOf]
      have : r.ts - r.ts % month_sec = r.ts / month_sec * month_sec := by
        rw [month_sec_eq]; omega
      rw [this]

end Store

/-! ## The chunk store read path: `Search` below the wrap-around -/

namespace Store

/-- The request for the chunk that precedes `start`. -/
theorem preceding_spec (tbl : Table) (key : String) (start : Nat) (sk : Nat)
    (hT1 : ∀ r ∈ tbl, r.key.month = r.ts / month_sec)
    (hT2 : tbl.Pairwise (fun x y => x.key = y.key → x.ts ≠ y.ts)) :
    precedingChunk tbl key start
      (itersOf ⟨start / month_sec * month_sec, sk,
        tableSession tbl (.lePrev ⟨key, start / month_sec⟩ start)⟩) := by
  have hsorted := selectAsc_sorted tbl ⟨key, start / month_sec⟩ (fun t => decide (t ≤ start)) hT2
  have hmem := mem_selectAsc tbl ⟨key, start / month_sec⟩ (fun t => decide (t ≤ start))
  generalize hl0 : selectAsc tbl ⟨key, start / month_sec⟩ (fun t => decide (t ≤ start)) = l
    at hsorted hmem
  cases hl : l.getLast? with
  | none =>
    have hnil : l = [] := List.getLast?_eq_none_iff.mp hl
    left
    constructor
    · simp only [itersOf, tableSession, hl0]
      simp [hnil]
    · intro r hr hk
      by_contra hle
      have : (r.ts, r.data) ∈ l := (hmem _).mpr ⟨r, hr, hk, by simp; omega, rfl⟩
      rw [hnil] at this
      simp at this
  | some x =>
    obtain ⟨ys, hys⟩ := List.getLast?_eq_some_iff.mp hl
    have hx : x ∈ l := by rw [hys]; simp
    obtain ⟨r, hr, hk, hpr, e⟩ := (hmem x).mp hx
    right
    refine ⟨r, hr, hk, by simpa using hpr, ?_, ?_⟩
    · simp only [itersOf, tableSession, hl0]
      rw [hys]
      simp only [List.reverse_append, List.reverse_cons, List.reverse_nil, List.nil_append,
        List.singleton_append, List.take_succ_cons, List.take_zero, List.map_cons, List.map_nil]
      rw [e, iterOf]
      have h1 := hT1 r hr
      rw [hk] at h1
      simp only at h1
      have : r.ts - r.ts % month_sec = start / month_sec * month_sec := by
        rw [month_sec_eq] at h1 ⊢; omega
      rw [this]
    · intro r' hr' hk' hle'
      have hin : (r'.ts, r'.data) ∈ l := (hmem _).mpr ⟨r', hr', hk', by simpa using hle', rfl⟩
      rw [hys] at hin hsorted
      rw [List.pairwise_append] at hsorted
      rcases List.mem_append.mp hin with h | h
      · have := hsorted.2.2 _ h x (by simp)
        rw [e] at this
        simp only at this
        omega
      · simp only [List.mem_singleton] at h
        rw [e] at h
        simp only [Prod.mk.injEq] at h
        omega

end Store

namespace Store

theorem tableSession_rows (tbl : Table) (q : Query) (p : Nat × List Nat)
    (h : p ∈ (tableSession tbl q).rows) : ∃ r ∈ tbl, p = (r.ts, r.data) := by
  cases q with
  | lePrev k ts =>
    simp only [tableSession] at h
    have h2 := List.mem_reverse.mp (List.mem_of_mem_take h)
    obtain ⟨r, hr, _, _, e⟩ := (mem_selectAsc _ _ _ _).mp h2
    exact ⟨r, hr, e⟩
  | between k lo hi =>
    simp only [tableSession] at h
    obtain ⟨r, hr, _, _, e⟩ := (mem_selectAsc _ _ _ _).mp h
    exact ⟨r, hr, e⟩
  | geAsc k lo =>
    simp only [tableSession] at h
    obtain ⟨r, hr, _, _, e⟩ := (mem_selectAsc _ _ _ _).mp h
    exact ⟨r, hr, e⟩
  | leAsc k hi =>
    simp only [tableSession] at h
    obtain ⟨r, hr, _, _, e⟩ := (mem_selectAsc _ _ _ _).mp h
    exact ⟨r, hr, e⟩
  | allAsc k =>
    simp only [tableSession] at h
    obtain ⟨r, hr, _, _, e⟩ := (mem_selectAsc _ _ _ _).mp h
    exact ⟨r, hr, e⟩

/-- `Search` on a table of valid payloads, once the queued requests are known and
their sort keys are strictly ascending: the rows of the outcomes in the order of the
requests, whatever the order of arrival. -/
theorem search_of_queries (tbl : Table) (tag : Nat) (ok : List Nat → Bool)
    (arrival : List outcome → List outcome) (fuel : Nat) (key : String) (start end_ : Nat)
    (qs : List ChunkReadRequest) (hse : ¬ start > end_)
    (hq : queries fuel key start end_ = some qs)
    (hperm : ∀ l, (arrival l).Perm l)
    (hs : (qs.map (processReadQueue (tableBackend tbl tag ok arrival))).Pairwise
      (fun x y => x.sortKey < y.sortKey))
    (hv : ∀ r ∈ tbl, validPayload tag ok r.data) :
    Search (tableBackend tbl tag ok arrival) fuel key start end_
      = some ((qs.map (processReadQueue (tableBackend tbl tag ok arrival))).flatMap itersOf,
          none) := by
  unfold Search
  rw [if_neg hse, hq]
  simp only
  rw [show (tableBackend tbl tag ok arrival).arrival = arrival from rfl,
    sortAsc_of_perm _ _ (hperm _) hs, gather_valid]
  · simp
  · intro o ho p hp
    obtain ⟨crr, _, rfl⟩ := List.mem_map.mp ho
    obtain ⟨r, hr, e⟩ := tableSession_rows tbl crr.q p hp
    rw [e]
    exact hv r hr

end Store

namespace Store

/-- The outcome of the request that the month loop queues for the month number `i`,
read from the table `tbl`. -/
theorem monthRequest_outcome (tbl : Table) (tag : Nat) (ok : List Nat → Bool)
    (arrival : List outcome → List outcome) (key : String) (start end_ a b i : Nat) :
    processReadQueue (tableBackend tbl tag ok arrival)
        (monthRequest key start end_ (a * month_sec) (b * month_sec) (i * month_sec))
      = ⟨i * month_sec, if i = a then (i * month_sec + 1) % u32 else i * month_sec,
          ⟨selectAsc tbl ⟨key, i⟩
            (if i = a then (fun t => decide ((start + 1) % u32 ≤ t))
             else if i = b then (fun t => decide (t ≤ (end_ + u32 - 1) % u32))
             else (fun _ => true)), false⟩⟩ := by
  have hdiv : i * month_sec / month_sec = i := by rw [month_sec_eq]; omega
  have h1 : (i * month_sec = a * month_sec) ↔ i = a := by rw [month_sec_eq]; omega
  have h2 : (i * month_sec = b * month_sec) ↔ i = b := by rw [month_sec_eq]; omega
  unfold monthRequest
  simp only [hdiv, h1, h2]
  by_cases ha : i = a
  · simp [ha, processReadQueue, tableBackend, tableSession]
  · by_cases hb : i = b
    · subst hb
      simp [ha, processReadQueue, tableBackend, tableSession]
    · simp [ha, hb, processReadQueue, tableBackend, tableSession]

/-- The read path below the wrap-around of the month counter.  For a table written
by `insertChunk` with valid payloads, `start < end_`, and a range that does not reach
the last month below `2^32` from an earlier month, `Search` returns, whatever the
order in which the outcomes arrive and given one unit of fuel per month: no error, and
the chunk with the greatest `T0 <= start` in the row of `start` (if any) followed by
exactly the stored chunks of `key` with `start < T0 < end_`, strictly ascending in
`T0`. -/
theorem search_below_wrap (writes : List (String × Nat × List Nat)) (tag : Nat)
    (ok : List Nat → Bool) (arrival : List outcome → List outcome) (key : String)
    (start end_ fuel : Nat)
    (hperm : ∀ l, (arrival l).Perm l)
    (hvalid : ∀ w ∈ writes, validPayload tag ok w.2.2)
    (hse : start < end_) (hend : end_ < u32)
    (hnowrap : end_ - 1 < 4294080000 ∨ 4294080000 ≤ start)
    (hfuel : (end_ - 1) / month_sec + 1 ≤ start / month_sec + fuel) :
    ∃ pre rest,
      Search (tableBackend (written writes) tag ok arrival) fuel key start end_
          = some (pre ++ rest, none)
        ∧ precedingChunk (written writes) key start pre
        ∧ rest.Pairwise (fun x y => x.t0 < y.t0)
        ∧ ∀ it, it ∈ rest ↔
            ∃ r ∈ written writes, r.key.key = key ∧ start < r.ts ∧ r.ts < end_
              ∧ it = iterOf r := by
  obtain ⟨hT1, hT2⟩ := written_wf writes
  have hV := written_valid writes (fun _ d => validPayload tag ok d) hvalid
  generalize written writes = tbl at hT1 hT2 hV ⊢
  have hsm : start - start % month_sec = start / month_sec * month_sec := by
    rw [month_sec_eq]; omega
  have he1 : (end_ + u32 - 1) % u32 = end_ - 1 := by unfold u32 at *; omega
  have hem : (end_ - 1) - (end_ - 1) % month_sec = (end_ - 1) / month_sec * month_sec := by
    rw [month_sec_eq]; omega
  have hdiv : ∀ i, i * month_sec / month_sec = i := by
    intro i; rw [month_sec_eq]; omega
  have hab : start / month_sec ≤ (end_ - 1) / month_sec := by rw [month_sec_eq]; omega
  generalize ha : start / month_sec = a at hsm hab hfuel
  generalize hb : (end_ - 1) / month_sec = b at hem hab hfuel
  have hamul : a * month_sec ≤ start ∧ start < a * month_sec + month_sec := by
    rw [month_sec_eq] at ha ⊢; omega
  have hbmul : b * month_sec ≤ end_ - 1 ∧ end_ - 1 < b * month_sec + month_sec := by
    rw [month_sec_eq] at hb ⊢; omega
  have hpre := preceding_spec tbl key start (a * month_sec) hT1 hT2
  rw [ha] at hpre
  by_cases hcase : a = b
  · subst hcase
    have hq : queries fuel key start end_
        = some [⟨a * month_sec, a * month_sec, .lePrev ⟨key, a⟩ start⟩,
            ⟨a * month_sec, (a * month_sec + 1) % u32, .between ⟨key, a⟩ start end_⟩] := by
      simp only [queries, hsm, he1, hem, hdiv, if_true]
    have hsk : (a * month_sec + 1) % u32 = a * month_sec + 1 := by
      unfold u32 at *; omega
    have hS := search_of_queries tbl tag ok arrival fuel key start end_ _ (by omega) hq hperm
      (by simp [processReadQueue, hsk]) hV
    have hflat := months_flat tbl key start end_ a 1
      (fun _ t => decide (start < t) && decide (t < end_)) (fun _ => (a * month_sec + 1) % u32)
      hT1 hT2 (by intro i _ _ ts _; simp)
      (by intro ts h1 h2; rw [month_sec_eq] at hamul hbmul ⊢; omega)
    simp only [List.range'_one, List.map_cons, List.map_nil, List.flatMap_cons,
      List.flatMap_nil, List.append_nil] at hflat
    refine ⟨_, _, ?_, hpre, hflat.1, hflat.2⟩
    rw [hS]
    simp [processReadQueue, tableBackend, tableSession]
  · have hlt : a < b := by omega
    have hb1775 : b * month_sec + month_sec < u32 := by
      rw [month_sec_eq] at hamul hbmul ⊢; unfold u32 at *; omega
    have hne : ¬ (a * month_sec = b * month_sec) := by rw [month_sec_eq]; omega
    have hq : queries fuel key start end_
        = some (⟨a * month_sec, a * month_sec, .lePrev ⟨key, a⟩ start⟩ ::
            (List.range' a (b + 1 - a)).map (fun i =>
              monthRequest key start end_ (a * month_sec) (b * month_sec) (i * month_sec))) := by
      simp only [queries, hsm, he1, hem, hdiv, hne, if_false]
      rw [monthLoop_spec key start end_ a b hb1775 (b + 1 - a) a fuel (by omega) (by omega)]
      rfl
    have hmap : ((List.range' a (b + 1 - a)).map (fun i =>
          monthRequest key start end_ (a * month_sec) (b * month_sec) (i * month_sec))).map
            (processReadQueue (tableBackend tbl tag ok arrival))
        = (List.range' a (b + 1 - a)).map (fun i =>
            (⟨i * month_sec, if i = a then (i * month_sec + 1) % u32 else i * month_sec,
              ⟨selectAsc tbl ⟨key, i⟩
                (if i = a then (fun t => decide ((start + 1) % u32 ≤ t))
                 else if i = b then (fun t => decide (t ≤ (end_ + u32 - 1) % u32))
                 else (fun _ => true)), false⟩⟩ : outcome)) := by
      rw [List.map_map]
      apply List.map_congr_left
      intro i _
      exact monthRequest_outcome tbl tag ok arrival key start end_ a b i
    have hs1 : (start + 1) % u32 = start + 1 := by unfold u32 at *; omega
    have hflat := months_flat tbl key start end_ a (b + 1 - a)
      (fun i => if i = a then (fun t => decide ((start + 1) % u32 ≤ t))
                 else if i = b then (fun t => decide (t ≤ (end_ + u32 - 1) % u32))
                 else (fun _ => true))
      (fun i => if i = a then (i * month_sec + 1) % u32 else i * month_sec)
      hT1 hT2
      (by
        intro i hia hib ts hts
        rw [he1, hs1]
        rw [month_sec_eq] at hamul hbmul hts
        by_cases h1 : i = a
        · simp only [h1, if_true, decide_eq_true_eq]; omega
        · by_cases h2 : i = b
          · subst h2
            simp only [h1, if_true, if_false, decide_eq_true_eq]; omega
          · simp only [h1, h2, if_false, true_iff]; omega)
      (by intro ts h1 h2; rw [month_sec_eq] at hamul hbmul ⊢; omega)
    have hsorted : ((⟨a * month_sec, a * month_sec, .lePrev ⟨key, a⟩ start⟩ ::
            (List.range' a (b + 1 - a)).map (fun i =>
              monthRequest key start end_ (a * month_sec) (b * month_sec)
                (i * month_sec))).map
          (processReadQueue (tableBackend tbl tag ok arrival))).Pairwise
        (fun x y => x.sortKey < y.sortKey) := by
      rw [List.map_cons, hmap, List.pairwise_cons]
      constructor
      · intro o ho
        obtain ⟨i, hi, rfl⟩ := List.mem_map.mp ho
        rw [List.mem_range'_1] at hi
        simp only [processReadQueue]
        rw [month_sec_eq] at hamul hbmul hb1775 ⊢
        unfold u32 at *
        by_cases h1 : i = a
        · simp only [h1, if_true]; omega
        · simp only [h1, if_false]; omega
      · rw [List.pairwise_map]
        refine (List.Pairwise.and_mem.mp (List.pairwise_lt_range' a (b + 1 - a))).imp ?_
        rintro i j ⟨hi, hj, hij⟩
        rw [List.mem_range'_1] at hi hj
        simp only
        rw [month_sec_eq] at hamul hbmul hb1775 ⊢
        unfold u32 at *
        by_cases h1 : i = a
        · have h2 : ¬ j = a := by omega
          simp only [h1, h2, if_true, if_false]; omega
        · have h2 : ¬ j = a := by omega
          simp only [h1, h2, if_false]; omega
    have hS := search_of_queries tbl tag ok arrival fuel key start end_ _ (by omega) hq hperm
      hsorted hV
    refine ⟨_, _, ?_, hpre, hflat.1, hflat.2⟩
    rw [hS, List.map_cons, hmap, List.flatMap_cons]
    simp [processReadQueue, tableBackend]

end Store

namespace Store

/-- The boundary scenario of the specification: a row with the chunks
`T0 = 0, 600, 1200, 1800` and the query `start = 900, end = 1500`, the outcomes
arriving in reverse order: the chunks at 600 and 1200, in that order. -/
theorem search_preceding_example :
    Search (tableBackend
        (written [("m", 0, [0, 1]), ("m", 600, [0, 2]), ("m", 1200, [0, 3]), ("m", 1800, [0, 4])])
        0 (fun _ => true) List.reverse) 1 "m" 900 1500
      = some ([⟨[2], 0, 600⟩, ⟨[3], 0, 1200⟩], none) := by
  decide

/-- The hypotheses of `search_below_wrap` hold for the boundary scenario of the
specification. -/
theorem search_below_wrap_example :
    ∃ pre rest,
      Search (tableBackend
          (written [("m", 0, [0, 1]), ("m", 600, [0, 2]), ("m", 1200, [0, 3]),
            ("m", 1800, [0, 4])]) 0 (fun _ => true) List.reverse) 1 "m" 900 1500
          = some (pre ++ rest, none)
        ∧ precedingChunk
            (written [("m", 0, [0, 1]), ("m", 600, [0, 2]), ("m", 1200, [0, 3]),
              ("m", 1800, [0, 4])]) "m" 900 pre
        ∧ rest.Pairwise (fun x y => x.t0 < y.t0)
        ∧ ∀ it, it ∈ rest ↔
            ∃ r ∈ written [("m", 0, [0, 1]), ("m", 600, [0, 2]), ("m", 1200, [0, 3]),
                ("m", 1800, [0, 4])],
              r.key.key = "m" ∧ 900 < r.ts ∧ r.ts < 1500 ∧ it = iterOf r :=
  search_below_wrap _ 0 (fun _ => true) List.reverse "m" 900 1500 1
    (fun l => List.reverse_perm l)
    (by
      intro w hw
      simp only [List.mem_cons, List.mem_singleton, List.not_mem_nil, or_false] at hw
      rcases hw with rfl | rfl | rfl | rfl <;> exact ⟨by decide, rfl, rfl⟩)
    (by decide) (by decide) (by decide) (by decide)

end Store

/-! ## The chunk store read path: the month counter past `2^32` -/

namespace Store

/-- A run of `n + 1` iterations of the month loop in which only the last increment
may wrap around `2^32`. -/
theorem monthLoop_lap (key : String) (start end_ sm em : Nat) :
    ∀ (n month fuel : Nat), month + n * month_sec < u32 →
      (∀ j, j ≤ n → month + j * month_sec ≤ em) →
      monthLoop key start end_ sm em (n + 1 + fuel) month
        = (monthLoop key start end_ sm em fuel ((month + (n + 1) * month_sec) % u32)).map
            (fun rest => (List.range (n + 1)).map
              (fun j => monthRequest key start end_ sm em (month + j * month_sec)) ++ rest) := by
  intro n
  induction n with
  | zero =>
    intro month fuel _ h2
    have h0 : month ≤ em := by simpa using h2 0 (Nat.le_refl 0)
    rw [show 0 + 1 + fuel = fuel + 1 by omega, monthLoop, if_pos h0]
    simp [List.range_succ]
  | succ n ih =>
    intro month fuel h1 h2
    have h0 : month ≤ em := by simpa using h2 0 (Nat.zero_le _)
    have hlt : month + month_sec + n * month_sec < u32 := by
      rw [month_sec_eq] at h1 ⊢; omega
    have hmod : (month + month_sec) % u32 = month + month_sec :=
      Nat.mod_eq_of_lt (by rw [month_sec_eq] at hlt ⊢; omega)
    rw [show n + 1 + 1 + fuel = (n + 1 + fuel) + 1 by omega, monthLoop, if_pos h0, hmod,
      ih (month + month_sec) fuel hlt
        (fun j hj => by
          have := h2 (j + 1) (by omega)
          rw [month_sec_eq] at this ⊢; omega)]
    have e1 : month + month_sec + (n + 1) * month_sec = month + (n + 1 + 1) * month_sec := by
      rw [month_sec_eq]; omega
    rw [e1]
    have hmap : (List.range (n + 1)).map
          (fun j => monthRequest key start end_ sm em (month + month_sec + j * month_sec))
        = (List.range (n + 1)).map
          (fun j => monthRequest key start end_ sm em (month + (j + 1) * month_sec)) :=
      List.map_congr_left (fun j _ => by
        rw [show month + month_sec + j * month_sec = month + (j + 1) * month_sec by
          rw [month_sec_eq]; omega])
    generalize monthLoop key start end_ sm em fuel ((month + (n + 1 + 1) * month_sec) % u32) = r
    cases r with
    | none => rfl
    | some rest =>
      simp only [Option.map_some', Option.some.injEq]
      rw [hmap, List.range_succ_eq_map (n + 1)]
      simp [Function.comp_def]

/-- The result of `Search` when every stored payload is valid: the rows of the
outcomes, sorted by `sortKey`. -/
theorem search_sorted (tbl : Table) (tag : Nat) (ok : List Nat → Bool)
    (arrival : List outcome → List outcome) (fuel : Nat) (key : String) (start end_ : Nat)
    (qs : List ChunkReadRequest) (hse : ¬ start > end_)
    (hq : queries fuel key start end_ = some qs)
    (hperm : ∀ l, (arrival l).Perm l)
    (hv : ∀ r ∈ tbl, validPayload tag ok r.data) :
    Search (tableBackend tbl tag ok arrival) fuel key start end_
      = some ((sortAsc (arrival (qs.map (processReadQueue (tableBackend tbl tag ok arrival))))).flatMap
          itersOf, none) := by
  unfold Search
  rw [if_neg hse, hq]
  simp only
  rw [show (tableBackend tbl tag ok arrival).arrival = arrival from rfl, gather_valid]
  · simp
  · intro o ho p hp
    rw [mem_sortAsc, (hperm _).mem_iff] at ho
    obtain ⟨crr, _, rfl⟩ := List.mem_map.mp ho
    obtain ⟨r, hr, e⟩ := tableSession_rows tbl crr.q p hp
    rw [e]
    exact hv r hr

/-- Outcomes without rows contribute nothing. -/
theorem flatMap_itersOf_filter (l : List outcome) :
    l.flatMap itersOf = (l.filter (fun o => !o.i.rows.isEmpty)).flatMap itersOf := by
  induction l with
  | nil => rfl
  | cons o rest ih =>
    cases h : o.i.rows with
    | nil => simp [List.filter_cons, h, itersOf, ih]
    | cons r rs => simp [List.filter_cons, h, ih]

/-- The requests of `Search("m", 4294079999, 4294080001)`: after the rows of the start
and the end month the counter wraps twice, and the loop asks for the rows of
`1531904 + j * month_sec` and of `644608 + j * month_sec`, `j = 0 .. 1774`, before it
passes the end month. -/
theorem wrap_queries : queries 3552 "m" 4294079999 4294080001 = some wrapRequests := by
  unfold wrapRequests
  have hsm : 4294079999 - 4294079999 % month_sec = 4291660800 := by decide
  have hem : (4294080001 + u32 - 1) % u32 - (4294080001 + u32 - 1) % u32 % month_sec
      = 4294080000 := by decide
  have hne : ¬ ((4291660800 : Nat) = 4294080000) := by decide
  simp only [queries, hsm, hem, hne, if_false]
  rw [show (3552 : Nat) = 1 + 1 + 3550 from rfl,
    monthLoop_lap "m" 4294079999 4294080001 4291660800 4294080000 1 4291660800 3550
      (by decide) (fun j hj => by rw [month_sec_eq]; omega),
    show (4291660800 + (1 + 1) * month_sec) % u32 = 1531904 by decide,
    show (3550 : Nat) = 1774 + 1 + 1775 from rfl,
    monthLoop_lap "m" 4294079999 4294080001 4291660800 4294080000 1774 1531904 1775
      (by decide) (fun j hj => by rw [month_sec_eq]; omega),
    show (1531904 + (1774 + 1) * month_sec) % u32 = 644608 by decide,
    show (1775 : Nat) = 1774 + 1 + 0 from rfl,
    monthLoop_lap "m" 4294079999 4294080001 4291660800 4294080000 1774 644608 0
      (by decide) (fun j hj => by rw [month_sec_eq]; omega),
    show (644608 + (1774 + 1) * month_sec) % u32 = 4294724608 by decide]
  have hgt : ¬ ((4294724608 : Nat) ≤ 4294080000) := by decide
  simp only [monthLoop, hgt, if_false, Option.map_some']

/-- A request of the loop for a month that is not a multiple of `month_sec` asks for
all columns of the row of that month. -/
theorem wrap_request (off j : Nat) (h0 : 0 < off) (h1 : off < month_sec) :
    monthRequest "m" 4294079999 4294080001 4291660800 4294080000 (off + j * month_sec)
      = ⟨off + j * month_sec, off + j * month_sec, .allAsc ⟨"m", j⟩⟩ := by
  have n1 : ¬ (off + j * month_sec = 4291660800) := by
    rw [month_sec_eq] at h1 ⊢; omega
  have n2 : ¬ (off + j * month_sec = 4294080000) := by
    rw [month_sec_eq] at h1 ⊢; omega
  have hd : (off + j * month_sec) / month_sec = j := by
    rw [month_sec_eq] at h1 ⊢; omega
  simp only [monthRequest, n1, n2, if_false, hd]

/-- The rows of metric `m` in the table that holds its one chunk at `T0 = 100`. -/
theorem wrap_rows (j : Nat) :
    (tableSession (written [("m", 100, [0, 1])]) (.allAsc ⟨"m", j⟩)).rows
      = if j = 0 then [(100, [0, 1])] else [] := by
  have hw : written [("m", 100, [0, 1])] = [⟨⟨"m", 0⟩, 100, [0, 1]⟩] := by decide
  rw [hw]
  by_cases hj : j = 0
  · subst hj; decide
  · have hk : ¬ ((⟨"m", 0⟩ : RowKey) = ⟨"m", j⟩) := by
      intro e
      exact hj (congrArg RowKey.month e).symm
    simp [tableSession, selectAsc, hk, hj]

/-- Of the outcomes of one lap of the wrapped counter only the first, for row `m_0`,
has rows. -/
theorem filter_lap (off : Nat) (h0 : 0 < off) (h1 : off < month_sec) (n : Nat) :
    (((List.range (n + 1)).map (fun j =>
        monthRequest "m" 4294079999 4294080001 4291660800 4294080000
          (off + j * month_sec))).map
      (processReadQueue (tableBackend (written [("m", 100, [0, 1])]) 0 (fun _ => true) id))).filter
        (fun o => !o.i.rows.isEmpty)
      = [⟨off, off, ⟨[(100, [0, 1])], false⟩⟩] := by
  have hreq : ∀ j, processReadQueue
        (tableBackend (written [("m", 100, [0, 1])]) 0 (fun _ => true) id)
        (monthRequest "m" 4294079999 4294080001 4291660800 4294080000 (off + j * month_sec))
      = ⟨off + j * month_sec, off + j * month_sec,
          tableSession (written [("m", 100, [0, 1])]) (.allAsc ⟨"m", j⟩)⟩ := by
    intro j
    rw [wrap_request off j h0 h1]
    rfl
  rw [List.range_succ_eq_map, List.map_cons, List.map_cons, List.filter_cons, hreq 0]
  have hfirst : (tableSession (written [("m", 100, [0, 1])]) (.allAsc ⟨"m", 0⟩))
      = ⟨[(100, [0, 1])], false⟩ := by decide
  rw [hfirst]
  simp only [List.isEmpty_cons, Bool.not_false, if_true, Nat.zero_mul, Nat.add_zero,
    List.cons.injEq, true_and]
  rw [List.filter_eq_nil_iff]
  intro o ho
  simp only [List.map_map, List.mem_map, List.mem_range, Function.comp] at ho
  obtain ⟨j, _, rfl⟩ := ho
  rw [hreq]
  simp only
  rw [wrap_rows]
  simp

/-- Of all the outcomes of `wrapRequests` only the two for row `m_0` have rows. -/
theorem wrap_outcomes_filter :
    (wrapRequests.map
        (processReadQueue (tableBackend (written [("m", 100, [0, 1])]) 0 (fun _ => true) id))).filter
        (fun o => !o.i.rows.isEmpty)
      = [⟨1531904, 1531904, ⟨[(100, [0, 1])], false⟩⟩,
         ⟨644608, 644608, ⟨[(100, [0, 1])], false⟩⟩] := by
  unfold wrapRequests
  rw [List.map_cons, List.map_append, List.map_append, List.map_append, List.map_nil,
    List.filter_cons, List.filter_append, List.filter_append, List.filter_append,
    List.filter_nil, show List.range 1775 = List.range (1774 + 1) from rfl,
    filter_lap 1531904 (by decide) (by decide) 1774,
    filter_lap 644608 (by decide) (by decide) 1774]
  have hA : (((List.range 2).map (fun j =>
        monthRequest "m" 4294079999 4294080001 4291660800 4294080000
          (4291660800 + j * month_sec))).map
      (processReadQueue (tableBackend (written [("m", 100, [0, 1])]) 0 (fun _ => true) id))).filter
        (fun o => !o.i.rows.isEmpty) = [] := by
    decide
  have h1 : (!(processReadQueue
      (tableBackend (written [("m", 100, [0, 1])]) 0 (fun _ => true) id)
      ⟨4291660800, 4291660800, .lePrev ⟨"m", 4291660800 / month_sec⟩ 4294079999⟩).i.rows.isEmpty)
      = false := by
    decide
  rw [hA]
  simp only [h1]
  rfl

/-- The failing run in full: with fuel for its 3552 month requests, `Search` returns
the chunk at `T0 = 100` twice, once for each lap of the wrapped month counter. -/
theorem search_wrap_result :
    Search (tableBackend (written [("m", 100, [0, 1])]) 0 (fun _ => true) id) 3552 "m"
        4294079999 4294080001
      = some ([⟨[1], 644608, 100⟩, ⟨[1], 1531904, 100⟩], none) := by
  have hv : ∀ r ∈ written [("m", 100, [0, 1])], validPayload 0 (fun _ => true) r.data :=
    written_valid _ (fun _ d => validPayload 0 (fun _ => true) d)
      (by
        intro w hw
        simp only [List.mem_singleton] at hw
        subst hw
        exact ⟨by decide, rfl, rfl⟩)
  rw [search_sorted _ 0 (fun _ => true) id 3552 "m" 4294079999 4294080001 _ (by decide)
    wrap_queries (fun l => List.Perm.refl _) hv, flatMap_itersOf_filter]
  simp only [id]
  have hp : ((sortAsc (wrapRequests.map (processReadQueue
        (tableBackend (written [("m", 100, [0, 1])]) 0 (fun _ => true) id)))).filter
        (fun o => !o.i.rows.isEmpty)).Perm
      [⟨644608, 644608, ⟨[(100, [0, 1])], false⟩⟩,
       ⟨1531904, 1531904, ⟨[(100, [0, 1])], false⟩⟩] := by
    refine ((List.perm_insertionSort _ _).filter _).trans ?_
    rw [wrap_outcomes_filter]
    exact List.Perm.swap _ _ _
  have hs : ((sortAsc (wrapRequests.map (processReadQueue
        (tableBackend (written [("m", 100, [0, 1])]) 0 (fun _ => true) id)))).filter
        (fun o => !o.i.rows.isEmpty)).Sorted (fun a b => a.sortKey ≤ b.sortKey) :=
    List.Pairwise.filter _ (List.sorted_insertionSort _ _)
  have h1 := List.Sorted.insertionSort_eq hs
  have h2 := sortAsc_of_perm _ _ hp (by decide)
  rw [(h1.symm.trans h2 : (sortAsc (wrapRequests.map (processReadQueue
        (tableBackend (written [("m", 100, [0, 1])]) 0 (fun _ => true) id)))).filter
        (fun o => !o.i.rows.isEmpty) = _)]
  rfl

/-- C1, the failing input.  The table holds one chunk of metric `m`, at `T0 = 100`
(row `m_0`).  `Search(start = 4294079999, end = 4294080001)` has
`start_month = 4291660800` and `end_month = 4294080000`; after the request for the
end month, `month += month_sec` wraps around `2^32` to `1531904`, which is still
`<= end_month`, so the loop goes on and requests all of row `m_0`, and does so again
after a second wrap to `644608`.  With fuel for the 3552 month requests `Search`
returns the chunk at `T0 = 100` twice, and whatever the fuel it does not return the
empty list that is the only correct answer: no chunk of `m` has `T0 <= start` in the
row of `start`, and none has `start < T0 < end`. -/
theorem search_month_wrap :
    (4294080000 + month_sec) % u32 = 1531904 ∧ 1531904 / month_sec = 0
      ∧ tableSession (written [("m", 100, [0, 1])]) (.lePrev ⟨"m", 4294079999 / month_sec⟩
          4294079999) = ⟨[], false⟩
      ∧ tableSession (written [("m", 100, [0, 1])]) (.allAsc ⟨"m", 0⟩) = ⟨[(100, [0, 1])], false⟩
      ∧ Search (tableBackend (written [("m", 100, [0, 1])]) 0 (fun _ => true) id) 3552 "m"
            4294079999 4294080001
          = some ([⟨[1], 644608, 100⟩, ⟨[1], 1531904, 100⟩], none)
      ∧ ¬ ∃ fuel, Search (tableBackend (written [("m", 100, [0, 1])]) 0 (fun _ => true) id)
            fuel "m" 4294079999 4294080001 = some ([], none) := by
  refine ⟨by decide, by decide, by decide, by decide, search_wrap_result, ?_⟩
  rintro ⟨fuel, h⟩
  have hq : ∀ qs, queries fuel "m" 4294079999 4294080001 = some qs →
      (⟨1531904, 1531904, .allAsc ⟨"m", 0⟩⟩ : ChunkReadRequest) ∈ qs := by
    intro qs hqs
    have hsm : 4294079999 - 4294079999 % month_sec = 4291660800 := by decide
    have hem : (4294080001 + u32 - 1) % u32 - (4294080001 + u32 - 1) % u32 % month_sec
        = 4294080000 := by decide
    have hne : ¬ ((4291660800 : Nat) = 4294080000) := by decide
    simp only [queries, hsm, hem, hne, if_false] at hqs
    obtain ⟨f1, rfl⟩ | h0 : (∃ f, fuel = f + 1) ∨ fuel = 0 := by
      cases fuel with
      | zero => right; rfl
      | succ f => left; exact ⟨f, rfl⟩
    · have s1 : (4291660800 + month_sec) % u32 = 4294080000 := by decide
      have l1 : (4291660800 : Nat) ≤ 4294080000 := by decide
      simp only [monthLoop, l1, if_true, s1] at hqs
      obtain ⟨f2, rfl⟩ | h0 : (∃ f, f1 = f + 1) ∨ f1 = 0 := by
        cases f1 with
        | zero => right; rfl
        | succ f => left; exact ⟨f, rfl⟩
      · have s2 : (4294080000 + month_sec) % u32 = 1531904 := by decide
        have l2 : (4294080000 : Nat) ≤ 4294080000 := by decide
        simp only [monthLoop, l2, if_true, s2] at hqs
        obtain ⟨f3, rfl⟩ | h0 : (∃ f, f2 = f + 1) ∨ f2 = 0 := by
          cases f2 with
          | zero => right; rfl
          | succ f => left; exact ⟨f, rfl⟩
        · have l3 : (1531904 : Nat) ≤ 4294080000 := by decide
          have n3 : ¬ ((1531904 : Nat) = 4291660800) := by decide
          have n4 : ¬ ((1531904 : Nat) = 4294080000) := by decide
          have d3 : 1531904 / month_sec = 0 := by decide
          simp only [monthLoop, l3, if_true] at hqs
          cases hrest : monthLoop "m" 4294079999 4294080001 4291660800 4294080000 f3
              ((1531904 + month_sec) % u32) with
          | none => simp [hrest] at hqs
          | some rest =>
            simp [hrest] at hqs
            subst hqs
            have e3 : monthRequest "m" 4294079999 4294080001 4291660800 4294080000 1531904
                = ⟨1531904, 1531904, .allAsc ⟨"m", 0⟩⟩ := by decide
            rw [e3]
            simp
        · subst h0
          simp [monthLoop] at hqs
      · subst h0
        simp [monthLoop] at hqs
    · subst h0
      simp [monthLoop] at hqs
  unfold Search at h
  have hse : ¬ ((4294079999 : Nat) > 4294080001) := by decide
  rw [if_neg hse] at h
  cases hqs : queries fuel "m" 4294079999 4294080001 with
  | none => simp [hqs] at h
  | some qs =>
    simp only [hqs, Option.some.injEq] at h
    have hmem := hq qs hqs
    have hin : processReadQueue (tableBackend (written [("m", 100, [0, 1])]) 0
          (fun _ => true) id) ⟨1531904, 1531904, .allAsc ⟨"m", 0⟩⟩
        ∈ sortAsc ((tableBackend (written [("m", 100, [0, 1])]) 0 (fun _ => true) id).arrival
            (qs.map (processReadQueue (tableBackend (written [("m", 100, [0, 1])]) 0
              (fun _ => true) id)))) := by
      rw [mem_sortAsc]
      exact List.mem_map_of_mem _ hmem
    have hlen := gather_length _ _ [] (by rw [h]) _ hin
    rw [h] at hlen
    have hrows : (processReadQueue (tableBackend (written [("m", 100, [0, 1])]) 0
          (fun _ => true) id) ⟨1531904, 1531904, .allAsc ⟨"m", 0⟩⟩).i.rows.length = 1 := by
      decide
    rw [hrows] at hlen
    simp at hlen

end Store

/-! ## The memory index: `Find` merges the private and the public tree -/

namespace Memory

theorem firstNode_append (a b : List (Option Node)) (p : String) :
    firstNode (a ++ b) p = (firstNode a p).orElse (fun _ => firstNode b p) := by
  induction a with
  | nil => simp [firstNode]
  | cons x rest ih =>
    cases x with
    | none => simpa [firstNode] using ih
    | some n =>
      by_cases h : n.Path = p
      · simp [firstNode, h]
      · simpa [firstNode, h] using ih

theorem mem_pathsOf (l : List (Option Node)) (p : String) :
    p ∈ pathsOf l ↔ ∃ n, some n ∈ l ∧ n.Path = p := by
  induction l with
  | nil => simp [pathsOf]
  | cons x rest ih =>
    cases x with
    | none => simp [pathsOf, ih]
    | some n =>
      simp only [pathsOf, List.mem_cons, ih]
      constructor
      · rintro (h | ⟨n', h1, h2⟩)
        · exact ⟨n, Or.inl rfl, h.symm⟩
        · exact ⟨n', Or.inr h1, h2⟩
      · rintro ⟨n', h1 | h1, h2⟩
        · cases h1; exact Or.inl h2.symm
        · exact Or.inr ⟨n', h1, h2⟩

theorem firstNode_none (l : List (Option Node)) (p : String) (h : p ∉ pathsOf l) :
    firstNode l p = none := by
  induction l with
  | nil => rfl
  | cons x rest ih =>
    cases x with
    | none => simp only [pathsOf] at h; simpa [firstNode] using ih h
    | some n =>
      simp only [pathsOf, List.mem_cons, not_or] at h
      have h1 : ¬ n.Path = p := fun e => h.1 e.symm
      simpa [firstNode, h1] using ih h.2

/-- The loop of `Find` over the merged node list: the result has one node for each
path of the list that is not in `seen`, copied from the first node with that path. -/
theorem dedupNodes_spec (m : MemoryIdx) (l : List (Option Node)) :
    ∀ (seen : List String) (res : List IdxNode), dedupNodes m l seen = .ok res →
      (res.map (fun r => r.Path)).Nodup
      ∧ (∀ p, p ∈ res.map (fun r => r.Path) ↔ p ∈ pathsOf l ∧ p ∉ seen)
      ∧ (∀ r ∈ res, ∃ n, firstNode l r.Path = some n ∧ copyOf m r n) := by
  induction l with
  | nil =>
    intro seen res h
    simp only [dedupNodes, Except.ok.injEq] at h
    subst h
    simp [pathsOf]
  | cons x rest ih =>
    intro seen res h
    cases x with
    | none => simp [dedupNodes] at h
    | some n =>
      by_cases hs : n.Path ∈ seen
      · simp only [dedupNodes, hs, if_true] at h
        obtain ⟨h1, h2, h3⟩ := ih seen res h
        refine ⟨h1, ?_, ?_⟩
        · intro p
          rw [h2 p]
          simp only [pathsOf, List.mem_cons]
          constructor
          · rintro ⟨a, b⟩; exact ⟨Or.inr a, b⟩
          · rintro ⟨a | a, b⟩
            · subst a; exact absurd hs b
            · exact ⟨a, b⟩
        · intro r hr
          obtain ⟨n', hn', hc⟩ := h3 r hr
          have hne : ¬ n.Path = r.Path := by
            intro e
            have : r.Path ∈ res.map (fun r => r.Path) := List.mem_map_of_mem _ hr
            rw [h2] at this
            exact this.2 (e ▸ hs)
          exact ⟨n', by simp [firstNode, hne, hn'], hc⟩
      · simp only [dedupNodes, hs, if_false] at h
        cases hd : (if n.Leaf then derefDefs m n.Children else Except.ok []) with
        | error f => simp [hd] at h
        | ok defs =>
          cases hrest : dedupNodes m rest (n.Path :: seen) with
          | error f => simp [hd, hrest] at h
          | ok more =>
            simp only [hd, hrest, Except.ok.injEq] at h
            subst h
            obtain ⟨h1, h2, h3⟩ := ih (n.Path :: seen) more hrest
            refine ⟨?_, ?_, ?_⟩
            · simp only [List.map_cons, List.nodup_cons]
              refine ⟨?_, h1⟩
              intro hmem
              rw [h2] at hmem
              exact hmem.2 (List.mem_cons_self _ _)
            · intro p
              simp only [List.map_cons, List.mem_cons, pathsOf, h2 p, not_or]
              constructor
              · rintro (e | ⟨a, b, c⟩)
                · subst e; exact ⟨Or.inl rfl, hs⟩
                · exact ⟨Or.inr a, c⟩
              · rintro ⟨a | a, b⟩
                · exact Or.inl a
                · by_cases e : p = n.Path
                  · exact Or.inl e
                  · exact Or.inr ⟨a, e, b⟩
            · intro r hr
              rcases List.mem_cons.mp hr with e | e
              · subst e
                refine ⟨n, by simp [firstNode], rfl, rfl, ?_⟩
                by_cases hl : n.Leaf = true
                · simp only [hl, if_true] at hd ⊢; exact hd
                · simp only [hl, if_false] at hd ⊢
                  cases hd; rfl
              · obtain ⟨n', hn', hc⟩ := h3 r e
                have hne : ¬ n.Path = r.Path := by
                  intro e2
                  have : r.Path ∈ more.map (fun r => r.Path) := List.mem_map_of_mem _ e
                  rw [h2] at this
                  exact this.2 (by rw [e2]; exact List.mem_cons_self _ _)
                exact ⟨n', by simp [firstNode, hne, hn'], hc⟩

/-- Whenever `Find(org, pattern)` returns a node list, both calls of `find`
returned; the returned nodes have pairwise distinct paths; a path is returned exactly
when `find` matched it in the org's own tree or in the tree of org -1; and every
returned node is the copy (kind, and definitions for a leaf) of the first node with
its path among the org's own matches, and among the public matches only when the
org's own tree has no match with that path. -/
theorem find_merges_private_first (re : Regexp) (m : MemoryIdx) (orgId : Int)
    (pattern : String) (res : List IdxNode) (h : Find re m orgId pattern = .ok res) :
    ∃ own pub, find re m orgId pattern = .ok own ∧ find re m (-1) pattern = .ok pub
      ∧ (res.map (fun r => r.Path)).Nodup
      ∧ (∀ p, p ∈ res.map (fun r => r.Path) ↔ p ∈ pathsOf own ∨ p ∈ pathsOf pub)
      ∧ (∀ r ∈ res, ∃ n,
          (firstNode own r.Path).orElse (fun _ => firstNode pub r.Path) = some n
            ∧ copyOf m r n) := by
  unfold Find at h
  cases h1 : find re m orgId pattern with
  | error f => simp [h1] at h
  | ok own =>
    cases h2 : find re m (-1) pattern with
    | error f => simp [h1, h2] at h
    | ok pub =>
      simp only [h1, h2] at h
      obtain ⟨a, b, c⟩ := dedupNodes_spec m (own ++ pub) [] res h
      refine ⟨own, pub, rfl, rfl, a, ?_, ?_⟩
      · intro p
        rw [b p, mem_pathsOf, mem_pathsOf, mem_pathsOf]
        simp only [List.mem_append, List.not_mem_nil, not_false_eq_true, and_true]
        constructor
        · rintro ⟨n, h3 | h3, h4⟩
          · exact Or.inl ⟨n, h3, h4⟩
          · exact Or.inr ⟨n, h3, h4⟩
        · rintro (⟨n, h3, h4⟩ | ⟨n, h3, h4⟩)
          · exact ⟨n, Or.inl h3, h4⟩
          · exact ⟨n, Or.inr h3, h4⟩
      · intro r hr
        obtain ⟨n, hn, hc⟩ := c r hr
        rw [firstNode_append] at hn
        exact ⟨n, hn, hc⟩

/-- An instance: org 1 and the public org -1 both hold the leaf `a.b.c`; the node
returned for org 1 carries the definition of org 1. -/
theorem find_merges_private_first_witness :
    Find noRegexp
        (built [.addDef ⟨"a", 1, "a.b.c", 10, 0⟩, .addDef ⟨"b", 1, "a.b.d", 10, 0⟩,
          .addDef ⟨"c", -1, "a.b.c", 60, 0⟩]) 1 "a.b.c"
        = .ok [⟨"a.b.c", true, [⟨"a", 1, "a.b.c", 10, 0⟩]⟩]
      ∧ ∃ own pub,
          find noRegexp
            (built [.addDef ⟨"a", 1, "a.b.c", 10, 0⟩, .addDef ⟨"b", 1, "a.b.d", 10, 0⟩,
              .addDef ⟨"c", -1, "a.b.c", 60, 0⟩]) 1 "a.b.c" = .ok own
          ∧ find noRegexp
            (built [.addDef ⟨"a", 1, "a.b.c", 10, 0⟩, .addDef ⟨"b", 1, "a.b.d", 10, 0⟩,
              .addDef ⟨"c", -1, "a.b.c", 60, 0⟩]) (-1) "a.b.c" = .ok pub
          ∧ (([⟨"a.b.c", true, [⟨"a", 1, "a.b.c", 10, 0⟩]⟩] : List IdxNode).map
              (fun r => r.Path)).Nodup
          ∧ (∀ p, p ∈ ([⟨"a.b.c", true, [⟨"a", 1, "a.b.c", 10, 0⟩]⟩] : List IdxNode).map
              (fun r => r.Path) ↔ p ∈ pathsOf own ∨ p ∈ pathsOf pub)
          ∧ (∀ r ∈ ([⟨"a.b.c", true, [⟨"a", 1, "a.b.c", 10, 0⟩]⟩] : List IdxNode), ∃ n,
              (firstNode own r.Path).orElse (fun _ => firstNode pub r.Path) = some n
                ∧ copyOf
                  (built [.addDef ⟨"a", 1, "a.b.c", 10, 0⟩, .addDef ⟨"b", 1, "a.b.d", 10, 0⟩,
                    .addDef ⟨"c", -1, "a.b.c", 60, 0⟩]) r n) :=
  ⟨by decide,
    find_merges_private_first noRegexp
      (built [.addDef ⟨"a", 1, "a.b.c", 10, 0⟩, .addDef ⟨"b", 1, "a.b.d", 10, 0⟩,
        .addDef ⟨"c", -1, "a.b.c", 60, 0⟩]) 1 "a.b.c"
      [⟨"a.b.c", true, [⟨"a", 1, "a.b.c", 10, 0⟩]⟩] (by decide)⟩

/-- C9, the failing input.  `AddDef` of the empty name as the first metric of org 1
stores the leaf under the key `""` and so replaces the root; `AddDef` of `x` then
appends the segment `x` to the `Children` of that leaf.  The definition `c`, with a
new id and the name `""` (no metacharacter, not a branch path, no leaf among its
proper prefixes), is appended to the same leaf, and `Find(1, "")` dereferences
`DefById["x"]`, which is nil, instead of returning one leaf that holds `c`. -/
theorem add_find_root_leaf :
    run [.addDef ⟨"a", 1, "", 10, 0⟩, .addDef ⟨"b", 1, "x", 10, 0⟩]
        = .ok ⟨[("b", ⟨"b", 1, "x", 10, 0⟩), ("a", ⟨"a", 1, "", 10, 0⟩)],
            [((1 : Int), ⟨[("x", ⟨"x", ["b"], true⟩), ("", ⟨"", ["a", "x"], true⟩)]⟩)]⟩
      ∧ Get (built [.addDef ⟨"a", 1, "", 10, 0⟩, .addDef ⟨"b", 1, "x", 10, 0⟩]) "c" = none
      ∧ ContainsAny "" "*?[]{}" = false
      ∧ AddDef (built [.addDef ⟨"a", 1, "", 10, 0⟩, .addDef ⟨"b", 1, "x", 10, 0⟩])
          ⟨"c", 1, "", 10, 0⟩
        = .ok ⟨[("c", ⟨"c", 1, "", 10, 0⟩), ("b", ⟨"b", 1, "x", 10, 0⟩),
                ("a", ⟨"a", 1, "", 10, 0⟩)],
            [((1 : Int), ⟨[("x", ⟨"x", ["b"], true⟩), ("", ⟨"", ["a", "x", "c"], true⟩)]⟩)]⟩
      ∧ Find noRegexp
          (built [.addDef ⟨"a", 1, "", 10, 0⟩, .addDef ⟨"b", 1, "x", 10, 0⟩,
            .addDef ⟨"c", 1, "", 10, 0⟩]) 1 "" = .error .nilDeref := by
  decide

end Memory

/-! ## The memory index: `expandQueries` always returns -/

namespace Memory

theorem indexChar_split (c : Char) (l : List Char) (i : Nat) (h : indexChar c l = some i) :
    l = l.take i ++ c :: l.drop (i + 1) ∧ c ∉ l.take i := by
  induction l generalizing i with
  | nil => simp [indexChar] at h
  | cons x xs ih =>
    by_cases hx : x = c
    · simp only [indexChar, hx, if_true, Option.some.injEq] at h
      subst h
      subst hx
      simp
    · simp only [indexChar, hx, if_false, Option.map_eq_some'] at h
      obtain ⟨j, hj, rfl⟩ := h
      obtain ⟨h1, h2⟩ := ih j hj
      constructor
      · simp only [List.take_succ_cons, List.drop_succ_cons, List.cons_append]
        rw [← h1]
      · simp only [List.take_succ_cons, List.mem_cons, not_or]
        exact ⟨fun e => hx e.symm, h2⟩

/-- A piece of a split has no more occurrences of a character than the whole. -/
theorem count_splitChars (sep c : Char) (l : List Char) :
    ∀ p ∈ splitChars sep l, p.count c ≤ l.count c := by
  induction l with
  | nil => intro p hp; simp [splitChars] at hp; subst hp; simp
  | cons x xs ih =>
    intro p hp
    by_cases hx : x = sep
    · simp only [splitChars, hx, if_true, List.mem_cons] at hp
      rcases hp with e | e
      · subst e; simp
      · have := ih p e
        rw [List.count_cons]
        omega
    · simp only [splitChars, hx, if_false] at hp
      cases hs : splitChars sep xs with
      | nil =>
        rw [hs] at hp
        simp only [List.mem_singleton] at hp
        subst hp
        simp [List.count_cons]
      | cons q qs =>
        rw [hs] at hp ih
        simp only [List.mem_cons] at hp
        rcases hp with e | e
        · subst e
          have := ih q (List.mem_cons_self _ _)
          simp only [List.count_cons]
          omega
        · have := ih p (List.mem_cons_of_mem _ e)
          rw [List.count_cons]
          omega

theorem splitChars_ne_nil (sep : Char) (l : List Char) : splitChars sep l ≠ [] := by
  cases l with
  | nil => simp [splitChars]
  | cons x xs =>
    by_cases hx : x = sep
    · simp [splitChars, hx]
    · cases hs : splitChars sep xs <;> simp [splitChars, hx, hs]

theorem expandOne_eq (q : String) (lb r : Nat) (h1 : indexChar '{' q.data = some lb)
    (h2 : indexChar '}' (q.data.drop lb) = some r) :
    expandOne q = ((Split (String.mk ((q.data.take (r + lb)).drop (lb + 1))) ',').map
      (fun opt => String.mk (q.data.take lb) ++ opt ++ String.mk (q.data.drop (r + lb + 1))),
      true) := by
  simp [expandOne, h1, h2]

theorem expandOne_cases (q : String) :
    ((expandOne q).2 = false ∧ (expandOne q).1 = [q])
    ∨ ∃ lb r, indexChar '{' q.data = some lb ∧ indexChar '}' (q.data.drop lb) = some r := by
  cases h1 : indexChar '{' q.data with
  | none => left; simp [expandOne, h1]
  | some lb =>
    cases h2 : indexChar '}' (q.data.drop lb) with
    | none => left; simp [expandOne, h1, h2]
    | some r => right; exact ⟨lb, r, rfl, h2⟩

theorem expandOne_false (q : String) (h : (expandOne q).2 = false) : (expandOne q).1 = [q] := by
  rcases expandOne_cases q with h1 | ⟨lb, r, h1, h2⟩
  · exact h1.2
  · rw [expandOne_eq q lb r h1 h2] at h
    cases h

/-- An expansion removes at least one opening brace. -/
theorem expandOne_count (q : String) (h : (expandOne q).2 = true) :
    ∀ q' ∈ (expandOne q).1, q'.data.count '{' < q.data.count '{' := by
  rcases expandOne_cases q with h0 | ⟨lb, r, h1, h2⟩
  · rw [h0.1] at h; cases h
  · rw [expandOne_eq q lb r h1 h2]
    · intro q' hq'
      obtain ⟨opt, hopt, rfl⟩ := List.mem_map.mp hq'
      obtain ⟨p, hp, rfl⟩ := List.mem_map.mp hopt
      obtain ⟨e1, n1⟩ := indexChar_split '{' q.data lb h1
      obtain ⟨e2, _⟩ := indexChar_split '}' (q.data.drop lb) r h2
      have hcp := count_splitChars ',' '{' _ p hp
      simp only [String.data_append]
      -- the query is `pre ++ mid ++ suffix` with the first `{` at the head of `mid`
      have hq : q.data = q.data.take lb ++ q.data.drop lb := (List.take_append_drop lb _).symm
      have hdrop : q.data.drop lb = '{' :: q.data.drop (lb + 1) := by
        conv_lhs => rw [e1]
        rw [List.drop_left' (by
          rw [List.length_take]
          have : lb < q.data.length := by
            by_contra hlt
            have : q.data.take lb = q.data := List.take_of_length_le (by omega)
            rw [this] at e1
            have := congrArg List.length e1
            simp at this
          omega)]
      have hr : r ≠ 0 := by
        intro hr0
        subst hr0
        rw [hdrop] at h2
        simp [indexChar] at h2
      -- counts
      have c1 : (q.data.take lb).count '{' = 0 := List.count_eq_zero.mpr n1
      have c2 : q.data.count '{' = (q.data.take (r + lb)).count '{'
          + (q.data.drop (r + lb)).count '{' := by
        conv_lhs => rw [← List.take_append_drop (r + lb) q.data]
        rw [List.count_append]
      have c3 : (q.data.take (r + lb)).count '{'
          = (q.data.take (lb + 1)).count '{' + ((q.data.take (r + lb)).drop (lb + 1)).count '{' := by
        conv_lhs => rw [← List.take_append_drop (lb + 1) (q.data.take (r + lb))]
        rw [List.count_append, List.take_take]
        have : min (lb + 1) (r + lb) = lb + 1 := by omega
        rw [this]
      have c4 : (q.data.take (lb + 1)).count '{' = 1 := by
        have : q.data.take (lb + 1) = q.data.take lb ++ ['{'] := by
          conv_lhs => rw [e1]
          rw [List.take_append_eq_append_take]
          simp only [List.length_take]
          have hlen : lb ≤ q.data.length := by
            by_contra hlt
            have : q.data.take lb = q.data := List.take_of_length_le (by omega)
            rw [this] at e1
            have := congrArg List.length e1
            simp at this
          have hmin : min lb q.data.length = lb := by omega
          rw [hmin, List.take_take]
          have : min (lb + 1) lb = lb := by omega
          rw [this]
          simp
        rw [this, List.count_append, c1]
        simp
      have c5 : (q.data.drop (r + lb + 1)).count '{' ≤ (q.data.drop (r + lb)).count '{' := by
        have : q.data.drop (r + lb + 1) = (q.data.drop (r + lb)).drop 1 := by
          rw [List.drop_drop]
        rw [this]
        exact (List.drop_sublist 1 _).count_le _
      simp only [String.data_append, List.count_append] at hcp ⊢
      rw [c1]
      omega

theorem expandPass_mem (qs : List String) (q' : String) :
    q' ∈ (expandPass qs).1 ↔ ∃ q ∈ qs, q' ∈ (expandOne q).1 := by
  induction qs with
  | nil => simp [expandPass]
  | cons q rest ih => simp [expandPass, ih]

theorem expandPass_false (qs : List String) :
    (expandPass qs).2 = false ↔ ∀ q ∈ qs, (expandOne q).2 = false := by
  induction qs with
  | nil => simp [expandPass]
  | cons q rest ih => simp [expandPass, ih]

/-- The loop of `expandQueries` returns when it has one pass more than the greatest
number of opening braces in a query that can still be expanded. -/
theorem expandLoop_some (n : Nat) :
    ∀ qs : List String, (∀ q ∈ qs, (expandOne q).2 = true → q.data.count '{' ≤ n) →
      ∃ l, expandLoop (n + 1) qs = some l := by
  induction n with
  | zero =>
    intro qs h
    have hf : (expandPass qs).2 = false := by
      rw [expandPass_false]
      intro q hq
      by_contra hne
      have ht : (expandOne q).2 = true := by simpa using hne
      have h0 := h q hq ht
      have hlt := expandOne_count q ht
      cases hl : (expandOne q).1 with
      | nil =>
        -- an expansion has at least one option
        rcases expandOne_cases q with hc | ⟨lb, r, h1, h2⟩
        · rw [hc.1] at ht; cases ht
        · rw [expandOne_eq q lb r h1 h2] at hl
          simp only [List.map_eq_nil_iff, Split] at hl
          exact splitChars_ne_nil _ _ hl
      | cons q' rest =>
        have := hlt q' (by rw [hl]; exact List.mem_cons_self _ _)
        omega
    exact ⟨(expandPass qs).1, by simp [expandLoop, hf]⟩
  | succ n ih =>
    intro qs h
    by_cases hk : (expandPass qs).2 = true
    · have hrec : ∀ q' ∈ (expandPass qs).1, (expandOne q').2 = true →
          q'.data.count '{' ≤ n := by
        intro q' hq' ht'
        obtain ⟨q, hq, hq1⟩ := (expandPass_mem qs q').mp hq'
        by_cases ht : (expandOne q).2 = true
        · have := expandOne_count q ht q' hq1
          have := h q hq ht
          omega
        · have hf : (expandOne q).2 = false := by simpa using ht
          rw [expandOne_false q hf] at hq1
          simp only [List.mem_singleton] at hq1
          subst hq1
          rw [hf] at ht'
          cases ht'
      obtain ⟨l, hl⟩ := ih _ hrec
      exact ⟨l, by rw [expandLoop, if_pos hk, hl]⟩
    · exact ⟨(expandPass qs).1, by rw [expandLoop, if_neg hk]⟩

/-- `expandQueries` never runs out of fuel. -/
theorem expandQueries_some (query : String) : ∃ l, expandQueries query = some l := by
  unfold expandQueries
  apply expandLoop_some
  intro q hq _
  simp only [List.mem_singleton] at hq
  subst hq
  exact List.count_le_length _ _

end Memory

namespace Memory

theorem matchAll_ne_fuel (re : Regexp) (candidates : List String) (ps : List String) :
    matchAll re candidates ps ≠ .error .fuel := by
  induction ps with
  | nil => simp [matchAll]
  | cons p rest ih =>
    unfold matchAll
    cases h1 : matchOne re p candidates with
    | error f =>
      unfold matchOne at h1
      split_ifs at h1
      · cases h2 : re.compile ("^" ++ Replace (Replace p '*' ".*") '?' ".?" ++ "$") with
        | none => rw [h2] at h1; cases h1; simp
        | some r => rw [h2] at h1; cases h1
    | ok r1 =>
      cases h2 : matchAll re candidates rest with
      | error f =>
        simp only
        intro e
        cases e
        exact ih h2
      | ok r2 => simp

theorem match_ne_fuel (re : Regexp) (pattern : String) (candidates : List String) :
    match_ re pattern candidates ≠ .error .fuel := by
  unfold match_
  split_ifs
  · obtain ⟨l, hl⟩ := expandQueries_some pattern
    rw [hl]
    exact matchAll_ne_fuel re candidates l
  · exact matchAll_ne_fuel re candidates [pattern]

theorem findChildren_ne_fuel (re : Regexp) (items : AMap String Node) (seg : String)
    (children : List (Option Node)) : findChildren re items seg children ≠ .error .fuel := by
  induction children with
  | nil => simp [findChildren]
  | cons c rest ih =>
    cases c with
    | none => simp [findChildren]
    | some c =>
      rw [findChildren]
      by_cases hl : c.Leaf = true
      · rw [if_pos hl]; exact ih
      · rw [if_neg hl]
        cases h1 : match_ re seg c.Children with
        | error f =>
          simp only
          intro e
          cases e
          exact match_ne_fuel re seg c.Children h1
        | ok matched =>
          cases h2 : findChildren re items seg rest with
          | error f =>
            simp only
            intro e
            cases e
            exact ih h2
          | ok more => simp

theorem findLoop_ne_fuel (re : Regexp) (items : AMap String Node) (segs : List String) :
    ∀ children : List (Option Node), findLoop re items segs children ≠ .error .fuel := by
  induction segs with
  | nil => intro children; simp [findLoop]
  | cons seg rest ih =>
    intro children
    unfold findLoop
    cases h1 : findChildren re items seg children with
    | error f =>
      simp only
      intro e
      cases e
      exact findChildren_ne_fuel re items seg children h1
    | ok g =>
      simp only
      split_ifs
      · simp
      · exact ih g

theorem find_ne_fuel (re : Regexp) (m : MemoryIdx) (orgId : Int) (pattern : String) :
    find re m orgId pattern ≠ .error .fuel := by
  unfold find
  cases AMap.get? m.Tree orgId with
  | none => simp
  | some tree =>
    simp only
    by_cases hk : literalPrefix (Split pattern '.') = 0
    · rw [if_pos hk]; exact findLoop_ne_fuel _ _ _ _
    · rw [if_neg hk]
      cases AMap.get? tree.Items (Join (List.take (literalPrefix (Split pattern '.'))
          (Split pattern '.')) ".") with
      | none => simp
      | some n =>
        simp only
        by_cases hk2 : literalPrefix (Split pattern '.') = (Split pattern '.').length
        · rw [if_pos hk2]; simp
        · rw [if_neg hk2]; exact findLoop_ne_fuel _ _ _ _

theorem dedupNodes_ne_fuel (m : MemoryIdx) (l : List (Option Node)) :
    ∀ seen : List String, dedupNodes m l seen ≠ .error .fuel := by
  have hderef : ∀ ids : List String, derefDefs m ids ≠ .error .fuel := by
    intro ids
    induction ids with
    | nil => simp [derefDefs]
    | cons id rest ih =>
      unfold derefDefs
      cases AMap.get? m.DefById id with
      | none => simp
      | some d =>
        cases h : derefDefs m rest with
        | error f =>
          simp only
          intro e
          cases e
          exact ih h
        | ok ds => simp
  induction l with
  | nil => intro seen; simp [dedupNodes]
  | cons x rest ih =>
    intro seen
    cases x with
    | none => simp [dedupNodes]
    | some n =>
      rw [dedupNodes]
      by_cases hs : n.Path ∈ seen
      · rw [if_pos hs]; exact ih seen
      · rw [if_neg hs]
        cases h1 : (if n.Leaf then derefDefs m n.Children else Except.ok []) with
        | error f =>
          simp only
          intro e
          cases e
          by_cases hl : n.Leaf = true
          · rw [if_pos hl] at h1
            exact hderef _ h1
          · rw [if_neg hl] at h1
            cases h1
        | ok defs =>
          cases h2 : dedupNodes m rest (n.Path :: seen) with
          | error f =>
            simp only
            intro e
            cases e
            exact ih _ h2
          | ok more => simp

/-- `Find` never ends in the fuel fault of the model: it returns a node list, fails
with the error of `regexp.Compile`, or dereferences a nil pointer. -/
theorem Find_ne_fuel (re : Regexp) (m : MemoryIdx) (orgId : Int) (pattern : String) :
    Find re m orgId pattern ≠ .error .fuel := by
  unfold Find
  cases h1 : find re m orgId pattern with
  | error f =>
    simp only
    intro e
    cases e
    exact find_ne_fuel re m orgId pattern h1
  | ok a =>
    cases h2 : find re m (-1) pattern with
    | error f =>
      simp only
      intro e
      cases e
      exact find_ne_fuel re m (-1) pattern h2
    | ok b => exact dedupNodes_ne_fuel m _ _

end Memory

/-! ## The memory index: concrete runs of `Find`, `add` and `Delete` -/

namespace Memory

/-- C11, the failing input.  The scenario of the specification evaluates as claimed:
with the leaves `a.dc1.x`, `a.dc2.x`, `a.dc3.x`, `Find(1, "a.{dc1,dc9,dc3}.x")` returns
the two leaves `a.dc1.x` and `a.dc3.x`, and the alternative `dc9` contributes nothing.
But in the index built by `Add` of the empty name and `Add` of `x` for org 1, the first
`Add` has replaced the root by a leaf, and the walk of `find` from the root skips it as
a leaf: `Find(1, "{x,y}")` returns nothing, although the leaf `x` is in the tree and
`Find(1, "x")`, the first alternative, returns it. -/
theorem brace_find_root_leaf :
    Find noRegexp
        (built [.add ⟨"1", 1, "a.dc1.x", 10, 0⟩, .add ⟨"2", 1, "a.dc2.x", 10, 0⟩,
          .add ⟨"3", 1, "a.dc3.x", 10, 0⟩]) 1 "a.\x7bdc1,dc9,dc3\x7d.x"
        = .ok [⟨"a.dc1.x", true, [⟨"1", 1, "a.dc1.x", 10, 0⟩]⟩,
               ⟨"a.dc3.x", true, [⟨"3", 1, "a.dc3.x", 10, 0⟩]⟩]
      ∧ run [.add ⟨"a", 1, "", 10, 0⟩, .add ⟨"b", 1, "x", 10, 0⟩]
        = .ok ⟨[("b", ⟨"b", 1, "x", 10, 0⟩), ("a", ⟨"a", 1, "", 10, 0⟩)],
            [((1 : Int), ⟨[("x", ⟨"x", ["b"], true⟩), ("", ⟨"", ["a", "x"], true⟩)]⟩)]⟩
      ∧ expandQueries "\x7bx,y\x7d" = some ["x", "y"]
      ∧ Find noRegexp (built [.add ⟨"a", 1, "", 10, 0⟩, .add ⟨"b", 1, "x", 10, 0⟩]) 1 "x"
        = .ok [⟨"x", true, [⟨"b", 1, "x", 10, 0⟩]⟩]
      ∧ Find noRegexp (built [.add ⟨"a", 1, "", 10, 0⟩, .add ⟨"b", 1, "x", 10, 0⟩]) 1 "\x7bx,y\x7d"
        = .ok [] := by
  decide

/-- C12, counterexample.  The tree holds the leaves `a.b.c.x` and `a.d.x`.  Expanding
the braces of the whole pattern `a.{b.c,d}.x` gives `a.b.c.x` and `a.d.x`, and `Find`
of either returns its leaf; but `find` splits the pattern at `.` first, into the
segments `a`, `{b`, `c,d}`, `x`, so `Find(1, "a.{b.c,d}.x")` returns nothing. -/
theorem brace_across_segments_counterexample :
    expandQueries "a.\x7bb.c,d\x7d.x" = some ["a.b.c.x", "a.d.x"]
      ∧ Split "a.\x7bb.c,d\x7d.x" '.' = ["a", "\x7bb", "c,d\x7d", "x"]
      ∧ Find noRegexp (built [.add ⟨"1", 1, "a.b.c.x", 10, 0⟩, .add ⟨"2", 1, "a.d.x", 10, 0⟩])
          1 "a.b.c.x" = .ok [⟨"a.b.c.x", true, [⟨"1", 1, "a.b.c.x", 10, 0⟩]⟩]
      ∧ Find noRegexp (built [.add ⟨"1", 1, "a.b.c.x", 10, 0⟩, .add ⟨"2", 1, "a.d.x", 10, 0⟩])
          1 "a.d.x" = .ok [⟨"a.d.x", true, [⟨"2", 1, "a.d.x", 10, 0⟩]⟩]
      ∧ Find noRegexp (built [.add ⟨"1", 1, "a.b.c.x", 10, 0⟩, .add ⟨"2", 1, "a.d.x", 10, 0⟩])
          1 "a.\x7bb.c,d\x7d.x" = .ok [] := by
  decide

/-- C13, the failing input.  `match` turns the segment pattern `a?` into the regular
expression `^a.?$`, in which `.?` stands for at most one character, so the candidate
`a`, one character shorter than the pattern, is returned. -/
theorem question_mark_optional :
    "^" ++ Replace (Replace "a?" '*' ".*") '?' ".?" ++ "$" = "^a.?$"
      ∧ match_ simpleRegexp "a?" ["a"] = .ok ["a"]
      ∧ match_ simpleRegexp "a?" ["ab"] = .ok ["ab"]
      ∧ ("a" : String).length ≠ ("a?" : String).length := by
  decide

/-- C14, the failing input.  `Add` of a metric with the empty name as the first metric
of org 1 leaves the leaf under the key `""`, where the root was: the check "a path can
not be both a leaf and a branch" is made only when the tree of the org exists already,
as the third run shows, where the same `Add` is rejected and the root stays a branch.
A second `Add` then hangs the segment `x` below that leaf. -/
theorem root_becomes_leaf :
    run [.add ⟨"a", 1, "", 10, 0⟩]
        = .ok ⟨[("a", ⟨"a", 1, "", 10, 0⟩)], [((1 : Int), ⟨[("", ⟨"", ["a"], true⟩)]⟩)]⟩
      ∧ run [.add ⟨"a", 1, "", 10, 0⟩, .add ⟨"b", 1, "x", 10, 0⟩]
        = .ok ⟨[("b", ⟨"b", 1, "x", 10, 0⟩), ("a", ⟨"a", 1, "", 10, 0⟩)],
            [((1 : Int), ⟨[("x", ⟨"x", ["b"], true⟩), ("", ⟨"", ["a", "x"], true⟩)]⟩)]⟩
      ∧ run [.add ⟨"b", 1, "x", 10, 0⟩, .add ⟨"a", 1, "", 10, 0⟩]
        = .ok ⟨[("a", ⟨"a", 1, "", 10, 0⟩), ("b", ⟨"b", 1, "x", 10, 0⟩)],
            [((1 : Int), ⟨[("x", ⟨"x", ["b"], true⟩), ("", ⟨"", ["x"], false⟩)]⟩)]⟩ := by
  decide

/-- C15, the failing input.  The index holds the leaf `x.y`.  `AddDef` of the new id
`b` with the name `x`, an existing branch, is rejected and leaves the tree as it was,
but `add` has stored the definition in `DefById` before the check, so `Get("b")`
returns it; the same holds for the new id `c` with the name `x.y.z`, below a leaf. -/
theorem rejected_insert_stays_by_id :
    Get (built [.addDef ⟨"a", 1, "x.y", 10, 0⟩]) "b" = none
      ∧ (built [.addDef ⟨"a", 1, "x.y", 10, 0⟩, .addDef ⟨"b", 1, "x", 10, 0⟩]).Tree
        = (built [.addDef ⟨"a", 1, "x.y", 10, 0⟩]).Tree
      ∧ run [.addDef ⟨"a", 1, "x.y", 10, 0⟩, .addDef ⟨"b", 1, "x", 10, 0⟩]
        = .ok ⟨[("b", ⟨"b", 1, "x", 10, 0⟩), ("a", ⟨"a", 1, "x.y", 10, 0⟩)],
            [((1 : Int), ⟨[("x.y", ⟨"x.y", ["a"], true⟩), ("x", ⟨"x", ["y"], false⟩),
              ("", ⟨"", ["x"], false⟩)]⟩)]⟩
      ∧ Get (built [.addDef ⟨"a", 1, "x.y", 10, 0⟩, .addDef ⟨"b", 1, "x", 10, 0⟩]) "b"
        = some ⟨"b", 1, "x", 10, 0⟩
      ∧ (built [.addDef ⟨"a", 1, "x.y", 10, 0⟩, .addDef ⟨"c", 1, "x.y.z", 10, 0⟩]).Tree
        = (built [.addDef ⟨"a", 1, "x.y", 10, 0⟩]).Tree
      ∧ Get (built [.addDef ⟨"a", 1, "x.y", 10, 0⟩, .addDef ⟨"c", 1, "x.y.z", 10, 0⟩]) "c"
        = some ⟨"c", 1, "x.y.z", 10, 0⟩ := by
  decide

/-- C16, the failing input.  The index holds the single leaf `a.b.c.d` of org 1.
`Delete(1, "a.b.c.d")` removes the leaf and the branches `a.b.c`, `a.b`, `a`, and then,
the loop running down to `i = 0`, the root as well: the tree of org 1 is left without
any node.  The next `Add` for org 1 finds the tree, takes `tree.Items[""]`, which is
nil, as its start node, and panics. -/
theorem delete_removes_root :
    run [.add ⟨"X", 1, "a.b.c.d", 10, 0⟩]
        = .ok ⟨[("X", ⟨"X", 1, "a.b.c.d", 10, 0⟩)],
            [((1 : Int), ⟨[("a.b.c.d", ⟨"a.b.c.d", ["X"], true⟩),
              ("a.b.c", ⟨"a.b.c", ["d"], false⟩), ("a.b", ⟨"a.b", ["c"], false⟩),
              ("a", ⟨"a", ["b"], false⟩), ("", ⟨"", ["a"], false⟩)]⟩)]⟩
      ∧ Delete noRegexp 1 (built [.add ⟨"X", 1, "a.b.c.d", 10, 0⟩]) 1 "a.b.c.d"
        = .ok (⟨[], [((1 : Int), ⟨[]⟩)]⟩, false)
      ∧ Add ⟨[], [((1 : Int), ⟨[]⟩)]⟩ ⟨"Y", 1, "a.b", 10, 0⟩ = .error .nilDeref := by
  decide

/-- C17, the failing input.  The index is built by `Add` of `x.y` (id `a`) and `Add` of
`x` (id `b`) for org 1; the second is rejected, `x` being a branch, but its definition
stays in `DefById`.  `Delete(1, "*")` matches the branch `x` and removes the leaf
`x.y` and the definition `a`; the definition `b` of org 1 remains in the by-id map. -/
theorem delete_all_leaves_definition :
    run [.add ⟨"a", 1, "x.y", 10, 0⟩, .add ⟨"b", 1, "x", 10, 0⟩]
        = .ok ⟨[("b", ⟨"b", 1, "x", 10, 0⟩), ("a", ⟨"a", 1, "x.y", 10, 0⟩)],
            [((1 : Int), ⟨[("x.y", ⟨"x.y", ["a"], true⟩), ("x", ⟨"x", ["y"], false⟩),
              ("", ⟨"", ["x"], false⟩)]⟩)]⟩
      ∧ find simpleRegexp (built [.add ⟨"a", 1, "x.y", 10, 0⟩, .add ⟨"b", 1, "x", 10, 0⟩]) 1 "*"
        = .ok [some ⟨"x", ["y"], false⟩]
      ∧ Delete simpleRegexp 2 (built [.add ⟨"a", 1, "x.y", 10, 0⟩, .add ⟨"b", 1, "x", 10, 0⟩])
          1 "*"
        = .ok (⟨[("b", ⟨"b", 1, "x", 10, 0⟩)], [((1 : Int), ⟨[]⟩)]⟩, false)
      ∧ Get ⟨[("b", ⟨"b", 1, "x", 10, 0⟩)], [((1 : Int), ⟨[]⟩)]⟩ "b"
        = some ⟨"b", 1, "x", 10, 0⟩ := by
  decide

/-- C18, the failing input.  The index holds the leaf `x` of org 1.  The definition
`b` has a new id and the name `x.y`, which has no metacharacter and is not a path of
the tree.  `AddDef` rejects it, `x` being a leaf, after storing it in `DefById`;
`Delete(1, "x.y")` then finds no node and removes nothing, so the id `b` is still in the
by-id map afterwards. -/
theorem add_delete_keeps_rejected :
    Get (built [.add ⟨"a", 1, "x", 10, 0⟩]) "b" = none
      ∧ ContainsAny "x.y" "*?[]\x7b\x7d" = false
      ∧ find noRegexp (built [.add ⟨"a", 1, "x", 10, 0⟩]) 1 "x.y" = .ok []
      ∧ AddDef (built [.add ⟨"a", 1, "x", 10, 0⟩]) ⟨"b", 1, "x.y", 10, 0⟩
        = .ok ⟨[("b", ⟨"b", 1, "x.y", 10, 0⟩), ("a", ⟨"a", 1, "x", 10, 0⟩)],
            [((1 : Int), ⟨[("x", ⟨"x", ["a"], true⟩), ("", ⟨"", ["x"], false⟩)]⟩)]⟩
      ∧ Delete noRegexp 1
          ⟨[("b", ⟨"b", 1, "x.y", 10, 0⟩), ("a", ⟨"a", 1, "x", 10, 0⟩)],
            [((1 : Int), ⟨[("x", ⟨"x", ["a"], true⟩), ("", ⟨"", ["x"], false⟩)]⟩)]⟩ 1 "x.y"
        = .ok (⟨[("b", ⟨"b", 1, "x.y", 10, 0⟩), ("a", ⟨"a", 1, "x", 10, 0⟩)],
            [((1 : Int), ⟨[("x", ⟨"x", ["a"], true⟩), ("", ⟨"", ["x"], false⟩)]⟩)]⟩, false) := by
  decide

/-- C19, the failing input.  The index holds the leaves `a.b` (id `X`) and `a.c` (id
`Y`).  `DeleteWithReport(1, "a")` matches the branch `a`; the ids removed from the by-id
map are `X` and `Y`, but the returned list is `["c", "", "X", "Y"]`: the slots that
`delete` reserves for the `Children` of the branch are filled with what is left of
its child segments.  And `DeleteWithReport(1, "{x,x}")` on the single leaf `x` (id `Z`)
reports `Z` twice. -/
theorem delete_report_segments :
    DeleteWithReport simpleRegexp 2
        (built [.add ⟨"X", 1, "a.b", 10, 0⟩, .add ⟨"Y", 1, "a.c", 10, 0⟩]) 1 "a"
        = .ok (⟨[], [((1 : Int), ⟨[]⟩)]⟩, some ["c", "", "X", "Y"])
      ∧ AMap.keys (built [.add ⟨"X", 1, "a.b", 10, 0⟩, .add ⟨"Y", 1, "a.c", 10, 0⟩]).DefById
        = ["Y", "X"]
      ∧ DeleteWithReport noRegexp 1 (built [.add ⟨"Z", 1, "x", 10, 0⟩]) 1 "\x7bx,x\x7d"
        = .ok (⟨[], [((1 : Int), ⟨[]⟩)]⟩, some ["Z", "Z"]) := by
  decide

end Memory

/-! ## The memory index: brace expansion inside `match` -/

namespace Memory

theorem expandPass_fix (qs : List String) (h : (expandPass qs).2 = false) :
    (expandPass qs).1 = qs := by
  induction qs with
  | nil => rfl
  | cons q rest ih =>
    simp only [expandPass, Bool.or_eq_false_iff] at h
    simp only [expandPass]
    rw [expandOne_false q h.1, ih h.2]
    rfl

/-- What the loop of `expandQueries` returns cannot be expanded further. -/
theorem expandLoop_fixed (n : Nat) :
    ∀ (qs l : List String), expandLoop n qs = some l → ∀ q ∈ l, (expandOne q).2 = false := by
  induction n with
  | zero => intro qs l h; simp [expandLoop] at h
  | succ n ih =>
    intro qs l h
    rw [expandLoop] at h
    by_cases hp : (expandPass qs).2 = true
    · rw [if_pos hp] at h
      exact ih _ l h
    · rw [if_neg hp] at h
      have hf : (expandPass qs).2 = false := by simpa using hp
      cases h
      rw [expandPass_fix qs hf]
      exact (expandPass_false qs).mp hf

/-- A query without a brace pair to expand is its own expansion. -/
theorem expandQueries_fixed (q : String) (h : (expandOne q).2 = false) :
    expandQueries q = some [q] := by
  have hp : expandPass [q] = ([q], false) := by
    simp [expandPass, expandOne_false q h, h]
  simp [expandQueries, expandLoop, hp]

theorem indexChar_none (c : Char) (l : List Char) (h : c ∉ l) : indexChar c l = none := by
  induction l with
  | nil => rfl
  | cons x xs ih =>
    simp only [List.mem_cons, not_or] at h
    have hx : ¬ x = c := fun e => h.1 e.symm
    simp [indexChar, hx, ih h.2]

theorem expandOne_no_brace (s : String) (h : ContainsAny s "{}" = false) :
    (expandOne s).2 = false := by
  have hmem : '{' ∉ s.data := by
    intro hin
    have : ContainsAny s "{}" = true := by
      simp only [ContainsAny, List.any_eq_true]
      exact ⟨'{', hin, by decide⟩
    rw [h] at this
    cases this
  simp [expandOne, indexChar_none '{' s.data hmem]

theorem matchAll_single (re : Regexp) (candidates : List String) (q : String) :
    matchAll re candidates [q] = matchOne re q candidates := by
  simp only [matchAll]
  cases matchOne re q candidates with
  | error f => rfl
  | ok r => simp

theorem match_fixed (re : Regexp) (q : String) (candidates : List String)
    (h : (expandOne q).2 = false) : match_ re q candidates = matchOne re q candidates := by
  unfold match_
  by_cases hc : ContainsAny q "{}" = true
  · rw [if_pos hc, expandQueries_fixed q h]
    exact matchAll_single re candidates q
  · rw [if_neg hc]
    exact matchAll_single re candidates q

theorem matchAll_concat (re : Regexp) (candidates : List String) (alts : List String) :
    matchAll re candidates alts
      = concatResults (alts.map (fun q => matchOne re q candidates)) := by
  induction alts with
  | nil => rfl
  | cons q rest ih =>
    simp only [matchAll, List.map_cons, concatResults, ih]

/-- Brace groups are expanded inside `match`, that is within one
dotted segment, `find` having split the pattern at `.` before: for every segment
pattern `s` and every list of child names, the brace expansion of `s` returns a list
of alternatives that cannot be expanded further, and `match(s, candidates)` is the
result of `match(q, candidates)` for each alternative `q` in turn, put together in
that order. -/
theorem match_brace_alternatives (re : Regexp) (s : String) (candidates : List String) :
    ∃ alts, expandQueries s = some alts
      ∧ (∀ q ∈ alts, expandQueries q = some [q])
      ∧ match_ re s candidates = concatResults (alts.map (fun q => match_ re q candidates)) := by
  obtain ⟨alts, halts⟩ := expandQueries_some s
  have hfix : ∀ q ∈ alts, (expandOne q).2 = false := expandLoop_fixed _ _ _ halts
  have hmap : alts.map (fun q => match_ re q candidates)
      = alts.map (fun q => matchOne re q candidates) :=
    List.map_congr_left (fun q hq => match_fixed re q candidates (hfix q hq))
  by_cases hc : ContainsAny s "{}" = true
  · refine ⟨alts, halts, fun q hq => expandQueries_fixed q (hfix q hq), ?_⟩
    rw [hmap, ← matchAll_concat]
    simp [match_, hc, halts]
  · have hs : (expandOne s).2 = false := expandOne_no_brace s (by simpa using hc)
    have hself := expandQueries_fixed s hs
    rw [hself] at halts
    cases halts
    refine ⟨[s], hself, fun q hq => expandQueries_fixed q (hfix q hq), ?_⟩
    rw [hmap, ← matchAll_concat]
    simp [match_, hc]

end Memory

/-! ## The chunk store read path: an error of `Close` -/

namespace Store

/-- With valid payloads in every row, `Search` returns no error, whatever `Close`
reports. -/
theorem search_no_error (be : Backend) (fuel : Nat) (key : String) (start end_ : Nat)
    (hse : ¬ start > end_) (hperm : ∀ l, (be.arrival l).Perm l)
    (hv : ∀ q, ∀ p ∈ (be.session q).rows,
      validPayload be.FormatStandardGoTsz be.newIterator p.2)
    (r : List Iter × Option SearchErr) (h : Search be fuel key start end_ = some r) :
    r.2 = none := by
  unfold Search at h
  rw [if_neg hse] at h
  cases hq : queries fuel key start end_ with
  | none => simp [hq] at h
  | some qs =>
    simp only [hq, Option.some.injEq] at h
    rw [gather_valid] at h
    · rw [← h]
    · intro o ho p hp
      rw [mem_sortAsc, (hperm _).mem_iff] at ho
      obtain ⟨crr, _, rfl⟩ := List.mem_map.mp ho
      exact hv crr.q p hp

/-- The backend that fails on every `Close` still passes the checks of its rows. -/
theorem search_close_ignored (be : Backend) (fuel : Nat) (key : String) (start end_ : Nat)
    (hse : ¬ start > end_) (hperm : ∀ l, (be.arrival l).Perm l)
    (hv : ∀ q, ∀ p ∈ (be.session q).rows,
      validPayload be.FormatStandardGoTsz be.newIterator p.2)
    (r : List Iter × Option SearchErr)
    (h : Search (failingClose be) fuel key start end_ = some r) : r.2 = none :=
  search_no_error (failingClose be) fuel key start end_ hse hperm hv r h

/-- C20, the failing input.  The table holds the chunks `T0 = 0, 600, 1200, 1800` of
metric `m`, and the row iterator of each of the two sub-queries of
`Search("m", 900, 1500)` reports an error when it is closed.  `Search` logs the error
and returns the chunks at 600 and 1200 with a nil error. -/
theorem close_error_dropped :
    ((failingClose (tableBackend
        (written [("m", 0, [0, 1]), ("m", 600, [0, 2]), ("m", 1200, [0, 3]), ("m", 1800, [0, 4])])
        0 (fun _ => true) id)).session (.lePrev ⟨"m", 0⟩ 900)).closeErr = true
      ∧ ((failingClose (tableBackend
        (written [("m", 0, [0, 1]), ("m", 600, [0, 2]), ("m", 1200, [0, 3]), ("m", 1800, [0, 4])])
        0 (fun _ => true) id)).session (.between ⟨"m", 0⟩ 900 1500)).closeErr = true
      ∧ Search (failingClose (tableBackend
          (written [("m", 0, [0, 1]), ("m", 600, [0, 2]), ("m", 1200, [0, 3]),
            ("m", 1800, [0, 4])]) 0 (fun _ => true) id)) 1 "m" 900 1500
        = some ([⟨[2], 0, 600⟩, ⟨[3], 0, 1200⟩], none) := by
  decide

end Store

/-! ## The memory index: what `add` stores before it checks the path -/

namespace Memory

/-- Every return of `add`, the rejected inserts included, leaves the definition in
`DefById`. -/
theorem add_stores_def (m m1 : MemoryIdx) (d : MetricDefinition) (h : add m d = .ok m1) :
    Get m1 d.Id = some d := by
  have hset : AMap.get? (AMap.set m.DefById d.Id d) d.Id = some d := by
    rw [AMap.get?_set]; simp
  unfold add at h
  cases ht : AMap.get? m.Tree d.OrgId with
  | none =>
    simp only [ht] at h
    cases ha : addPath [("", ({ Path := "", Children := [], Leaf := false } : Node))] d with
    | error f => simp [ha] at h
    | ok r =>
      cases r with
      | none => simp only [ha] at h; cases h; exact hset
      | some items => simp only [ha] at h; cases h; exact hset
  | some tree =>
    simp only [ht] at h
    cases hn : AMap.get? tree.Items d.Name with
    | some node =>
      simp only [hn] at h
      by_cases hl : node.Leaf = false
      · rw [if_pos hl] at h; cases h; exact hset
      · rw [if_neg hl] at h; cases h; exact hset
    | none =>
      simp only [hn] at h
      cases ha : addPath tree.Items d with
      | error f => simp [ha] at h
      | ok r =>
        cases r with
        | none => simp only [ha] at h; cases h; exact hset
        | some items => simp only [ha] at h; cases h; exact hset

end Memory

/-! ## The memory index: `Split`, `Join` and child paths -/

namespace Memory

theorem splitChars_not_mem (sep : Char) (l : List Char) :
    ∀ piece ∈ splitChars sep l, sep ∉ piece := by
  induction l with
  | nil => intro piece h; simp [splitChars] at h; subst h; simp
  | cons c cs ih =>
    intro piece h
    by_cases hc : c = sep
    · simp only [splitChars, hc, if_true, List.mem_cons] at h
      rcases h with h | h
      · subst h; simp
      · exact ih piece h
    · simp only [splitChars, hc, if_false] at h
      cases hs : splitChars sep cs with
      | nil => exact absurd hs (splitChars_ne_nil sep cs)
      | cons p ps =>
        rw [hs] at h ih
        simp only [List.mem_cons] at h
        rcases h with h | h
        · subst h
          have := ih p (List.mem_cons_self _ _)
          simp only [List.mem_cons, not_or]
          exact ⟨fun e => hc e.symm, this⟩
        · exact ih piece (List.mem_cons_of_mem _ h)

theorem Split_dotFree (p s : String) (h : s ∈ Split p '.') : dotFree s := by
  simp only [Split, List.mem_map] at h
  obtain ⟨piece, hp, rfl⟩ := h
  exact splitChars_not_mem '.' p.data piece hp

theorem Split_ne_nil (p : String) : Split p '.' ≠ [] := by
  simp [Split, splitChars_ne_nil]

theorem splitChars_of_not_mem (sep : Char) (l : List Char) (h : sep ∉ l) :
    splitChars sep l = [l] := by
  induction l with
  | nil => rfl
  | cons c cs ih =>
    simp only [List.mem_cons, not_or] at h
    have hc : ¬ c = sep := fun e => h.1 e.symm
    simp [splitChars, hc, ih h.2]

theorem splitChars_append (sep : Char) (a t : List Char) (h : sep ∉ a) :
    splitChars sep (a ++ sep :: t) = a :: splitChars sep t := by
  induction a with
  | nil => simp [splitChars]
  | cons c cs ih =>
    simp only [List.mem_cons, not_or] at h
    have hc : ¬ c = sep := fun e => h.1 e.symm
    simp [splitChars, hc, ih h.2]

theorem Join_data_cons (a b : String) (rest : List String) (sep : String) :
    (Join (a :: b :: rest) sep).data = a.data ++ sep.data ++ (Join (b :: rest) sep).data := by
  simp [Join, String.data_append]

/-- `Split` undoes `Join` on a non-empty list of names without `.`. -/
theorem Split_Join (ss : List String) (hne : ss ≠ []) (hd : ∀ s ∈ ss, dotFree s) :
    Split (Join ss ".") '.' = ss := by
  have key : ∀ ss : List String, ss ≠ [] → (∀ s ∈ ss, dotFree s) →
      splitChars '.' (Join ss ".").data = ss.map String.data := by
    intro ss
    induction ss with
    | nil => intro h; exact absurd rfl h
    | cons a rest ih =>
      intro _ hd
      cases rest with
      | nil =>
        simp only [Join, List.map_cons, List.map_nil]
        exact splitChars_of_not_mem '.' a.data (hd a (List.mem_cons_self _ _))
      | cons b rest =>
        rw [Join_data_cons]
        have h1 : ("." : String).data = ['.'] := rfl
        rw [h1, List.append_assoc, List.singleton_append,
          splitChars_append '.' a.data _ (hd a (List.mem_cons_self _ _)),
          ih (by simp) (fun s hs => hd s (List.mem_cons_of_mem _ hs))]
        rfl
  simp only [Split, key ss hne hd, List.map_map]
  conv_rhs => rw [← List.map_id ss]
  apply List.map_congr_left
  intro s _
  rfl

/-- `Join` undoes `Split`. -/
theorem Join_Split (p : String) : Join (Split p '.') "." = p := by
  have key : ∀ l : List Char, (Join ((splitChars '.' l).map String.mk) ".").data = l := by
    intro l
    induction l with
    | nil => rfl
    | cons c cs ih =>
      by_cases hc : c = '.'
      · subst hc
        cases hs : splitChars '.' cs with
        | nil => exact absurd hs (splitChars_ne_nil '.' cs)
        | cons q qs =>
          rw [hs] at ih
          simp only [splitChars, if_true, hs, List.map_cons]
          rw [Join_data_cons]
          simp only [List.map_cons] at ih
          rw [ih]
          rfl
      · cases hs : splitChars '.' cs with
        | nil => exact absurd hs (splitChars_ne_nil '.' cs)
        | cons q qs =>
          rw [hs] at ih
          simp only [splitChars, hc, if_false, hs, List.map_cons]
          cases qs with
          | nil =>
            simp only [List.map_nil, Join] at ih ⊢
            rw [← ih]
          | cons q2 qs2 =>
            simp only [List.map_cons] at ih ⊢
            rw [Join_data_cons] at ih ⊢
            simp only [List.append_assoc] at ih ⊢
            rw [← ih]
            rfl
  have h := key p.data
  simp only [Split]
  exact String.ext h

theorem Join_snoc (ss : List String) (s : String) (hne : ss ≠ []) :
    Join (ss ++ [s]) "." = Join ss "." ++ "." ++ s := by
  induction ss with
  | nil => exact absurd rfl hne
  | cons a rest ih =>
    cases rest with
    | nil => simp [Join]
    | cons b rest =>
      have h1 : Join (a :: b :: rest ++ [s]) "."
          = a ++ "." ++ Join (b :: rest ++ [s]) "." := rfl
      have h2 : Join (a :: b :: rest) "." = a ++ "." ++ Join (b :: rest) "." := rfl
      rw [h1, h2, ih (by simp)]
      simp [String.append_assoc]

theorem Join_ne_empty (a : String) (rest : List String) (ha : a ≠ "") :
    Join (a :: rest) "." ≠ "" := by
  have hd : a.data ≠ [] := fun e => ha (String.ext e)
  cases rest with
  | nil => simp [Join, ha]
  | cons b rest =>
    intro e
    have := congrArg String.data e
    rw [Join_data_cons] at this
    simp at this

theorem childPath_Join (pre : List String) (s : String) (h : pre.head? ≠ some "") :
    childPath (Join pre ".") s = Join (pre ++ [s]) "." := by
  cases pre with
  | nil => simp [childPath, Join]
  | cons a rest =>
    have ha : a ≠ "" := by simpa using h
    rw [childPath, if_neg (Join_ne_empty a rest ha), Join_snoc _ _ (by simp)]

theorem Join_ne_empty_of_head (l : List String) (hne : l ≠ []) (h : l.head? ≠ some "") :
    Join l "." ≠ "" := by
  cases l with
  | nil => exact absurd rfl hne
  | cons a rest => exact Join_ne_empty a rest (by simpa using h)

theorem splitChars_snoc (a m : List Char) (hm : '.' ∉ m) :
    splitChars '.' (a ++ '.' :: m) = splitChars '.' a ++ [m] := by
  induction a with
  | nil => simp [splitChars, splitChars_of_not_mem '.' m hm]
  | cons c cs ih =>
    by_cases hc : c = '.'
    · simp [splitChars, hc, ih]
    · cases hs : splitChars '.' cs with
      | nil => exact absurd hs (splitChars_ne_nil '.' cs)
      | cons q qs =>
        rw [hs] at ih
        simp [splitChars, hc, ih, hs]

theorem first_dot_unique (x y u v : List Char) (hx : '.' ∉ x) (hy : '.' ∉ y)
    (h : x ++ '.' :: u = y ++ '.' :: v) : x = y ∧ u = v := by
  induction x generalizing y with
  | nil =>
    cases y with
    | nil => simpa using h
    | cons d y' =>
      simp only [List.nil_append, List.cons_append, List.cons.injEq] at h
      simp only [List.mem_cons, not_or] at hy
      exact absurd h.1 hy.1
  | cons c x' ih =>
    cases y with
    | nil =>
      simp only [List.nil_append, List.cons_append, List.cons.injEq] at h
      simp only [List.mem_cons, not_or] at hx
      exact absurd h.1.symm hx.1
    | cons d y' =>
      simp only [List.cons_append, List.cons.injEq] at h
      simp only [List.mem_cons, not_or] at hx hy
      obtain ⟨e1, e2⟩ := ih y' hx.2 hy.2 h.2
      exact ⟨by rw [h.1, e1], e2⟩

theorem last_dot_unique (a b m n : List Char) (hm : '.' ∉ m) (hn : '.' ∉ n)
    (h : a ++ '.' :: m = b ++ '.' :: n) : a = b ∧ m = n := by
  have hr := congrArg List.reverse h
  simp only [List.reverse_append, List.reverse_cons, List.append_assoc,
    List.singleton_append] at hr
  obtain ⟨e1, e2⟩ := first_dot_unique m.reverse n.reverse a.reverse b.reverse
    (by simpa using hm) (by simpa using hn) hr
  exact ⟨List.reverse_injective e2, List.reverse_injective e1⟩

theorem childPath_data (p s : String) (hp : p ≠ "") :
    (childPath p s).data = p.data ++ '.' :: s.data := by
  rw [childPath, if_neg hp]
  simp [String.data_append]

/-- A child path determines the parent path and the child name. -/
theorem childPath_inj (p p' s s' : String) (hs : dotFree s) (hs' : dotFree s')
    (h : childPath p s = childPath p' s') : p = p' ∧ s = s' := by
  by_cases hp : p = ""
  · by_cases hp' : p' = ""
    · subst hp; subst hp'
      simpa [childPath] using h
    · subst hp
      have := congrArg String.data h
      rw [childPath_data p' s' hp'] at this
      simp only [childPath, if_true] at this
      exact absurd (by rw [this]; simp) hs
  · by_cases hp' : p' = ""
    · subst hp'
      have := congrArg String.data h
      rw [childPath_data p s hp] at this
      simp only [childPath, if_true] at this
      exact absurd (by rw [← this]; simp) hs'
    · have := congrArg String.data h
      rw [childPath_data p s hp, childPath_data p' s' hp'] at this
      obtain ⟨e1, e2⟩ := last_dot_unique _ _ _ _ hs hs' this
      exact ⟨String.ext e1, String.ext e2⟩

theorem childPath_ne_empty (p s : String) (h : p ≠ "" ∨ s ≠ "") : childPath p s ≠ "" := by
  by_cases hp : p = ""
  · subst hp
    rcases h with h | h
    · exact absurd rfl h
    · simpa [childPath] using h
  · intro e
    have := congrArg String.data e
    rw [childPath_data p s hp] at this
    simp at this

theorem Split_childPath (p s : String) (hp : p ≠ "") (hs : dotFree s) :
    Split (childPath p s) '.' = Split p '.' ++ [s] := by
  simp only [Split, childPath_data p s hp, splitChars_snoc p.data s.data hs, List.map_append,
    List.map_cons, List.map_nil]

theorem childPath_length (p s : String) (hp : p ≠ "") :
    p.length < (childPath p s).length := by
  simp only [String.length, childPath_data p s hp, List.length_append, List.length_cons]
  omega

end Memory

/-! ## The memory index: what `match` returns -/

namespace Memory

/-- The result of `matchOne` is an error whatever the candidates, or the candidates
that pass one test. -/
theorem matchOne_shape (re : Regexp) (p : String) :
    (∀ cands, matchOne re p cands = .error .regexp)
      ∨ ∃ g : String → Bool, ∀ cands, matchOne re p cands = .ok (cands.filter g) := by
  unfold matchOne
  by_cases hc : ContainsAny p "*[]?" = true
  · cases hr : re.compile ("^" ++ Replace (Replace p '*' ".*") '?' ".?" ++ "$") with
    | none => left; intro cands; simp [hc, hr]
    | some r => right; exact ⟨r, fun cands => by simp [hc, hr]⟩
  · right
    exact ⟨fun c => decide (c = p), fun cands => by simp [hc]⟩

theorem matchAll_shape (re : Regexp) (alts : List String) :
    (∀ cands, matchAll re cands alts = .error .regexp)
      ∨ ∃ gs : List (String → Bool),
          ∀ cands, matchAll re cands alts = .ok (gs.flatMap (fun g => cands.filter g)) := by
  induction alts with
  | nil => right; exact ⟨[], fun cands => by simp [matchAll]⟩
  | cons p rest ih =>
    rcases matchOne_shape re p with h1 | ⟨g, h1⟩
    · left; intro cands; simp [matchAll, h1]
    · rcases ih with h2 | ⟨gs, h2⟩
      · left; intro cands; simp [matchAll, h1, h2]
      · right
        exact ⟨g :: gs, fun cands => by simp [matchAll, h1, h2]⟩

/-- The result of `match` is an error whatever the candidates, or the candidates that
pass one of a list of tests, test by test. -/
theorem match_shape (re : Regexp) (s : String) :
    (∀ cands, match_ re s cands = .error .regexp)
      ∨ ∃ gs : List (String → Bool),
          ∀ cands, match_ re s cands = .ok (gs.flatMap (fun g => cands.filter g)) := by
  unfold match_
  by_cases hc : ContainsAny s "\x7b\x7d" = true
  · obtain ⟨alts, halts⟩ := expandQueries_some s
    rcases matchAll_shape re alts with h | ⟨gs, h⟩
    · left; intro cands; simp [hc, halts, h]
    · right; exact ⟨gs, fun cands => by simp [hc, halts, h]⟩
  · rcases matchAll_shape re [s] with h | ⟨gs, h⟩
    · left; intro cands; simp [hc, h]
    · right; exact ⟨gs, fun cands => by simp [hc, h]⟩

/-- A valid segment pattern gives a result for every candidate list. -/
theorem match_of_valid (re : Regexp) (s : String) (hv : validSeg re s) (cands : List String) :
    ∃ r, match_ re s cands = .ok r := by
  obtain ⟨r0, h0⟩ := hv
  rcases match_shape re s with h | ⟨gs, h⟩
  · rw [h] at h0; cases h0
  · exact ⟨_, h cands⟩

theorem valid_of_match (re : Regexp) (s : String) (cands r : List String)
    (h : match_ re s cands = .ok r) : validSeg re s := by
  rcases match_shape re s with h1 | ⟨gs, h1⟩
  · rw [h1] at h; cases h
  · exact ⟨_, h1 []⟩

/-- The candidates that `match` returns are those that it returns when they are the
only candidate. -/
theorem mem_match (re : Regexp) (s : String) (cands r : List String)
    (h : match_ re s cands = .ok r) (c : String) :
    c ∈ r ↔ c ∈ cands ∧ matchesSeg re s c := by
  rcases match_shape re s with h1 | ⟨gs, h1⟩
  · rw [h1] at h; cases h
  · rw [h1] at h
    cases h
    simp only [matchesSeg, h1, Except.ok.injEq, exists_eq_left', List.mem_flatMap,
      List.mem_filter, List.mem_singleton]
    constructor
    · rintro ⟨g, hg, hc, hgc⟩
      exact ⟨hc, g, hg, trivial, hgc⟩
    · rintro ⟨hc, g, hg, _, hgc⟩
      exact ⟨g, hg, hc, hgc⟩

theorem ContainsAny_mono (s chars1 chars2 : String)
    (hsub : ∀ c, c ∈ chars1.data → c ∈ chars2.data) (h : ContainsAny s chars2 = false) :
    ContainsAny s chars1 = false := by
  simp only [ContainsAny, List.any_eq_false, List.contains_eq_any_beq, List.any_eq_true,
    beq_iff_eq, not_exists, not_and] at h ⊢
  intro c hc x hx e
  exact h c hc x (hsub x hx) e

/-- A segment without a metacharacter matches its own name only. -/
theorem match_literal (re : Regexp) (s : String) (hl : ContainsAny s "*\x7b\x7d[]?" = false)
    (cands : List String) :
    match_ re s cands = .ok (cands.filter (fun c => decide (c = s))) := by
  have h1 : ContainsAny s "\x7b\x7d" = false :=
    ContainsAny_mono s _ _ (by decide) hl
  have h2 : ContainsAny s "*[]?" = false :=
    ContainsAny_mono s _ _ (by decide) hl
  simp [match_, h1, matchAll, matchOne, h2]

theorem matchesSeg_literal (re : Regexp) (s c : String)
    (hl : ContainsAny s "*\x7b\x7d[]?" = false) : matchesSeg re s c ↔ c = s := by
  simp only [matchesSeg, match_literal re s hl, Except.ok.injEq, exists_eq_left',
    List.mem_filter, List.mem_singleton, decide_eq_true_eq, true_and]

theorem validSeg_literal (re : Regexp) (s : String)
    (hl : ContainsAny s "*\x7b\x7d[]?" = false) : validSeg re s :=
  ⟨_, match_literal re s hl []⟩

end Memory

/-! ## The memory index: the walk of `find` -/

namespace Memory

/-- The grandchildren that one round of the loop of `find` collects. -/
theorem mem_findChildren (re : Regexp) (items : AMap String Node) (s : String) :
    ∀ (G GC : List (Option Node)), findChildren re items s G = .ok GC →
      ∀ y, y ∈ GC ↔ ∃ n c, some n ∈ G ∧ n.Leaf = false ∧ c ∈ n.Children
        ∧ matchesSeg re s c ∧ y = AMap.get? items (childPath n.Path c) := by
  intro G
  induction G with
  | nil =>
    intro GC h y
    simp only [findChildren, Except.ok.injEq] at h
    subst h
    simp
  | cons g rest ih =>
    intro GC h y
    cases g with
    | none => simp [findChildren] at h
    | some c =>
      rw [findChildren] at h
      by_cases hl : c.Leaf = true
      · rw [if_pos hl] at h
        rw [ih GC h y]
        constructor
        · rintro ⟨n, d, hn, rest'⟩
          exact ⟨n, d, List.mem_cons_of_mem _ hn, rest'⟩
        · rintro ⟨n, d, hn, hnl, rest'⟩
          rcases List.mem_cons.mp hn with e | e
          · cases e
            rw [hl] at hnl
            cases hnl
          · exact ⟨n, d, e, hnl, rest'⟩
      · rw [if_neg hl] at h
        have hlf : c.Leaf = false := by simpa using hl
        cases hm : match_ re s c.Children with
        | error f => simp [hm] at h
        | ok matched =>
          cases hr : findChildren re items s rest with
          | error f => simp [hm, hr] at h
          | ok more =>
            simp only [hm, hr, Except.ok.injEq] at h
            subst h
            simp only [List.mem_append, List.mem_map, ih more hr y]
            constructor
            · rintro (⟨m, hmm, e⟩ | ⟨n, d, hn, rest'⟩)
              · obtain ⟨h1, h2⟩ := (mem_match re s c.Children matched hm m).mp hmm
                exact ⟨c, m, List.mem_cons_self _ _, hlf, h1, h2, e.symm⟩
              · exact ⟨n, d, List.mem_cons_of_mem _ hn, rest'⟩
            · rintro ⟨n, d, hn, hnl, hd, hms, e⟩
              rcases List.mem_cons.mp hn with e1 | e1
              · cases e1
                left
                exact ⟨d, (mem_match re s c.Children matched hm d).mpr ⟨hd, hms⟩, e.symm⟩
              · right
                exact ⟨n, d, e1, hnl, hd, hms, e⟩

/-- The nodes that the loop of `find` returns are the nodes reached from the start
nodes by matching the segments one by one. -/
theorem mem_findLoop (re : Regexp) (items : AMap String Node) (segs : List String) :
    ∀ (G R : List (Option Node)), findLoop re items segs G = .ok R →
      ∀ x, x ∈ R ↔ ∃ g ∈ G, Reach re items segs g x := by
  induction segs with
  | nil =>
    intro G R h x
    simp only [findLoop, Except.ok.injEq] at h
    subst h
    simp [Reach]
  | cons s rest ih =>
    intro G R h x
    rw [findLoop] at h
    cases hc : findChildren re items s G with
    | error f => simp [hc] at h
    | ok GC =>
      simp only [hc] at h
      have hmem := mem_findChildren re items s G GC hc
      have hstep : (∃ y ∈ GC, Reach re items rest y x)
          ↔ ∃ g ∈ G, Reach re items (s :: rest) g x := by
        constructor
        · rintro ⟨y, hy, hr⟩
          obtain ⟨n, c, hn, hnl, hcm, hms, e⟩ := (hmem y).mp hy
          exact ⟨some n, hn, n, c, rfl, hnl, hcm, hms, e ▸ hr⟩
        · rintro ⟨g, hg, n, c, e, hnl, hcm, hms, hr⟩
          subst e
          exact ⟨_, (hmem _).mpr ⟨n, c, hg, hnl, hcm, hms, rfl⟩, hr⟩
      by_cases hlen : GC.length = 0
      · rw [if_pos hlen] at h
        cases h
        have hnil : GC = [] := List.length_eq_zero.mp hlen
        rw [← hstep, hnil]
        simp
      · rw [if_neg hlen] at h
        rw [ih GC R h x, hstep]

end Memory

/-! ## The memory index: well-formed trees -/

namespace Memory

theorem wf_root (items : AMap String Node) (h : WellFormed items) :
    ∃ r, AMap.get? items "" = some r ∧ r.Leaf = false ∧ ∀ s ∈ r.Children, s ≠ "" := by
  have h1 := h.1
  cases hr : AMap.get? items "" with
  | none => rw [hr] at h1; simp at h1
  | some r =>
    rw [hr] at h1
    simp only [Option.any_some, Bool.and_eq_true, Bool.not_eq_true', List.all_eq_true,
      decide_eq_true_eq] at h1
    exact ⟨r, rfl, h1.1, h1.2⟩

theorem wf_path (items : AMap String Node) (h : WellFormed items) (k : String) (n : Node)
    (hk : AMap.get? items k = some n) : n.Path = k :=
  h.2.1 (k, n) (AMap.get?_some_mem items k n hk)

theorem wf_child (items : AMap String Node) (h : WellFormed items) (k : String) (n : Node)
    (c : String) (hk : AMap.get? items k = some n) (hl : n.Leaf = false)
    (hc : c ∈ n.Children) :
    dotFree c ∧ ∃ n', AMap.get? items (childPath k c) = some n' := by
  obtain ⟨h1, h2⟩ := h.2.2.1 (k, n) (AMap.get?_some_mem items k n hk) hl c hc
  exact ⟨h1, Option.isSome_iff_exists.mp h2⟩

theorem wf_parent (items : AMap String Node) (h : WellFormed items) (k : String) (n : Node)
    (hk : AMap.get? items k = some n) (hne : k ≠ "") :
    ∃ p b s, AMap.get? items p = some b ∧ b.Leaf = false ∧ s ∈ b.Children ∧ dotFree s
      ∧ k = childPath p s ∧ (p = "" → s ≠ "") := by
  obtain ⟨b, _, hget, hl, s, hs, e⟩ := h.2.2.2 (k, n) (AMap.get?_some_mem items k n hk) hne
  have hd := (wf_child items h b.1 b.2 s hget hl hs).1
  refine ⟨b.1, b.2, s, hget, hl, hs, hd, e, ?_⟩
  intro hp
  obtain ⟨r, hr, _, hrc⟩ := wf_root items h
  rw [hp, hr] at hget
  cases hget
  exact hrc s hs

/-- In a well-formed tree the node above an existing node exists, is a branch and lists
it. -/
theorem wf_ancestor (items : AMap String Node) (h : WellFormed items) (pre : List String)
    (c : String) (n : Node) (hpre : pre.head? ≠ some "") (hc : dotFree c)
    (hc0 : pre = [] → c ≠ "")
    (hk : AMap.get? items (Join (pre ++ [c]) ".") = some n) :
    ∃ b, AMap.get? items (Join pre ".") = some b ∧ b.Leaf = false ∧ c ∈ b.Children := by
  rw [← childPath_Join pre c hpre] at hk
  have hne : childPath (Join pre ".") c ≠ "" := by
    apply childPath_ne_empty
    cases pre with
    | nil => right; exact hc0 rfl
    | cons a rest => left; exact Join_ne_empty a rest (by simpa using hpre)
  obtain ⟨p, b, s, hb, hl, hs, hd, e, _⟩ := wf_parent items h _ n hk hne
  obtain ⟨e1, e2⟩ := childPath_inj _ _ _ _ hc hd e
  rw [e1, e2]
  exact ⟨b, hb, hl, hs⟩

theorem head?_append_of_ne_nil (pre l : List String) (hne : pre ≠ []) :
    (pre ++ l).head? = pre.head? := by
  cases pre with
  | nil => exact absurd rfl hne
  | cons a rest => rfl

theorem wf_prefix (items : AMap String Node) (h : WellFormed items) (pre : List String)
    (hne : pre ≠ []) (hpre : pre.head? ≠ some "") :
    ∀ (ss : List String) (n : Node), (∀ s ∈ ss, dotFree s) →
      AMap.get? items (Join (pre ++ ss) ".") = some n →
      ∃ b, AMap.get? items (Join pre ".") = some b := by
  intro ss
  induction ss using List.reverseRecOn with
  | nil => intro n _ hk; exact ⟨n, by simpa using hk⟩
  | append_singleton l t ih =>
    intro n hd hk
    rw [← List.append_assoc] at hk
    obtain ⟨b, hb, _, _⟩ := wf_ancestor items h (pre ++ l) t n
      (by rw [head?_append_of_ne_nil pre l hne]; exact hpre)
      (hd t (by simp)) (fun e => absurd (List.append_eq_nil.mp e).1 hne) hk
    exact ih b (fun s hs => hd s (by simp [hs])) hb

/-- In a well-formed tree no path but the root's begins with an empty segment. -/
theorem wf_key_head (items : AMap String Node) (h : WellFormed items) :
    ∀ (len : Nat) (k : String) (n : Node), k.length ≤ len → AMap.get? items k = some n →
      k ≠ "" → (Split k '.').head? ≠ some "" := by
  intro len
  induction len with
  | zero =>
    intro k n hl _ hne
    exfalso
    apply hne
    have h0 : k.data.length = 0 := Nat.le_zero.mp hl
    exact String.ext (List.length_eq_zero.mp h0)
  | succ len ih =>
    intro k n hl hk hne
    obtain ⟨p, b, s, hb, _, _, hd, e, hp0⟩ := wf_parent items h k n hk hne
    by_cases hp : p = ""
    · subst hp
      have hks : k = s := by simpa [childPath] using e
      subst hks
      have hs0 := hp0 rfl
      simp only [Split, splitChars_of_not_mem '.' _ hd, List.map_cons, List.map_nil,
        List.head?_cons]
      intro e2
      exact hs0 (Option.some.inj e2)
    · rw [e, Split_childPath p s hp hd]
      have hlen := childPath_length p s hp
      have hp1 := ih p b (by rw [e] at hl; omega) hb hp
      rw [head?_append_of_ne_nil _ _ (Split_ne_nil p)]
      exact hp1

/-- In a well-formed tree a node reached from the node at `pre` by matching `segs` is
stored under `pre` extended by the matched child names. -/
theorem reach_key (re : Regexp) (items : AMap String Node) (h : WellFormed items) :
    ∀ (segs pre : List String) (b : Node) (x : Option Node), pre.head? ≠ some "" →
      AMap.get? items (Join pre ".") = some b → Reach re items segs (some b) x →
      ∃ ss n, List.Forall₂ (matchesSeg re) segs ss ∧ (∀ s ∈ ss, dotFree s)
        ∧ (pre ++ ss).head? ≠ some "" ∧ x = some n
        ∧ AMap.get? items (Join (pre ++ ss) ".") = some n := by
  intro segs
  induction segs with
  | nil =>
    intro pre b x hpre hb hr
    simp only [Reach] at hr
    subst hr
    exact ⟨[], b, List.Forall₂.nil, by simp, by simpa using hpre, rfl, by simpa using hb⟩
  | cons s rest ih =>
    intro pre b x hpre hb hr
    obtain ⟨n, c, e, hl, hc, hm, hr'⟩ := hr
    cases e
    have hp := wf_path items h _ b hb
    obtain ⟨hd, n', hn'⟩ := wf_child items h _ b c hb hl hc
    rw [hp] at hr'
    rw [hn'] at hr'
    rw [childPath_Join pre c hpre] at hn'
    have hhead : (pre ++ [c]).head? ≠ some "" := by
      cases pre with
      | nil =>
        obtain ⟨r, hr0, _, hrc⟩ := wf_root items h
        have hb0 : AMap.get? items "" = some b := by simpa [Join] using hb
        rw [hr0] at hb0
        cases hb0
        simpa using hrc c hc
      | cons a l => simpa using hpre
    obtain ⟨ss, n, hf, hds, hh, hx, hk⟩ := ih (pre ++ [c]) n' x hhead hn' hr'
    refine ⟨c :: ss, n, List.Forall₂.cons hm hf, ?_, ?_, hx, ?_⟩
    · intro t ht
      rcases List.mem_cons.mp ht with e | e
      · rw [e]; exact hd
      · exact hds t e
    · simpa [List.append_assoc] using hh
    · simpa [List.append_assoc] using hk

/-- In a well-formed tree a node stored under `pre` extended by child names that match
`segs` is reached from the node at `pre` by matching `segs`. -/
theorem key_reach (re : Regexp) (items : AMap String Node) (h : WellFormed items) :
    ∀ (segs ss pre : List String) (b n : Node), pre.head? ≠ some "" →
      AMap.get? items (Join pre ".") = some b → List.Forall₂ (matchesSeg re) segs ss →
      (∀ s ∈ ss, dotFree s) → (pre ++ ss).head? ≠ some "" →
      AMap.get? items (Join (pre ++ ss) ".") = some n →
      Reach re items segs (some b) (some n) := by
  intro segs
  induction segs with
  | nil =>
    intro ss pre b n _ hb hf _ _ hk
    cases hf
    simp only [List.append_nil] at hk
    rw [hb] at hk
    cases hk
    simp [Reach]
  | cons s rest ih =>
    intro ss pre b n hpre hb hf hds hh hk
    cases hf with
    | cons hm hf' =>
      rename_i c ss'
      have hassoc : pre ++ c :: ss' = (pre ++ [c]) ++ ss' := by simp
      have hhead : (pre ++ [c]).head? ≠ some "" := by
        cases pre with
        | nil => simpa using hh
        | cons a l => simpa using hpre
      rw [hassoc] at hk hh
      obtain ⟨n', hn'⟩ := wf_prefix items h (pre ++ [c]) (by simp) hhead ss' n
        (fun t ht => hds t (List.mem_cons_of_mem _ ht)) hk
      obtain ⟨b', hb', hl, hc⟩ := wf_ancestor items h pre c n' hpre
        (hds c (List.mem_cons_self _ _))
        (fun e => by subst e; simpa using hhead) hn'
      rw [hb] at hb'
      cases hb'
      have hp := wf_path items h _ b hb
      refine ⟨b, c, rfl, hl, hc, hm, ?_⟩
      rw [hp, childPath_Join pre c hpre, hn']
      exact ih ss' (pre ++ [c]) n' n hhead hn' hf'
        (fun t ht => hds t (List.mem_cons_of_mem _ ht)) hh hk

end Memory

/-! ## The memory index: what `find` returns on a well-formed tree -/

namespace Memory

theorem literalPrefix_le (l : List String) : literalPrefix l ≤ l.length := by
  induction l with
  | nil => simp [literalPrefix]
  | cons s rest ih =>
    rw [literalPrefix]
    by_cases h : ContainsAny s "*\x7b\x7d[]?" = true
    · rw [if_pos h]; exact Nat.zero_le _
    · rw [if_neg h]; simp only [List.length_cons]; omega

theorem literalPrefix_literal (l : List String) :
    ∀ s ∈ l.take (literalPrefix l), ContainsAny s "*\x7b\x7d[]?" = false := by
  induction l with
  | nil => simp
  | cons a rest ih =>
    rw [literalPrefix]
    by_cases h : ContainsAny a "*\x7b\x7d[]?" = true
    · rw [if_pos h]; simp
    · rw [if_neg h]
      intro s hs
      simp only [List.take_succ_cons, List.mem_cons] at hs
      rcases hs with e | e
      · rw [e]; simpa using h
      · exact ih s e

/-- The two ways in which `find` chooses its start node are one: it is the node stored
under the literal prefix of the pattern, the root when that prefix is empty. -/
theorem find_eq (re : Regexp) (m : MemoryIdx) (orgId : Int) (p : String) (tree : Tree)
    (r : Node) (ht : AMap.get? m.Tree orgId = some tree)
    (hr : AMap.get? tree.Items "" = some r) :
    find re m orgId p
      = match AMap.get? tree.Items
            (Join ((Split p '.').take (literalPrefix (Split p '.'))) ".") with
        | none => .ok []
        | some st =>
          findLoop re tree.Items ((Split p '.').drop (literalPrefix (Split p '.'))) [some st] := by
  unfold find
  rw [ht]
  simp only
  by_cases hk : literalPrefix (Split p '.') = 0
  · rw [if_pos hk, hk]
    simp [Join, hr]
  · rw [if_neg hk]
    cases AMap.get? tree.Items
        (Join ((Split p '.').take (literalPrefix (Split p '.'))) ".") with
    | none => rfl
    | some st =>
      simp only
      by_cases hl : literalPrefix (Split p '.') = (Split p '.').length
      · rw [if_pos hl, hl]
        simp [findLoop]
      · rw [if_neg hl]

theorem forall₂_literal_eq (re : Regexp) (l a : List String)
    (hl : ∀ s ∈ l, ContainsAny s "*\x7b\x7d[]?" = false)
    (h : List.Forall₂ (matchesSeg re) l a) : a = l := by
  induction h with
  | nil => rfl
  | @cons s c l' a' hm _ ih =>
    rw [(matchesSeg_literal re s c (hl s (List.mem_cons_self _ _))).mp hm,
      ih (fun t ht => hl t (List.mem_cons_of_mem _ ht))]

theorem forall₂_literal_self (re : Regexp) (l : List String)
    (hl : ∀ s ∈ l, ContainsAny s "*\x7b\x7d[]?" = false) :
    List.Forall₂ (matchesSeg re) l l :=
  List.forall₂_same.mpr (fun s hs => (matchesSeg_literal re s s (hl s hs)).mpr rfl)

/-- What `find` returns on a well-formed tree, for a pattern whose first segment is not
empty: the nodes other than the root whose path has as many segments as the pattern,
each matched by the segment pattern in its place. -/
theorem find_spec (re : Regexp) (m : MemoryIdx) (orgId : Int) (p : String) (tree : Tree)
    (R : List (Option Node)) (ht : AMap.get? m.Tree orgId = some tree)
    (hwf : WellFormed tree.Items) (hhead : (Split p '.').head? ≠ some "")
    (h : find re m orgId p = .ok R) (x : Option Node) :
    x ∈ R ↔ ∃ π n, x = some n ∧ AMap.get? tree.Items π = some n ∧ π ≠ ""
      ∧ pathMatches re (Split p '.') π := by
  obtain ⟨r, hr, _, _⟩ := wf_root tree.Items hwf
  rw [find_eq re m orgId p tree r ht hr] at h
  have hsd : ∀ s ∈ Split p '.', dotFree s := fun s hs => Split_dotFree p s hs
  have hsne : Split p '.' ≠ [] := Split_ne_nil p
  generalize Split p '.' = segs at h hhead hsd hsne ⊢
  have hlit := literalPrefix_literal segs
  generalize literalPrefix segs = k at h hlit
  have hpre : (segs.take k).head? ≠ some "" := by
    rw [List.head?_take]
    by_cases hk0 : k = 0
    · rw [if_pos hk0]; simp
    · rw [if_neg hk0]; exact hhead
  have hsplit : segs.take k ++ segs.drop k = segs := List.take_append_drop k segs
  constructor
  · intro hx
    cases hst : AMap.get? tree.Items (Join (segs.take k) ".") with
    | none =>
      rw [hst] at h
      cases h
      simp at hx
    | some st =>
      rw [hst] at h
      simp only at h
      obtain ⟨g, hg, hreach⟩ := (mem_findLoop re tree.Items _ _ R h x).mp hx
      simp only [List.mem_singleton] at hg
      subst hg
      obtain ⟨ss, n, hf, hds, hh, hxn, hkey⟩ :=
        reach_key re tree.Items hwf _ _ st x hpre hst hreach
      have hne : segs.take k ++ ss ≠ [] := by
        intro e
        have h1 := hf.length_eq
        have h2 := congrArg List.length e
        have h3 := congrArg List.length hsplit
        simp only [List.length_append, List.length_nil] at h2 h3
        have : segs.length = 0 := by omega
        exact hsne (List.length_eq_zero.mp this)
      have hd : ∀ s ∈ segs.take k ++ ss, dotFree s := by
        intro s hs
        rcases List.mem_append.mp hs with e | e
        · exact hsd s (List.mem_of_mem_take e)
        · exact hds s e
      refine ⟨Join (segs.take k ++ ss) ".", n, hxn, hkey, Join_ne_empty_of_head _ hne hh, ?_⟩
      rw [pathMatches, Split_Join _ hne hd]
      have hall : List.Forall₂ (matchesSeg re) (segs.take k ++ segs.drop k)
          (segs.take k ++ ss) := List.rel_append (forall₂_literal_self re _ hlit) hf
      rwa [hsplit] at hall
  · rintro ⟨π, n, hxn, hkey, hπ, hpm⟩
    subst hxn
    rw [pathMatches] at hpm
    have hhd := wf_key_head tree.Items hwf π.length π n (Nat.le_refl _) hkey hπ
    have hda : ∀ s ∈ Split π '.', dotFree s := fun s hs => Split_dotFree π s hs
    have htake : (Split π '.').take k = segs.take k :=
      forall₂_literal_eq re _ _ hlit (List.forall₂_take k hpm)
    have hdrop := List.forall₂_drop k hpm
    have hπsplit : segs.take k ++ (Split π '.').drop k = Split π '.' := by
      rw [← htake]; exact List.take_append_drop _ _
    have hkey' : AMap.get? tree.Items (Join (segs.take k ++ (Split π '.').drop k) ".")
        = some n := by
      rw [hπsplit, Join_Split]; exact hkey
    have hh : (segs.take k ++ (Split π '.').drop k).head? ≠ some "" := by
      rw [hπsplit]; exact hhd
    have hdd : ∀ s ∈ (Split π '.').drop k, dotFree s :=
      fun s hs => hda s (List.mem_of_mem_drop hs)
    obtain ⟨st, hst⟩ : ∃ st, AMap.get? tree.Items (Join (segs.take k) ".") = some st := by
      by_cases hnil : segs.take k = []
      · rw [hnil]; exact ⟨r, by simpa [Join] using hr⟩
      · exact wf_prefix tree.Items hwf _ hnil hpre _ n hdd hkey'
    rw [hst] at h
    simp only at h
    apply (mem_findLoop re tree.Items _ _ R h _).mpr
    exact ⟨some st, by simp,
      key_reach re tree.Items hwf _ _ _ st n hpre hst hdrop hdd hh hkey'⟩

theorem findChildren_ok (re : Regexp) (items : AMap String Node) (s : String)
    (hv : validSeg re s) :
    ∀ G : List (Option Node), (∀ g ∈ G, ∃ n, g = some n) →
      ∃ GC, findChildren re items s G = .ok GC := by
  intro G
  induction G with
  | nil => intro _; exact ⟨[], rfl⟩
  | cons g rest ih =>
    intro hG
    obtain ⟨n, rfl⟩ := hG g (List.mem_cons_self _ _)
    obtain ⟨more, hmore⟩ := ih (fun g hg => hG g (List.mem_cons_of_mem _ hg))
    rw [findChildren]
    by_cases hl : n.Leaf = true
    · rw [if_pos hl]; exact ⟨more, hmore⟩
    · rw [if_neg hl]
      obtain ⟨matched, hm⟩ := match_of_valid re s hv n.Children
      rw [hm, hmore]
      exact ⟨_, rfl⟩

/-- On a well-formed tree the loop of `find` returns, and returns nodes of the tree,
when the segment patterns are valid and the start nodes are nodes of the tree. -/
theorem findLoop_ok (re : Regexp) (items : AMap String Node) (h : WellFormed items) :
    ∀ (segs : List String) (G : List (Option Node)), (∀ s ∈ segs, validSeg re s) →
      (∀ g ∈ G, ∃ n, g = some n ∧ AMap.get? items n.Path = some n) →
      ∃ R, findLoop re items segs G = .ok R
        ∧ ∀ x ∈ R, ∃ n, x = some n ∧ AMap.get? items n.Path = some n := by
  intro segs
  induction segs with
  | nil => intro G _ hG; exact ⟨G, rfl, hG⟩
  | cons s rest ih =>
    intro G hv hG
    obtain ⟨GC, hGC⟩ := findChildren_ok re items s (hv s (List.mem_cons_self _ _)) G
      (fun g hg => (hG g hg).imp (fun n hn => hn.1))
    have hinv : ∀ y ∈ GC, ∃ n, y = some n ∧ AMap.get? items n.Path = some n := by
      intro y hy
      obtain ⟨n, c, hn, hl, hc, _, e⟩ := (mem_findChildren re items s G GC hGC y).mp hy
      obtain ⟨n0, e0, hk0⟩ := hG _ hn
      cases e0
      obtain ⟨_, n', hn'⟩ := wf_child items h _ n c hk0 hl hc
      refine ⟨n', e.trans hn', ?_⟩
      rw [wf_path items h _ n' hn']
      exact hn'
    rw [findLoop, hGC]
    simp only
    by_cases hlen : GC.length = 0
    · rw [if_pos hlen]; exact ⟨[], rfl, by simp⟩
    · rw [if_neg hlen]
      exact ih GC (fun t ht => hv t (List.mem_cons_of_mem _ ht)) hinv

/-- On a well-formed tree `find` returns for every pattern with valid segments, and
what it returns are nodes of the tree. -/
theorem find_ok (re : Regexp) (m : MemoryIdx) (orgId : Int) (p : String) (tree : Tree)
    (ht : AMap.get? m.Tree orgId = some tree) (hwf : WellFormed tree.Items)
    (hv : ∀ s ∈ Split p '.', validSeg re s) :
    ∃ R, find re m orgId p = .ok R
      ∧ ∀ x ∈ R, ∃ n, x = some n ∧ AMap.get? tree.Items n.Path = some n := by
  obtain ⟨r, hr, _, _⟩ := wf_root tree.Items hwf
  rw [find_eq re m orgId p tree r ht hr]
  cases hst : AMap.get? tree.Items
      (Join ((Split p '.').take (literalPrefix (Split p '.'))) ".") with
  | none => exact ⟨[], rfl, by simp⟩
  | some st =>
    simp only
    apply findLoop_ok re tree.Items hwf _ _ (fun s hs => hv s (List.mem_of_mem_drop hs))
    intro g hg
    simp only [List.mem_singleton] at hg
    subst hg
    refine ⟨st, rfl, ?_⟩
    rw [wf_path tree.Items hwf _ st hst]
    exact hst

theorem find_no_tree (re : Regexp) (m : MemoryIdx) (orgId : Int) (p : String)
    (ht : AMap.get? m.Tree orgId = none) : find re m orgId p = .ok [] := by
  simp [find, ht]

end Memory

/-! ## The memory index: what `Find` returns on well-formed trees -/

namespace Memory

theorem firstNode_some (l : List (Option Node)) (p : String) (n : Node)
    (h : firstNode l p = some n) : some n ∈ l ∧ n.Path = p := by
  induction l with
  | nil => simp [firstNode] at h
  | cons x rest ih =>
    cases x with
    | none =>
      simp only [firstNode] at h
      exact ⟨List.mem_cons_of_mem _ (ih h).1, (ih h).2⟩
    | some a =>
      simp only [firstNode] at h
      by_cases hp : a.Path = p
      · rw [if_pos hp] at h
        cases h
        exact ⟨List.mem_cons_self _ _, hp⟩
      · rw [if_neg hp] at h
        exact ⟨List.mem_cons_of_mem _ (ih h).1, (ih h).2⟩

theorem firstNode_of_mem (l : List (Option Node)) (p : String) (h : p ∈ pathsOf l) :
    ∃ n, firstNode l p = some n := by
  cases hf : firstNode l p with
  | some n => exact ⟨n, rfl⟩
  | none =>
    exfalso
    induction l with
    | nil => simp [pathsOf] at h
    | cons x rest ih =>
      cases x with
      | none =>
        simp only [pathsOf] at h
        simp only [firstNode] at hf
        exact ih h hf
      | some a =>
        simp only [pathsOf, List.mem_cons] at h
        simp only [firstNode] at hf
        by_cases hp : a.Path = p
        · rw [if_pos hp] at hf; cases hf
        · rw [if_neg hp] at hf
          rcases h with e | e
          · exact hp e.symm
          · exact ih e hf

theorem derefDefs_ok (m : MemoryIdx) (ids : List String)
    (h : ∀ id ∈ ids, (AMap.get? m.DefById id).isSome = true) :
    ∃ ds, derefDefs m ids = .ok ds := by
  induction ids with
  | nil => exact ⟨[], rfl⟩
  | cons id rest ih =>
    obtain ⟨d, hd⟩ := Option.isSome_iff_exists.mp (h id (List.mem_cons_self _ _))
    obtain ⟨ds, hds⟩ := ih (fun i hi => h i (List.mem_cons_of_mem _ hi))
    exact ⟨d :: ds, by simp [derefDefs, hd, hds]⟩

theorem dedupNodes_ok (m : MemoryIdx) (l : List (Option Node))
    (h : ∀ x ∈ l, ∃ n, x = some n
      ∧ (n.Leaf = true → ∀ id ∈ n.Children, (AMap.get? m.DefById id).isSome = true)) :
    ∀ seen, ∃ res, dedupNodes m l seen = .ok res := by
  induction l with
  | nil => intro seen; exact ⟨[], rfl⟩
  | cons x rest ih =>
    intro seen
    obtain ⟨n, rfl, hn⟩ := h x (List.mem_cons_self _ _)
    have ih' := ih (fun y hy => h y (List.mem_cons_of_mem _ hy))
    rw [dedupNodes]
    by_cases hs : n.Path ∈ seen
    · rw [if_pos hs]; exact ih' seen
    · rw [if_neg hs]
      obtain ⟨more, hmore⟩ := ih' (n.Path :: seen)
      by_cases hl : n.Leaf = true
      · obtain ⟨ds, hds⟩ := derefDefs_ok m n.Children (hn hl)
        rw [if_pos hl, hds, hmore]
        exact ⟨_, rfl⟩
      · rw [if_neg hl, hmore]
        exact ⟨_, rfl⟩

/-- A result node is determined by the tree node it copies. -/
theorem copyOf_unique (m : MemoryIdx) (r r' : IdxNode) (n : Node) (h : copyOf m r n)
    (h' : copyOf m r' n) : r = r' := by
  obtain ⟨h1, h2, h3⟩ := h
  obtain ⟨h1', h2', h3'⟩ := h'
  cases r with
  | mk p l d =>
    cases r' with
    | mk p' l' d' =>
      simp only at h1 h2 h3 h1' h2' h3'
      have hd : d = d' := by
        by_cases hl : n.Leaf = true
        · rw [if_pos hl] at h3 h3'
          rw [h3] at h3'
          cases h3'
          rfl
        · rw [if_neg hl] at h3 h3'
          rw [h3, h3']
      rw [h1, h2, h1', h2', hd]

/-- What `find` returns for one tree: it returns, and per path its first node is the
tree's node under that path when the path matches the pattern segment by segment. -/
theorem find_tree (re : Regexp) (m : MemoryIdx) (o : Int) (p : String)
    (hwf : ∀ t, AMap.get? m.Tree o = some t → WellFormed t.Items)
    (hv : ∀ s ∈ Split p '.', validSeg re s) (hhead : (Split p '.').head? ≠ some "") :
    ∃ R, find re m o p = .ok R
      ∧ (∀ x ∈ R, ∃ n, x = some n
          ∧ ∃ t, AMap.get? m.Tree o = some t ∧ AMap.get? t.Items n.Path = some n)
      ∧ ∀ π n, firstNode R π = some n ↔
          ((AMap.get? m.Tree o).bind (fun t => AMap.get? t.Items π) = some n ∧ π ≠ ""
            ∧ pathMatches re (Split p '.') π) := by
  cases ht : AMap.get? m.Tree o with
  | none =>
    refine ⟨[], find_no_tree re m o p ht, by simp, ?_⟩
    intro π n
    simp [firstNode]
  | some t =>
    have hw := hwf t ht
    obtain ⟨R, hR, hall⟩ := find_ok re m o p t ht hw hv
    have hspec := find_spec re m o p t R ht hw hhead hR
    refine ⟨R, hR, ?_, ?_⟩
    · intro x hx
      obtain ⟨n, hn, hg⟩ := hall x hx
      exact ⟨n, hn, t, rfl, hg⟩
    · intro π n
      simp only [Option.some_bind]
      constructor
      · intro hf
        obtain ⟨hmem, hpath⟩ := firstNode_some R π n hf
        obtain ⟨π', n', hn', hg, hne, hm⟩ := (hspec (some n)).mp hmem
        cases hn'
        have : π' = π := by rw [← wf_path t.Items hw π' n hg, hpath]
        subst this
        exact ⟨hg, hne, hm⟩
      · rintro ⟨hg, hne, hm⟩
        have hmem : some n ∈ R := (hspec (some n)).mpr ⟨π, n, rfl, hg, hne, hm⟩
        have hp : n.Path = π := wf_path t.Items hw π n hg
        obtain ⟨n', hn'⟩ := firstNode_of_mem R π ((mem_pathsOf R π).mpr ⟨n, hmem, hp⟩)
        obtain ⟨hmem', hpath'⟩ := firstNode_some R π n' hn'
        obtain ⟨π', n'', hn'', hg', _, _⟩ := (hspec (some n')).mp hmem'
        cases hn''
        have : π' = π := by rw [← wf_path t.Items hw π' n' hg', hpath']
        subst this
        rw [hg] at hg'
        cases hg'
        exact hn'

/-- What `Find` returns on well-formed trees, for a pattern whose segments are all
accepted: it returns; no path comes twice; and a node is in the result exactly when it
is the copy of the node that the org sees under a non-empty path matching the pattern
segment by segment. -/
theorem Find_spec (re : Regexp) (m : MemoryIdx) (orgId : Int) (p : String)
    (hwf : WellFormedFor m orgId) (hv : ∀ s ∈ Split p '.', validSeg re s)
    (hhead : (Split p '.').head? ≠ some "") :
    ∃ res, Find re m orgId p = .ok res
      ∧ (res.map (fun r => r.Path)).Nodup
      ∧ ∀ r, r ∈ res ↔ ∃ π n, π ≠ "" ∧ pathMatches re (Split p '.') π
          ∧ visibleNode m orgId π = some n ∧ copyOf m r n := by
  have hw : ∀ o, (o = orgId ∨ o = -1) → ∀ t, AMap.get? m.Tree o = some t →
      WellFormed t.Items ∧ ∀ e ∈ t.Items, e.2.Leaf = true →
        ∀ id ∈ e.2.Children, (AMap.get? m.DefById id).isSome = true :=
    fun o ho t ht => hwf (o, t) (AMap.get?_some_mem m.Tree o t ht) ho
  obtain ⟨own, hown, hownall, hownf⟩ :=
    find_tree re m orgId p (fun t ht => (hw orgId (Or.inl rfl) t ht).1) hv hhead
  obtain ⟨pub, hpub, hpuball, hpubf⟩ :=
    find_tree re m (-1) p (fun t ht => (hw (-1) (Or.inr rfl) t ht).1) hv hhead
  have hderef : ∀ x ∈ own ++ pub, ∃ n, x = some n
      ∧ (n.Leaf = true → ∀ id ∈ n.Children, (AMap.get? m.DefById id).isSome = true) := by
    intro x hx
    rcases List.mem_append.mp hx with hx | hx
    · obtain ⟨n, hn, t, ht, hg⟩ := hownall x hx
      exact ⟨n, hn, fun hl => (hw orgId (Or.inl rfl) t ht).2 (n.Path, n)
        (AMap.get?_some_mem t.Items n.Path n hg) hl⟩
    · obtain ⟨n, hn, t, ht, hg⟩ := hpuball x hx
      exact ⟨n, hn, fun hl => (hw (-1) (Or.inr rfl) t ht).2 (n.Path, n)
        (AMap.get?_some_mem t.Items n.Path n hg) hl⟩
  obtain ⟨res, hres⟩ := dedupNodes_ok m (own ++ pub) hderef []
  have hF : Find re m orgId p = .ok res := by
    simp only [Find, hown, hpub]
    exact hres
  obtain ⟨hnodup, hpaths, hcopy⟩ := dedupNodes_spec m (own ++ pub) [] res hres
  have hfirst : ∀ π n, firstNode (own ++ pub) π = some n ↔
      (π ≠ "" ∧ pathMatches re (Split p '.') π ∧ visibleNode m orgId π = some n) := by
    intro π n
    rw [firstNode_append]
    unfold visibleNode
    cases ho : firstNode own π with
    | some a =>
      obtain ⟨hg, hne, hm⟩ := (hownf π a).mp ho
      rw [hg]
      simp only [Option.orElse]
      constructor
      · intro h; exact ⟨hne, hm, h⟩
      · intro h; exact h.2.2
    | none =>
      simp only [Option.orElse]
      constructor
      · intro h
        obtain ⟨hg, hne, hm⟩ := (hpubf π n).mp h
        refine ⟨hne, hm, ?_⟩
        cases hg2 : (AMap.get? m.Tree orgId).bind (fun t => AMap.get? t.Items π) with
        | some b =>
          have := (hownf π b).mpr ⟨hg2, hne, hm⟩
          rw [ho] at this
          cases this
        | none => exact hg
      · rintro ⟨hne, hm, h⟩
        cases hg2 : (AMap.get? m.Tree orgId).bind (fun t => AMap.get? t.Items π) with
        | some b =>
          have := (hownf π b).mpr ⟨hg2, hne, hm⟩
          rw [ho] at this
          cases this
        | none =>
          rw [hg2] at h
          exact (hpubf π n).mpr ⟨h, hne, hm⟩
  refine ⟨res, hF, hnodup, ?_⟩
  intro r
  constructor
  · intro hr
    obtain ⟨n, hn, hc⟩ := hcopy r hr
    obtain ⟨hne, hm, hvis⟩ := (hfirst r.Path n).mp hn
    exact ⟨r.Path, n, hne, hm, hvis, hc⟩
  · rintro ⟨π, n, hne, hm, hvis, hc⟩
    have hf : firstNode (own ++ pub) π = some n := (hfirst π n).mpr ⟨hne, hm, hvis⟩
    obtain ⟨_, hpath⟩ := firstNode_some _ π n hf
    have hin : π ∈ res.map (fun r => r.Path) :=
      (hpaths π).mpr ⟨(mem_pathsOf _ π).mpr ⟨n, (firstNode_some _ π n hf).1, hpath⟩,
        List.not_mem_nil _⟩
    obtain ⟨r', hr', hp'⟩ := List.mem_map.mp hin
    obtain ⟨n', hn', hc'⟩ := hcopy r' hr'
    have hp'' : r'.Path = π := hp'
    rw [hp'', hf] at hn'
    cases hn'
    rw [copyOf_unique m r r' n hc hc']
    exact hr'

end Memory

/-! ## The memory index: the alternatives of a segment -/

namespace Memory

theorem splitChars_subset (sep : Char) (l : List Char) :
    ∀ piece ∈ splitChars sep l, ∀ c ∈ piece, c ∈ l := by
  induction l with
  | nil => intro piece h c hc; simp [splitChars] at h; subst h; simp at hc
  | cons x xs ih =>
    intro piece h c hc
    by_cases hx : x = sep
    · simp only [splitChars, hx, if_true, List.mem_cons] at h
      rcases h with h | h
      · subst h; simp at hc
      · exact List.mem_cons_of_mem _ (ih piece h c hc)
    · simp only [splitChars, hx, if_false] at h
      cases hs : splitChars sep xs with
      | nil => exact absurd hs (splitChars_ne_nil sep xs)
      | cons p ps =>
        rw [hs] at h ih
        simp only [List.mem_cons] at h
        rcases h with h | h
        · subst h
          rcases List.mem_cons.mp hc with e | e
          · rw [e]; exact List.mem_cons_self _ _
          · exact List.mem_cons_of_mem _ (ih p (List.mem_cons_self _ _) c e)
        · exact List.mem_cons_of_mem _ (ih piece (List.mem_cons_of_mem _ h) c hc)

/-- An expansion step only uses characters of the query. -/
theorem expandOne_subset (q : String) :
    ∀ q' ∈ (expandOne q).1, ∀ c ∈ q'.data, c ∈ q.data := by
  intro q' hq' c hc
  rcases expandOne_cases q with h1 | ⟨lb, r, h1, h2⟩
  · rw [h1.2] at hq'
    simp only [List.mem_singleton] at hq'
    subst hq'
    exact hc
  · rw [expandOne_eq q lb r h1 h2] at hq'
    simp only [Split, List.map_map, List.mem_map, Function.comp] at hq'
    obtain ⟨piece, hp, rfl⟩ := hq'
    simp only [String.data_append, List.mem_append] at hc
    rcases hc with (hc | hc) | hc
    · exact List.mem_of_mem_take hc
    · exact List.mem_of_mem_take (List.mem_of_mem_drop (splitChars_subset _ _ piece hp c hc))
    · exact List.mem_of_mem_drop hc

theorem expandLoop_subset (n : Nat) :
    ∀ (qs l : List String), expandLoop n qs = some l →
      ∀ q' ∈ l, ∃ q ∈ qs, ∀ c ∈ q'.data, c ∈ q.data := by
  induction n with
  | zero => intro qs l h; simp [expandLoop] at h
  | succ n ih =>
    intro qs l h q' hq'
    rw [expandLoop] at h
    by_cases hk : (expandPass qs).2 = true
    · rw [if_pos hk] at h
      obtain ⟨q1, hq1, hsub⟩ := ih _ l h q' hq'
      obtain ⟨q, hq, hq1'⟩ := (expandPass_mem qs q1).mp hq1
      exact ⟨q, hq, fun c hc => expandOne_subset q q1 hq1' c (hsub c hc)⟩
    · rw [if_neg hk] at h
      cases h
      obtain ⟨q, hq, hq1'⟩ := (expandPass_mem qs q').mp hq'
      exact ⟨q, hq, fun c hc => expandOne_subset q q' hq1' c hc⟩

/-- The alternatives of a segment without a dot have no dot. -/
theorem expandQueries_dotFree (s : String) (alts : List String)
    (h : expandQueries s = some alts) (hd : dotFree s) : ∀ a ∈ alts, dotFree a := by
  intro a ha hin
  obtain ⟨q, hq, hsub⟩ := expandLoop_subset _ _ _ h a ha
  simp only [List.mem_singleton] at hq
  subst hq
  exact hd (hsub _ hin)

theorem concatResults_ok (l : List (Except Fault (List String))) (r : List String)
    (h : concatResults l = .ok r) :
    (∀ x ∈ l, ∃ a, x = .ok a) ∧ ∀ c, c ∈ r ↔ ∃ a, Except.ok a ∈ l ∧ c ∈ a := by
  induction l generalizing r with
  | nil =>
    simp only [concatResults, Except.ok.injEq] at h
    subst h
    simp
  | cons x rest ih =>
    cases x with
    | error f => simp [concatResults] at h
    | ok a =>
      cases hr : concatResults rest with
      | error f => simp [concatResults, hr] at h
      | ok b =>
        simp only [concatResults, hr, Except.ok.injEq] at h
        subst h
        obtain ⟨h1, h2⟩ := ih b hr
        constructor
        · intro y hy
          rcases List.mem_cons.mp hy with e | e
          · exact ⟨a, e⟩
          · exact h1 y e
        · intro c
          simp only [List.mem_append, List.mem_cons, h2 c]
          constructor
          · rintro (hc | ⟨a', ha', hc⟩)
            · exact ⟨a, Or.inl rfl, hc⟩
            · exact ⟨a', Or.inr ha', hc⟩
          · rintro ⟨a', ha' | ha', hc⟩
            · cases ha'; exact Or.inl hc
            · exact Or.inr ⟨a', ha', hc⟩

theorem concatResults_of_ok (l : List (Except Fault (List String)))
    (h : ∀ x ∈ l, ∃ a, x = .ok a) : ∃ r, concatResults l = .ok r := by
  induction l with
  | nil => exact ⟨[], rfl⟩
  | cons x rest ih =>
    obtain ⟨a, rfl⟩ := h x (List.mem_cons_self _ _)
    obtain ⟨b, hb⟩ := ih (fun y hy => h y (List.mem_cons_of_mem _ hy))
    exact ⟨a ++ b, by simp [concatResults, hb]⟩

/-- The function `match` on a segment is `match` on each alternative of the segment, and
the alternatives have no braces left to expand. -/
theorem match_alts (re : Regexp) (s : String) :
    ∃ alts, expandQueries s = some alts
      ∧ (∀ q ∈ alts, expandQueries q = some [q])
      ∧ ∀ cands, match_ re s cands = concatResults (alts.map (fun q => match_ re q cands)) := by
  obtain ⟨alts, halts⟩ := expandQueries_some s
  have hfix : ∀ q ∈ alts, (expandOne q).2 = false := expandLoop_fixed _ _ _ halts
  have hmap : ∀ cands, alts.map (fun q => match_ re q cands)
      = alts.map (fun q => matchOne re q cands) :=
    fun cands => List.map_congr_left (fun q hq => match_fixed re q cands (hfix q hq))
  by_cases hc : ContainsAny s "\x7b\x7d" = true
  · refine ⟨alts, halts, fun q hq => expandQueries_fixed q (hfix q hq), ?_⟩
    intro cands
    rw [hmap, ← matchAll_concat]
    simp [match_, hc, halts]
  · have hs : (expandOne s).2 = false := expandOne_no_brace s (by simpa using hc)
    have hself := expandQueries_fixed s hs
    rw [hself] at halts
    cases halts
    refine ⟨[s], hself, fun q hq => expandQueries_fixed q (hfix q hq), ?_⟩
    intro cands
    rw [hmap, ← matchAll_concat]
    simp [match_, hc]

/-- A segment is accepted exactly when all its alternatives are. -/
theorem validSeg_alts (re : Regexp) (s : String) (alts : List String)
    (h : expandQueries s = some alts) : validSeg re s ↔ ∀ a ∈ alts, validSeg re a := by
  obtain ⟨alts', h', _, hm⟩ := match_alts re s
  rw [h] at h'
  cases h'
  constructor
  · rintro ⟨r, hr⟩ a ha
    rw [hm] at hr
    obtain ⟨ra, hra⟩ := (concatResults_ok _ r hr).1 (match_ re a [])
      (List.mem_map.mpr ⟨a, ha, rfl⟩)
    exact ⟨ra, hra⟩
  · intro hall
    unfold validSeg
    rw [hm]
    apply concatResults_of_ok
    intro x hx
    obtain ⟨a, ha, rfl⟩ := List.mem_map.mp hx
    exact hall a ha

/-- A name matches an accepted segment exactly when it matches one of its
alternatives. -/
theorem matchesSeg_alts (re : Regexp) (s : String) (alts : List String)
    (h : expandQueries s = some alts) (hv : validSeg re s) (c : String) :
    matchesSeg re s c ↔ ∃ a ∈ alts, matchesSeg re a c := by
  obtain ⟨alts', h', _, hm⟩ := match_alts re s
  rw [h] at h'
  cases h'
  constructor
  · rintro ⟨r, hr, hc⟩
    rw [hm] at hr
    obtain ⟨ra, hra, hcra⟩ := ((concatResults_ok _ r hr).2 c).mp hc
    obtain ⟨a, ha, hae⟩ := List.mem_map.mp hra
    exact ⟨a, ha, ra, hae, hcra⟩
  · rintro ⟨a, ha, ra, hra, hcra⟩
    have hall : ∀ x ∈ alts.map (fun q => match_ re q [c]), ∃ b, x = .ok b := by
      intro x hx
      obtain ⟨b, hb, rfl⟩ := List.mem_map.mp hx
      exact match_of_valid re b ((validSeg_alts re s alts h).mp hv b hb) [c]
    obtain ⟨r, hr⟩ := concatResults_of_ok _ hall
    refine ⟨r, by rw [hm]; exact hr, ?_⟩
    exact ((concatResults_ok _ r hr).2 c).mpr ⟨ra, List.mem_map.mpr ⟨a, ha, hra⟩, hcra⟩

theorem mem_segChoices (segs : List String) :
    ∀ choice, choice ∈ segChoices segs ↔
      List.Forall₂ (fun s a => a ∈ (expandQueries s).getD []) segs choice := by
  induction segs with
  | nil =>
    intro choice
    simp [segChoices, List.forall₂_nil_left_iff]
  | cons s rest ih =>
    intro choice
    simp only [segChoices, List.mem_flatMap, List.mem_map, List.forall₂_cons_left_iff]
    constructor
    · rintro ⟨a, ha, c, hc, rfl⟩
      exact ⟨a, c, ha, (ih c).mp hc, rfl⟩
    · rintro ⟨a, c, ha, hc, rfl⟩
      exact ⟨a, ha, c, (ih c).mpr hc, rfl⟩

theorem forall₂_mem_right {α β : Type} (R : α → β → Prop) (l1 : List α) (l2 : List β)
    (h : List.Forall₂ R l1 l2) : ∀ b ∈ l2, ∃ a ∈ l1, R a b := by
  induction h with
  | nil => intro b hb; cases hb
  | @cons a b l1 l2 hab _ ih =>
    intro b' hb'
    rcases List.mem_cons.mp hb' with e | e
    · subst e; exact ⟨a, List.mem_cons_self _ _, hab⟩
    · obtain ⟨a', ha', hr⟩ := ih b' e
      exact ⟨a', List.mem_cons_of_mem _ ha', hr⟩

/-- A list of names matches accepted segments exactly when it matches one choice of
alternatives of the segments. -/
theorem forall₂_choices (re : Regexp) (segs : List String) :
    (∀ s ∈ segs, validSeg re s) → ∀ cs, List.Forall₂ (matchesSeg re) segs cs ↔
      ∃ choice ∈ segChoices segs, List.Forall₂ (matchesSeg re) choice cs := by
  induction segs with
  | nil =>
    intro _ cs
    simp [segChoices]
  | cons s rest ih =>
    intro hv cs
    obtain ⟨alts, halts⟩ := expandQueries_some s
    have hs := hv s (List.mem_cons_self _ _)
    have ih' := ih (fun x hx => hv x (List.mem_cons_of_mem _ hx))
    constructor
    · intro h
      cases h with
      | @cons _ c _ cs' hm hrest =>
        obtain ⟨a, ha, hma⟩ := (matchesSeg_alts re s alts halts hs c).mp hm
        obtain ⟨choice, hch, hmc⟩ := (ih' cs').mp hrest
        refine ⟨a :: choice, ?_, List.Forall₂.cons hma hmc⟩
        rw [mem_segChoices]
        refine List.Forall₂.cons ?_ ((mem_segChoices rest choice).mp hch)
        rw [halts]
        exact ha
    · rintro ⟨choice, hch, hmc⟩
      rw [mem_segChoices] at hch
      cases hch with
      | @cons _ a _ choice' ha hrest =>
        cases hmc with
        | @cons _ c _ cs' hm hmrest =>
          rw [halts] at ha
          refine List.Forall₂.cons
            ((matchesSeg_alts re s alts halts hs c).mpr ⟨a, ha, hm⟩) ?_
          exact (ih' cs').mpr ⟨choice', (mem_segChoices rest choice').mpr hrest, hmrest⟩

theorem segChoices_fixed (choice : List String)
    (h : ∀ a ∈ choice, expandQueries a = some [a]) : segChoices choice = [choice] := by
  induction choice with
  | nil => rfl
  | cons a rest ih =>
    simp [segChoices, h a (List.mem_cons_self _ _),
      ih (fun b hb => h b (List.mem_cons_of_mem _ hb))]

theorem expandQueries_empty : expandQueries "" = some [""] := by decide

/-- A pattern whose first segment has no empty alternative does not start with an empty
segment. -/
theorem head_of_firstAlternatives (p : String) (h : "" ∉ firstAlternatives p) :
    (Split p '.').head? ≠ some "" := by
  intro hh
  apply h
  unfold firstAlternatives
  cases hs : Split p '.' with
  | nil => exact absurd hs (Split_ne_nil p)
  | cons s rest =>
    rw [hs] at hh
    simp only [List.head?_cons, Option.some.injEq] at hh
    subst hh
    simp [expandQueries_empty]

/-- What a choice of alternatives for the segments of a pattern is like: joined and
split again it is the same list, its segments are accepted when those of the pattern
are, it does not start with an empty segment when the first segment of the pattern has
no empty alternative, and it has no alternatives but itself. -/
theorem choice_facts (re : Regexp) (p : String) (choice : List String)
    (hv : ∀ s ∈ Split p '.', validSeg re s) (hfirst : "" ∉ firstAlternatives p)
    (hch : choice ∈ segChoices (Split p '.')) :
    Split (Join choice ".") '.' = choice ∧ (∀ a ∈ choice, validSeg re a)
      ∧ choice.head? ≠ some "" ∧ segChoices choice = [choice] := by
  rw [mem_segChoices] at hch
  have hmem := forall₂_mem_right _ _ _ hch
  have hne : choice ≠ [] := by
    intro e
    subst e
    have := hch.length_eq
    simp only [List.length_nil, List.length_eq_zero] at this
    exact Split_ne_nil p this
  have hd : ∀ a ∈ choice, dotFree a := by
    intro a ha
    obtain ⟨s, hs, hsa⟩ := hmem a ha
    obtain ⟨alts, halts⟩ := expandQueries_some s
    rw [halts] at hsa
    exact expandQueries_dotFree s alts halts (Split_dotFree p s hs) a hsa
  refine ⟨Split_Join choice hne hd, ?_, ?_, ?_⟩
  · intro a ha
    obtain ⟨s, hs, hsa⟩ := hmem a ha
    obtain ⟨alts, halts⟩ := expandQueries_some s
    rw [halts] at hsa
    exact (validSeg_alts re s alts halts).mp (hv s hs) a hsa
  · intro hh
    apply hfirst
    unfold firstAlternatives
    generalize Split p '.' = segs at hch ⊢
    cases hch with
    | nil => exact absurd rfl hne
    | @cons s a _ rest ha _ =>
      simp only [List.head?_cons, Option.some.injEq] at hh
      subst hh
      exact ha
  · apply segChoices_fixed
    intro a ha
    obtain ⟨s, hs, hsa⟩ := hmem a ha
    obtain ⟨alts, halts, hfix, _⟩ := match_alts re s
    rw [halts] at hsa
    exact hfix a hsa

end Memory

/-! ## The memory index: braces in `Find` -/

namespace Memory

/-- C12, as amended.  Braces are expanded per dotted segment:
on well-formed trees, for a pattern whose segments are all accepted by `match` and
whose first segment has no empty alternative, `Find(org, p)` returns, and a node is in
its result exactly when it is in the result of `Find(org, q)` for one of the patterns
`q` obtained from `p` by replacing every dotted segment by one alternative of its own
brace expansion; each such `Find(org, q)` returns, and such a `q` has no alternative
but itself. -/
theorem Find_brace_choices (re : Regexp) (m : MemoryIdx) (orgId : Int) (p : String)
    (hwf : WellFormedFor m orgId) (hv : ∀ s ∈ Split p '.', validSeg re s)
    (hfirst : "" ∉ firstAlternatives p) :
    ∃ res, Find re m orgId p = .ok res
      ∧ (∀ q ∈ braceChoices p, braceChoices q = [q] ∧ ∃ rq, Find re m orgId q = .ok rq)
      ∧ ∀ r, r ∈ res ↔ ∃ q ∈ braceChoices p, ∃ rq, Find re m orgId q = .ok rq ∧ r ∈ rq := by
  have hhead := head_of_firstAlternatives p hfirst
  obtain ⟨res, hF, _, hres⟩ := Find_spec re m orgId p hwf hv hhead
  have hq : ∀ choice ∈ segChoices (Split p '.'),
      braceChoices (Join choice ".") = [Join choice "."]
        ∧ ∃ rq, Find re m orgId (Join choice ".") = .ok rq
          ∧ ∀ r, r ∈ rq ↔ ∃ π n, π ≠ "" ∧ List.Forall₂ (matchesSeg re) choice (Split π '.')
              ∧ visibleNode m orgId π = some n ∧ copyOf m r n := by
    intro choice hch
    obtain ⟨hsplit, hvc, hheadc, hfix⟩ := choice_facts re p choice hv hfirst hch
    obtain ⟨rq, hFq, _, hrq⟩ := Find_spec re m orgId (Join choice ".") hwf
      (by rw [hsplit]; exact hvc) (by rw [hsplit]; exact hheadc)
    refine ⟨by simp [braceChoices, hsplit, hfix], rq, hFq, ?_⟩
    intro r
    rw [hrq r]
    unfold pathMatches
    rw [hsplit]
  refine ⟨res, hF, ?_, ?_⟩
  · intro q hq'
    obtain ⟨choice, hch, rfl⟩ := List.mem_map.mp hq'
    obtain ⟨h1, rq, h2, _⟩ := hq choice hch
    exact ⟨h1, rq, h2⟩
  · intro r
    rw [hres r]
    constructor
    · rintro ⟨π, n, hne, hm, hvis, hc⟩
      obtain ⟨choice, hch, hmc⟩ := (forall₂_choices re (Split p '.') hv (Split π '.')).mp hm
      obtain ⟨_, rq, hFq, hrq⟩ := hq choice hch
      exact ⟨Join choice ".", List.mem_map.mpr ⟨choice, hch, rfl⟩, rq, hFq,
        (hrq r).mpr ⟨π, n, hne, hmc, hvis, hc⟩⟩
    · rintro ⟨q, hq', rq, hFq, hr⟩
      obtain ⟨choice, hch, rfl⟩ := List.mem_map.mp hq'
      obtain ⟨_, rq', hFq', hrq⟩ := hq choice hch
      rw [hFq] at hFq'
      cases hFq'
      obtain ⟨π, n, hne, hmc, hvis, hc⟩ := (hrq r).mp hr
      exact ⟨π, n, hne,
        (forall₂_choices re (Split p '.') hv (Split π '.')).mpr ⟨choice, hch, hmc⟩, hvis, hc⟩

/-- C12, witness: the index with the leaves `a.dc1.x`, `a.dc2.x`, `a.dc3.x` of org 1 and
the leaf `a.dc3.y` of org -1, and the pattern `a.{dc1,dc3}.*`, whose choices are
`a.dc1.*` and `a.dc3.*`. -/
theorem Find_brace_choices_witness :
    WellFormedFor (built [.add ⟨"1", 1, "a.dc1.x", 10, 0⟩, .add ⟨"2", 1, "a.dc2.x", 10, 0⟩,
        .add ⟨"3", 1, "a.dc3.x", 10, 0⟩, .add ⟨"4", -1, "a.dc3.y", 10, 0⟩]) 1
      ∧ (∀ s ∈ Split "a.\x7bdc1,dc3\x7d.*" '.', validSeg simpleRegexp s)
      ∧ "" ∉ firstAlternatives "a.\x7bdc1,dc3\x7d.*"
      ∧ braceChoices "a.\x7bdc1,dc3\x7d.*" = ["a.dc1.*", "a.dc3.*"]
      ∧ ∃ res, Find simpleRegexp (built [.add ⟨"1", 1, "a.dc1.x", 10, 0⟩,
            .add ⟨"2", 1, "a.dc2.x", 10, 0⟩, .add ⟨"3", 1, "a.dc3.x", 10, 0⟩,
            .add ⟨"4", -1, "a.dc3.y", 10, 0⟩]) 1 "a.\x7bdc1,dc3\x7d.*" = .ok res
        ∧ (∀ q ∈ braceChoices "a.\x7bdc1,dc3\x7d.*", braceChoices q = [q]
            ∧ ∃ rq, Find simpleRegexp (built [.add ⟨"1", 1, "a.dc1.x", 10, 0⟩,
              .add ⟨"2", 1, "a.dc2.x", 10, 0⟩, .add ⟨"3", 1, "a.dc3.x", 10, 0⟩,
              .add ⟨"4", -1, "a.dc3.y", 10, 0⟩]) 1 q = .ok rq)
        ∧ ∀ r, r ∈ res ↔ ∃ q ∈ braceChoices "a.\x7bdc1,dc3\x7d.*",
            ∃ rq, Find simpleRegexp (built [.add ⟨"1", 1, "a.dc1.x", 10, 0⟩,
              .add ⟨"2", 1, "a.dc2.x", 10, 0⟩, .add ⟨"3", 1, "a.dc3.x", 10, 0⟩,
              .add ⟨"4", -1, "a.dc3.y", 10, 0⟩]) 1 q = .ok rq ∧ r ∈ rq :=
  ⟨by decide, by decide, by decide, by decide,
    Find_brace_choices simpleRegexp _ 1 _ (by decide) (by decide) (by decide)⟩

end Memory

/-! ## The chunk store read path: what `Search` returns with an error -/

namespace Store

theorem scanRows_flat (be : Backend) (month : Nat) (rows : List (Nat × List Nat)) :
    ∀ iters, scanRows be month rows iters
      = scanFlat be (rows.map (fun p => (month, p.1, p.2))) iters := by
  induction rows with
  | nil => intro iters; rfl
  | cons r rest ih =>
    intro iters
    obtain ⟨ts, b⟩ := r
    simp only [scanRows, List.map_cons, scanFlat, ih]

theorem scanFlat_append (be : Backend) (l1 l2 : List (Nat × Nat × List Nat)) :
    ∀ iters, scanFlat be (l1 ++ l2) iters
      = match scanFlat be l1 iters with
        | (it, some e) => (it, some e)
        | (it, none) => scanFlat be l2 it := by
  induction l1 with
  | nil => intro iters; rfl
  | cons r rest ih =>
    intro iters
    obtain ⟨month, ts, b⟩ := r
    simp only [List.cons_append, scanFlat]
    by_cases h1 : b.length < 2
    · simp [h1]
    · rw [if_neg h1, if_neg h1]
      by_cases h2 : b.headD 0 ≠ be.FormatStandardGoTsz
      · rw [if_pos h2, if_pos h2]
      · rw [if_neg h2, if_neg h2]
        by_cases h3 : be.newIterator b.tail = false
        · simp [h3]
        · rw [if_neg h3, if_neg h3]
          exact ih _

/-- The two nested scan loops of `Search` are one scan of the rows of all outcomes. -/
theorem gather_flat (be : Backend) (l : List outcome) :
    ∀ iters, gather be l iters = scanFlat be (rowsOf l) iters := by
  induction l with
  | nil => intro iters; rfl
  | cons o rest ih =>
    intro iters
    have hr : rowsOf (o :: rest)
        = o.i.rows.map (fun p => (o.month, p.1, p.2)) ++ rowsOf rest := by
      simp [rowsOf]
    rw [hr, scanFlat_append, ← scanRows_flat, gather]
    cases hs : scanRows be o.month o.i.rows iters with
    | mk it e =>
      cases e with
      | some e => rfl
      | none => exact ih it

/-- The scan of rows with valid payloads appends their elements and goes on. -/
theorem scanFlat_valid (be : Backend) (pre : List (Nat × Nat × List Nat))
    (h : ∀ r ∈ pre, validPayload be.FormatStandardGoTsz be.newIterator r.2.2) :
    ∀ iters, scanFlat be pre iters = (iters ++ pre.map iterOfRow, none) := by
  induction pre with
  | nil => intro iters; simp [scanFlat]
  | cons r rest ih =>
    intro iters
    obtain ⟨month, ts, b⟩ := r
    obtain ⟨h1, h2, h3⟩ := h (month, ts, b) (List.mem_cons_self _ _)
    have h1' : ¬ b.length < 2 := by simp only at h1; omega
    have h2' : ¬ (b.headD 0 ≠ be.FormatStandardGoTsz) := by simpa using h2
    have h3' : ¬ (be.newIterator b.tail = false) := by simp only at h3; simp [h3]
    rw [scanFlat, if_neg h1', if_neg h2', if_neg h3',
      ih (fun p hp => h p (List.mem_cons_of_mem _ hp))]
    simp [iterOfRow]

/-- The scan either finds all payloads valid, or stops at the first row whose payload
fails a check, with the elements of the rows before it. -/
theorem scanFlat_cases (be : Backend) (rows : List (Nat × Nat × List Nat)) :
    ∀ iters, ((∀ r ∈ rows, validPayload be.FormatStandardGoTsz be.newIterator r.2.2)
        ∧ scanFlat be rows iters = (iters ++ rows.map iterOfRow, none))
      ∨ ∃ pre x post e, rows = pre ++ x :: post
          ∧ (∀ r ∈ pre, validPayload be.FormatStandardGoTsz be.newIterator r.2.2)
          ∧ rejects be.FormatStandardGoTsz be.newIterator x.2.2 e
          ∧ scanFlat be rows iters = (iters ++ pre.map iterOfRow, some e) := by
  induction rows with
  | nil => intro iters; left; simp [scanFlat]
  | cons r rest ih =>
    intro iters
    obtain ⟨month, ts, b⟩ := r
    have h1n : ¬ b.length < 2 → 2 ≤ b.length := fun h => by omega
    by_cases h1 : b.length < 2
    · right
      exact ⟨[], (month, ts, b), rest, .tooSmall, rfl, by simp, Or.inl ⟨rfl, h1⟩,
        by rw [scanFlat, if_pos h1]; simp⟩
    · by_cases h2 : b.headD 0 ≠ be.FormatStandardGoTsz
      · right
        exact ⟨[], (month, ts, b), rest, .badFormat, rfl, by simp,
          Or.inr (Or.inl ⟨rfl, h1n h1, h2⟩), by rw [scanFlat, if_neg h1, if_pos h2]; simp⟩
      · by_cases h3 : be.newIterator b.tail = false
        · right
          exact ⟨[], (month, ts, b), rest, .decode, rfl, by simp,
            Or.inr (Or.inr ⟨rfl, h1n h1, not_not.mp h2, h3⟩),
            by rw [scanFlat, if_neg h1, if_neg h2, if_pos h3]; simp⟩
        · have hv : validPayload be.FormatStandardGoTsz be.newIterator b :=
            ⟨h1n h1, not_not.mp h2, by simpa using h3⟩
          have hstep : scanFlat be ((month, ts, b) :: rest) iters
              = scanFlat be rest (iters ++ [⟨b.tail, month, ts⟩]) := by
            rw [scanFlat, if_neg h1, if_neg h2, if_neg h3]
          rcases ih (iters ++ [⟨b.tail, month, ts⟩]) with ⟨hall, hres⟩ | ⟨pre, x, post, e, hrows, hpre, hrej, hres⟩
          · left
            refine ⟨?_, ?_⟩
            · intro r hr
              rcases List.mem_cons.mp hr with e | e
              · subst e; exact hv
              · exact hall r e
            · rw [hstep, hres]; simp [iterOfRow]
          · right
            refine ⟨(month, ts, b) :: pre, x, post, e, by rw [hrows]; rfl, ?_, hrej, ?_⟩
            · intro r hr
              rcases List.mem_cons.mp hr with e | e
              · subst e; exact hv
              · exact hpre r e
            · rw [hstep, hres]; simp [iterOfRow]

/-- The result of `Search` for `start <= end` is the scan of the rows of the sorted
outcomes. -/
theorem search_scan (be : Backend) (fuel : Nat) (key : String) (start end_ : Nat)
    (qs : List ChunkReadRequest) (hse : ¬ start > end_)
    (hq : queries fuel key start end_ = some qs) :
    Search be fuel key start end_
      = some (scanFlat be (rowsOf (sortAsc (be.arrival (qs.map (processReadQueue be))))) []) := by
  unfold Search
  rw [if_neg hse, hq]
  simp only
  rw [gather_flat]

/-- C21, counterexample.  The row of metric `m` holds a valid chunk at 600 and a
one-byte payload at 1200.  `Search("m", 900, 1500)` scans the chunk at 600, fails at
the payload of 1200, and returns the error together with the chunk at 600, not with
an empty list. -/
theorem search_error_partial_counterexample :
    Search (tableBackend (written [("m", 600, [0, 2]), ("m", 1200, [0])]) 0 (fun _ => true) id)
        1 "m" 900 1500
      = some ([⟨[2], 0, 600⟩], some .tooSmall) := by
  decide

/-- C21, as amended.  When `Search` returns an error, the list it returns with it is
empty for `start > end`; for the three errors of the scan it holds the chunks of the
rows scanned before the failing row: the rows of the sorted outcomes are
`pre ++ x :: post`, the payloads of `pre` are valid, the payload of `x` fails the
check that the error names, and the list returned is made of the rows of `pre`, in
their order. -/
theorem search_error_partial (be : Backend) (fuel : Nat) (key : String) (start end_ : Nat)
    (iters : List Iter) (e : SearchErr)
    (h : Search be fuel key start end_ = some (iters, some e)) :
    (start > end_ ∧ e = .startAfterEnd ∧ iters = [])
      ∨ (¬ start > end_ ∧ ∃ qs pre x post, queries fuel key start end_ = some qs
          ∧ rowsOf (sortAsc (be.arrival (qs.map (processReadQueue be)))) = pre ++ x :: post
          ∧ (∀ r ∈ pre, validPayload be.FormatStandardGoTsz be.newIterator r.2.2)
          ∧ rejects be.FormatStandardGoTsz be.newIterator x.2.2 e
          ∧ iters = pre.map iterOfRow) := by
  by_cases hse : start > end_
  · left
    unfold Search at h
    rw [if_pos hse] at h
    simp only [Option.some.injEq, Prod.mk.injEq] at h
    exact ⟨hse, h.2.symm, h.1.symm⟩
  · right
    cases hq : queries fuel key start end_ with
    | none =>
      unfold Search at h
      rw [if_neg hse, hq] at h
      cases h
    | some qs =>
      rw [search_scan be fuel key start end_ qs hse hq] at h
      rcases scanFlat_cases be (rowsOf (sortAsc (be.arrival (qs.map (processReadQueue be))))) []
        with ⟨_, hres⟩ | ⟨pre, x, post, e', hrows, hpre, hrej, hres⟩
      · rw [hres] at h
        cases h
      · rw [hres] at h
        simp only [List.nil_append, Option.some.injEq, Prod.mk.injEq] at h
        obtain ⟨h1, h2⟩ := h
        subst h2
        exact ⟨hse, qs, pre, x, post, rfl, hrows, hpre, hrej, h1.symm⟩

/-- C21, witness: the run of the counterexample, a valid chunk at 600 before the
one-byte payload at 1200. -/
theorem search_error_partial_witness :
    Search (tableBackend (written [("m", 600, [0, 2]), ("m", 1200, [0])]) 0 (fun _ => true) id)
        1 "m" 900 1500 = some ([⟨[2], 0, 600⟩], some .tooSmall)
      ∧ ((900 > 1500 ∧ SearchErr.tooSmall = .startAfterEnd ∧ [(⟨[2], 0, 600⟩ : Iter)] = [])
        ∨ (¬ 900 > 1500 ∧ ∃ qs pre x post, queries 1 "m" 900 1500 = some qs
          ∧ rowsOf (sortAsc ((tableBackend (written [("m", 600, [0, 2]), ("m", 1200, [0])]) 0
                (fun _ => true) id).arrival
              (qs.map (processReadQueue (tableBackend
                (written [("m", 600, [0, 2]), ("m", 1200, [0])]) 0 (fun _ => true) id)))))
              = pre ++ x :: post
          ∧ (∀ r ∈ pre, validPayload 0 (fun _ => true) r.2.2)
          ∧ rejects 0 (fun _ => true) x.2.2 .tooSmall
          ∧ [(⟨[2], 0, 600⟩ : Iter)] = pre.map iterOfRow)) :=
  ⟨by decide, search_error_partial _ 1 "m" 900 1500 _ _ (by decide)⟩

/-- C22.  Payload validation, for the row `x` that the scan of `Search` reaches (the
rows of the sorted outcomes are `pre ++ x :: post` and the payloads of `pre` are
valid): a payload `b` of fewer than two bytes is rejected as too small; a payload of
two bytes or more whose first byte is not the format tag is rejected as of unknown
format; otherwise the decoder is handed `b[1:]`, and `Search` returns the decoder
error or goes on with the element made of `b[1:]`.  Hence the payload that the write
worker makes of the series bytes `data`, the tag byte followed by `data`, is rejected
as too small when `data` is empty, and is accepted and stripped back to `data` when
it is not. -/
theorem payload_validation (be : Backend) (fuel : Nat) (key : String) (start end_ : Nat)
    (qs : List ChunkReadRequest) (pre post : List (Nat × Nat × List Nat))
    (x : Nat × Nat × List Nat) (hse : ¬ start > end_)
    (hq : queries fuel key start end_ = some qs)
    (hrows : rowsOf (sortAsc (be.arrival (qs.map (processReadQueue be)))) = pre ++ x :: post)
    (hpre : ∀ r ∈ pre, validPayload be.FormatStandardGoTsz be.newIterator r.2.2)
    (htag : be.FormatStandardGoTsz < 256) :
    (x.2.2.length < 2 →
        Search be fuel key start end_ = some (pre.map iterOfRow, some .tooSmall))
      ∧ (2 ≤ x.2.2.length → x.2.2.headD 0 ≠ be.FormatStandardGoTsz →
        Search be fuel key start end_ = some (pre.map iterOfRow, some .badFormat))
      ∧ (2 ≤ x.2.2.length → x.2.2.headD 0 = be.FormatStandardGoTsz →
        Search be fuel key start end_
          = some (if be.newIterator x.2.2.tail = false then (pre.map iterOfRow, some .decode)
              else scanFlat be post (pre.map iterOfRow ++ [⟨x.2.2.tail, x.1, x.2.1⟩])))
      ∧ (∀ data, x.2.2 = writePayload be.FormatStandardGoTsz data →
          (data = [] →
            Search be fuel key start end_ = some (pre.map iterOfRow, some .tooSmall))
          ∧ (data ≠ [] →
            Search be fuel key start end_
              = some (if be.newIterator data = false then (pre.map iterOfRow, some .decode)
                  else scanFlat be post (pre.map iterOfRow ++ [⟨data, x.1, x.2.1⟩])))) := by
  obtain ⟨month, ts, b⟩ := x
  have hS := search_scan be fuel key start end_ qs hse hq
  rw [hrows, scanFlat_append, scanFlat_valid be pre hpre] at hS
  simp only [List.nil_append, scanFlat] at hS
  have c1 : b.length < 2 →
      Search be fuel key start end_ = some (pre.map iterOfRow, some .tooSmall) := by
    intro h1
    rw [hS, if_pos h1]
  have c3 : 2 ≤ b.length → b.headD 0 = be.FormatStandardGoTsz →
      Search be fuel key start end_
        = some (if be.newIterator b.tail = false then (pre.map iterOfRow, some .decode)
            else scanFlat be post (pre.map iterOfRow ++ [⟨b.tail, month, ts⟩])) := by
    intro h1 h2
    have h1' : ¬ b.length < 2 := by omega
    have h2' : ¬ (b.headD 0 ≠ be.FormatStandardGoTsz) := not_not.mpr h2
    rw [hS, if_neg h1', if_neg h2']
  refine ⟨c1, ?_, c3, ?_⟩
  · intro h1 h2
    have h1' : ¬ b.length < 2 := by simp only at h1; omega
    rw [hS, if_neg h1', if_pos h2]
  · intro data hb
    simp only at hb
    constructor
    · intro hd
      apply c1
      rw [hb, hd]
      simp [writePayload]
    · intro hd
      have hlen : 2 ≤ b.length := by
        rw [hb]
        cases data with
        | nil => exact absurd rfl hd
        | cons a rest => simp [writePayload]
      have hhead : b.headD 0 = be.FormatStandardGoTsz := by
        rw [hb]
        simp [writePayload, Nat.mod_eq_of_lt htag]
      have htail : b.tail = data := by rw [hb]; rfl
      have := c3 hlen hhead
      rw [htail] at this
      exact this

/-- C22, witness: `Search("m", 900, 1500)` on the table with the chunks at 600 and at
1200, for the row of the chunk at 1200, reached after the row of the chunk at 600. -/
theorem payload_validation_witness :
    (¬ 900 > 1500)
      ∧ queries 1 "m" 900 1500
          = some [⟨0, 0, .lePrev ⟨"m", 0⟩ 900⟩, ⟨0, 1, .between ⟨"m", 0⟩ 900 1500⟩]
      ∧ rowsOf (sortAsc (twoChunkBackend.arrival
          (([⟨0, 0, .lePrev ⟨"m", 0⟩ 900⟩, ⟨0, 1, .between ⟨"m", 0⟩ 900 1500⟩] :
            List ChunkReadRequest).map (processReadQueue twoChunkBackend))))
          = [(0, 600, [0, 2])] ++ (0, 1200, [0, 3]) :: []
      ∧ (∀ r ∈ [((0 : Nat), (600 : Nat), [(0 : Nat), 2])],
          validPayload twoChunkBackend.FormatStandardGoTsz twoChunkBackend.newIterator r.2.2)
      ∧ twoChunkBackend.FormatStandardGoTsz < 256
      ∧ (([(0 : Nat), 3].length < 2 →
          Search twoChunkBackend 1 "m" 900 1500
            = some ([((0 : Nat), (600 : Nat), [(0 : Nat), 2])].map iterOfRow, some .tooSmall))
        ∧ (2 ≤ [(0 : Nat), 3].length →
            [(0 : Nat), 3].headD 0 ≠ twoChunkBackend.FormatStandardGoTsz →
          Search twoChunkBackend 1 "m" 900 1500
            = some ([((0 : Nat), (600 : Nat), [(0 : Nat), 2])].map iterOfRow, some .badFormat))
        ∧ (2 ≤ [(0 : Nat), 3].length →
            [(0 : Nat), 3].headD 0 = twoChunkBackend.FormatStandardGoTsz →
          Search twoChunkBackend 1 "m" 900 1500
            = some (if twoChunkBackend.newIterator [(0 : Nat), 3].tail = false
                then ([((0 : Nat), (600 : Nat), [(0 : Nat), 2])].map iterOfRow, some .decode)
                else scanFlat twoChunkBackend []
                  ([((0 : Nat), (600 : Nat), [(0 : Nat), 2])].map iterOfRow
                    ++ [⟨[(0 : Nat), 3].tail, 0, 1200⟩])))
        ∧ (∀ data, [(0 : Nat), 3] = writePayload twoChunkBackend.FormatStandardGoTsz data →
            (data = [] →
              Search twoChunkBackend 1 "m" 900 1500
                = some ([((0 : Nat), (600 : Nat), [(0 : Nat), 2])].map iterOfRow,
                    some .tooSmall))
            ∧ (data ≠ [] →
              Search twoChunkBackend 1 "m" 900 1500
                = some (if twoChunkBackend.newIterator data = false
                    then ([((0 : Nat), (600 : Nat), [(0 : Nat), 2])].map iterOfRow,
                      some .decode)
                    else scanFlat twoChunkBackend []
                      ([((0 : Nat), (600 : Nat), [(0 : Nat), 2])].map iterOfRow
                        ++ [⟨data, 0, 1200⟩]))))) :=
  ⟨by decide, by decide, by decide, by decide, by decide,
    payload_validation twoChunkBackend 1 "m" 900 1500
      [⟨0, 0, .lePrev ⟨"m", 0⟩ 900⟩, ⟨0, 1, .between ⟨"m", 0⟩ 900 1500⟩] [(0, 600, [0, 2])] []
      (0, 1200, [0, 3]) (by decide) (by decide) (by decide) (by decide) (by decide)⟩

end Store

/-! ## The chunk store read path: the sub-queries of `Search` -/

namespace Store

/-- More fuel does not change the requests of the month loop. -/
theorem monthLoop_mono (key : String) (start end_ sm em : Nat) :
    ∀ (fuel month : Nat) (l : List ChunkReadRequest),
      monthLoop key start end_ sm em fuel month = some l →
      ∀ extra, monthLoop key start end_ sm em (fuel + extra) month = some l := by
  intro fuel
  induction fuel with
  | zero =>
    intro month l h extra
    by_cases hle : month ≤ em
    · simp [monthLoop, hle] at h
    · simp only [monthLoop, hle, if_false, Option.some.injEq] at h
      subst h
      cases extra <;> simp [monthLoop, hle]
  | succ fuel ih =>
    intro month l h extra
    rw [show fuel + 1 + extra = (fuel + extra) + 1 by omega, monthLoop]
    rw [monthLoop] at h
    by_cases hle : month ≤ em
    · rw [if_pos hle] at h ⊢
      cases hr : monthLoop key start end_ sm em fuel ((month + month_sec) % u32) with
      | none => rw [hr] at h; cases h
      | some rest =>
        rw [hr] at h
        rw [ih _ rest hr extra]
        exact h
    · rw [if_neg hle] at h ⊢
      exact h

/-- More fuel does not change the requests of `Search`. -/
theorem queries_mono (fuel : Nat) (key : String) (start end_ : Nat)
    (qs : List ChunkReadRequest) (h : queries fuel key start end_ = some qs) (extra : Nat) :
    queries (fuel + extra) key start end_ = some qs := by
  unfold queries at h ⊢
  simp only at h ⊢
  by_cases hm : start - start % month_sec
      = (end_ + u32 - 1) % u32 - (end_ + u32 - 1) % u32 % month_sec
  · rw [if_pos hm] at h ⊢
    exact h
  · rw [if_neg hm] at h ⊢
    cases hr : monthLoop key start end_ (start - start % month_sec)
        ((end_ + u32 - 1) % u32 - (end_ + u32 - 1) % u32 % month_sec) fuel
        (start - start % month_sec) with
    | none => rw [hr] at h; cases h
    | some rest =>
      rw [hr] at h
      rw [monthLoop_mono _ _ _ _ _ _ _ rest hr extra]
      exact h

/-- The requests of `Search` do not depend on the fuel that suffices for them. -/
theorem queries_unique (f1 f2 : Nat) (key : String) (start end_ : Nat)
    (q1 q2 : List ChunkReadRequest) (h1 : queries f1 key start end_ = some q1)
    (h2 : queries f2 key start end_ = some q2) : q1 = q2 := by
  have a := queries_mono f1 key start end_ q1 h1 f2
  have b := queries_mono f2 key start end_ q2 h2 f1
  rw [Nat.add_comm] at b
  rw [a] at b
  exact Option.some.inj b

theorem wrapRequests_length : wrapRequests.length = 3553 := by
  simp [wrapRequests]

/-- C23, the failing input.  For the example of the specification, `start =
2419200 - 300` and `end = 2419200 + 1200`, `Search` issues three sub-queries.  For
`start = 4294079999` and `end = 4294080001` the start month is `4291660800` and the end
month is `4294080000`, the next month row, so the claim gives one preceding-chunk
query and two month queries; but the month counter wraps around `2^32` after the end
month and the loop goes on: `Search` issues 3553 sub-queries, and with no fuel does it
issue three. -/
theorem subquery_count_wrap :
    (queries 2 "m" (2419200 - 300) (2419200 + 1200)).map List.length = some 3
      ∧ 4294079999 - 4294079999 % month_sec = 4291660800
      ∧ (4294080001 + u32 - 1) % u32 - (4294080001 + u32 - 1) % u32 % month_sec = 4294080000
      ∧ 4291660800 + month_sec = 4294080000
      ∧ (queries 3552 "m" 4294079999 4294080001).map List.length = some 3553
      ∧ ¬ ∃ fuel qs, queries fuel "m" 4294079999 4294080001 = some qs ∧ qs.length = 3 := by
  refine ⟨by decide, by decide, by decide, by decide, ?_, ?_⟩
  · rw [wrap_queries]
    simp [wrapRequests_length]
  · rintro ⟨fuel, qs, hq, hlen⟩
    have := queries_unique fuel 3552 "m" 4294079999 4294080001 qs wrapRequests hq wrap_queries
    rw [this, wrapRequests_length] at hlen
    cases hlen

/-- Past the end month the month loop queues nothing. -/
theorem monthLoop_done (key : String) (start end_ sm em fuel month : Nat)
    (h : ¬ month ≤ em) : monthLoop key start end_ sm em fuel month = some [] := by
  cases fuel <;> simp [monthLoop, h]

/-- The month loop ends for every start month and end month that `uint32` values give,
also when the counter wraps around `2^32`: 5326 units of fuel suffice. -/
theorem monthLoop_total (key : String) (start end_ a b : Nat) (ha : a ≤ 1775)
    (hb : b ≤ 1775) :
    ∃ l, monthLoop key start end_ (a * month_sec) (b * month_sec) 5326 (a * month_sec)
      = some l := by
  by_cases hab : a ≤ b
  · by_cases hb2 : b ≤ 1774
    · exact ⟨_, monthLoop_spec key start end_ a b
        (by rw [month_sec_eq]; unfold u32; omega) (b + 1 - a) a 5326 (by omega) (by omega)⟩
    · have hb3 : b = 1775 := by omega
      subst hb3
      have e1 : (5326 : Nat) = (1775 - a) + 1 + (3550 + a) := by omega
      have e2 : 3550 + a = 1774 + 1 + (1775 + a) := by omega
      have e3 : 1775 + a = 1774 + 1 + a := by omega
      have w1 : (a * month_sec + ((1775 - a) + 1) * month_sec) % u32 = 1531904 := by
        have : a * month_sec + ((1775 - a) + 1) * month_sec = 4296499200 := by
          rw [month_sec_eq]; omega
        rw [this]
        decide
      have w2 : (1531904 + (1774 + 1) * month_sec) % u32 = 644608 := by decide
      have w3 : (644608 + (1774 + 1) * month_sec) % u32 = 4294724608 := by decide
      rw [e1, monthLoop_lap key start end_ (a * month_sec) (1775 * month_sec) (1775 - a)
          (a * month_sec) (3550 + a)
          (by rw [month_sec_eq]; unfold u32; omega)
          (fun j hj => by rw [month_sec_eq]; omega),
        w1, e2, monthLoop_lap key start end_ (a * month_sec) (1775 * month_sec) 1774 1531904
          (1775 + a) (by decide) (fun j hj => by rw [month_sec_eq]; omega),
        w2, e3, monthLoop_lap key start end_ (a * month_sec) (1775 * month_sec) 1774 644608 a
          (by decide) (fun j hj => by rw [month_sec_eq]; omega),
        w3, monthLoop_done key start end_ _ _ a 4294724608 (by decide)]
      exact ⟨_, rfl⟩
  · exact ⟨[], monthLoop_done key start end_ _ _ 5326 _
      (by rw [month_sec_eq]; omega)⟩

/-- `Search` issues its requests for every `uint32` start and every end: the request
list is produced with 5326 units of fuel, and with any greater amount. -/
theorem queries_total (key : String) (start end_ fuel : Nat) (hs : start < u32)
    (hfuel : 5326 ≤ fuel) : ∃ qs, queries fuel key start end_ = some qs := by
  have key1 : ∃ qs, queries 5326 key start end_ = some qs := by
    unfold queries
    simp only
    by_cases hm : start - start % month_sec
        = (end_ + u32 - 1) % u32 - (end_ + u32 - 1) % u32 % month_sec
    · rw [if_pos hm]; exact ⟨_, rfl⟩
    · rw [if_neg hm]
      have hsm : start - start % month_sec = start / month_sec * month_sec := by
        rw [month_sec_eq]; omega
      have hem : (end_ + u32 - 1) % u32 - (end_ + u32 - 1) % u32 % month_sec
          = (end_ + u32 - 1) % u32 / month_sec * month_sec := by
        rw [month_sec_eq]; omega
      have ha : start / month_sec ≤ 1775 := by
        rw [month_sec_eq]; unfold u32 at hs; omega
      have hb : (end_ + u32 - 1) % u32 / month_sec ≤ 1775 := by
        have : (end_ + u32 - 1) % u32 < u32 := Nat.mod_lt _ (by decide)
        rw [month_sec_eq]; unfold u32 at this ⊢; omega
      rw [hsm, hem]
      obtain ⟨l, hl⟩ := monthLoop_total key start end_ _ _ ha hb
      rw [hl]
      exact ⟨_, rfl⟩
  obtain ⟨qs, hqs⟩ := key1
  have := queries_mono 5326 key start end_ qs hqs (fuel - 5326)
  rw [show 5326 + (fuel - 5326) = fuel by omega] at this
  exact ⟨qs, this⟩

/-- The first request of `Search` is the preceding-chunk query for the row of `start`. -/
theorem queries_head (fuel : Nat) (key : String) (start end_ : Nat)
    (qs : List ChunkReadRequest) (hq : queries fuel key start end_ = some qs) :
    ∃ rest, qs = ⟨start - start % month_sec, start - start % month_sec,
      .lePrev ⟨key, (start - start % month_sec) / month_sec⟩ start⟩ :: rest := by
  unfold queries at hq
  simp only at hq
  by_cases hm : start - start % month_sec
      = (end_ + u32 - 1) % u32 - (end_ + u32 - 1) % u32 % month_sec
  · rw [if_pos hm] at hq
    cases hq
    exact ⟨_, rfl⟩
  · rw [if_neg hm] at hq
    cases hr : monthLoop key start end_ (start - start % month_sec)
        ((end_ + u32 - 1) % u32 - (end_ + u32 - 1) % u32 % month_sec) fuel
        (start - start % month_sec) with
    | none => rw [hr] at hq; cases hq
    | some rest =>
      rw [hr] at hq
      cases hq
      exact ⟨_, rfl⟩

/-- C25.  The chunk that contains `start` is in the row that the preceding-chunk query
reads: for a `uint32` value `start`, a chunk span that divides `month_sec` (such a span
is not 0, since `month_sec % 0` is `month_sec`), a chunk start `T0` that is a multiple
of the span, and `T0 <= start < T0 + chunk_span`, the month numbers `T0 / month_sec`
and `start / month_sec` are equal; the row that `insertChunk` writes for the chunk has
that row key; and for every `end`, `Search` issues its requests (with 5326 units of
fuel or more, enough for every month loop), the first being the preceding-chunk query
`ts <= start Limit 1` on the row key that `insertChunk` used. -/
theorem preceding_chunk_row (tbl : Table) (key : String) (T0 start chunk_span : Nat)
    (data : List Nat) (hstart : start < u32) (hdiv : month_sec % chunk_span = 0)
    (hT0 : T0 % chunk_span = 0) (h1 : T0 ≤ start) (h2 : start < T0 + chunk_span) :
    T0 / month_sec = start / month_sec
      ∧ (⟨⟨key, start / month_sec⟩, T0, data⟩ : Row) ∈ insertChunk tbl key T0 data
      ∧ (∀ fuel end_, 5326 ≤ fuel →
          ∃ rest, queries fuel key start end_
            = some (⟨start - start % month_sec, start - start % month_sec,
              .lePrev ⟨key, T0 / month_sec⟩ start⟩ :: rest))
      ∧ ∀ fuel end_ qs, queries fuel key start end_ = some qs →
          ∃ rest, qs = ⟨start - start % month_sec, start - start % month_sec,
            .lePrev ⟨key, T0 / month_sec⟩ start⟩ :: rest := by
  obtain ⟨c, hc⟩ := Nat.dvd_of_mod_eq_zero hdiv
  obtain ⟨t, ht⟩ := Nat.dvd_of_mod_eq_zero hT0
  have hM : 0 < month_sec := by decide
  have hq1 : T0 / month_sec * month_sec ≤ T0 := Nat.div_mul_le_self T0 month_sec
  have hq2 : T0 < (T0 / month_sec + 1) * month_sec :=
    (Nat.div_lt_iff_lt_mul hM).mp (Nat.lt_succ_self _)
  have hlt : t < (T0 / month_sec + 1) * c := by
    apply Nat.lt_of_mul_lt_mul_left (a := chunk_span)
    calc chunk_span * t = T0 := ht.symm
      _ < (T0 / month_sec + 1) * month_sec := hq2
      _ = chunk_span * ((T0 / month_sec + 1) * c) := by rw [hc]; ring
  have hend : T0 + chunk_span ≤ (T0 / month_sec + 1) * month_sec := by
    calc T0 + chunk_span = chunk_span * (t + 1) := by rw [ht]; ring
      _ ≤ chunk_span * ((T0 / month_sec + 1) * c) := Nat.mul_le_mul_left _ hlt
      _ = (T0 / month_sec + 1) * month_sec := by rw [hc]; ring
  have heq : start / month_sec = T0 / month_sec :=
    Nat.div_eq_of_lt_le (Nat.le_trans hq1 h1) (Nat.lt_of_lt_of_le h2 hend)
  have hsm : (start - start % month_sec) / month_sec = start / month_sec := by
    have h3 : start - start % month_sec = month_sec * (start / month_sec) := by
      have := Nat.div_add_mod start month_sec
      omega
    rw [h3, Nat.mul_div_cancel_left _ hM]
  have hhead : ∀ fuel end_ qs, queries fuel key start end_ = some qs →
      ∃ rest, qs = ⟨start - start % month_sec, start - start % month_sec,
        .lePrev ⟨key, T0 / month_sec⟩ start⟩ :: rest := by
    intro fuel end_ qs hq
    obtain ⟨rest, hr⟩ := queries_head fuel key start end_ qs hq
    rw [hsm, heq] at hr
    exact ⟨rest, hr⟩
  refine ⟨heq.symm, ?_, ?_, hhead⟩
  · rw [heq]
    simp [insertChunk]
  · intro fuel end_ hfuel
    obtain ⟨qs, hqs⟩ := queries_total key start end_ fuel hstart hfuel
    obtain ⟨rest, hr⟩ := hhead fuel end_ qs hqs
    exact ⟨rest, by rw [hqs, hr]⟩

/-- C25, witness: the chunk `[1800, 2400)` of span 600 and `start = 2000`; for the end
`month_sec + 1`, in the next month, the requests of `Search` begin with the
preceding-chunk query on row 0, the row of the chunk. -/
theorem preceding_chunk_row_witness :
    2000 < u32 ∧ month_sec % 600 = 0 ∧ 1800 % 600 = 0 ∧ 1800 ≤ 2000 ∧ 2000 < 1800 + 600
      ∧ queries 2 "m" 2000 (month_sec + 1)
          = some [⟨0, 0, .lePrev ⟨"m", 0⟩ 2000⟩, ⟨0, 1, .geAsc ⟨"m", 0⟩ 2001⟩,
              ⟨month_sec, month_sec, .leAsc ⟨"m", 1⟩ month_sec⟩]
      ∧ (1800 / month_sec = 2000 / month_sec
        ∧ (⟨⟨"m", 2000 / month_sec⟩, 1800, [0, 1]⟩ : Row) ∈ insertChunk [] "m" 1800 [0, 1]
        ∧ (∀ fuel end_, 5326 ≤ fuel →
            ∃ rest, queries fuel "m" 2000 end_
              = some (⟨2000 - 2000 % month_sec, 2000 - 2000 % month_sec,
                .lePrev ⟨"m", 1800 / month_sec⟩ 2000⟩ :: rest))
        ∧ ∀ fuel end_ qs, queries fuel "m" 2000 end_ = some qs →
            ∃ rest, qs = ⟨2000 - 2000 % month_sec, 2000 - 2000 % month_sec,
              .lePrev ⟨"m", 1800 / month_sec⟩ 2000⟩ :: rest) :=
  ⟨by decide, by decide, by decide, by decide, by decide, by decide,
    preceding_chunk_row [] "m" 1800 2000 600 [0, 1] (by decide) (by decide) (by decide)
      (by decide) (by decide)⟩

end Store

/-! ## The chunk store write worker: the delays between retries -/

namespace Store

theorem wrapInt_id (x : Int) (h1 : -9223372036854775808 ≤ x) (h2 : x < 9223372036854775808) :
    wrapInt x = x := by
  unfold wrapInt
  omega

theorem sleepTime_le (attempts : Int) : sleepTime attempts ≤ 2000 := by
  unfold sleepTime
  simp only
  by_cases h : wrapInt (100 * attempts) > 2000
  · rw [if_pos h]
  · rw [if_neg h]; omega

theorem sleepTime_eq (attempts : Int) (h1 : 0 ≤ attempts) (h2 : attempts ≤ 92233720368547758) :
    sleepTime attempts = min (100 * attempts) 2000 := by
  unfold sleepTime
  simp only
  rw [wrapInt_id _ (by omega) (by omega)]
  by_cases h : 100 * attempts > 2000
  · rw [if_pos h]; omega
  · rw [if_neg h]; omega

/-- The delays of `n` failed inserts in a row, counted from `attempts = a`. -/
theorem retryLoop_failures (rest : List Bool) :
    ∀ (n a : Nat), a + n ≤ 92233720368547759 →
      retryLoop (List.replicate n false ++ rest) a
        = (List.range n).map (fun (i : Nat) => min (100 * ((a : Int) + (i : Int))) 2000)
          ++ retryLoop rest ((a + n : Nat) : Int) := by
  intro n
  induction n with
  | zero => intro a _; simp
  | succ n ih =>
    intro a h
    have hw : wrapInt ((a : Int) + 1) = ((a + 1 : Nat) : Int) := by
      rw [wrapInt_id _ (by omega) (by omega)]
      push_cast
      rfl
    have e1 : ((a + 1 + n : Nat) : Int) = ((a + (n + 1) : Nat) : Int) := by
      rw [Nat.add_right_comm, Nat.add_assoc]
    have e2 : (List.range n).map (fun (i : Nat) => min (100 * (((a + 1 : Nat) : Int) + (i : Int))) 2000)
        = (List.range n).map
            ((fun (i : Nat) => min (100 * ((a : Int) + (i : Int))) 2000) ∘ Nat.succ) := by
      apply List.map_congr_left
      intro i _
      have : ((a + 1 : Nat) : Int) + (i : Int) = (a : Int) + ((Nat.succ i : Nat) : Int) := by
        push_cast
        ring
      simp only [Function.comp, this]
    have e3 : sleepTime (a : Int) = min (100 * ((a : Int) + ((0 : Nat) : Int))) 2000 := by
      rw [sleepTime_eq _ (by omega) (by omega)]
      simp
    rw [List.replicate_succ, List.cons_append, retryLoop, hw, ih (a + 1) (by omega), e1, e2,
      e3, List.range_succ_eq_map, List.map_cons, List.map_map, List.cons_append]

/-- C24, counterexample.  After the first failed insert the write worker sleeps 0 ms,
not 100 ms, and after four failed inserts in a row it has slept 0, 100, 200 and
300 ms: the delay grows by 100 ms with every failure, it does not double. -/
theorem retry_backoff_counterexample :
    retryDelays [false, true] = [0]
      ∧ retryDelays [false, false, false, false, true] = [0, 100, 200, 300] := by
  decide

/-- C24, as amended.  The delay slept after the `n`-th failed insert in a row of a
chunk is `min(100 * (n - 1), 2000)` ms, for `n = 1, 2, ...` up to
`92233720368547759` (beyond which `100 * attempts` does not fit the 64-bit `int`): the
first `n` delays are `0, 100, 200, ...`, capped at 2000 ms, which the 21st failure
reaches; and whatever the outcomes of the inserts, no delay exceeds 2000 ms. -/
theorem retry_backoff (n : Nat) (rest : List Bool) (h1 : 1 ≤ n)
    (h2 : n ≤ 92233720368547759) :
    (retryDelays (List.replicate n false ++ rest)).take n
        = (List.range n).map (fun (i : Nat) => min (100 * (i : Int)) 2000)
      ∧ (retryDelays (List.replicate n false ++ rest)).get? (n - 1)
        = some (min (100 * ((n : Int) - 1)) 2000)
      ∧ ∀ results, ∀ s ∈ retryDelays results, s ≤ 2000 := by
  have hrun := retryLoop_failures rest n 0 (by omega)
  simp only [Nat.cast_zero, zero_add] at hrun
  have hlen : ((List.range n).map (fun (i : Nat) => min (100 * (i : Int)) 2000)).length = n := by
    simp
  refine ⟨?_, ?_, ?_⟩
  · unfold retryDelays
    rw [hrun, List.take_left' hlen]
  · unfold retryDelays
    rw [hrun, List.get?_eq_getElem?, List.getElem?_append_left (by rw [hlen]; omega),
      List.getElem?_map, List.getElem?_range (by omega)]
    simp only [Option.map_some', Option.some.injEq]
    congr 2
    omega
  · intro results
    unfold retryDelays
    generalize (0 : Int) = a
    induction results generalizing a with
    | nil => intro s hs; simp [retryLoop] at hs
    | cons r rest ih =>
      intro s hs
      cases r with
      | true => simp [retryLoop] at hs
      | false =>
        simp only [retryLoop, List.mem_cons] at hs
        rcases hs with hs | hs
        · rw [hs]; exact sleepTime_le a
        · exact ih _ s hs

/-- C24, witness: the third failed insert in a row, which is followed by a delay of
200 ms. -/
theorem retry_backoff_witness :
    1 ≤ 3 ∧ 3 ≤ 92233720368547759
      ∧ ((retryDelays (List.replicate 3 false ++ [true])).take 3
          = (List.range 3).map (fun (i : Nat) => min (100 * (i : Int)) 2000)
        ∧ (retryDelays (List.replicate 3 false ++ [true])).get? (3 - 1)
          = some (min (100 * (((3 : Nat) : Int) - 1)) 2000)
        ∧ ∀ results, ∀ s ∈ retryDelays results, s ≤ 2000) :=
  ⟨by decide, by decide, retry_backoff 3 [true] (by decide) (by decide)⟩

end Store

/-! ## The chunk cache: the order of the backward pass -/

namespace Cache

/-- The backward walk on a well-linked cache, started at the cached chunk `c` with a
non-zero key: it returns, changes `End` and `Until` only, and what it appends to `End`
starts with `c` and goes down the `Prev` links, to the first chunk that starts at or
before `F` or has no predecessor. -/
theorem backwardLoop_chain (mc : CCacheMetric) (hL : Linked mc) (F : Nat) :
    ∀ (fuel ts : Nat) (res : CCSearchResult) (c : CCacheChunk),
      AMap.get? mc.chunks ts = some c → ts ≠ 0 → ts < fuel →
      ∃ r v, backwardLoop mc F fuel ts res = .ok r ∧ r.End = res.End ++ v
        ∧ r.Start = res.Start ∧ r.Complete = res.Complete ∧ r.From = res.From
        ∧ v.head? = some c.Itgen ∧ (∀ g ∈ v, g.Ts ≤ ts)
        ∧ v.Pairwise (fun a b => b.Ts < a.Ts)
        ∧ v.Chain' (fun a b => atKey mc a.Ts (fun d => d.Prev = b.Ts))
        ∧ (∀ g ∈ v, atKey mc g.Ts (fun d => d.Itgen = g))
        ∧ (∀ g ∈ v.getLast?, r.Until = g.Ts
            ∧ (g.Ts ≤ F ∨ atKey mc g.Ts (fun d => d.Prev = 0)))
        ∧ (∀ g ∈ v.dropLast, F < g.Ts) := by
  intro fuel
  induction fuel with
  | zero => intro ts res c _ _ h; omega
  | succ fuel ih =>
    intro ts res c hc hz hfuel
    obtain ⟨hTs, hI, _, hP⟩ := hL.at hc
    have hself : atKey mc c.Itgen.Ts (fun d => d.Itgen = c.Itgen) := by
      rw [hI]; exact ⟨c, hc, rfl⟩
    have single : ∀ (hstop : c.Ts ≤ F ∨ c.Prev = 0)
        (hrun : backwardLoop mc F (fuel + 1) ts res
          = .ok { res with End := res.End ++ [c.Itgen], Until := c.Ts }),
        ∃ r v, backwardLoop mc F (fuel + 1) ts res = .ok r ∧ r.End = res.End ++ v
          ∧ r.Start = res.Start ∧ r.Complete = res.Complete ∧ r.From = res.From
          ∧ v.head? = some c.Itgen ∧ (∀ g ∈ v, g.Ts ≤ ts)
          ∧ v.Pairwise (fun a b => b.Ts < a.Ts)
          ∧ v.Chain' (fun a b => atKey mc a.Ts (fun d => d.Prev = b.Ts))
          ∧ (∀ g ∈ v, atKey mc g.Ts (fun d => d.Itgen = g))
          ∧ (∀ g ∈ v.getLast?, r.Until = g.Ts
              ∧ (g.Ts ≤ F ∨ atKey mc g.Ts (fun d => d.Prev = 0)))
          ∧ (∀ g ∈ v.dropLast, F < g.Ts) := by
      intro hstop hrun
      refine ⟨_, [c.Itgen], hrun, rfl, rfl, rfl, rfl, rfl, ?_, List.pairwise_singleton _ _,
        List.chain'_singleton _, ?_, ?_, ?_⟩
      · intro g hg
        rw [List.mem_singleton.mp hg, hI]
      · intro g hg
        rw [List.mem_singleton.mp hg]
        exact hself
      · intro g hg
        simp only [List.getLast?_singleton, Option.mem_def, Option.some.injEq] at hg
        subst hg
        refine ⟨by rw [hTs, hI], ?_⟩
        rcases hstop with h | h
        · left; rw [hI, ← hTs]; exact h
        · right; rw [hI]; exact ⟨c, hc, h⟩
      · intro g hg
        simp at hg
    by_cases hdone : c.Ts ≤ F
    · exact single (Or.inl hdone) (by simp [backwardLoop, hz, hc, hdone])
    · by_cases hnz : c.Prev = 0
      · exact single (Or.inr hnz) (by simp [backwardLoop, hz, hc, hdone, hnz, backwardLoop_zero])
      · obtain ⟨hlt, p, hp, _⟩ := hP hnz
        obtain ⟨_, hpI, _, _⟩ := hL.at hp
        obtain ⟨r, v, hr, hE, hS, hC, hF, hhead, hle, hpw, hch, hat, hlast, hdrop⟩ :=
          ih c.Prev { res with End := res.End ++ [c.Itgen], Until := c.Ts } p hp hnz (by omega)
        obtain ⟨w, rfl⟩ : ∃ w, v = p.Itgen :: w := by
          cases v with
          | nil => simp at hhead
          | cons a w =>
            simp only [List.head?_cons, Option.some.injEq] at hhead
            exact ⟨w, by rw [hhead]⟩
        refine ⟨r, c.Itgen :: p.Itgen :: w, by simp [backwardLoop, hz, hc, hdone, hr], ?_, hS,
          hC, hF, rfl, ?_, ?_, ?_, ?_, ?_, ?_⟩
        · rw [hE]; simp
        · intro g hg
          rcases List.mem_cons.mp hg with e | e
          · rw [e, hI]
          · have := hle g e; omega
        · refine List.Pairwise.cons ?_ hpw
          intro g hg
          have := hle g hg
          rw [hI]; omega
        · refine List.Chain'.cons ?_ hch
          rw [hI, hpI]
          exact ⟨c, hc, rfl⟩
        · intro g hg
          rcases List.mem_cons.mp hg with e | e
          · rw [e]; exact hself
          · exact hat g e
        · intro g hg
          rw [List.getLast?_cons_cons] at hg
          exact hlast g hg
        · intro g hg
          rw [List.dropLast_cons₂] at hg
          rcases List.mem_cons.mp hg with e | e
          · rw [e, hI, ← hTs]; omega
          · exact hdrop g e

/-- The loop of `seekDesc` over keys in descending order finds the chunk at which the
backward pass starts. -/
theorem seekDescLoop_complete (mc : CCacheMetric) (x k : Nat) (c : CCacheChunk)
    (hc : AMap.get? mc.chunks k = some c) (hk : k ≤ x) (he : x < chunkEnd c) :
    ∀ l : List Nat, l.Pairwise (fun a b => b ≤ a) → k ∈ l →
      (∀ k' ∈ l, k < k' → x < k' ∧ ∃ c', AMap.get? mc.chunks k' = some c' ∧ x < chunkEnd c') →
      seekDescLoop mc x l = .ok (k, true) := by
  intro l
  induction l with
  | nil => intro _ hmem; cases hmem
  | cons a rest ih =>
    intro hs hmem habove
    by_cases hak : a = k
    · subst hak
      have h1 : chunkEnd c > x := he
      simp [seekDescLoop, endTs, hc, h1, hk]
    · have hin : k ∈ rest := by
        rcases List.mem_cons.mp hmem with e | e
        · exact absurd e.symm hak
        · exact e
      have hle : k ≤ a := List.rel_of_pairwise_cons hs hin
      obtain ⟨hxa, c', hc', he'⟩ := habove a (List.mem_cons_self _ _) (by omega)
      have h1 : chunkEnd c' > x := he'
      have h2 : ¬ a ≤ x := by omega
      rw [seekDescLoop]
      simp only [endTs, hc', Option.map_some']
      rw [if_pos h1, if_neg h2]
      exact ih (List.Pairwise.of_cons hs) hin
        (fun k' hk' hlt => habove k' (List.mem_cons_of_mem _ hk') hlt)

/-- `seekDesc` finds the chunk at which the backward pass starts. -/
theorem seekDesc_complete (mc : CCacheMetric) (x k : Nat) (h : startsBackward mc x k) :
    seekDesc mc x (sortedTs mc) = .ok (k, true) := by
  obtain ⟨hk, ⟨c, hc, he⟩, habove⟩ := h
  unfold seekDesc
  apply seekDescLoop_complete mc x k c hc hk he
  · rw [List.pairwise_reverse]
    exact List.sorted_insertionSort (fun a b => a ≤ b) _
  · rw [List.mem_reverse, mem_sortedTs, hc]
    rfl
  · intro k' hk' hlt
    rw [List.mem_reverse, mem_sortedTs] at hk'
    obtain ⟨c', hc'⟩ := Option.isSome_iff_exists.mp hk'
    obtain ⟨h1, h2⟩ := habove (k', c') (AMap.get?_some_mem _ _ _ hc') hlt
    exact ⟨h1, c', hc', h2 c' hc'⟩

/-- C26, counterexample.  The cache holds the chunks 600, 1800 and 2400 of span 600,
the last two linked.  `Search(600, 3000)` finds the forward pass incomplete, and the
backward pass visits 2400 and then 1800: `End` is `[2400, 1800]`, in the order of the
visit, beginning and not ending with the chunk that contains `until - 1`. -/
theorem backward_order_counterexample :
    Search 3000 (run [.init 0 ⟨600, 600⟩, .add 0 ⟨1800, 600⟩, .add 1800 ⟨2400, 600⟩])
        ⟨false, [], 600, [], 3000⟩ 600 3000
      = .ok ⟨false, [⟨600, 600⟩], 1200, [⟨2400, 600⟩, ⟨1800, 600⟩], 1800⟩ := by
  decide

/-- C26, as amended.  On a cache in which every link joins adjacent chunks, and for
`from < until`, the forward pass returns and `Search` returns (with fuel `until` or
more).  When the forward pass is complete nothing is appended to `result.End`.  When it
is not, `Search` runs the backward pass: if the pass starts at the chunk under a
non-zero key `k` (the greatest key at or before `until - 1`, whose chunk contains
`until - 1`), that chunk is appended first.  What is appended to `result.End` are the
chunks that the backward pass visits, in the order of the visit: the list is in
descending `T0` order, it begins with a chunk that contains `until - 1`, each further
chunk is the `Prev` of the one before it, `result.Until` is the `T0` of the last chunk
of the list, the earliest one, and the walk stops at the first chunk with `T0 <= from`
(every chunk before the last has `T0 > from`, and the last has `T0 <= from` or no
`Prev`). -/
theorem backward_pass_order (mc : CCacheMetric) (res : CCSearchResult)
    (from_ until_ fuel : Nat) (hL : Linked mc) (hlt : from_ < until_) (hu : until_ < u32)
    (hfuel : until_ ≤ fuel) :
    ∃ r1 r v, searchForward fuel mc from_ (until_ - 1) (sortedTs mc) res = .ok r1
      ∧ Search fuel mc res from_ until_ = .ok r ∧ r.End = res.End ++ v
      ∧ (r1.Complete = true → r = r1 ∧ v = [])
      ∧ (r1.Complete = false → ∀ k, k ≠ 0 → startsBackward mc (until_ - 1) k →
          ∃ c, AMap.get? mc.chunks k = some c ∧ v.head? = some c.Itgen)
      ∧ v.Pairwise (fun a b => b.Ts < a.Ts)
      ∧ (∀ g ∈ v.head?, g.Ts ≤ until_ - 1
          ∧ atKey mc g.Ts (fun d => until_ - 1 < chunkEnd d))
      ∧ v.Chain' (fun a b => atKey mc a.Ts (fun d => d.Prev = b.Ts))
      ∧ (∀ g ∈ v, atKey mc g.Ts (fun d => d.Itgen = g))
      ∧ (∀ g ∈ v.getLast?, r.Until = g.Ts
          ∧ (g.Ts ≤ from_ ∨ atKey mc g.Ts (fun d => d.Prev = 0)))
      ∧ (∀ g ∈ v.dropLast, from_ < g.Ts) := by
  have hU : (until_ + u32 - 1) % u32 = until_ - 1 := by
    unfold u32 at *; omega
  obtain ⟨r1, hr1, hE1, _⟩ :=
    searchForward_linked mc hL from_ (until_ - 1) fuel res (by omega) (by omega)
  have none_visited : ∀ r, Search fuel mc res from_ until_ = .ok r → r.End = res.End →
      (r1.Complete = true → r = r1) →
      (r1.Complete = false → ∀ k, k ≠ 0 → ¬ startsBackward mc (until_ - 1) k) →
      ∃ r1 r v, searchForward fuel mc from_ (until_ - 1) (sortedTs mc) res = .ok r1
        ∧ Search fuel mc res from_ until_ = .ok r ∧ r.End = res.End ++ v
        ∧ (r1.Complete = true → r = r1 ∧ v = [])
        ∧ (r1.Complete = false → ∀ k, k ≠ 0 → startsBackward mc (until_ - 1) k →
            ∃ c, AMap.get? mc.chunks k = some c ∧ v.head? = some c.Itgen)
        ∧ v.Pairwise (fun a b => b.Ts < a.Ts)
        ∧ (∀ g ∈ v.head?, g.Ts ≤ until_ - 1
            ∧ atKey mc g.Ts (fun d => until_ - 1 < chunkEnd d))
        ∧ v.Chain' (fun a b => atKey mc a.Ts (fun d => d.Prev = b.Ts))
        ∧ (∀ g ∈ v, atKey mc g.Ts (fun d => d.Itgen = g))
        ∧ (∀ g ∈ v.getLast?, r.Until = g.Ts
            ∧ (g.Ts ≤ from_ ∨ atKey mc g.Ts (fun d => d.Prev = 0)))
        ∧ (∀ g ∈ v.dropLast, from_ < g.Ts) := by
    intro r hr hE hcomp hnone
    refine ⟨r1, r, [], hr1, hr, by simp [hE], fun h => ⟨hcomp h, rfl⟩,
      fun h k hk hs => absurd hs (hnone h k hk), List.Pairwise.nil, ?_, List.chain'_nil,
      ?_, ?_, ?_⟩ <;> simp
  by_cases hlen : mc.chunks.length < 1
  · have hempty : mc.chunks = [] := by
      cases hm : mc.chunks with
      | nil => rfl
      | cons a b => rw [hm] at hlen; simp at hlen
    have hr1' : r1 = res := by
      have : searchForward fuel mc from_ (until_ - 1) (sortedTs mc) res = .ok res := by
        simp [searchForward, sortedTs, AMap.keys, hempty, seekAsc]
      rw [this] at hr1
      cases hr1
      rfl
    refine none_visited res (by simp [Search, hlen]) rfl (fun _ => hr1'.symm) ?_
    intro _ k _ hs
    obtain ⟨_, ⟨c, hc, _⟩, _⟩ := hs
    rw [hempty] at hc
    cases hc
  · by_cases hC : r1.Complete = true
    · exact none_visited r1 (by simp [Search, hlen, hU, hr1, hC]) hE1 (fun _ => rfl)
        (fun h => by rw [hC] at h; cases h)
    · have hS : Search fuel mc res from_ until_
          = searchBackward fuel mc from_ (until_ - 1) (sortedTs mc) r1 := by
        simp [Search, hlen, hU, hr1, hC]
      obtain ⟨ts, ok, hs, hp⟩ := seekDesc_spec mc (until_ - 1) (sortedTs mc)
        (fun k hk => (mem_sortedTs mc k).mp hk)
      have hstart : ∀ k, startsBackward mc (until_ - 1) k → ts = k ∧ ok = true := by
        intro k hk
        have := seekDesc_complete mc (until_ - 1) k hk
        rw [hs] at this
        simp only [Except.ok.injEq, Prod.mk.injEq] at this
        exact this
      cases ok with
      | false =>
        exact none_visited r1 (by rw [hS]; simp [searchBackward, hs]) hE1
          (fun h => absurd h hC)
          (fun _ k _ hk => by have := (hstart k hk).2; cases this)
      | true =>
        obtain ⟨h1, c, hc, h2⟩ := hp rfl
        by_cases hz : ts = 0
        · exact none_visited r1
            (by rw [hS]; simp [searchBackward, hs, hz, backwardLoop_zero]) hE1
            (fun h => absurd h hC)
            (fun _ k hk0 hk => by have := (hstart k hk).1; omega)
        · obtain ⟨r, v, hr, hE, _, _, _, hhead, _, hpw, hch, hat, hlast, hdrop⟩ :=
            backwardLoop_chain mc hL from_ fuel ts r1 c hc hz (by omega)
          obtain ⟨_, hI, _, _⟩ := hL.at hc
          refine ⟨r1, r, v, hr1, by rw [hS]; simp [searchBackward, hs, hr], by rw [hE, hE1],
            fun h => absurd h hC, ?_, hpw, ?_, hch, hat, hlast, hdrop⟩
          · intro _ k _ hk
            obtain ⟨e, _⟩ := hstart k hk
            subst e
            exact ⟨c, hc, hhead⟩
          · intro g hg
            rw [hhead] at hg
            simp only [Option.mem_def, Option.some.injEq] at hg
            subst hg
            rw [hI]
            exact ⟨h1, c, hc, h2⟩

/-- C26, witness: the cache and the query of the counterexample: the forward pass is
not complete, the backward pass starts at the chunk 2400, and `End` is `[2400, 1800]`
with `Until = 1800`. -/
theorem backward_pass_order_witness :
    Linked (run [.init 0 ⟨600, 600⟩, .add 0 ⟨1800, 600⟩, .add 1800 ⟨2400, 600⟩])
      ∧ 600 < 3000 ∧ 3000 < u32 ∧ 3000 ≤ 3000
      ∧ searchForward 3000
          (run [.init 0 ⟨600, 600⟩, .add 0 ⟨1800, 600⟩, .add 1800 ⟨2400, 600⟩]) 600 (3000 - 1)
          (sortedTs (run [.init 0 ⟨600, 600⟩, .add 0 ⟨1800, 600⟩, .add 1800 ⟨2400, 600⟩]))
          ⟨false, [], 600, [], 3000⟩ = .ok ⟨false, [⟨600, 600⟩], 1200, [], 3000⟩
      ∧ startsBackward (run [.init 0 ⟨600, 600⟩, .add 0 ⟨1800, 600⟩, .add 1800 ⟨2400, 600⟩])
          (3000 - 1) 2400
      ∧ Search 3000 (run [.init 0 ⟨600, 600⟩, .add 0 ⟨1800, 600⟩, .add 1800 ⟨2400, 600⟩])
          ⟨false, [], 600, [], 3000⟩ 600 3000
        = .ok ⟨false, [⟨600, 600⟩], 1200, [⟨2400, 600⟩, ⟨1800, 600⟩], 1800⟩
      ∧ ∃ r1 r v, searchForward 3000
            (run [.init 0 ⟨600, 600⟩, .add 0 ⟨1800, 600⟩, .add 1800 ⟨2400, 600⟩]) 600 (3000 - 1)
            (sortedTs (run [.init 0 ⟨600, 600⟩, .add 0 ⟨1800, 600⟩, .add 1800 ⟨2400, 600⟩]))
            ⟨false, [], 600, [], 3000⟩ = .ok r1
        ∧ Search 3000 (run [.init 0 ⟨600, 600⟩, .add 0 ⟨1800, 600⟩, .add 1800 ⟨2400, 600⟩])
            ⟨false, [], 600, [], 3000⟩ 600 3000 = .ok r
        ∧ r.End = (⟨false, [], 600, [], 3000⟩ : CCSearchResult).End ++ v
        ∧ (r1.Complete = true → r = r1 ∧ v = [])
        ∧ (r1.Complete = false → ∀ k, k ≠ 0 →
            startsBackward
              (run [.init 0 ⟨600, 600⟩, .add 0 ⟨1800, 600⟩, .add 1800 ⟨2400, 600⟩])
              (3000 - 1) k →
            ∃ c, AMap.get?
                (run [.init 0 ⟨600, 600⟩, .add 0 ⟨1800, 600⟩, .add 1800 ⟨2400, 600⟩]).chunks k
                = some c ∧ v.head? = some c.Itgen)
        ∧ v.Pairwise (fun a b => b.Ts < a.Ts)
        ∧ (∀ g ∈ v.head?, g.Ts ≤ 3000 - 1
            ∧ atKey (run [.init 0 ⟨600, 600⟩, .add 0 ⟨1800, 600⟩, .add 1800 ⟨2400, 600⟩]) g.Ts
              (fun d => 3000 - 1 < chunkEnd d))
        ∧ v.Chain' (fun a b =>
            atKey (run [.init 0 ⟨600, 600⟩, .add 0 ⟨1800, 600⟩, .add 1800 ⟨2400, 600⟩]) a.Ts
              (fun d => d.Prev = b.Ts))
        ∧ (∀ g ∈ v,
            atKey (run [.init 0 ⟨600, 600⟩, .add 0 ⟨1800, 600⟩, .add 1800 ⟨2400, 600⟩]) g.Ts
              (fun d => d.Itgen = g))
        ∧ (∀ g ∈ v.getLast?, r.Until = g.Ts
            ∧ (g.Ts ≤ 600
              ∨ atKey (run [.init 0 ⟨600, 600⟩, .add 0 ⟨1800, 600⟩, .add 1800 ⟨2400, 600⟩])
                  g.Ts (fun d => d.Prev = 0)))
        ∧ (∀ g ∈ v.dropLast, 600 < g.Ts) :=
  ⟨by decide, by decide, by decide, by decide, by decide, by decide, by decide,
    backward_pass_order _ ⟨false, [], 600, [], 3000⟩ 600 3000 3000 (by decide) (by decide)
      (by decide) (by decide)⟩

end Cache

/-! ## The chunk cache: termination of `Search` -/

namespace Cache

theorem ordered_new : Ordered NewCCacheMetric := by
  intro k c h
  simp [NewCCacheMetric, AMap.get?] at h

/-- `Add` with a predecessor that starts before the new chunk keeps the links ordered. -/
theorem ordered_Add (mc : CCacheMetric) (prev : Nat) (g : IterGen) (hO : Ordered mc)
    (hp : prev < g.Ts) : Ordered (Add mc prev g) := by
  cases hnew : AMap.get? mc.chunks g.Ts with
  | some c0 => rw [Add_of_has mc prev g (by rw [hnew]; simp)]; exact hO
  | none =>
    intro k c hk
    by_cases hkg : k = g.Ts
    · subst hkg
      rw [get?_Add_self mc prev g hnew] at hk
      cases hk
      have hne : ¬ prev = g.Ts := by omega
      constructor
      · simp only
        intro hN
        by_cases h1 : g.Ts < chunkEnd ⟨g.Ts, 0, 0, g⟩ ∧
            (AMap.get? mc.chunks (chunkEnd ⟨g.Ts, 0, 0, g⟩)).isSome = true
        · rw [if_pos h1]; exact h1.1
        · rw [if_neg h1, if_neg hne] at hN
          exact absurd rfl hN
      · simp only
        intro hP
        by_cases h1 : prev = g.Ts ∨ (AMap.get? mc.chunks prev).isSome = true
        · rw [if_pos h1]; exact hp
        · rw [if_neg h1] at hP
          exact absurd rfl hP
    · rw [get?_Add_other mc prev g k hnew hkg] at hk
      cases hc : AMap.get? mc.chunks k with
      | none => rw [hc] at hk; cases hk
      | some d =>
        rw [hc] at hk
        simp only [Option.map_some', Option.some.injEq] at hk
        subst hk
        obtain ⟨hN, hP⟩ := hO k d hc
        constructor
        · simp only
          intro hn
          by_cases h1 : k = prev
          · rw [if_pos h1]; omega
          · rw [if_neg h1] at hn ⊢
            exact hN hn
        · simp only
          intro hn
          by_cases h1 : g.Ts < chunkEnd ⟨g.Ts, 0, 0, g⟩ ∧ k = chunkEnd ⟨g.Ts, 0, 0, g⟩
          · rw [if_pos h1]; omega
          · rw [if_neg h1] at hn ⊢
            exact hP hn

/-- `Del` keeps the links ordered. -/
theorem ordered_Del (mc : CCacheMetric) (ts : Nat) (hO : Ordered mc) :
    Ordered (Del mc ts).1 := by
  cases hc : AMap.get? mc.chunks ts with
  | none => rw [Del_of_absent mc ts hc]; exact hO
  | some c =>
    intro k d hk
    rw [get?_Del mc ts k c hc] at hk
    by_cases hkt : k = ts
    · rw [if_pos hkt] at hk; cases hk
    · rw [if_neg hkt] at hk
      cases hd : AMap.get? mc.chunks k with
      | none => rw [hd] at hk; cases hk
      | some d0 =>
        rw [hd] at hk
        simp only [Option.map_some', Option.some.injEq] at hk
        subst hk
        obtain ⟨hN, hP⟩ := hO k d0 hd
        constructor
        · simp only
          intro hn
          by_cases h1 : c.Prev ≠ 0 ∧ k = c.Prev
          · rw [if_pos h1] at hn; exact absurd rfl hn
          · rw [if_neg h1] at hn ⊢
            exact hN hn
        · simp only
          intro hn
          by_cases h1 : c.Next ≠ 0 ∧ k = c.Next
          · rw [if_pos h1] at hn; exact absurd rfl hn
          · rw [if_neg h1] at hn ⊢
            exact hP hn

theorem ordered_runFrom (ops : List Op) :
    ∀ mc : CCacheMetric, Ordered mc → (∀ op ∈ ops, op.prevBelow) →
      Ordered (runFrom mc ops) := by
  induction ops with
  | nil => intro mc hO _; exact hO
  | cons op rest ih =>
    intro mc hO hops
    have hop := hops op (List.mem_cons_self _ _)
    have hrest : ∀ o ∈ rest, o.prevBelow := fun o ho => hops o (List.mem_cons_of_mem _ ho)
    cases op with
    | init prev g =>
      have h := ordered_Add mc prev g hO hop
      have hchunks : (Init mc prev g).chunks = (Add mc prev g).chunks := rfl
      have hO' : Ordered (Init mc prev g) := by
        intro k c hk
        rw [hchunks] at hk
        exact h k c hk
      exact ih (Init mc prev g) hO' hrest
    | add prev g => exact ih (Add mc prev g) (ordered_Add mc prev g hO hop) hrest
    | del ts => exact ih (Del mc ts).1 (ordered_Del mc ts hO) hrest

theorem countP_lt_of_mem {α : Type} (p q : α → Bool) (l : List α) (h : ∀ x ∈ l, p x → q x)
    (a : α) (ha : a ∈ l) (hq : q a = true) (hp : p a = false) :
    l.countP p < l.countP q := by
  induction l with
  | nil => cases ha
  | cons x rest ih =>
    rw [List.countP_cons, List.countP_cons]
    have hmono : rest.countP p ≤ rest.countP q :=
      List.countP_mono_left (fun y hy => h y (List.mem_cons_of_mem _ hy))
    rcases List.mem_cons.mp ha with e | e
    · subst e
      rw [hq, hp]
      simp only [if_true]
      simp only [Bool.false_eq_true, if_false]
      omega
    · have := ih (fun y hy => h y (List.mem_cons_of_mem _ hy)) e
      by_cases hpx : p x = true
      · rw [hpx, h x (List.mem_cons_self _ _) hpx]; omega
      · rw [if_neg hpx]
        by_cases hqx : q x = true
        · rw [if_pos hqx]; omega
        · rw [if_neg hqx]; omega

/-- The forward walk on ordered links ends: every step moves to a greater key of the
map, so more fuel than the map has keys at or above the start is never used up. -/
theorem forwardLoop_ends (mc : CCacheMetric) (hO : Ordered mc) (U : Nat) :
    ∀ (fuel ts : Nat) (res : CCSearchResult),
      mc.chunks.countP (fun e => decide (ts ≤ e.1)) < fuel →
      forwardLoop mc U fuel ts res ≠ .error .fuel := by
  intro fuel
  induction fuel with
  | zero => intro ts res h; omega
  | succ fuel ih =>
    intro ts res hfuel
    rw [forwardLoop]
    by_cases hz : ts = 0
    · rw [if_pos hz]; simp
    · rw [if_neg hz]
      cases hc : AMap.get? mc.chunks ts with
      | none => simp
      | some c =>
        simp only
        by_cases hd : chunkEnd c ≥ U
        · rw [if_pos hd]; simp
        · rw [if_neg hd]
          by_cases hn : c.Next = 0
          · rw [hn, forwardLoop_zero]; simp
          · apply ih
            have hlt := (hO ts c hc).1 hn
            have hmem := AMap.get?_some_mem mc.chunks ts c hc
            have := countP_lt_of_mem (fun e : Nat × CCacheChunk => decide (c.Next ≤ e.1))
              (fun e => decide (ts ≤ e.1)) mc.chunks
              (fun x _ hx => by
                simp only [decide_eq_true_eq] at hx ⊢
                omega)
              (ts, c) hmem (by simp) (by simp only [decide_eq_false_iff_not]; omega)
            omega

/-- The backward walk on ordered links ends. -/
theorem backwardLoop_ends (mc : CCacheMetric) (hO : Ordered mc) (F : Nat) :
    ∀ (fuel ts : Nat) (res : CCSearchResult),
      mc.chunks.countP (fun e => decide (e.1 ≤ ts)) < fuel →
      backwardLoop mc F fuel ts res ≠ .error .fuel := by
  intro fuel
  induction fuel with
  | zero => intro ts res h; omega
  | succ fuel ih =>
    intro ts res hfuel
    rw [backwardLoop]
    by_cases hz : ts = 0
    · rw [if_pos hz]; simp
    · rw [if_neg hz]
      cases hc : AMap.get? mc.chunks ts with
      | none => simp
      | some c =>
        simp only
        by_cases hd : c.Ts ≤ F
        · rw [if_pos hd]; simp
        · rw [if_neg hd]
          by_cases hn : c.Prev = 0
          · rw [hn, backwardLoop_zero]; simp
          · apply ih
            have hlt := (hO ts c hc).2 hn
            have hmem := AMap.get?_some_mem mc.chunks ts c hc
            have := countP_lt_of_mem (fun e : Nat × CCacheChunk => decide (e.1 ≤ c.Prev))
              (fun e => decide (e.1 ≤ ts)) mc.chunks
              (fun x _ hx => by
                simp only [decide_eq_true_eq] at hx ⊢
                omega)
              (ts, c) hmem (by simp) (by simp only [decide_eq_false_iff_not]; omega)
            omega

theorem seekAsc_ne_fuel (mc : CCacheMetric) (x : Nat) (keys : List Nat) :
    seekAsc mc x keys ≠ .error .fuel := by
  induction keys with
  | nil => simp [seekAsc]
  | cons k rest ih =>
    rw [seekAsc]
    by_cases hk : k ≤ x
    · rw [if_pos hk]
      cases endTs mc k with
      | none => simp
      | some e =>
        simp only
        by_cases he : e > x
        · rw [if_pos he]; simp
        · rw [if_neg he]; exact ih
    · rw [if_neg hk]; simp

theorem seekDescLoop_ne_fuel (mc : CCacheMetric) (x : Nat) (keys : List Nat) :
    seekDescLoop mc x keys ≠ .error .fuel := by
  induction keys with
  | nil => simp [seekDescLoop]
  | cons k rest ih =>
    rw [seekDescLoop]
    cases endTs mc k with
    | none => simp
    | some e =>
      simp only
      by_cases he : e > x
      · rw [if_pos he]
        by_cases hk : k ≤ x
        · rw [if_pos hk]; simp
        · rw [if_neg hk]; exact ih
      · rw [if_neg he]; simp

/-- On ordered links `Search` ends, whatever the range: with more fuel than the cache
has chunks it does not run out of fuel. -/
theorem search_ends (mc : CCacheMetric) (hO : Ordered mc) (res : CCSearchResult)
    (from_ until_ fuel : Nat) (hfuel : mc.chunks.length < fuel) :
    Search fuel mc res from_ until_ ≠ .error .fuel := by
  have hcount : ∀ p : Nat × CCacheChunk → Bool, mc.chunks.countP p < fuel :=
    fun p => Nat.lt_of_le_of_lt (List.countP_le_length p) hfuel
  unfold Search
  by_cases hlen : mc.chunks.length < 1
  · rw [if_pos hlen]; simp
  · rw [if_neg hlen]
    simp only
    have hfwd : searchForward fuel mc from_ ((until_ + u32 - 1) % u32) (sortedTs mc) res
        ≠ .error .fuel := by
      unfold searchForward
      cases hs : seekAsc mc from_ (sortedTs mc) with
      | error f =>
        simp only
        intro h
        cases h
        exact seekAsc_ne_fuel mc from_ (sortedTs mc) hs
      | ok p =>
        obtain ⟨ts, ok⟩ := p
        simp only
        by_cases hok : ok = true
        · rw [if_pos hok]
          exact forwardLoop_ends mc hO _ fuel ts res (hcount _)
        · rw [if_neg hok]; simp
    cases hf : searchForward fuel mc from_ ((until_ + u32 - 1) % u32) (sortedTs mc) res with
    | error f =>
      simp only
      intro h
      cases h
      exact hfwd hf
    | ok r1 =>
      simp only
      by_cases hC : (!r1.Complete) = true
      · rw [if_pos hC]
        unfold searchBackward seekDesc
        cases hs : seekDescLoop mc ((until_ + u32 - 1) % u32) (sortedTs mc).reverse with
        | error f =>
          simp only
          intro h
          cases h
          exact seekDescLoop_ne_fuel mc _ _ hs
        | ok p =>
          obtain ⟨ts, ok⟩ := p
          simp only
          by_cases hok : ok = true
          · rw [if_pos hok]
            exact backwardLoop_ends mc hO _ fuel ts r1 (hcount _)
          · rw [if_neg hok]; simp
      · rw [if_neg hC]; simp

/-- The forward walk on ordered links that do not dangle returns. -/
theorem forwardLoop_returns (mc : CCacheMetric) (hO : Ordered mc) (hR : Resolved mc) (U : Nat) :
    ∀ (fuel ts : Nat) (res : CCSearchResult),
      mc.chunks.countP (fun e => decide (ts ≤ e.1)) < fuel →
      (ts ≠ 0 → (AMap.get? mc.chunks ts).isSome = true) →
      ∃ r, forwardLoop mc U fuel ts res = .ok r := by
  intro fuel
  induction fuel with
  | zero => intro ts res h; omega
  | succ fuel ih =>
    intro ts res hfuel hts
    rw [forwardLoop]
    by_cases hz : ts = 0
    · rw [if_pos hz]; exact ⟨_, rfl⟩
    · rw [if_neg hz]
      obtain ⟨c, hc⟩ := Option.isSome_iff_exists.mp (hts hz)
      rw [hc]
      simp only
      by_cases hd : chunkEnd c ≥ U
      · rw [if_pos hd]; exact ⟨_, rfl⟩
      · rw [if_neg hd]
        by_cases hn : c.Next = 0
        · rw [hn, forwardLoop_zero]; exact ⟨_, rfl⟩
        · apply ih
          · have hlt := (hO ts c hc).1 hn
            have hmem := AMap.get?_some_mem mc.chunks ts c hc
            have := countP_lt_of_mem (fun e : Nat × CCacheChunk => decide (c.Next ≤ e.1))
              (fun e => decide (ts ≤ e.1)) mc.chunks
              (fun x _ hx => by
                simp only [decide_eq_true_eq] at hx ⊢
                omega)
              (ts, c) hmem (by simp) (by simp only [decide_eq_false_iff_not]; omega)
            omega
          · intro _
            exact (hR ts c hc).1 hn

/-- The backward walk on ordered links that do not dangle returns. -/
theorem backwardLoop_returns (mc : CCacheMetric) (hO : Ordered mc) (hR : Resolved mc) (F : Nat) :
    ∀ (fuel ts : Nat) (res : CCSearchResult),
      mc.chunks.countP (fun e => decide (e.1 ≤ ts)) < fuel →
      (ts ≠ 0 → (AMap.get? mc.chunks ts).isSome = true) →
      ∃ r, backwardLoop mc F fuel ts res = .ok r := by
  intro fuel
  induction fuel with
  | zero => intro ts res h; omega
  | succ fuel ih =>
    intro ts res hfuel hts
    rw [backwardLoop]
    by_cases hz : ts = 0
    · rw [if_pos hz]; exact ⟨_, rfl⟩
    · rw [if_neg hz]
      obtain ⟨c, hc⟩ := Option.isSome_iff_exists.mp (hts hz)
      rw [hc]
      simp only
      by_cases hd : c.Ts ≤ F
      · rw [if_pos hd]; exact ⟨_, rfl⟩
      · rw [if_neg hd]
        by_cases hn : c.Prev = 0
        · rw [hn, backwardLoop_zero]; exact ⟨_, rfl⟩
        · apply ih
          · have hlt := (hO ts c hc).2 hn
            have hmem := AMap.get?_some_mem mc.chunks ts c hc
            have := countP_lt_of_mem (fun e : Nat × CCacheChunk => decide (e.1 ≤ c.Prev))
              (fun e => decide (e.1 ≤ ts)) mc.chunks
              (fun x _ hx => by
                simp only [decide_eq_true_eq] at hx ⊢
                omega)
              (ts, c) hmem (by simp) (by simp only [decide_eq_false_iff_not]; omega)
            omega
          · intro _
            exact (hR ts c hc).2 hn

/-- On ordered links that do not dangle `Search` returns, whatever the range, with
more fuel than the cache has chunks. -/
theorem search_returns (mc : CCacheMetric) (hO : Ordered mc) (hR : Resolved mc)
    (res : CCSearchResult) (from_ until_ fuel : Nat) (hfuel : mc.chunks.length < fuel) :
    ∃ r, Search fuel mc res from_ until_ = .ok r := by
  have hcount : ∀ p : Nat × CCacheChunk → Bool, mc.chunks.countP p < fuel :=
    fun p => Nat.lt_of_le_of_lt (List.countP_le_length p) hfuel
  unfold Search
  by_cases hlen : mc.chunks.length < 1
  · rw [if_pos hlen]; exact ⟨_, rfl⟩
  · rw [if_neg hlen]
    simp only
    obtain ⟨ts, ok, hs, hp⟩ := seekAsc_spec mc from_ (sortedTs mc)
      (fun k hk => (mem_sortedTs mc k).mp hk)
    have hfwd : ∃ r1, searchForward fuel mc from_ ((until_ + u32 - 1) % u32) (sortedTs mc) res
        = .ok r1 := by
      unfold searchForward
      rw [hs]
      simp only
      cases ok with
      | false => exact ⟨_, rfl⟩
      | true =>
        obtain ⟨_, c, hc, _⟩ := hp rfl
        rw [if_pos rfl]
        exact forwardLoop_returns mc hO hR _ fuel ts res (hcount _) (fun _ => by rw [hc]; rfl)
    obtain ⟨r1, hr1⟩ := hfwd
    rw [hr1]
    simp only
    by_cases hC : (!r1.Complete) = true
    · rw [if_pos hC]
      obtain ⟨ts2, ok2, hs2, hp2⟩ := seekDesc_spec mc ((until_ + u32 - 1) % u32) (sortedTs mc)
        (fun k hk => (mem_sortedTs mc k).mp hk)
      unfold searchBackward
      rw [hs2]
      simp only
      cases ok2 with
      | false => exact ⟨_, rfl⟩
      | true =>
        obtain ⟨_, c, hc, _⟩ := hp2 rfl
        rw [if_pos rfl]
        exact backwardLoop_returns mc hO hR _ fuel ts2 r1 (hcount _) (fun _ => by rw [hc]; rfl)
    · rw [if_neg hC]; exact ⟨_, rfl⟩

/-- C28, counterexample.  `Init(600, chunk 600)` names the chunk itself as its
predecessor: `Add` stores the chunk and then finds `chunks[prev]`, the chunk it has
just stored, and links it to itself.  The forward pass of `Search(600, 5000)` follows
`Next` from 600 to 600 for ever: whatever the fuel, the run does not end. -/
theorem search_self_link_counterexample :
    run [.init 600 ⟨600, 600⟩] = ⟨600, 600, [(600, ⟨600, 600, 600, ⟨600, 600⟩⟩)]⟩
      ∧ ¬ ∃ fuel, Search fuel (run [.init 600 ⟨600, 600⟩]) ⟨false, [], 600, [], 5000⟩ 600 5000
          ≠ .error .fuel := by
  refine ⟨by decide, ?_⟩
  rintro ⟨fuel, h⟩
  apply h
  have hrun : run [.init 600 ⟨600, 600⟩] = ⟨600, 600, [(600, ⟨600, 600, 600, ⟨600, 600⟩⟩)]⟩ := by
    decide
  rw [hrun]
  have hloop : ∀ (fuel : Nat) (res : CCSearchResult),
      forwardLoop ⟨600, 600, [(600, ⟨600, 600, 600, ⟨600, 600⟩⟩)]⟩ 4999 fuel 600 res
        = .error .fuel := by
    intro fuel
    induction fuel with
    | zero => intro res; rfl
    | succ fuel ih =>
      intro res
      rw [forwardLoop]
      have hget : AMap.get? (⟨600, 600, [(600, ⟨600, 600, 600, ⟨600, 600⟩⟩)]⟩ :
          CCacheMetric).chunks 600 = some ⟨600, 600, 600, ⟨600, 600⟩⟩ := by decide
      have hend : ¬ (chunkEnd ⟨600, 600, 600, ⟨600, 600⟩⟩ ≥ 4999) := by decide
      rw [if_neg (by decide), hget]
      simp only
      rw [if_neg hend]
      exact ih _
  have hseek : seekAsc ⟨600, 600, [(600, ⟨600, 600, 600, ⟨600, 600⟩⟩)]⟩ 600
      (sortedTs ⟨600, 600, [(600, ⟨600, 600, 600, ⟨600, 600⟩⟩)]⟩) = .ok (600, true) := by
    decide
  have hU : (5000 + u32 - 1) % u32 = 4999 := by decide
  unfold Search
  rw [if_neg (by decide)]
  simp only [hU, searchForward, hseek, if_true, hloop]

/-- C28, as amended.  In every cache state reached from `NewCCacheMetric` by `Init`,
`Add` and `Del` calls in which every `Init` and `Add` names a predecessor `prev`
smaller than the `T0` of the chunk it adds, the links are ordered (a non-zero `Next`
is greater than the key of its chunk and a non-zero `Prev` is smaller), so neither
walk revisits a chunk, and `Search` ends for every `from` and `until`: with more fuel
than the cache has chunks it never runs out of fuel: it returns, or it stops at a
pointer to a chunk that is not cached, and it returns when no link dangles. -/
theorem search_terminates (ops : List Op) (hops : ∀ op ∈ ops, op.prevBelow)
    (res : CCSearchResult) (from_ until_ fuel : Nat)
    (hfuel : (run ops).chunks.length < fuel) :
    Ordered (run ops) ∧ Search fuel (run ops) res from_ until_ ≠ .error .fuel
      ∧ (Resolved (run ops) → ∃ r, Search fuel (run ops) res from_ until_ = .ok r) := by
  have hO : Ordered (run ops) := ordered_runFrom ops NewCCacheMetric ordered_new hops
  exact ⟨hO, search_ends (run ops) hO res from_ until_ fuel hfuel,
    fun hR => search_returns (run ops) hO hR res from_ until_ fuel hfuel⟩

/-- C28, witness: the cache `600 -> 1200 -> 2400`, the last link across a gap, and the
query `[600, 5000)`. -/
theorem search_terminates_witness :
    (∀ op ∈ [Op.init 0 ⟨600, 600⟩, .add 600 ⟨1200, 600⟩, .add 1200 ⟨2400, 600⟩],
        op.prevBelow)
      ∧ (run [.init 0 ⟨600, 600⟩, .add 600 ⟨1200, 600⟩, .add 1200 ⟨2400, 600⟩]).chunks.length < 4
      ∧ (Ordered (run [.init 0 ⟨600, 600⟩, .add 600 ⟨1200, 600⟩, .add 1200 ⟨2400, 600⟩])
        ∧ Search 4 (run [.init 0 ⟨600, 600⟩, .add 600 ⟨1200, 600⟩, .add 1200 ⟨2400, 600⟩])
            ⟨false, [], 600, [], 5000⟩ 600 5000 ≠ .error .fuel
        ∧ (Resolved (run [.init 0 ⟨600, 600⟩, .add 600 ⟨1200, 600⟩, .add 1200 ⟨2400, 600⟩]) →
          ∃ r, Search 4 (run [.init 0 ⟨600, 600⟩, .add 600 ⟨1200, 600⟩, .add 1200 ⟨2400, 600⟩])
            ⟨false, [], 600, [], 5000⟩ 600 5000 = .ok r)) :=
  ⟨by decide, by decide,
    search_terminates [.init 0 ⟨600, 600⟩, .add 600 ⟨1200, 600⟩, .add 1200 ⟨2400, 600⟩]
      (by decide) ⟨false, [], 600, [], 5000⟩ 600 5000 4 (by decide)⟩

end Cache

/-! ## The memory index: `expandQueries` returns the cross product -/

namespace Memory

theorem indexChar_append (c : Char) (l1 l2 : List Char) (h : c ∉ l1) :
    indexChar c (l1 ++ c :: l2) = some l1.length := by
  induction l1 with
  | nil => simp [indexChar]
  | cons x xs ih =>
    simp only [List.mem_cons, not_or] at h
    have hx : ¬ x = c := fun e => h.1 e.symm
    simp [indexChar, hx, ih h.2]

/-- One step of the expansion on a query whose first brace group is known. -/
theorem expandOne_group (pre body post : String) (hpre : '{' ∉ pre.data)
    (hbody : '}' ∉ body.data) :
    expandOne (pre ++ "\x7b" ++ body ++ "\x7d" ++ post)
      = ((Split body ',').map (fun opt => pre ++ opt ++ post), true) := by
  have hdata : (pre ++ "\x7b" ++ body ++ "\x7d" ++ post).data
      = pre.data ++ '{' :: (body.data ++ '}' :: post.data) := by
    simp only [String.data_append]
    simp
  have hl : indexChar '{' (pre ++ "\x7b" ++ body ++ "\x7d" ++ post).data
      = some pre.data.length := by
    rw [hdata]; exact indexChar_append '{' _ _ hpre
  have hdrop : (pre ++ "\x7b" ++ body ++ "\x7d" ++ post).data.drop pre.data.length
      = '{' :: (body.data ++ '}' :: post.data) := by
    rw [hdata, List.drop_left]
  have hr : indexChar '}' ((pre ++ "\x7b" ++ body ++ "\x7d" ++ post).data.drop pre.data.length)
      = some (body.data.length + 1) := by
    rw [hdrop]
    have hne : ¬ ('{' = '}') := by decide
    simp only [indexChar, hne, if_false, indexChar_append '}' _ _ hbody, Option.map_some']
  rw [expandOne_eq _ _ _ hl hr, hdata]
  have e1 : (pre.data ++ '{' :: (body.data ++ '}' :: post.data)).take pre.data.length
      = pre.data := List.take_left _ _
  have e2 : ((pre.data ++ '{' :: (body.data ++ '}' :: post.data)).take
      (body.data.length + 1 + pre.data.length)).drop (pre.data.length + 1) = body.data := by
    have : pre.data ++ '{' :: (body.data ++ '}' :: post.data)
        = (pre.data ++ '{' :: body.data) ++ '}' :: post.data := by simp
    rw [this, List.take_left' (by simp; omega)]
    have : pre.data ++ '{' :: body.data = (pre.data ++ ['{']) ++ body.data := by simp
    rw [this, List.drop_left' (by simp)]
  have e3 : (pre.data ++ '{' :: (body.data ++ '}' :: post.data)).drop
      (body.data.length + 1 + pre.data.length + 1) = post.data := by
    have : pre.data ++ '{' :: (body.data ++ '}' :: post.data)
        = (pre.data ++ '{' :: (body.data ++ ['}'])) ++ post.data := by simp
    rw [this, List.drop_left' (by simp; omega)]
  rw [e1, e2, e3]

theorem Join_data_subset (ss : List String) (sep : String) :
    ∀ c ∈ (Join ss sep).data, c ∈ sep.data ∨ ∃ s ∈ ss, c ∈ s.data := by
  induction ss with
  | nil => intro c hc; simp [Join] at hc
  | cons a rest ih =>
    intro c hc
    cases rest with
    | nil =>
      simp only [Join] at hc
      exact Or.inr ⟨a, List.mem_cons_self _ _, hc⟩
    | cons b rest =>
      rw [Join_data_cons] at hc
      simp only [List.mem_append] at hc
      rcases hc with (hc | hc) | hc
      · exact Or.inr ⟨a, List.mem_cons_self _ _, hc⟩
      · exact Or.inl hc
      · rcases ih c hc with h | ⟨s, hs, h⟩
        · exact Or.inl h
        · exact Or.inr ⟨s, List.mem_cons_of_mem _ hs, h⟩

/-- `Split` at the commas undoes `Join` with commas on a non-empty list of options
without a comma. -/
theorem Split_Join_comma (ss : List String) (hne : ss ≠ []) (hd : ∀ s ∈ ss, ',' ∉ s.data) :
    Split (Join ss ",") ',' = ss := by
  have key : ∀ ss : List String, ss ≠ [] → (∀ s ∈ ss, ',' ∉ s.data) →
      splitChars ',' (Join ss ",").data = ss.map String.data := by
    intro ss
    induction ss with
    | nil => intro h; exact absurd rfl h
    | cons a rest ih =>
      intro _ hd
      cases rest with
      | nil =>
        simp only [Join, List.map_cons, List.map_nil]
        exact splitChars_of_not_mem ',' a.data (hd a (List.mem_cons_self _ _))
      | cons b rest =>
        rw [Join_data_cons]
        have h1 : ("," : String).data = [','] := rfl
        rw [h1, List.append_assoc, List.singleton_append,
          splitChars_append ',' a.data _ (hd a (List.mem_cons_self _ _)),
          ih (by simp) (fun s hs => hd s (List.mem_cons_of_mem _ hs))]
        rfl
  unfold Split
  rw [key ss hne hd, List.map_map]
  have : (String.mk ∘ String.data) = id := by
    funext s
    rfl
  rw [this, List.map_id]

/-- One step of the expansion on a query that goes on with a brace group of the
description. -/
theorem expandOne_render (p lit : String) (opts : List String)
    (rest : List (List String × String)) (hp : '{' ∉ p.data) (hne : opts ≠ [])
    (ho : ∀ o ∈ opts, '{' ∉ o.data ∧ '}' ∉ o.data ∧ ',' ∉ o.data) :
    expandOne (p ++ renderTail ((opts, lit) :: rest))
      = (opts.map (fun o => (p ++ o ++ lit) ++ renderTail rest), true) := by
  have hbody : '}' ∉ (Join opts ",").data := by
    intro hin
    rcases Join_data_subset opts "," '}' hin with h | ⟨s, hs, h⟩
    · revert h; decide
    · exact (ho s hs).2.1 h
  have hq : p ++ renderTail ((opts, lit) :: rest)
      = p ++ "\x7b" ++ Join opts "," ++ "\x7d" ++ (lit ++ renderTail rest) := by
    simp only [renderTail, String.append_assoc]
  rw [hq, expandOne_group p (Join opts ",") (lit ++ renderTail rest) hp hbody,
    Split_Join_comma opts hne (fun o h => (ho o h).2.2)]
  simp only [String.append_assoc]

theorem expandOne_plain (q : String) (h : '{' ∉ q.data) : expandOne q = ([q], false) := by
  simp [expandOne, indexChar_none '{' q.data h]

theorem expandPass_plain (qs : List String) (h : ∀ q ∈ qs, '{' ∉ q.data) :
    expandPass qs = (qs, false) := by
  induction qs with
  | nil => rfl
  | cons q rest ih =>
    rw [expandPass, expandOne_plain q (h q (List.mem_cons_self _ _)),
      ih (fun x hx => h x (List.mem_cons_of_mem _ hx))]
    rfl

/-- One pass of the expansion over queries that all go on with the same brace group:
the group is replaced by each of its options, query by query. -/
theorem expandPass_render (lit : String) (opts : List String)
    (rest : List (List String × String)) (hne : opts ≠ [])
    (ho : ∀ o ∈ opts, '{' ∉ o.data ∧ '}' ∉ o.data ∧ ',' ∉ o.data) (P : List String)
    (hP : ∀ p ∈ P, '{' ∉ p.data) :
    expandPass (P.map (fun p => p ++ renderTail ((opts, lit) :: rest)))
      = ((P.flatMap (fun p => opts.map (fun o => p ++ o ++ lit))).map
          (fun q => q ++ renderTail rest), !P.isEmpty) := by
  induction P with
  | nil => rfl
  | cons p ps ih =>
    rw [List.map_cons, expandPass,
      expandOne_render p lit opts rest (hP p (List.mem_cons_self _ _)) hne ho,
      ih (fun x hx => hP x (List.mem_cons_of_mem _ hx))]
    simp [List.flatMap_cons, List.map_append, List.map_map, Function.comp_def]

/-- The loop of `expandQueries` on queries that all go on with the same brace groups:
it returns the cross products, query by query. -/
theorem expandLoop_render (groups : List (List String × String)) :
    (∀ g ∈ groups, g.1 ≠ []
        ∧ (∀ o ∈ g.1, '{' ∉ o.data ∧ '}' ∉ o.data ∧ ',' ∉ o.data) ∧ '{' ∉ g.2.data) →
    ∀ (P : List String) (fuel : Nat), P ≠ [] → (∀ p ∈ P, '{' ∉ p.data) →
      groups.length < fuel →
      expandLoop fuel (P.map (fun p => p ++ renderTail groups))
        = some (P.flatMap (fun p => crossProduct p groups)) := by
  induction groups with
  | nil =>
    intro _ P fuel _ hP hfuel
    obtain ⟨f, rfl⟩ : ∃ f, fuel = f + 1 := ⟨fuel - 1, by simp at hfuel; omega⟩
    have hmap : P.map (fun p => p ++ renderTail []) = P := by
      have : (fun p : String => p ++ renderTail []) = id := by
        funext p
        simp [renderTail]
      rw [this, List.map_id]
    rw [hmap, expandLoop, expandPass_plain P hP]
    simp [crossProduct]
  | cons g rest ih =>
    intro hG P fuel hne hP hfuel
    obtain ⟨opts, lit⟩ := g
    obtain ⟨hopts, ho, hlit⟩ := hG (opts, lit) (List.mem_cons_self _ _)
    obtain ⟨f, rfl⟩ : ∃ f, fuel = f + 1 := ⟨fuel - 1, by simp at hfuel; omega⟩
    have hne' : (!P.isEmpty) = true := by
      cases P with
      | nil => exact absurd rfl hne
      | cons a b => rfl
    rw [expandLoop, expandPass_render lit opts rest hopts ho P hP]
    simp only [hne', if_true]
    rw [ih (fun g hg => hG g (List.mem_cons_of_mem _ hg)) _ f]
    · simp [crossProduct, List.flatMap_assoc, List.flatMap_map]
    · cases P with
      | nil => exact absurd rfl hne
      | cons a b =>
        cases opts with
        | nil => exact absurd rfl hopts
        | cons o os => simp
    · intro q hq
      simp only [List.mem_flatMap, List.mem_map] at hq
      obtain ⟨p, hp, o, ho', rfl⟩ := hq
      simp only [String.data_append, List.mem_append, not_or]
      exact ⟨⟨hP p hp, (ho o ho').1⟩, hlit⟩
    · simp only [List.length_cons] at hfuel
      omega

theorem renderTail_length (groups : List (List String × String)) :
    groups.length ≤ (renderTail groups).length := by
  induction groups with
  | nil => simp
  | cons g rest ih =>
    obtain ⟨opts, lit⟩ := g
    simp only [renderTail, String.length_append, List.length_cons]
    have : ("\x7b" : String).length = 1 := rfl
    omega

theorem crossProduct_length (groups : List (List String × String)) :
    ∀ lit0, (crossProduct lit0 groups).length = (groups.map (fun g => g.1.length)).prod := by
  induction groups with
  | nil => intro lit0; simp [crossProduct]
  | cons g rest ih =>
    intro lit0
    obtain ⟨opts, lit⟩ := g
    simp only [crossProduct, List.length_flatMap, List.map_cons, List.prod_cons]
    have : opts.map (List.length ∘ fun o => crossProduct (lit0 ++ o ++ lit) rest)
        = opts.map (fun _ => (rest.map (fun g => g.1.length)).prod) :=
      List.map_congr_left (fun o _ => ih _)
    rw [this, List.map_const', List.sum_replicate]
    simp

theorem crossProduct_plain (groups : List (List String × String)) :
    (∀ g ∈ groups, g.1 ≠ []
        ∧ (∀ o ∈ g.1, '{' ∉ o.data ∧ '}' ∉ o.data ∧ ',' ∉ o.data) ∧ '{' ∉ g.2.data) →
    ∀ lit0, '{' ∉ lit0.data → ∀ q ∈ crossProduct lit0 groups, '{' ∉ q.data := by
  induction groups with
  | nil =>
    intro _ lit0 h0 q hq
    simp only [crossProduct, List.mem_singleton] at hq
    rw [hq]; exact h0
  | cons g rest ih =>
    intro hG lit0 h0 q hq
    obtain ⟨opts, lit⟩ := g
    obtain ⟨_, ho, hlit⟩ := hG (opts, lit) (List.mem_cons_self _ _)
    simp only [crossProduct, List.mem_flatMap] at hq
    obtain ⟨o, ho', hq⟩ := hq
    refine ih (fun g hg => hG g (List.mem_cons_of_mem _ hg)) _ ?_ q hq
    simp only [String.data_append, List.mem_append, not_or]
    exact ⟨⟨h0, (ho o ho').1⟩, hlit⟩

/-- C27.  Brace expansion is a cross product: for a pattern made of the text `lit0`
followed by `k >= 0` brace groups, each with its comma-separated options and the text
after it (no text with an opening brace, no group without an option, no option with a
brace or a comma), `expandQueries` returns, and returns the pattern with every
combination of one option per group substituted, the leftmost group varying slowest;
these are as many strings as the product of the numbers of options; none of them has
an opening brace left, so none has a `{` followed by a `}`; and every query without
such a pair is returned unchanged as the single element. -/
theorem expandQueries_crossProduct (lit0 : String) (groups : List (List String × String))
    (h : bracePatternOk lit0 groups) :
    expandQueries (renderPattern lit0 groups) = some (crossProduct lit0 groups)
      ∧ (crossProduct lit0 groups).length = (groups.map (fun g => g.1.length)).prod
      ∧ (∀ q ∈ crossProduct lit0 groups, '{' ∉ q.data ∧ (expandOne q).2 = false)
      ∧ (∀ q, (expandOne q).2 = false → expandQueries q = some [q]) := by
  obtain ⟨h0, hG⟩ := h
  refine ⟨?_, crossProduct_length groups lit0, ?_, expandQueries_fixed⟩
  · have := expandLoop_render groups hG [lit0] ((renderPattern lit0 groups).length + 1)
      (by simp) (fun p hp => by rw [List.mem_singleton.mp hp]; exact h0)
      (by
        have := renderTail_length groups
        simp only [renderPattern, String.length_append]
        omega)
    simpa [expandQueries, renderPattern] using this
  · intro q hq
    have hplain := crossProduct_plain groups hG lit0 h0 q hq
    exact ⟨hplain, by rw [expandOne_plain q hplain]⟩

/-- C27, witness: the pattern `a.{dc1,dc2}.{x,y,z}` with two groups, of two and of three
options. -/
theorem expandQueries_crossProduct_witness :
    bracePatternOk "a." [(["dc1", "dc2"], "."), (["x", "y", "z"], "")]
      ∧ renderPattern "a." [(["dc1", "dc2"], "."), (["x", "y", "z"], "")]
          = "a.\x7bdc1,dc2\x7d.\x7bx,y,z\x7d"
      ∧ crossProduct "a." [(["dc1", "dc2"], "."), (["x", "y", "z"], "")]
          = ["a.dc1.x", "a.dc1.y", "a.dc1.z", "a.dc2.x", "a.dc2.y", "a.dc2.z"]
      ∧ (expandQueries (renderPattern "a." [(["dc1", "dc2"], "."), (["x", "y", "z"], "")])
          = some (crossProduct "a." [(["dc1", "dc2"], "."), (["x", "y", "z"], "")])
        ∧ (crossProduct "a." [(["dc1", "dc2"], "."), (["x", "y", "z"], "")]).length
          = (([(["dc1", "dc2"], "."), (["x", "y", "z"], "")] :
              List (List String × String)).map (fun g => g.1.length)).prod
        ∧ (∀ q ∈ crossProduct "a." [(["dc1", "dc2"], "."), (["x", "y", "z"], "")],
            '{' ∉ q.data ∧ (expandOne q).2 = false)
        ∧ (∀ q, (expandOne q).2 = false → expandQueries q = some [q])) :=
  ⟨by decide, by decide, by decide,
    expandQueries_crossProduct "a." [(["dc1", "dc2"], "."), (["x", "y", "z"], "")]
      (by decide)⟩

end Memory

/-! ## The memory index: runs that break the tree -/

namespace Memory

/-- C29, the failing input.  The index holds the single leaf `x` of org 1.
`Delete(1, "x")` removes the leaf and then, its loop over the branches running down to
`i = 0`, the root, whose only child was `x`: the tree of org 1 still exists and has no
node under `""`.  `Find(1, "*")` starts at `tree.Items[""]`, a nil pointer, and panics
when it reads its `Leaf` field; `Add` of the new name `y` for org 1 takes the same nil
pointer as its start node and panics as well. -/
theorem root_missing_after_delete :
    run [.add ⟨"X", 1, "x", 10, 0⟩]
        = .ok ⟨[("X", ⟨"X", 1, "x", 10, 0⟩)],
            [((1 : Int), ⟨[("x", ⟨"x", ["X"], true⟩), ("", ⟨"", ["x"], false⟩)]⟩)]⟩
      ∧ Delete noRegexp 1 (built [.add ⟨"X", 1, "x", 10, 0⟩]) 1 "x"
        = .ok (⟨[], [((1 : Int), ⟨[]⟩)]⟩, false)
      ∧ (AMap.get? (⟨[], [((1 : Int), ⟨[]⟩)]⟩ : MemoryIdx).Tree 1).map
          (fun t => AMap.get? t.Items "") = some none
      ∧ find simpleRegexp ⟨[], [((1 : Int), ⟨[]⟩)]⟩ 1 "*" = .error .nilDeref
      ∧ Find simpleRegexp ⟨[], [((1 : Int), ⟨[]⟩)]⟩ 1 "*" = .error .nilDeref
      ∧ Add ⟨[], [((1 : Int), ⟨[]⟩)]⟩ ⟨"Y", 1, "y", 10, 0⟩ = .error .nilDeref := by
  decide

/-- C30, the failing input.  `Add` of the name `.x` for org 1 splits it into the
segments `""` and `x`; the walk over the prefixes takes the prefix `""` for the root,
appends `x` to the children of the root and stores the leaf under `.x`.  The root now
lists the child `x`, and the tree has no node `x`: `find(1, "*")` collects the nil
pointer `tree.Items["x"]`, and `Find(1, "*")` panics on it.  A following `Add` of the
name `x` appends `x` to the children of the root a second time. -/
theorem leading_dot_child_missing :
    Split ".x" '.' = ["", "x"]
      ∧ run [.add ⟨"1", 1, ".x", 10, 0⟩]
        = .ok ⟨[("1", ⟨"1", 1, ".x", 10, 0⟩)],
            [((1 : Int), ⟨[(".x", ⟨".x", ["1"], true⟩), ("", ⟨"", ["x"], false⟩)]⟩)]⟩
      ∧ AMap.get? ([(".x", ⟨".x", ["1"], true⟩), ("", ⟨"", ["x"], false⟩)] : AMap String Node)
          "x" = none
      ∧ find simpleRegexp (built [.add ⟨"1", 1, ".x", 10, 0⟩]) 1 "*" = .ok [none]
      ∧ Find simpleRegexp (built [.add ⟨"1", 1, ".x", 10, 0⟩]) 1 "*" = .error .nilDeref
      ∧ run [.add ⟨"1", 1, ".x", 10, 0⟩, .add ⟨"2", 1, "x", 10, 0⟩]
        = .ok ⟨[("2", ⟨"2", 1, "x", 10, 0⟩), ("1", ⟨"1", 1, ".x", 10, 0⟩)],
            [((1 : Int), ⟨[("x", ⟨"x", ["2"], true⟩), (".x", ⟨".x", ["1"], true⟩),
              ("", ⟨"", ["x", "x"], false⟩)]⟩)]⟩ := by
  decide

/-- C10, the failing input.  The public org -1 holds the single leaf `x` and org 2 the
leaf `a`.  `Delete(-1, "x")` removes the leaf and, its loop over the branches running
down to `i = 0`, the root of the public tree, which stays in `m.Tree` without any node.
`find(2, "*")` then matches the leaf `a` in the tree of org 2, but the second call of
`Find(2, "*")`, `find(-1, "*")`, starts at the nil pointer `tree.Items[""]` of the
public tree and panics: `Find` returns no node list, where the union of the matched
paths is the one path `a`. -/
theorem find_public_root_missing :
    run [.add ⟨"X", -1, "x", 10, 0⟩, .add ⟨"Y", 2, "a", 10, 0⟩]
        = .ok ⟨[("Y", ⟨"Y", 2, "a", 10, 0⟩), ("X", ⟨"X", -1, "x", 10, 0⟩)],
            [((2 : Int), ⟨[("a", ⟨"a", ["Y"], true⟩), ("", ⟨"", ["a"], false⟩)]⟩),
              ((-1 : Int), ⟨[("x", ⟨"x", ["X"], true⟩), ("", ⟨"", ["x"], false⟩)]⟩)]⟩
      ∧ Delete simpleRegexp 1 (built [.add ⟨"X", -1, "x", 10, 0⟩, .add ⟨"Y", 2, "a", 10, 0⟩])
          (-1) "x"
        = .ok (⟨[("Y", ⟨"Y", 2, "a", 10, 0⟩)],
            [((2 : Int), ⟨[("a", ⟨"a", ["Y"], true⟩), ("", ⟨"", ["a"], false⟩)]⟩),
              ((-1 : Int), ⟨[]⟩)]⟩, false)
      ∧ find simpleRegexp ⟨[("Y", ⟨"Y", 2, "a", 10, 0⟩)],
            [((2 : Int), ⟨[("a", ⟨"a", ["Y"], true⟩), ("", ⟨"", ["a"], false⟩)]⟩),
              ((-1 : Int), ⟨[]⟩)]⟩ 2 "*"
        = .ok [some ⟨"a", ["Y"], true⟩]
      ∧ find simpleRegexp ⟨[("Y", ⟨"Y", 2, "a", 10, 0⟩)],
            [((2 : Int), ⟨[("a", ⟨"a", ["Y"], true⟩), ("", ⟨"", ["a"], false⟩)]⟩),
              ((-1 : Int), ⟨[]⟩)]⟩ (-1) "*"
        = .error .nilDeref
      ∧ Find simpleRegexp ⟨[("Y", ⟨"Y", 2, "a", 10, 0⟩)],
            [((2 : Int), ⟨[("a", ⟨"a", ["Y"], true⟩), ("", ⟨"", ["a"], false⟩)]⟩),
              ((-1 : Int), ⟨[]⟩)]⟩ 2 "*"
        = .error .nilDeref := by
  decide

end Memory
